import Mathlib

/-!
# Smart Loader, Simple Scheduler and Thread Pool

A shallow embedding of `Smart_Loader` (replacement_algos.h, swap_manager.c, smartLoader.c,
launch.c) in the namespace `SmartLoader`, of `Smart_Shell_Scheduler/src/simpleScheduler.c`
in the namespace `SimpleScheduler`, and of the job queue of `Thread_Pool_API/src/thread_pool.c`
in the namespace `ThreadPool`.

Conventions of the embedding.

* A pointer `void *` is the natural number of its address; `NULL` is `0`.
* A routine that can end the process returns `Except (Halt × σ) σ`: the error side is the
  process exit, `Halt.exit n` for `exit(n)` / `_exit(n)`, together with the state at that
  moment. `Halt.fuel` is the only other error; it is raised by a loop of the model that was
  given too few iterations, and is proved unreachable.
* The signed counters (`long`, `int`) are integers of `Int`: the model describes the runs
  in which no signed counter overflows. Where an argument is converted to `int` and
  multiplied (`init_swap_system`, the offset of a swap slot), the value is reduced to the
  32 bits of an `int` (`wrap_int`).
* Arithmetic on `unsigned long` that can wrap is written with an explicit `% 2 ^ w`, where
  `w` is the width in bits of `unsigned long` (32 for the ILP32 build that can run an
  Elf32 image in its own address space, 64 on LP64). The fields of an `Elf32_Phdr` are
  32-bit words, so converting one to `unsigned long` keeps its value.
* `malloc` is taken to succeed, as the source does for list nodes. Seeking a regular file to
  an offset that is not negative succeeds, and so does writing a readable buffer to it.
* In the scheduler a queue is the list of its nodes, head first, and what the host answers
  to a probe, a signal or a read is an argument of the model. In the thread pool the jobs
  live in a heap and a pointer to a job is `some` address, `none` for `NULL`.
-/

namespace SmartLoader

/-- Ways in which a computation of the model stops without returning. -/
inductive Halt where
  | exit (status : Nat)
  | fuel
  deriving DecidableEq, Repr

/-- The constant `PAGE_SIZE_IN_BYTES` of loader.h. -/
def PAGE_SIZE_IN_BYTES : Nat := 4096

/-! ## The eviction hook seen from a replacement policy -/

/-- The two routines a policy calls on a victim, over the state `σ` they act on:
`handle_page_eviction_to_swap(addr)`, which may exit, and `munmap(addr, PAGE_SIZE_IN_BYTES)`.
The loader instantiates `σ` with the swap store and the guest memory. -/
structure EvictionHook (σ : Type) where
  handle_page_eviction_to_swap : Nat → σ → Except (Halt × σ) σ
  munmap : Nat → σ → σ

/-- The body shared by `free_page_fifo` and `free_page_random`:
`if (address) { handle_page_eviction_to_swap(address); munmap(address, PAGE_SIZE_IN_BYTES); }`. -/
def offer_and_unmap {σ : Type} (env : EvictionHook σ) (address : Nat) (s : σ) :
    Except (Halt × σ) σ :=
  if address ≠ 0 then
    match env.handle_page_eviction_to_swap address s with
    | .ok s1 => .ok (env.munmap address s1)
    | .error e => .error e
  else .ok s

/-! ## FIFO replacement policy -/

/-- The struct `FIFOQueue`. The singly linked list from `Head` to `Tail` is the list `pages`
of the node addresses, head first: `Head == NULL` is `pages = []`, and `Tail` is the last
node (it is `NULL` exactly when `Head` is, which `init_fifo`, `evict_page_fifo` and
`add_page_fifo` all keep). -/
structure FIFOQueue where
  pages : List Nat
  num_of_pages : Int
  max_pages : Int
  deriving DecidableEq, Repr

/-- The globals `FIFO_QUEUE` and `PAGE_EVICTIONS_FIFO`. -/
structure FIFOState where
  FIFO_QUEUE : FIFOQueue
  PAGE_EVICTIONS_FIFO : Int
  deriving DecidableEq, Repr

/-- The function `free_page_fifo(page)`; freeing the node has no effect on the model. -/
def free_page_fifo {σ : Type} (env : EvictionHook σ) (address : Nat) (s : σ) :
    Except (Halt × σ) σ :=
  offer_and_unmap env address s

/-- The function `evict_page_fifo()`. When `free_page_fifo` exits, `Head` has already moved
on and the two counters have not been updated yet. -/
def evict_page_fifo {σ : Type} (env : EvictionHook σ) (st : FIFOState × σ) :
    Except (Halt × (FIFOState × σ)) (FIFOState × σ) :=
  match st.1.FIFO_QUEUE.pages with
  | [] => .error (.exit 1, st)
  | temp :: rest =>
    if st.1.FIFO_QUEUE.num_of_pages = 0 then .error (.exit 1, st)
    else
      match free_page_fifo env temp st.2 with
      | .error e =>
        .error (e.1, ({ st.1 with FIFO_QUEUE := { st.1.FIFO_QUEUE with pages := rest } }, e.2))
      | .ok s1 =>
        .ok ({ FIFO_QUEUE := { st.1.FIFO_QUEUE with
                                pages := rest
                                num_of_pages := st.1.FIFO_QUEUE.num_of_pages - 1 }
               PAGE_EVICTIONS_FIFO := st.1.PAGE_EVICTIONS_FIFO + 1 }, s1)

/-- The function `init_fifo(max_pages)`. -/
def init_fifo (max_pages : Int) : FIFOState :=
  { FIFO_QUEUE := { pages := [], num_of_pages := 0, max_pages := max_pages }
    PAGE_EVICTIONS_FIFO := 0 }

/-- The function `page_evictions_fifo()`. -/
def page_evictions_fifo (st : FIFOState) : Int := st.PAGE_EVICTIONS_FIFO

/-- The loop `while (num_of_pages >= max_pages) evict_page_fifo();` run for at most `n`
iterations. -/
def add_page_fifo_evict {σ : Type} (env : EvictionHook σ) :
    Nat → FIFOState × σ → Except (Halt × (FIFOState × σ)) (FIFOState × σ)
  | 0, st =>
    if st.1.FIFO_QUEUE.num_of_pages ≥ st.1.FIFO_QUEUE.max_pages then .error (.fuel, st)
    else .ok st
  | n + 1, st =>
    if st.1.FIFO_QUEUE.num_of_pages ≥ st.1.FIFO_QUEUE.max_pages then
      match evict_page_fifo env st with
      | .error e => .error e
      | .ok st1 => add_page_fifo_evict env n st1
    else .ok st

/-- The function `add_page_fifo(page_start_addr)`. Every iteration of the eviction loop
removes a node or exits, so one more iteration than there are nodes is enough. -/
def add_page_fifo {σ : Type} (env : EvictionHook σ) (page_start_addr : Nat)
    (st : FIFOState × σ) : Except (Halt × (FIFOState × σ)) (FIFOState × σ) :=
  match add_page_fifo_evict env (st.1.FIFO_QUEUE.pages.length + 1) st with
  | .error e => .error e
  | .ok st1 =>
    .ok ({ st1.1 with
            FIFO_QUEUE := { st1.1.FIFO_QUEUE with
                            pages := st1.1.FIFO_QUEUE.pages ++ [page_start_addr]
                            num_of_pages := st1.1.FIFO_QUEUE.num_of_pages + 1 } }, st1.2)

/-- A sequence of `add_page_fifo` calls, first address first. -/
def fifo_adds {σ : Type} (env : EvictionHook σ) :
    List Nat → FIFOState × σ → Except (Halt × (FIFOState × σ)) (FIFOState × σ)
  | [], st => .ok st
  | a :: rest, st =>
    match add_page_fifo env a st with
    | .error e => .error e
    | .ok st1 => fifo_adds env rest st1

/-! ## Random replacement policy -/

/-- The struct `RandomArray`; `adresses` is the array of `max_pages` slots. -/
structure RandomArray where
  adresses : List Nat
  max_pages : Int
  alloc_idx : Int
  deriving DecidableEq, Repr

/-- The globals `PAGES` and `PAGE_EVICTIONS_RANDOM`. -/
structure RandomState where
  PAGES : RandomArray
  PAGE_EVICTIONS_RANDOM : Int
  deriving DecidableEq, Repr

/-- The function `free_page_random(idx)`. -/
def free_page_random {σ : Type} (env : EvictionHook σ) (idx : Int) (st : RandomState × σ) :
    Except (Halt × (RandomState × σ)) (RandomState × σ) :=
  match offer_and_unmap env (st.1.PAGES.adresses.getD idx.toNat 0) st.2 with
  | .error e => .error (e.1, (st.1, e.2))
  | .ok s1 =>
    .ok ({ st.1 with PAGES := { st.1.PAGES with
                                 adresses := st.1.PAGES.adresses.set idx.toNat 0 } }, s1)

/-- The function `init_random(max_pages)`; the array gets `(int)max_pages` slots, which is
`max_pages` for every value that fits an `int`. -/
def init_random (max_pages : Int) : RandomState :=
  { PAGES := { adresses := List.replicate max_pages.toNat 0
               max_pages := max_pages
               alloc_idx := 0 }
    PAGE_EVICTIONS_RANDOM := 0 }

/-- The function `page_evictions_random()`. -/
def page_evictions_random (st : RandomState) : Int := st.PAGE_EVICTIONS_RANDOM

/-- The function `add_page_random(page_start_addr)`; `rnd` is the value that `rand()`
returns if it is called (a number from 0 to `RAND_MAX`), and `%` of C truncates. -/
def add_page_random {σ : Type} (env : EvictionHook σ) (page_start_addr : Nat) (rnd : Nat)
    (st : RandomState × σ) : Except (Halt × (RandomState × σ)) (RandomState × σ) :=
  if st.1.PAGES.alloc_idx = st.1.PAGES.max_pages then
    let idx_to_operate : Int := Int.tmod (rnd : Int) st.1.PAGES.max_pages
    match free_page_random env idx_to_operate st with
    | .error e => .error e
    | .ok st1 =>
      .ok ({ PAGES := { st1.1.PAGES with
                         adresses := st1.1.PAGES.adresses.set idx_to_operate.toNat page_start_addr }
             PAGE_EVICTIONS_RANDOM := st1.1.PAGE_EVICTIONS_RANDOM + 1 }, st1.2)
  else
    .ok ({ st.1 with PAGES := { st.1.PAGES with
                                 adresses := st.1.PAGES.adresses.set st.1.PAGES.alloc_idx.toNat
                                               page_start_addr
                                 alloc_idx := st.1.PAGES.alloc_idx + 1 } }, st.2)

/-- A sequence of `add_page_random` calls, each with the address and the value of `rand()`. -/
def random_adds {σ : Type} (env : EvictionHook σ) :
    List (Nat × Nat) → RandomState × σ → Except (Halt × (RandomState × σ)) (RandomState × σ)
  | [], st => .ok st
  | a :: rest, st =>
    match add_page_random env a.1 a.2 st with
    | .error e => .error e
    | .ok st1 => random_adds env rest st1

/-- The resident addresses of the Random policy, as `calculate_internal_fragmentation`
walks them: the slots that are not `NULL`. -/
def random_residents (st : RandomState) : List Nat :=
  st.PAGES.adresses.filter (fun a => a ≠ 0)

/-- A hook that never exits and does nothing, to run a policy on its own. -/
def idleHook : EvictionHook Unit :=
  { handle_page_eviction_to_swap := fun _ s => .ok s
    munmap := fun _ s => s }

/-! ## Program headers and segment lookup (smartLoader.c) -/

/-- The struct `Elf32_Phdr` of elf.h; every field is a 32-bit word. -/
structure Elf32_Phdr where
  p_type : Nat
  p_offset : Nat
  p_vaddr : Nat
  p_paddr : Nat
  p_filesz : Nat
  p_memsz : Nat
  p_flags : Nat
  p_align : Nat
  deriving DecidableEq, Repr, Inhabited

/-- The flag `PF_W` of elf.h. -/
def PF_W : Nat := 2

/-- The type `PT_LOAD` of elf.h. -/
def PT_LOAD : Nat := 1

/-- The second loop of `initialise_global_data_structures` over the program header table,
whose reads are taken to succeed: the headers of type `PT_LOAD` are copied, one after the
other, to `PHDRS_OF_SEGMENTS_TO_LOAD`. -/
def collect_load_headers : List Elf32_Phdr → List Elf32_Phdr
  | [] => []
  | PHDR :: rest =>
    if PHDR.p_type = PT_LOAD then PHDR :: collect_load_headers rest
    else collect_load_headers rest

/-- Sum of two `unsigned long` values of `w` bits. -/
def ulong_add (w a b : Nat) : Nat := (a + b) % 2 ^ w

/-- Difference of two `unsigned long` values of `w` bits. -/
def ulong_sub (w a b : Nat) : Nat := (((a : Int) - (b : Int)) % (2 : Int) ^ w).toNat

/-- The loop of `find_segment_of_fault` from index `i` on, over the headers not yet seen. -/
def find_segment_of_fault_from (w fa : Nat) : List Elf32_Phdr → Int → Int
  | [], _ => -1
  | seg :: rest, i =>
    let seg_start := seg.p_vaddr
    let seg_end := ulong_add w seg_start seg.p_memsz
    if seg_start ≤ fa ∧ fa < seg_end then i
    else find_segment_of_fault_from w fa rest (i + 1)

/-- The function `find_segment_of_fault(fault_addr)` over the global array
`PHDRS_OF_SEGMENTS_TO_LOAD` of `NUMBER_OF_SEGMENTS_TO_LOAD` headers. -/
def find_segment_of_fault (w : Nat) (PHDRS_OF_SEGMENTS_TO_LOAD : List Elf32_Phdr)
    (fault_addr : Nat) : Int :=
  find_segment_of_fault_from w fault_addr PHDRS_OF_SEGMENTS_TO_LOAD 0

/-! ## Guest memory and files -/

/-- The address space of the guest, byte by byte: whether the byte is mapped, and its
value. -/
structure Memory where
  mapped : Nat → Bool
  byte : Nat → Nat

/-- A successful `mmap(addr, PAGE_SIZE_IN_BYTES, RWX, MAP_ANONYMOUS | MAP_PRIVATE | MAP_FIXED)`:
the range is mapped afresh and reads as zero. -/
def Memory.mmap_fixed (m : Memory) (addr : Nat) : Memory :=
  { mapped := fun a => if addr ≤ a ∧ a < addr + PAGE_SIZE_IN_BYTES then true else m.mapped a
    byte := fun a => if addr ≤ a ∧ a < addr + PAGE_SIZE_IN_BYTES then 0 else m.byte a }

/-- The call `munmap(addr, PAGE_SIZE_IN_BYTES)`, whose result the source ignores: it fails
with no effect when `addr` is not a multiple of the page size. -/
def Memory.munmap (m : Memory) (addr : Nat) : Memory :=
  if addr % PAGE_SIZE_IN_BYTES = 0 then
    { mapped := fun a => if addr ≤ a ∧ a < addr + PAGE_SIZE_IN_BYTES then false else m.mapped a
      byte := m.byte }
  else m

/-- Whether the `n` bytes from `addr` are all mapped. -/
def Memory.accessible (m : Memory) (addr n : Nat) : Bool :=
  (List.range n).all (fun i => m.mapped (addr + i))

/-- The `n` bytes from `addr`. -/
def Memory.load (m : Memory) (addr n : Nat) : List Nat :=
  (List.range n).map (fun i => m.byte (addr + i))

/-- The memory after `data` is copied to `addr`. -/
def Memory.store (m : Memory) (addr : Nat) (data : List Nat) : Memory :=
  { mapped := m.mapped
    byte := fun a => if addr ≤ a ∧ a < addr + data.length then data.getD (a - addr) 0
                     else m.byte a }

/-- What `lseek(fd, off, SEEK_SET)` then `read(fd, buf, n)` reads from a regular file with
the bytes `file`: the bytes present from `off`, at most `n`. -/
def file_pread (file : List Nat) (off n : Nat) : List Nat := (file.drop off).take n

/-- The bytes of a regular file after `lseek(fd, off, SEEK_SET)` then a complete
`write(fd, data, data.length)`; a gap past the old end reads as zero. -/
def file_pwrite (file : List Nat) (off : Nat) (data : List Nat) : List Nat :=
  (file ++ List.replicate (off - file.length) 0).take off ++ data
    ++ file.drop (off + data.length)

/-! ## Swap store (swap_manager.c) -/

/-- The constant `MIN_SWAP_ENTRIES`. -/
def MIN_SWAP_ENTRIES : Int := 1024

/-- The constant `MAX_ENTRY_MULTIPLIER`. -/
def MAX_ENTRY_MULTIPLIER : Int := 5

/-- The struct `SwapEntry` of swap_manager.h. -/
structure SwapEntry where
  vaddr : Nat
  swap_offset : Int
  is_active : Int
  deriving DecidableEq, Repr, Inhabited

/-- The statics of swap_manager.c: `SWAP_TABLE`, an array of `MAX_SWAP_ENTRIES` entries
(the length of the list), and the bytes of the file `swap.img` behind `SWAP_FD`. -/
structure SwapStore where
  SWAP_TABLE : List SwapEntry
  swap_img : List Nat
  deriving DecidableEq, Repr

/-- What the eviction hook acts on: the swap store and the memory of the process. -/
structure World where
  swap : SwapStore
  mem : Memory

/-- The value that a 32-bit `int` holds after the integer `x` is stored in it (two's
complement): the one number from `-2^31` to `2^31 - 1` that differs from `x` by a multiple
of `2^32`. -/
def wrap_int (x : Int) : Int := (x + 2147483648) % 4294967296 - 2147483648

/-- The function `init_swap_system(max_pages)`: a zeroed table of `MAX_SWAP_ENTRIES` entries,
where `MAX_SWAP_ENTRIES = (int)max_pages * MAX_ENTRY_MULTIPLIER` is an `int` raised to
`MIN_SWAP_ENTRIES` when it is smaller, and a truncated file. The `calloc` and the `open`
are taken to succeed. -/
def init_swap_system (max_pages : Int) : SwapStore :=
  let n : Int := wrap_int (wrap_int max_pages * MAX_ENTRY_MULTIPLIER)
  let MAX_SWAP_ENTRIES : Int := if n < MIN_SWAP_ENTRIES then MIN_SWAP_ENTRIES else n
  { SWAP_TABLE := List.replicate MAX_SWAP_ENTRIES.toNat
      { vaddr := 0, swap_offset := 0, is_active := 0 }
    swap_img := [] }

/-- The slot search of `handle_page_eviction_to_swap`: the loop from index `i` on over the
entries not yet seen, with the current value of `slot`. -/
def find_swap_slot (page_addr : Nat) : List SwapEntry → Int → Int → Int
  | [], _, slot => slot
  | e :: rest, i, slot =>
    if e.is_active ≠ 0 ∧ e.vaddr = page_addr then i
    else if e.is_active = 0 ∧ slot = -1 then find_swap_slot page_addr rest (i + 1) i
    else find_swap_slot page_addr rest (i + 1) slot

/-- The function `handle_page_eviction_to_swap(page_addr)`. The `write` is complete when the
page is mapped and fails, with nothing written, when it is not. -/
def handle_page_eviction_to_swap (w : Nat) (PHDRS_OF_SEGMENTS_TO_LOAD : List Elf32_Phdr)
    (page_addr : Nat) (st : World) : Except (Halt × World) World :=
  let seg_idx := find_segment_of_fault w PHDRS_OF_SEGMENTS_TO_LOAD page_addr
  if seg_idx ≠ -1 ∧
      Nat.land (PHDRS_OF_SEGMENTS_TO_LOAD.getD seg_idx.toNat default).p_flags PF_W = 0 then
    .ok st
  else
    let slot := find_swap_slot page_addr st.swap.SWAP_TABLE 0 (-1)
    if slot = -1 then .error (.exit 1, st)
    else
      let offset : Int := wrap_int (slot * (PAGE_SIZE_IN_BYTES : Int))
      if offset < 0 then .error (.exit 1, st)
      else if ¬ st.mem.accessible page_addr PAGE_SIZE_IN_BYTES then .error (.exit 1, st)
      else
        .ok { st with
              swap := { SWAP_TABLE := st.swap.SWAP_TABLE.set slot.toNat
                          { vaddr := page_addr, swap_offset := offset, is_active := 1 }
                        swap_img := file_pwrite st.swap.swap_img offset.toNat
                          (st.mem.load page_addr PAGE_SIZE_IN_BYTES) } }

/-- The loop of `load_from_swap_if_exists` over the entries not yet seen. A `read` into a
buffer that is not mapped fails; a short `read` has copied what the file holds. -/
def load_from_swap_scan (page_addr : Nat) (st : World) :
    List SwapEntry → Except (Halt × World) (Int × World)
  | [] => .ok (0, st)
  | e :: rest =>
    if e.is_active ≠ 0 ∧ e.vaddr = page_addr then
      if e.swap_offset < 0 then .ok (0, st)
      else if ¬ st.mem.accessible page_addr PAGE_SIZE_IN_BYTES then .error (.exit 1, st)
      else
        let data := file_pread st.swap.swap_img e.swap_offset.toNat PAGE_SIZE_IN_BYTES
        if data.length ≠ PAGE_SIZE_IN_BYTES then
          .error (.exit 1, { st with mem := st.mem.store page_addr data })
        else .ok (1, { st with mem := st.mem.store page_addr data })
    else load_from_swap_scan page_addr st rest

/-- The function `load_from_swap_if_exists(page_addr)`. -/
def load_from_swap_if_exists (page_addr : Nat) (st : World) :
    Except (Halt × World) (Int × World) :=
  load_from_swap_scan page_addr st st.swap.SWAP_TABLE

/-- The hook of the loader: the swap store and `munmap` on the memory of the process. -/
def swapHook (w : Nat) (PHDRS_OF_SEGMENTS_TO_LOAD : List Elf32_Phdr) : EvictionHook World :=
  { handle_page_eviction_to_swap := handle_page_eviction_to_swap w PHDRS_OF_SEGMENTS_TO_LOAD
    munmap := fun addr st => { st with mem := st.mem.munmap addr } }

/-- A sequence of `handle_page_eviction_to_swap` calls; each comes with the memory of the
process at the time of the call, which the guest and the loader change in between. -/
def swap_evictions (w : Nat) (PHDRS_OF_SEGMENTS_TO_LOAD : List Elf32_Phdr) :
    List (Nat × Memory) → World → Except (Halt × World) World
  | [], st => .ok st
  | x :: rest, st =>
    match handle_page_eviction_to_swap w PHDRS_OF_SEGMENTS_TO_LOAD x.1 { st with mem := x.2 } with
    | .error e => .error e
    | .ok st1 => swap_evictions w PHDRS_OF_SEGMENTS_TO_LOAD rest st1

/-! ## Fault handler (smartLoader.c) -/

/-- The policy whose routines the pointers `ADD_PAGE`, `INIT_REPLACEMENT_ALGO`,
`CLEANUP_REPLACEMENT` and `GET_NUMBER_OF_PAGE_EVICTIONS` refer to. -/
inductive ReplacementOps where
  | fifo
  | random
  deriving DecidableEq, Repr

/-- What is fixed once `initialise_global_data_structures` has run: the width of
`unsigned long`, the array `PHDRS_OF_SEGMENTS_TO_LOAD`, the bytes of the ELF file behind
`FD`, and, for each address, whether the host grants a fixed mapping there. -/
structure LoaderEnv where
  ulong_bits : Nat
  PHDRS_OF_SEGMENTS_TO_LOAD : List Elf32_Phdr
  elf_file : List Nat
  mmap_ok : Nat → Bool

/-- The mutable globals of the loader, with the state of both policies and the world. -/
structure LoaderState where
  PAGE_FAULTS : Int
  PAGE_ALLOCATIONS : Int
  PAGES_ALLOCED_TO_SEGMENT : List Int
  MODE : Int
  ADD_PAGE : ReplacementOps
  fifo : FIFOState
  random : RandomState
  world : World

/-- The page-aligned start of the faulting page,
`(fa / PAGE_SIZE_IN_BYTES) * PAGE_SIZE_IN_BYTES`; it cannot exceed `fa`. -/
def page_start_of (fa : Nat) : Nat := (fa / PAGE_SIZE_IN_BYTES) * PAGE_SIZE_IN_BYTES

/-- The part of `allocate_page` that maps the page at `page_start` and fills it: from the
swap store, else from the ELF file with a zeroed tail, else with zeros. The seek in the ELF
file is taken to succeed, and the `read` copies the bytes the file holds, at most
`bytes_to_read`, into the page that was just mapped. -/
def allocate_page_fill (env : LoaderEnv) (segment : Elf32_Phdr) (page_start : Nat)
    (world : World) : Except (Halt × World) World :=
  let page_offset_in_segment := ulong_sub env.ulong_bits page_start segment.p_vaddr
  let file_offset := ulong_add env.ulong_bits segment.p_offset page_offset_in_segment
  if ¬ env.mmap_ok page_start then .error (.exit 1, world)
  else
    let world1 : World := { world with mem := world.mem.mmap_fixed page_start }
    match load_from_swap_if_exists page_start world1 with
    | .error e => .error e
    | .ok (found, world2) =>
      if found ≠ 0 then .ok world2
      else if page_offset_in_segment < segment.p_filesz then
        let bytes_to_read :=
          if ulong_add env.ulong_bits page_offset_in_segment PAGE_SIZE_IN_BYTES
              > segment.p_filesz then
            segment.p_filesz - page_offset_in_segment
          else PAGE_SIZE_IN_BYTES
        let mem3 := world2.mem.store page_start
          (file_pread env.elf_file file_offset bytes_to_read)
        let mem4 :=
          if bytes_to_read < PAGE_SIZE_IN_BYTES then
            mem3.store (page_start + bytes_to_read)
              (List.replicate (PAGE_SIZE_IN_BYTES - bytes_to_read) 0)
          else mem3
        .ok { world2 with mem := mem4 }
      else
        .ok { world2 with
              mem := world2.mem.store page_start (List.replicate PAGE_SIZE_IN_BYTES 0) }

/-- The end of `allocate_page`: count the page for its segment, call `ADD_PAGE(page_start)`
and count the allocation. -/
def allocate_page_charge (env : LoaderEnv) (idx_of_segment_having_fa : Int) (page_start : Nat)
    (rnd : Nat) (st : LoaderState) : Except (Halt × LoaderState) LoaderState :=
  let hook := swapHook env.ulong_bits env.PHDRS_OF_SEGMENTS_TO_LOAD
  let st1 : LoaderState :=
    { st with PAGES_ALLOCED_TO_SEGMENT :=
        (st.PAGES_ALLOCED_TO_SEGMENT.set idx_of_segment_having_fa.toNat
          (st.PAGES_ALLOCED_TO_SEGMENT.getD idx_of_segment_having_fa.toNat 0 + 1)) }
  match st1.ADD_PAGE with
  | .fifo =>
    match add_page_fifo hook page_start (st1.fifo, st1.world) with
    | .error e => .error (e.1, { st1 with fifo := e.2.fst, world := e.2.snd })
    | .ok r =>
      .ok { st1 with fifo := r.1, world := r.2, PAGE_ALLOCATIONS := st1.PAGE_ALLOCATIONS + 1 }
  | .random =>
    match add_page_random hook page_start rnd (st1.random, st1.world) with
    | .error e => .error (e.1, { st1 with random := e.2.fst, world := e.2.snd })
    | .ok r =>
      .ok { st1 with random := r.1, world := r.2, PAGE_ALLOCATIONS := st1.PAGE_ALLOCATIONS + 1 }

/-- The function `allocate_page(idx_of_segment_having_fa, fault_addr)`. The pointer
`segment` points into the array of headers and is not `NULL`. -/
def allocate_page (env : LoaderEnv) (idx_of_segment_having_fa : Int) (fault_addr : Nat)
    (rnd : Nat) (st : LoaderState) : Except (Halt × LoaderState) LoaderState :=
  let segment := env.PHDRS_OF_SEGMENTS_TO_LOAD.getD idx_of_segment_having_fa.toNat default
  if fault_addr = 0 then .error (.exit 1, st)
  else
    let page_start := page_start_of fault_addr
    match allocate_page_fill env segment page_start st.world with
    | .error e => .error (e.1, { st with world := e.2 })
    | .ok world1 =>
      allocate_page_charge env idx_of_segment_having_fa page_start rnd { st with world := world1 }

/-- The function `segfault_handler(sig, info, context)` for the fault address
`info->si_addr`; `rnd` is what `rand()` returns if the Random policy calls it. -/
def segfault_handler (env : LoaderEnv) (fault_addr : Nat) (rnd : Nat) (st : LoaderState) :
    Except (Halt × LoaderState) LoaderState :=
  let st1 : LoaderState := { st with PAGE_FAULTS := st.PAGE_FAULTS + 1 }
  let seg_idx := find_segment_of_fault env.ulong_bits env.PHDRS_OF_SEGMENTS_TO_LOAD fault_addr
  if seg_idx ≠ -1 then allocate_page env seg_idx fault_addr rnd st1
  else .error (.exit 1, st1)

/-! ## Replacement mode and statistics (smartLoader.c) -/

/-- The constant `FIFO_REPLACEMENT_MODE`. -/
def FIFO_REPLACEMENT_MODE : Int := 0

/-- The constant `RANDOM_REPLACEMENT_MODE`. -/
def RANDOM_REPLACEMENT_MODE : Int := 1

/-- The constant `UNDEFINED_REPLACEMENT_MODE`. -/
def UNDEFINED_REPLACEMENT_MODE : Int := -1

/-- The function `assign_replacement_mode(mode)`: the value given to `MODE` and the policy
whose routines the four pointers are set to. -/
def assign_replacement_mode (mode : String) : Int × ReplacementOps :=
  if mode = "RANDOM" then (RANDOM_REPLACEMENT_MODE, .random)
  else if mode = "FIFO" then (FIFO_REPLACEMENT_MODE, .fifo)
  else (UNDEFINED_REPLACEMENT_MODE, .fifo)

/-- The function `calculate_page_waste(page_addr)`, in `unsigned long` of `env.ulong_bits`
bits; the difference it converts to `long` is at most `PAGE_SIZE_IN_BYTES`. -/
def calculate_page_waste (env : LoaderEnv) (page_addr : Nat) : Int :=
  let p_start := page_addr
  let p_end := ulong_add env.ulong_bits p_start PAGE_SIZE_IN_BYTES
  let seg_idx := find_segment_of_fault env.ulong_bits env.PHDRS_OF_SEGMENTS_TO_LOAD page_addr
  if seg_idx = -1 then 0
  else
    let s_start := (env.PHDRS_OF_SEGMENTS_TO_LOAD.getD seg_idx.toNat default).p_vaddr
    let s_end := ulong_add env.ulong_bits s_start
      (env.PHDRS_OF_SEGMENTS_TO_LOAD.getD seg_idx.toNat default).p_memsz
    let intersect_start := if p_start > s_start then p_start else s_start
    let intersect_end := if p_end < s_end then p_end else s_end
    if intersect_start ≥ intersect_end then 0
    else
      let useful_bytes : Int := ((ulong_sub env.ulong_bits intersect_end intersect_start : Nat) : Int)
      (PAGE_SIZE_IN_BYTES : Int) - useful_bytes

/-- The function `calculate_internal_fragmentation()`: the value it leaves in
`TOTAL_INTERNAL_FRAGMENTATION`. The pointers `FIFO_QUEUE` and `PAGES` are not `NULL` once the
policy in use has been initialised. -/
def calculate_internal_fragmentation (env : LoaderEnv) (st : LoaderState) : Int :=
  if st.MODE = FIFO_REPLACEMENT_MODE then
    st.fifo.FIFO_QUEUE.pages.foldl (fun total address => total + calculate_page_waste env address) 0
  else if st.MODE = RANDOM_REPLACEMENT_MODE then
    st.random.PAGES.adresses.foldl
      (fun total address => if address ≠ 0 then total + calculate_page_waste env address
        else total) 0
  else 0

/-! ## Start of the loader (launch.c, smartLoader.c) -/

/-- A memory in which nothing is mapped. -/
def emptyMemory : Memory := { mapped := fun _ => false, byte := fun _ => 0 }

/-- The globals as `initialise_global_data_structures` leaves them for `nsegs` LOAD
segments and the limit `max_pages`, with the routines of `ops` behind the pointers, before
the first fault: no page of the guest is mapped yet. The policy that is not in use is given
its initial state too. -/
def loader_start (ops : ReplacementOps) (MODE : Int) (nsegs : Nat) (max_pages : Int) :
    LoaderState :=
  { PAGE_FAULTS := 0
    PAGE_ALLOCATIONS := 0
    PAGES_ALLOCED_TO_SEGMENT := List.replicate nsegs 0
    MODE := MODE
    ADD_PAGE := ops
    fifo := init_fifo max_pages
    random := init_random max_pages
    world := { swap := init_swap_system max_pages, mem := emptyMemory } }

/-- What the start of the loader takes from its host: the result of `atol` on a string, the
bytes of the file behind a path (`none` when `open` fails), and whether `lseek` to an offset
succeeds (it fails for an offset that `off_t` holds as a negative number). -/
structure HostEnv where
  atol : String → Int
  open_file : String → Option (List Nat)
  lseek_ok : Nat → Bool

/-- The fields of `Elf32_Ehdr` (elf.h) that the loader reads. -/
structure Elf32_Ehdr where
  e_ident : List Nat
  e_type : Nat
  e_entry : Nat
  e_phoff : Nat
  e_phentsize : Nat
  e_phnum : Nat
  deriving DecidableEq, Repr

/-- The little-endian number in the `n` bytes from `off`. -/
def le_bytes (bytes : List Nat) (off : Nat) : Nat → Nat
  | 0 => 0
  | n + 1 => bytes.getD off 0 + 256 * le_bytes bytes (off + 1) n

/-- The struct `Elf32_Ehdr` that a `read` of `sizeof(Elf32_Ehdr)` = 52 bytes leaves, on a
little-endian host. -/
def read_ehdr (bytes : List Nat) : Elf32_Ehdr :=
  { e_ident := bytes.take 16
    e_type := le_bytes bytes 16 2
    e_entry := le_bytes bytes 24 4
    e_phoff := le_bytes bytes 28 4
    e_phentsize := le_bytes bytes 42 2
    e_phnum := le_bytes bytes 44 2 }

/-- The struct `Elf32_Phdr` held in the 32 bytes of the buffer `PHDR`. -/
def read_phdr (bytes : List Nat) : Elf32_Phdr :=
  { p_type := le_bytes bytes 0 4
    p_offset := le_bytes bytes 4 4
    p_vaddr := le_bytes bytes 8 4
    p_paddr := le_bytes bytes 12 4
    p_filesz := le_bytes bytes 16 4
    p_memsz := le_bytes bytes 20 4
    p_flags := le_bytes bytes 24 4
    p_align := le_bytes bytes 28 4 }

/-- The function `isValidElf(ehdr)` of launch.c; `none` is `NULL`. The constants are
`ELFCLASS32` = 1, `ELFDATA2LSB` = 1 and `ET_EXEC` = 2, and `EI_CLASS` = 4, `EI_DATA` = 5. -/
def isValidElf (ehdr : Elf32_Ehdr) : Option String :=
  if ehdr.e_ident.getD 0 0 ≠ 127 ∨ ehdr.e_ident.getD 1 0 ≠ 69 ∨ ehdr.e_ident.getD 2 0 ≠ 76
      ∨ ehdr.e_ident.getD 3 0 ≠ 70 then
    some "Incorrect Magic numbers, not an elf"
  else if ehdr.e_ident.getD 4 0 ≠ 1 then some "Not a 32-bit elf"
  else if ehdr.e_ident.getD 5 0 ≠ 1 then some "Not an elf with LSB data orientation"
  else if ehdr.e_type ≠ 2 then some "Not an executable elf"
  else none

/-- One of the two loops of `initialise_global_data_structures` over the program header
table, from entry `i` on with `n` entries left: each step seeks to
`phoffset + i * phsize`, an `unsigned int`, reads `phsize` bytes into the buffer `PHDR`, and
exits with status 2 when either fails; the result is the list of the buffers read. A `read`
of fewer than 32 bytes leaves the rest of the buffer as it was; the model keeps the first 32
bytes of a longer one, which overruns the buffer. -/
def read_phdr_table (host : HostEnv) (file : List Nat) (phoffset phsize : Nat) :
    Nat → Nat → List Nat → Except Nat (List (List Nat))
  | 0, _, _ => .ok []
  | n + 1, i, PHDR =>
    let off := (phoffset + i * phsize) % 2 ^ 32
    if ¬ host.lseek_ok off then .error 2
    else
      let bytes := file_pread file off phsize
      if bytes.length ≠ phsize then .error 2
      else
        let PHDR1 := (bytes ++ PHDR.drop phsize).take 32
        match read_phdr_table host file phoffset phsize n (i + 1) PHDR1 with
        | .error e => .error e
        | .ok rest => .ok (PHDR1 :: rest)

/-- The function `initialise_global_data_structures(exe)` for the mode and routines that
`assign_replacement_mode` chose: the exit status, or the array
`PHDRS_OF_SEGMENTS_TO_LOAD` and the globals before the first fault. `PHDR0` is what the
buffer `PHDR` holds when it is allocated; the allocations are taken to succeed. The second
loop copies the headers of type `PT_LOAD`, as many as the first loop counted unless a short
entry size makes the two loops see different types; it copies `phsize` bytes of the buffer,
and for an entry size below 32 the model takes the remaining fields from the buffer too. -/
def initialise_global_data_structures (host : HostEnv) (PHDR0 : List Nat) (exe : List String)
    (MODE : Int) (ops : ReplacementOps) : Except Nat (List Elf32_Phdr × LoaderState) :=
  match host.open_file (exe.getD 1 "") with
  | none => .error 2
  | some file =>
    if (file_pread file 0 52).length ≠ 52 then .error 1
    else
      let EHDR := read_ehdr (file_pread file 0 52)
      match read_phdr_table host file EHDR.e_phoff EHDR.e_phentsize EHDR.e_phnum 0 PHDR0 with
      | .error e => .error e
      | .ok seen1 =>
        let NUMBER_OF_SEGMENTS_TO_LOAD :=
          ((seen1.map read_phdr).filter (fun ph => decide (ph.p_type = PT_LOAD))).length
        match read_phdr_table host file EHDR.e_phoff EHDR.e_phentsize EHDR.e_phnum 0
            (seen1.getLastD PHDR0) with
        | .error e => .error e
        | .ok seen2 =>
          let loads := collect_load_headers (seen2.map read_phdr)
          if loads.length ≠ NUMBER_OF_SEGMENTS_TO_LOAD then .error 2
          else
            let max_pages := host.atol (exe.getD 3 "")
            if max_pages ≤ 0 then .error 2
            else .ok (loads, loader_start ops MODE NUMBER_OF_SEGMENTS_TO_LOAD max_pages)

/-- The function `main(argc, argv)` of launch.c up to the call of the entry point of the
guest in `load_and_run_elf`: the exit status, or the array of `PT_LOAD` headers and the
globals with which the guest is started. -/
def main (host : HostEnv) (PHDR0 : List Nat) (argv : List String) :
    Except Nat (List Elf32_Phdr × LoaderState) :=
  if argv.length ≠ 4 then .error 1
  else
    match host.open_file (argv.getD 1 "") with
    | none => .error 1
    | some file =>
      if (file_pread file 0 52).length ≠ 52 then .error 1
      else if isValidElf (read_ehdr (file_pread file 0 52)) ≠ none then .error 1
      else
        let mode := assign_replacement_mode (argv.getD 2 "")
        initialise_global_data_structures host PHDR0 argv mode.1 mode.2

/-- One fault of a run of the guest: the copies `(address, bytes)` the guest has made into
its pages since the previous fault (they map and unmap nothing), the address of the fault
`info->si_addr`, and the value `rand()` returns if the Random policy calls it. -/
structure Fault where
  guest_stores : List (Nat × List Nat)
  fault_addr : Nat
  rnd : Nat

/-- The memory after the guest has made its copies, first one first. -/
def guest_run (stores : List (Nat × List Nat)) (m : Memory) : Memory :=
  stores.foldl (fun m1 x => m1.store x.1 x.2) m

/-- A run of the guest as the loader sees it: the handler invocations one after the other,
each on the memory the guest has left; the run ends at the first invocation that exits. -/
def fault_trace (env : LoaderEnv) : List Fault → LoaderState →
    Except (Halt × LoaderState) LoaderState
  | [], st => .ok st
  | f :: rest, st =>
    match segfault_handler env f.fault_addr f.rnd
        { st with world := { st.world with mem := guest_run f.guest_stores st.world.mem } } with
    | .error e => .error e
    | .ok st1 => fault_trace env rest st1

/-! ## Vocabulary of the statements -/

/-- The pages resident in the policy in use: the FIFO queue from the head on, or the slots
of the Random array that are not `NULL`. -/
def resident_pages (st : LoaderState) : List Nat :=
  match st.ADD_PAGE with
  | .fifo => st.fifo.FIFO_QUEUE.pages
  | .random => random_residents st.random

/-- Every mapped byte of the memory lies in the page that starts at one of `pages`. -/
def Memory.within (m : Memory) (pages : List Nat) : Prop :=
  ∀ a : Nat, m.mapped a = true → ∃ p ∈ pages, p ≤ a ∧ a < p + PAGE_SIZE_IN_BYTES

/-- At most `n` pages are mapped: `n` ranges of `PAGE_SIZE_IN_BYTES` bytes, or fewer, cover
every mapped byte. -/
def Memory.at_most_pages (m : Memory) (n : Int) : Prop :=
  ∃ pages : List Nat, (pages.length : Int) ≤ n ∧ m.within pages

/-- The waste the statistics are said to count for a page charged to `segment`: the page
size minus the number of addresses that the page `[page, page + PAGE_SIZE_IN_BYTES)` shares
with the range `[p_vaddr, p_vaddr + p_memsz)` of the segment. -/
def claimed_page_waste (segment : Elf32_Phdr) (page : Nat) : Int :=
  (PAGE_SIZE_IN_BYTES : Int) -
    ((min (page + PAGE_SIZE_IN_BYTES) (segment.p_vaddr + segment.p_memsz)
      - max page segment.p_vaddr : Nat) : Int)

/-- What the fault handler keeps between two faults, for the limit `max_pages`: every mapped
byte lies in a resident page; the FIFO queue has `num_of_pages` nodes, at most `max_pages`,
each a page start other than 0; the Random array has `max_pages` slots, each 0 or a page
start, and the slots from `alloc_idx` on are 0. -/
def LoaderState.sound (max_pages : Int) (st : LoaderState) : Prop :=
  st.world.mem.within (resident_pages st) ∧
  (st.ADD_PAGE = .fifo →
    st.fifo.FIFO_QUEUE.max_pages = max_pages ∧
    st.fifo.FIFO_QUEUE.num_of_pages = (st.fifo.FIFO_QUEUE.pages.length : Int) ∧
    (st.fifo.FIFO_QUEUE.pages.length : Int) ≤ max_pages ∧
    ∀ p ∈ st.fifo.FIFO_QUEUE.pages, p % PAGE_SIZE_IN_BYTES = 0 ∧ p ≠ 0) ∧
  (st.ADD_PAGE = .random →
    st.random.PAGES.max_pages = max_pages ∧
    (st.random.PAGES.adresses.length : Int) = max_pages ∧
    0 ≤ st.random.PAGES.alloc_idx ∧ st.random.PAGES.alloc_idx ≤ max_pages ∧
    (∀ p ∈ st.random.PAGES.adresses, p % PAGE_SIZE_IN_BYTES = 0) ∧
    ∀ j : Nat, st.random.PAGES.alloc_idx ≤ (j : Int) → st.random.PAGES.adresses.getD j 0 = 0)

/-- The offset that `handle_page_eviction_to_swap` computes for slot `i`, the `int` product
`i * PAGE_SIZE_IN_BYTES`. -/
def slot_offset (i : Nat) : Int := wrap_int ((i : Int) * (PAGE_SIZE_IN_BYTES : Int))

/-- The swap store holds the page `c` for the address `a`: the first active entry keyed by
`a` is entry `i` of the table, its offset is the one computed for slot `i`, which is not
negative, and the file holds the `PAGE_SIZE_IN_BYTES` bytes `c` there. -/
def SwapStore.holds (sw : SwapStore) (a : Nat) (c : List Nat) : Prop :=
  ∃ i : Nat, i < sw.SWAP_TABLE.length ∧
    sw.SWAP_TABLE.getD i default =
      { vaddr := a, swap_offset := slot_offset i, is_active := 1 } ∧
    (∀ j : Nat, j < i →
      ¬ ((sw.SWAP_TABLE.getD j default).is_active ≠ 0 ∧
          (sw.SWAP_TABLE.getD j default).vaddr = a)) ∧
    0 ≤ slot_offset i ∧
    file_pread sw.swap_img (slot_offset i).toNat PAGE_SIZE_IN_BYTES = c ∧
    c.length = PAGE_SIZE_IN_BYTES

/-- What every swap store built by the loader satisfies: an active entry of index `i` has the
flag 1 and the offset computed for slot `i`, which is not negative, and the file reaches the
end of the page at that offset. -/
def SwapStore.wellformed (sw : SwapStore) : Prop :=
  ∀ i : Nat, i < sw.SWAP_TABLE.length → (sw.SWAP_TABLE.getD i default).is_active ≠ 0 →
    (sw.SWAP_TABLE.getD i default).swap_offset = slot_offset i ∧
    (sw.SWAP_TABLE.getD i default).is_active = 1 ∧
    0 ≤ slot_offset i ∧
    (slot_offset i).toNat + PAGE_SIZE_IN_BYTES ≤ sw.swap_img.length

/-- The number of active slots of a swap table. -/
def active_slots (table : List SwapEntry) : Nat :=
  table.countP (fun e => decide (e.is_active ≠ 0))

/-- Every active slot of the swap table has an index below 524288 = 2^31 / 4096, the first
index whose offset `slot * 4096` an `int` cannot hold. -/
def active_below (table : List SwapEntry) : Prop :=
  ∀ i : Nat, i < table.length → (table.getD i default).is_active ≠ 0 → i < 524288

/-! ## Data of the examples -/

/-- A read-only LOAD segment (flags R and X) whose `p_vaddr` 409700 is not a multiple of
the page size; it covers the addresses 409700 to 413795, which begin inside the page at
409600. -/
def unalignedSegment : Elf32_Phdr :=
  { p_type := 1, p_offset := 100, p_vaddr := 409700, p_paddr := 409700, p_filesz := 4096
    p_memsz := 4096, p_flags := 5, p_align := 4096 }

/-- A writable LOAD segment (flags R and W) at 417792 with 4096 bytes in the file and 8192 in
memory. -/
def dataSegment : Elf32_Phdr :=
  { p_type := 1, p_offset := 4096, p_vaddr := 417792, p_paddr := 417792, p_filesz := 4096
    p_memsz := 8192, p_flags := 6, p_align := 4096 }

/-- A writable LOAD segment (flags R and W) of 2^31 + 8192 bytes from 4194304 on. -/
def wideSegment : Elf32_Phdr :=
  { p_type := 1, p_offset := 4096, p_vaddr := 4194304, p_paddr := 4194304, p_filesz := 4096
    p_memsz := 2147491840, p_flags := 6, p_align := 4096 }

/-- The swap table of 524290 slots, which `init_swap_system` builds for a limit of 104858
pages, after the 524288 pages from 4194304 on were stored in this order: slot `i` is active
under the key `4096 * (i + 1024)`, and the last two slots are inactive. -/
def crowdedTable : List SwapEntry :=
  (List.range 524288).map
      (fun i => { vaddr := 4096 * (i + 1024), swap_offset := slot_offset i, is_active := 1 })
    ++ List.replicate 2 { vaddr := 0, swap_offset := 0, is_active := 0 }

/-- A memory in which every byte is mapped and holds the low byte of its address. -/
def patternMemory : Memory := { mapped := fun _ => true, byte := fun a => a % 256 }

/-- A loader on 32-bit words whose only segment is `unalignedSegment`. -/
def unalignedEnv : LoaderEnv :=
  { ulong_bits := 32
    PHDRS_OF_SEGMENTS_TO_LOAD := [unalignedSegment]
    elf_file := List.replicate 4196 144
    mmap_ok := fun _ => true }

/-- The digits of `atol`: the value of the longest prefix of decimal digits, after `acc`. -/
def c_atol_digits : List Char → Int → Int
  | [], acc => acc
  | c :: rest, acc =>
    if c.isDigit then c_atol_digits rest (acc * 10 + ((c.toNat - 48 : Nat) : Int)) else acc

/-- The function `atol` of the C library on the strings whose value fits a `long`: white
space, an optional sign, then decimal digits; 0 when no digit follows. -/
def c_atol (s : String) : Int :=
  match s.toList.dropWhile Char.isWhitespace with
  | '-' :: rest => - c_atol_digits rest 0
  | '+' :: rest => c_atol_digits rest 0
  | cs => c_atol_digits cs 0

/-- An ELF file of 84 bytes: the header of a 32-bit little-endian executable whose program
header table, at offset 52, has the one entry of `dataSegment`. -/
def tinyElf : List Nat :=
  [127, 69, 76, 70, 1, 1, 1, 0, 0, 0, 0, 0, 0, 0, 0, 0,
   2, 0, 3, 0, 1, 0, 0, 0, 0, 96, 6, 0, 52, 0, 0, 0,
   0, 0, 0, 0, 0, 0, 0, 0, 52, 0, 32, 0, 1, 0, 0, 0, 0, 0, 0, 0,
   1, 0, 0, 0, 0, 16, 0, 0, 0, 96, 6, 0, 0, 96, 6, 0,
   0, 16, 0, 0, 0, 32, 0, 0, 6, 0, 0, 0, 0, 16, 0, 0]

/-- A host with the file `tinyElf` behind the path "prog" and no other file, on which
`off_t` has 32 bits. -/
def tinyHost : HostEnv :=
  { atol := c_atol
    open_file := fun path => if path = "prog" then some tinyElf else none
    lseek_ok := fun off => decide (off < 2 ^ 31) }

/-- The loader of `dataEnv` on a host that maps nothing below 65536, the default of
`vm.mmap_min_addr`. -/
def guardedEnv : LoaderEnv :=
  { ulong_bits := 32
    PHDRS_OF_SEGMENTS_TO_LOAD := [dataSegment]
    elf_file := List.replicate 8192 7
    mmap_ok := fun a => decide (65536 ≤ a) }

/-- A loader on 32-bit words whose only segment is `dataSegment`; the file is 8192 bytes,
each with the value 7. -/
def dataEnv : LoaderEnv :=
  { ulong_bits := 32
    PHDRS_OF_SEGMENTS_TO_LOAD := [dataSegment]
    elf_file := List.replicate 8192 7
    mmap_ok := fun _ => true }

/-- A writable LOAD segment of 8192 bytes whose `p_vaddr` is 4096 bytes below 2^32. -/
def topSegment : Elf32_Phdr :=
  { p_type := 1, p_offset := 4096, p_vaddr := 4294963200, p_paddr := 4294963200
    p_filesz := 8192, p_memsz := 8192, p_flags := 6, p_align := 4096 }

/-- A writable LOAD segment at 421888 with 8192 bytes in memory; its first page is the
second page of `dataSegment`. -/
def overlapSegment : Elf32_Phdr :=
  { p_type := 1, p_offset := 8192, p_vaddr := 421888, p_paddr := 421888, p_filesz := 4096
    p_memsz := 8192, p_flags := 6, p_align := 4096 }

/-- A loader on 32-bit words with the two segments `dataSegment` and `overlapSegment`, in
this order. -/
def overlapEnv : LoaderEnv :=
  { ulong_bits := 32
    PHDRS_OF_SEGMENTS_TO_LOAD := [dataSegment, overlapSegment]
    elf_file := List.replicate 12288 7
    mmap_ok := fun _ => true }

/-- A loader on 32-bit words whose only segment is `topSegment`. -/
def topEnv : LoaderEnv :=
  { ulong_bits := 32
    PHDRS_OF_SEGMENTS_TO_LOAD := [topSegment]
    elf_file := List.replicate 12288 7
    mmap_ok := fun _ => true }

/-! ## Keys of the swap table -/

end SmartLoader

namespace SimpleScheduler

/-! # The scheduler (simpleScheduler.c)

What the scheduler asks of its host during a tick (the liveness probes, the signals, the
reads of the submission pipe) is an argument of the model, one answer per call in the order
of the calls. -/

/-- The struct `ProcessInfoNode`. The links `next` and `prev` are the order of the list that
holds the node; `addr` is the address of the node, by which two nodes with the same fields
are told apart: the nodes are numbered in the order of their allocation, and none is freed
before the report. -/
structure ProcessInfoNode where
  addr : Nat
  pid : Int
  run_slices : Int
  wait_slices : Int
  deriving DecidableEq, Repr

/-- The struct `Queue`: the doubly linked list from `head` to `tail` is the list `nodes`,
head first; the field `count` is the length of the list, which `pushNode`, `popNode` and
`removeNodeByPid` all keep. -/
structure Queue where
  nodes : List ProcessInfoNode
  deriving DecidableEq, Repr

/-- The field `count` of a queue. -/
def Queue.count (q : Queue) : Int := (q.nodes.length : Int)

/-- The struct `JobResult`, the frame written to the result pipe. -/
structure JobResult where
  pid : Int
  run_slices : Int
  wait_slices : Int
  completion_slices : Int
  deriving DecidableEq, Repr

/-- The function `initQueue(q)`. -/
def initQueue : Queue := { nodes := [] }

/-- The function `createNode(pid)` when `calloc` returns the address `addr`. -/
def createNode (addr : Nat) (pid : Int) : ProcessInfoNode :=
  { addr := addr, pid := pid, run_slices := 0, wait_slices := 0 }

/-- The function `pushNode(q, n)` for a node that is not `NULL`. -/
def pushNode (q : Queue) (n : ProcessInfoNode) : Queue := { nodes := q.nodes ++ [n] }

/-- The function `popNode(q)`: the node returned, `none` for `NULL`, and the queue left. -/
def popNode (q : Queue) : Option ProcessInfoNode × Queue :=
  match q.nodes with
  | [] => (none, q)
  | n :: rest => (some n, { nodes := rest })

/-- The function `removeNodeByPid(q, pid)`: the first node with this pid, unlinked. -/
def removeNodeByPid (q : Queue) (pid : Int) : Option ProcessInfoNode × Queue :=
  match q.nodes.find? (fun n => decide (n.pid = pid)) with
  | none => (none, q)
  | some n => (some n, { nodes := q.nodes.eraseP (fun m => decide (m.pid = pid)) })

/-- The function `mark_complete_node(n, complete)` for a node that is not `NULL`. -/
def mark_complete_node (n : ProcessInfoNode) (complete : Queue) : Queue := pushNode complete n

/-- The function `send_job_result`: the frame it hands to `write` for a node. -/
def send_job_result (node : ProcessInfoNode) : JobResult :=
  { pid := node.pid
    run_slices := node.run_slices
    wait_slices := node.wait_slices
    completion_slices := node.run_slices + node.wait_slices }

/-- The frame `end_marker`. -/
def end_marker : JobResult := { pid := -1, run_slices := 0, wait_slices := 0, completion_slices := 0 }

/-- The frames that reach the result pipe out of `frames`, written one `write` each, the
first being write number `k`: a `write` of a frame, which is shorter than `PIPE_BUF`, puts
the whole frame into the pipe or, when it fails, nothing; `write_ok k` tells which. -/
def write_frames (write_ok : Nat → Bool) : Nat → List JobResult → List JobResult
  | _, [] => []
  | k, f :: rest =>
    if write_ok k then f :: write_frames write_ok (k + 1) rest
    else write_frames write_ok (k + 1) rest

/-- The function `send_all_results(result_fd, complete)`: the frames that reach the pipe. -/
def send_all_results (write_ok : Nat → Bool) (complete : Queue) : List JobResult :=
  write_frames write_ok 0 (complete.nodes.map send_job_result ++ [end_marker])

/-- What the preemption of a running job meets: `is_process_dead` returns 1; or it returns 0
and `kill(pid, SIGSTOP)` fails with `ESRCH`, fails with another error, or succeeds. -/
inductive StopOutcome where
  | dead
  | esrch
  | failed
  | stopped
  deriving DecidableEq, Repr

/-- What the dispatch of a ready job meets: `is_process_dead` returns 1; or it returns 0 and
`kill(pid, SIGCONT)` fails with `ESRCH`, fails with another error, or succeeds. -/
inductive ContOutcome where
  | dead
  | esrch
  | failed
  | continued
  deriving DecidableEq, Repr

/-- What one `read` of the submission pipe returns: a whole pid, with whether `createNode`
then gets a node; a positive count short of a pid; 0; or -1 with `EINTR`, with `EAGAIN`, or
with another error. -/
inductive ReadResult where
  | pid (newpid : Int) (node_ok : Bool)
  | partial_read
  | eintr
  | eof
  | eagain
  | failed
  deriving DecidableEq, Repr

/-- The answers of the host during one tick: `stops k` for the `k`-th job popped from
`running`, `rearm_dead k` the result of `is_process_dead` for the `k`-th job popped from
`buffer`, the results of the reads of the submission pipe in order, the answers `conts` for
the jobs popped from `ready` in order, and the flag `shutdown_requested` when the loop tests
it after the dispatch. -/
structure TickEnv where
  stops : Nat → StopOutcome
  rearm_dead : Nat → Bool
  reads : List ReadResult
  conts : List ContOutcome
  shutdown_requested : Bool

/-- The variables of `main`: the four queues, `shell_closed`, `tick`, and the number of
nodes allocated so far, which is the address of the next one. -/
structure SchedState where
  ready : Queue
  running : Queue
  buffer : Queue
  complete : Queue
  shell_closed : Bool
  tick : Int
  next_addr : Nat
  deriving DecidableEq, Repr

/-- The variables of `main` before the first tick. -/
def sched_start : SchedState :=
  { ready := initQueue, running := initQueue, buffer := initQueue, complete := initQueue
    shell_closed := false, tick := 0, next_addr := 0 }

/-- The loop `while (running.count > 0)` of a tick, for at most `n` iterations, the next
popped job being number `k`. -/
def preempt_loop (stops : Nat → StopOutcome) : Nat → Nat → SchedState → SchedState
  | 0, _, st => st
  | n + 1, k, st =>
    if st.running.count > 0 then
      match popNode st.running with
      | (none, _) => st
      | (some node, running1) =>
        let node1 := { node with run_slices := node.run_slices + 1 }
        match stops k with
        | .dead =>
          preempt_loop stops n (k + 1)
            { st with running := running1, complete := mark_complete_node node1 st.complete }
        | .esrch =>
          preempt_loop stops n (k + 1)
            { st with running := running1, complete := mark_complete_node node1 st.complete }
        | .failed =>
          preempt_loop stops n (k + 1)
            { st with running := running1, buffer := pushNode st.buffer node1 }
        | .stopped =>
          preempt_loop stops n (k + 1)
            { st with running := running1, buffer := pushNode st.buffer node1 }
    else st

/-- The preemption phase: every iteration pops a job, so as many iterations as there are
running jobs empty the queue. -/
def preempt (stops : Nat → StopOutcome) (st : SchedState) : SchedState :=
  preempt_loop stops st.running.nodes.length 0 st

/-- The loop that credits a wait slice to every job of `ready`. -/
def credit_wait (st : SchedState) : SchedState :=
  { st with ready :=
      { nodes := st.ready.nodes.map (fun cur => { cur with wait_slices := cur.wait_slices + 1 }) } }

/-- The loop `while (buffer.count > 0)` of a tick, for at most `n` iterations. -/
def rearm_loop (rearm_dead : Nat → Bool) : Nat → Nat → SchedState → SchedState
  | 0, _, st => st
  | n + 1, k, st =>
    if st.buffer.count > 0 then
      match popNode st.buffer with
      | (none, _) => st
      | (some node, buffer1) =>
        if rearm_dead k then
          rearm_loop rearm_dead n (k + 1)
            { st with buffer := buffer1, complete := mark_complete_node node st.complete }
        else
          rearm_loop rearm_dead n (k + 1)
            { st with buffer := buffer1, ready := pushNode st.ready node }
    else st

/-- The phase that moves the buffer back to `ready`. -/
def rearm (rearm_dead : Nat → Bool) (st : SchedState) : SchedState :=
  rearm_loop rearm_dead st.buffer.nodes.length 0 st

/-- The loop that drains the submission pipe, over the results of its reads; it ends at the
first result 0, `EAGAIN` or error, and a list that ends before stands for a pipe that is
empty from then on. -/
def intake : List ReadResult → SchedState → SchedState
  | [], st => st
  | r :: rest, st =>
    match r with
    | .pid newpid true =>
      intake rest { st with ready := pushNode st.ready (createNode st.next_addr newpid)
                            next_addr := st.next_addr + 1 }
    | .pid _ false => intake rest st
    | .partial_read => intake rest st
    | .eintr => intake rest st
    | .eof => { st with shell_closed := true }
    | .eagain => st
    | .failed => st

/-- The loop `for (int i = 0; i < to_dispatch; i++)` of the dispatch phase from the value `i`
on, over the answers of the host. An iteration that ends in `i--; continue;` goes on with
the same `i`. The error side is the state in which the loop asks for an answer that the list
does not hold: the list was too short for the loop to end. -/
def dispatch_loop (to_dispatch : Int) : List ContOutcome → Int → SchedState →
    Except SchedState SchedState
  | [], i, st =>
    if i < to_dispatch then
      match popNode st.ready with
      | (none, _) => .ok st
      | (some _, _) => .error st
    else .ok st
  | c :: rest, i, st =>
    if i < to_dispatch then
      match popNode st.ready with
      | (none, _) => .ok st
      | (some node, ready1) =>
        match c with
        | .dead =>
          dispatch_loop to_dispatch rest i
            { st with ready := ready1, complete := mark_complete_node node st.complete }
        | .esrch =>
          dispatch_loop to_dispatch rest i
            { st with ready := ready1, complete := mark_complete_node node st.complete }
        | .failed =>
          dispatch_loop to_dispatch rest i { st with ready := pushNode ready1 node }
        | .continued =>
          dispatch_loop to_dispatch rest (i + 1)
            { st with ready := ready1, running := pushNode st.running node }
    else .ok st

/-- The dispatch phase. -/
def dispatch (NCPU : Int) (conts : List ContOutcome) (st : SchedState) :
    Except SchedState SchedState :=
  let to_dispatch := if st.ready.count < NCPU then st.ready.count else NCPU
  dispatch_loop to_dispatch conts 0 st

/-- One iteration of the loop `while (1)` of `main`, up to the test of the exit condition. -/
def tick (NCPU : Int) (env : TickEnv) (st : SchedState) : Except SchedState SchedState :=
  dispatch NCPU env.conts
    (intake env.reads
      (rearm env.rearm_dead
        (credit_wait
          (preempt env.stops { st with tick := st.tick + 1 }))))

/-- The value of `all_queues_empty`. -/
def all_queues_empty (st : SchedState) : Bool :=
  decide (st.ready.count = 0) && decide (st.running.count = 0) && decide (st.buffer.count = 0)

/-- Whether the loop of `main` exits after a tick. -/
def loop_exit (env : TickEnv) (st : SchedState) : Bool :=
  (env.shutdown_requested && all_queues_empty st) || (st.shell_closed && all_queues_empty st)

/-- The loop `while (1)` of `main` over the answers of the host, tick by tick: the states
at the start of the ticks it ran and the state at its exit; `none` when the answers end
before the loop does. -/
def main_loop (NCPU : Int) : List TickEnv → SchedState → Option (List SchedState × SchedState)
  | [], _ => none
  | env :: rest, st =>
    match tick NCPU env st with
    | .error _ => none
    | .ok st1 =>
      if loop_exit env st1 then some ([st], st1)
      else
        match main_loop NCPU rest st1 with
        | none => none
        | some r => some (st :: r.1, r.2)

/-- The queue that `scan_and_mark_dead` walks. -/
inductive QueueName where
  | ready
  | running
  | buffer
  deriving DecidableEq, Repr

/-- The queue of that name. -/
def SchedState.queue (st : SchedState) : QueueName → Queue
  | .ready => st.ready
  | .running => st.running
  | .buffer => st.buffer

/-- The function `mark_complete_pid(pid, complete)`; without a node it only reports the
failure. -/
def mark_complete_pid (pid : Int) (node_ok : Bool) (st : SchedState) : SchedState :=
  if node_ok then
    { st with complete := pushNode st.complete (createNode st.next_addr pid)
              next_addr := st.next_addr + 1 }
  else st

/-- The body of the loop of `scan_and_mark_dead(q, ready, running, complete)` for the node
`cur` of `q`, found dead: the first node with its pid is taken from `ready`, else from
`running`, else from `q`, and moved to `complete`; without one, a new record is made. -/
def scan_found_dead (q : QueueName) (cur : ProcessInfoNode) (node_ok : Bool)
    (st : SchedState) : SchedState :=
  match removeNodeByPid st.ready cur.pid with
  | (some removed, ready1) =>
    { st with ready := ready1, complete := mark_complete_node removed st.complete }
  | (none, _) =>
    match removeNodeByPid st.running cur.pid with
    | (some removed, running1) =>
      { st with running := running1, complete := mark_complete_node removed st.complete }
    | (none, _) =>
      match q, removeNodeByPid (st.queue q) cur.pid with
      | .buffer, (some removed, buffer1) =>
        { st with buffer := buffer1, complete := mark_complete_node removed st.complete }
      | _, _ => mark_complete_pid cur.pid node_ok st

/-- The loop of `scan_and_mark_dead` over the nodes of `q` as they are linked at the call,
the next one being number `k`: a removal unlinks the node visited or one before it, so the
walk visits every one of them. -/
def scan_loop (q : QueueName) (dead node_ok : Nat → Bool) :
    List ProcessInfoNode → Nat → SchedState → SchedState
  | [], _, st => st
  | cur :: rest, k, st =>
    if dead k then scan_loop q dead node_ok rest (k + 1) (scan_found_dead q cur (node_ok k) st)
    else scan_loop q dead node_ok rest (k + 1) st

/-- The function `scan_and_mark_dead(q, ready, running, complete)`. -/
def scan_and_mark_dead (q : QueueName) (dead node_ok : Nat → Bool) (st : SchedState) :
    SchedState :=
  scan_loop q dead node_ok (st.queue q).nodes 0 st

/-- One sweep of the final loop: the three scans; `dead j` and `node_ok j` are the answers
during scan `j`. -/
def sweep_once (dead node_ok : Nat → Nat → Bool) (st : SchedState) : SchedState :=
  scan_and_mark_dead .buffer (dead 2) (node_ok 2)
    (scan_and_mark_dead .running (dead 1) (node_ok 1)
      (scan_and_mark_dead .ready (dead 0) (node_ok 0) st))

/-- The three sweeps after the loop; `dead s` and `node_ok s` are the answers during
sweep `s`. -/
def final_sweep (dead node_ok : Nat → Nat → Nat → Bool) (st : SchedState) : SchedState :=
  sweep_once (dead 2) (node_ok 2)
    (sweep_once (dead 1) (node_ok 1) (sweep_once (dead 0) (node_ok 0) st))

/-- The final reporting of `main`: the frames that reach the result pipe. -/
def report (write_ok : Nat → Bool) (st : SchedState) : List JobResult :=
  if st.complete.count > 0 then send_all_results write_ok st.complete
  else write_frames write_ok 0 [end_marker]

/-- The run of the scheduler from its first tick to its report, for positive `NCPU` and
`TMS`: the frames that reach the result pipe, `none` when the answers of the host end before
the loop of `main` does. -/
def scheduler_run (NCPU : Int) (envs : List TickEnv) (dead node_ok : Nat → Nat → Nat → Bool)
    (write_ok : Nat → Bool) : Option (List JobResult) :=
  match main_loop NCPU envs sched_start with
  | none => none
  | some r => some (report write_ok (final_sweep dead node_ok r.2))

/-! ## Vocabulary of the statements on the scheduler -/

/-- The nodes of the four queues. -/
def all_nodes (st : SchedState) : List ProcessInfoNode :=
  st.ready.nodes ++ st.running.nodes ++ st.buffer.nodes ++ st.complete.nodes

/-- A node after the slice it ran was credited. -/
def ran (n : ProcessInfoNode) : ProcessInfoNode := { n with run_slices := n.run_slices + 1 }

/-- A node after a slice it waited in `ready` was credited. -/
def waited (n : ProcessInfoNode) : ProcessInfoNode :=
  { n with wait_slices := n.wait_slices + 1 }

/-- The number of ticks, among those that started in the states `hist`, at whose start the
node at `addr` was in `running`. -/
def ticks_running (addr : Nat) (hist : List SchedState) : Nat :=
  hist.countP (fun s => decide (addr ∈ s.running.nodes.map (fun n => n.addr)))

/-- The number of ticks, among those that started in the states `hist`, at whose start the
node at `addr` was in `ready`. -/
def ticks_ready (addr : Nat) (hist : List SchedState) : Nat :=
  hist.countP (fun s => decide (addr ∈ s.ready.nodes.map (fun n => n.addr)))

/-- Every job created so far is a node of the four queues exactly once: the addresses of
the nodes, queue after queue, are the numbers below `next_addr` in some order. -/
def jobs_once (st : SchedState) : Prop :=
  ((all_nodes st).map (fun n => n.addr)).Perm (List.range st.next_addr)

/-! ## Phases of a tick and data of the examples -/

/-- The states after the preemption, the wait credit, the move of the buffer and the intake
of a tick, in this order; the dispatch follows on the last one. -/
def tick_phases (env : TickEnv) (st : SchedState) : List SchedState :=
  let s1 := preempt env.stops { st with tick := st.tick + 1 }
  let s2 := credit_wait s1
  let s3 := rearm env.rearm_dead s2
  [s1, s2, s3, intake env.reads s3]

/-- A host on which every job stays alive and every signal succeeds, with the given reads of
the submission pipe and answers at dispatch. -/
def calmEnv (reads : List ReadResult) (conts : List ContOutcome) : TickEnv :=
  { stops := fun _ => .stopped, rearm_dead := fun _ => false, reads := reads, conts := conts
    shutdown_requested := false }

/-- A host on which the running jobs are found dead at the preemption, with the given reads
and answers at dispatch. -/
def endingEnv (reads : List ReadResult) (conts : List ContOutcome) : TickEnv :=
  { stops := fun _ => .dead, rearm_dead := fun _ => false, reads := reads, conts := conts
    shutdown_requested := false }

/-- Three ticks of a host: the shell submits the pids 100 and 200 and the first job is
resumed; the first job is found dead after its slice and the second is resumed; the shell
has closed the pipe and the second job is found dead after its slice. -/
def twoJobs : List TickEnv :=
  [calmEnv [.pid 100 true, .pid 200 true, .eagain] [.continued],
   endingEnv [.eagain] [.continued],
   endingEnv [.eof] []]

/-! ## Jobs accepted by the intake -/

/-- The jobs that the intake creates out of the results of its reads, the first at the
address `addr`: one for every whole pid read for which `createNode` gets a node, up to the
read that ends the loop. -/
def intake_jobs : List ReadResult → Nat → List ProcessInfoNode
  | [], _ => []
  | r :: rest, addr =>
    match r with
    | .pid newpid true => createNode addr newpid :: intake_jobs rest (addr + 1)
    | .pid _ false => intake_jobs rest addr
    | .partial_read => intake_jobs rest addr
    | .eintr => intake_jobs rest addr
    | .eof => []
    | .eagain => []
    | .failed => []

/-- The pids of the jobs that the intakes of the ticks with the answers `envs` create, in
the order of their creation. -/
def accepted_pids : List TickEnv → List Int
  | [] => []
  | env :: rest => (intake_jobs env.reads 0).map (fun n => n.pid) ++ accepted_pids rest

/-! ## Runs of the loop -/

/-- The loop `while (1)` of `main` over the answers of the host for as many ticks as there
are answers: the state after the last of these ticks, or at the exit of the loop when it
comes before; the error side is the state in which a dispatch phase asks for an answer that
its list does not hold. -/
def run_ticks (NCPU : Int) : List TickEnv → SchedState → Except SchedState SchedState
  | [], st => .ok st
  | env :: rest, st =>
    match tick NCPU env st with
    | .error e => .error e
    | .ok st1 => if loop_exit env st1 then .ok st1 else run_ticks NCPU rest st1

/-- During the tick every probe finds its process alive, no signal fails because the process
is gone, and the first job that the dispatch pops is resumed. -/
def all_alive (env : TickEnv) : Prop :=
  (∀ k, env.stops k ≠ StopOutcome.dead ∧ env.stops k ≠ StopOutcome.esrch) ∧
  (∀ k, env.rearm_dead k = false) ∧
  ∃ rest, env.conts = ContOutcome.continued :: rest

/-- The scheduler holds the one job `j` and nothing else: the job is in `running`, or it is
retired to `complete` after at least one slice. -/
def only_job (st : SchedState) (j : ProcessInfoNode) : Prop :=
  st.ready.nodes = [] ∧ st.buffer.nodes = [] ∧
  ((st.running.nodes = [j] ∧ st.complete.nodes = [] ∧ 0 ≤ j.run_slices) ∨
    (st.running.nodes = [] ∧ st.complete.nodes = [j] ∧ 1 ≤ j.run_slices))

/-- One tick of a host: the shell submits the pid 100 and closes the pipe, and the process
is gone when the dispatch probes it. -/
def deadOnArrival : List TickEnv := [calmEnv [.pid 100 true, .eof] [.dead]]

/-- Four ticks of a host with two jobs that stay alive: the shell submits the pids 100 and
200 in the first tick and nothing afterwards. -/
def twoAlive : List TickEnv :=
  [calmEnv [.pid 100 true, .pid 200 true, .eagain] [.continued],
   calmEnv [.eagain] [.continued], calmEnv [.eagain] [.continued],
   calmEnv [.eagain] [.continued]]

/-- Three ticks of a host with one job: the shell submits the pid 100 and closes the pipe;
the job is resumed, runs one slice, is resumed again and is found dead after its second
slice. -/
def oneJob : List TickEnv :=
  [calmEnv [.pid 100 true, .eof] [.continued], calmEnv [.eof] [.continued],
   endingEnv [.eof] []]

/-! ## The liveness probe (simpleScheduler.c) -/

/-- What `kill(pid, 0)` returns: 0; -1 with `errno` set to `ESRCH`; -1 with another
`errno`. -/
inductive ProbeResult where
  | delivered
  | esrch
  | other_error
  deriving DecidableEq, Repr

/-- What the host shows of one process when `is_process_dead` asks: the result of
`kill(pid, 0)`, whether `fopen` of `/proc/<pid>/stat` returns a stream, the bytes of that
file, and the bytes that the array `buffer` holds before `fgets` writes to it (`stale 512`
is the byte behind the array). -/
structure ProcessView where
  kill0 : ProbeResult
  fopen_ok : Bool
  stat : List Nat
  stale : Nat → Nat

/-- The characters that `fgets(buffer, n + 1, f)` stores before the terminating NUL: at most
`n` bytes of the file, up to and with the first newline. It returns `NULL` exactly when it
stores no character. -/
def fgets_line : Nat → List Nat → List Nat
  | 0, _ => []
  | _, [] => []
  | n + 1, c :: rest => if c = 10 then [c] else c :: fgets_line n rest

/-- The array `buffer` after `fgets` stored `line`: the line, a NUL, and behind it what the
array held before. -/
def buffer_byte (line : List Nat) (stale : Nat → Nat) (i : Nat) : Nat :=
  if i < line.length then line.getD i 0
  else if i = line.length then 0
  else stale i

/-- The scan of `strrchr(s, c)` from index `i` on, for `c` other than NUL, over the bytes
of the array up to its terminating NUL: `last` is the index of the last `c` seen so far. -/
def strrchr_from (c : Nat) : List Nat → Nat → Option Nat → Option Nat
  | [], _, last => last
  | x :: rest, i, last =>
    if x = 0 then last
    else strrchr_from c rest (i + 1) (if x = c then some i else last)

/-- The function `strrchr(buffer, c)` on the line that `fgets` stored: the index of the last
`c` of the string, `none` for `NULL`. -/
def strrchr (line : List Nat) (c : Nat) : Option Nat := strrchr_from c line 0 none

/-- The function `is_process_dead(pid)`; `host pid` is what the host shows of the
process. The characters are `')'` = 41, `'Z'` = 90 and `'X'` = 88. -/
def is_process_dead (host : Int → ProcessView) (pid : Int) : Int :=
  match (host pid).kill0 with
  | .esrch => 1
  | .other_error => 0
  | .delivered =>
    if ¬ (host pid).fopen_ok then 1
    else
      let buffer := fgets_line 511 (host pid).stat
      if buffer = [] then 1
      else
        match strrchr buffer 41 with
        | none => 1
        | some p =>
          let state := buffer_byte buffer (host pid).stale (p + 2)
          if state = 90 ∨ state = 88 then 1 else 0

/-- The bytes of a text. -/
def text_bytes (s : String) : List Nat := s.toList.map (fun ch => ch.toNat)

/-- A process whose status file cannot be opened although the probe reaches it. -/
def hiddenProcess : Int → ProcessView :=
  fun _ => { kill0 := .delivered, fopen_ok := false, stat := [], stale := fun _ => 0 }

/-- A zombie that the probe may not signal: `kill(pid, 0)` fails with `EPERM`. -/
def foreignZombie : Int → ProcessView :=
  fun _ => { kill0 := .other_error, fopen_ok := true
             stat := text_bytes "7 (a) Z 1 7 7 0 -1\n", stale := fun _ => 0 }

/-- A zombie of the scheduler's own user, whose command name holds a `')'`. -/
def ownZombie : Int → ProcessView :=
  fun _ => { kill0 := .delivered, fopen_ok := true
             stat := text_bytes "7 (a) b) Z 1 7 7 0 -1\n", stale := fun _ => 0 }

end SimpleScheduler

namespace ThreadPool

/-! # The job queue of the thread pool (thread_pool.c)

The structs `Job` live in the heap; a pointer to one is its address, `none` for `NULL`. -/

/-- The struct `Job`; the function pointer and the argument pointer are numbers. -/
structure Job where
  func_to_the_job : Nat
  args : Nat
  next : Option Nat
  deriving DecidableEq, Repr

/-- The struct `Queue_job`. -/
structure Queue_job where
  head : Option Nat
  tail : Option Nat
  queue_size : Int
  deriving DecidableEq, Repr

/-- The heap of `Job` structs, by address, and the queue that `QUEUE_JOB` points to. -/
structure PoolState where
  job : Nat → Job
  queue : Queue_job

/-- The queue that `_create_queue()` returns when `malloc` succeeds. -/
def _create_queue : Queue_job := { head := none, tail := none, queue_size := 0 }

/-- The heap after the field `next` of the job at `addr` is set. -/
def set_next (job : Nat → Job) (addr : Nat) (next : Option Nat) : Nat → Job :=
  fun a => if a = addr then { job a with next := next } else job a

/-- The function `_add_job_to_queue(queue, job_to_add)` for a queue that is not `NULL`: the
value returned and the state left; `none` stands for the dereference of a `NULL` pointer.
The field `queue_size` is an `int`. -/
def _add_job_to_queue (st : PoolState) (job_to_add : Option Nat) : Option (Int × PoolState) :=
  match job_to_add with
  | none => some (0, st)
  | some j =>
    if st.queue.queue_size = 0 then
      some (1, { st with queue := { head := some j, tail := some j
                                    queue_size := SmartLoader.wrap_int (st.queue.queue_size + 1) } })
    else
      match st.queue.tail with
      | none => none
      | some t =>
        some (1, { job := set_next (set_next st.job t (some j)) j none
                   queue := { head := st.queue.head, tail := some j
                              queue_size := SmartLoader.wrap_int (st.queue.queue_size + 1) } })

/-- The function `_pop_job(queue)` for a queue that is not `NULL`: the job returned and the
state left; `none` stands for the dereference of a `NULL` pointer. -/
def _pop_job (st : PoolState) : Option (Option Nat × PoolState) :=
  if st.queue.queue_size ≠ 0 then
    match st.queue.head with
    | none => none
    | some job_to_pop =>
      let head1 := (st.job job_to_pop).next
      some (some job_to_pop,
        { job := set_next st.job job_to_pop none
          queue := { head := head1
                     tail := if head1 = none then none else st.queue.tail
                     queue_size := SmartLoader.wrap_int (st.queue.queue_size - 1) } })
  else some (none, st)

/-- A sequence of `_add_job_to_queue` calls, one for each job of the list in order: the
state left, `none` after the dereference of a `NULL` pointer or a call that returns 0. -/
def add_jobs : List Nat → PoolState → Option PoolState
  | [], st => some st
  | j :: rest, st =>
    match _add_job_to_queue st (some j) with
    | none => none
    | some r => if r.1 = 1 then add_jobs rest r.2 else none

/-- A sequence of `n` calls of `_pop_job`: what they return, in order, and the state
left. -/
def pop_jobs : Nat → PoolState → Option (List (Option Nat) × PoolState)
  | 0, st => some ([], st)
  | n + 1, st =>
    match _pop_job st with
    | none => none
    | some r =>
      match pop_jobs n r.2 with
      | none => none
      | some rs => some (r.1 :: rs.1, rs.2)

/-- The chain of `next` pointers that starts at `h` passes through the jobs `l`, in this
order, and ends there with `NULL`. -/
def is_chain (job : Nat → Job) : Option Nat → List Nat → Prop
  | h, [] => h = none
  | h, a :: rest => h = some a ∧ is_chain job (job a).next rest

/-- The queue holds the jobs `l`, head first: `queue_size` is their number, the list from
`head` is `l`, `tail` points to the last of them, and no job is linked twice. -/
def holds_jobs (st : PoolState) (l : List Nat) : Prop :=
  st.queue.queue_size = (l.length : Int) ∧ is_chain st.job st.queue.head l ∧
  (l ≠ [] → st.queue.tail = l.getLast?) ∧ l.Nodup

/-- A heap in which every job has the fields that `_create_job` gives it for the function 7
and the argument 0. -/
def freshHeap : Nat → Job := fun _ => { func_to_the_job := 7, args := 0, next := none }

end ThreadPool

/-! # Theorems -/

namespace SmartLoader

/-! ## Single steps of the FIFO policy -/

theorem offer_and_unmap_total {σ : Type} (env : EvictionHook σ)
    (htot : ∀ a s, ∃ s1, env.handle_page_eviction_to_swap a s = .ok s1) (a : Nat) (s : σ) :
    ∃ s1, offer_and_unmap env a s = .ok s1 := by
  unfold offer_and_unmap
  by_cases ha : a = 0
  · exact ⟨s, by simp [ha]⟩
  · obtain ⟨s1, hs1⟩ := htot a s
    exact ⟨env.munmap a s1, by simp [ha, hs1]⟩

/-- Below capacity `add_page_fifo` appends the address and calls nothing else. -/
theorem add_page_fifo_below {σ : Type} (env : EvictionHook σ) (a : Nat) (q : FIFOState) (s : σ)
    (hlt : q.FIFO_QUEUE.num_of_pages < q.FIFO_QUEUE.max_pages) :
    add_page_fifo env a (q, s) =
      .ok ({ FIFO_QUEUE := { pages := q.FIFO_QUEUE.pages ++ [a]
                             num_of_pages := q.FIFO_QUEUE.num_of_pages + 1
                             max_pages := q.FIFO_QUEUE.max_pages }
             PAGE_EVICTIONS_FIFO := q.PAGE_EVICTIONS_FIFO }, s) := by
  have hn : ¬ q.FIFO_QUEUE.num_of_pages ≥ q.FIFO_QUEUE.max_pages := not_le.mpr hlt
  simp [add_page_fifo, add_page_fifo_evict, hn]

/-- At capacity `add_page_fifo` frees the head node once, then appends the address. -/
theorem add_page_fifo_full {σ : Type} (env : EvictionHook σ) (a : Nat) (q : FIFOState) (s : σ)
    (h : Nat) (t : List Nat) (hp : q.FIFO_QUEUE.pages = h :: t)
    (hn : q.FIFO_QUEUE.num_of_pages = q.FIFO_QUEUE.max_pages)
    (hpos : 1 ≤ q.FIFO_QUEUE.max_pages) :
    add_page_fifo env a (q, s) =
      match free_page_fifo env h s with
      | .error e =>
        .error (e.1, ({ FIFO_QUEUE := { pages := t
                                        num_of_pages := q.FIFO_QUEUE.max_pages
                                        max_pages := q.FIFO_QUEUE.max_pages }
                        PAGE_EVICTIONS_FIFO := q.PAGE_EVICTIONS_FIFO }, e.2))
      | .ok s1 =>
        .ok ({ FIFO_QUEUE := { pages := t ++ [a]
                               num_of_pages := q.FIFO_QUEUE.max_pages
                               max_pages := q.FIFO_QUEUE.max_pages }
               PAGE_EVICTIONS_FIFO := q.PAGE_EVICTIONS_FIFO + 1 }, s1) := by
  have h0 : q.FIFO_QUEUE.max_pages ≠ 0 := by omega
  have h1 : ¬ q.FIFO_QUEUE.max_pages - 1 ≥ q.FIFO_QUEUE.max_pages := by omega
  simp only [add_page_fifo, hp, List.length_cons, add_page_fifo_evict, hn, ge_iff_le, le_refl,
    if_true, evict_page_fifo, h0, if_false]
  cases hf : free_page_fifo env h s with
  | error e => simp
  | ok s1 =>
    cases t with
    | nil => simp [add_page_fifo_evict, h1]
    | cons b t2 => simp [add_page_fifo_evict, h1]

/-- The eviction loop has enough iterations: it stops for lack of them only if the hook
itself does. -/
theorem add_page_fifo_evict_fuel {σ : Type} (env : EvictionHook σ)
    (hhook : ∀ a s e, env.handle_page_eviction_to_swap a s = .error e → e.1 ≠ Halt.fuel)
    (n : Nat) (st : FIFOState × σ) (hn : st.1.FIFO_QUEUE.pages.length < n)
    (e : Halt × (FIFOState × σ)) (herr : add_page_fifo_evict env n st = .error e) :
    e.1 ≠ Halt.fuel := by
  induction n generalizing st with
  | zero => omega
  | succ n ih =>
    simp only [add_page_fifo_evict] at herr
    split at herr
    · cases hev : evict_page_fifo env st with
      | error e1 =>
        rw [hev] at herr
        simp only [Except.error.injEq] at herr
        subst herr
        simp only [evict_page_fifo] at hev
        split at hev
        · simp only [Except.error.injEq] at hev
          rw [← hev]; simp
        · split at hev
          · simp only [Except.error.injEq] at hev
            rw [← hev]; simp
          · rename_i temp rest hpages _
            cases hfree : free_page_fifo env temp st.2 with
            | ok s1 => rw [hfree] at hev; simp at hev
            | error e2 =>
              rw [hfree] at hev
              simp only [Except.error.injEq] at hev
              rw [← hev]
              simp only [free_page_fifo, offer_and_unmap] at hfree
              split at hfree
              · cases hh : env.handle_page_eviction_to_swap temp st.2 with
                | ok s2 => rw [hh] at hfree; simp at hfree
                | error e3 =>
                  rw [hh] at hfree
                  simp only [Except.error.injEq] at hfree
                  rw [← hfree]
                  exact hhook _ _ _ hh
              · simp at hfree
      | ok st1 =>
        rw [hev] at herr
        refine ih st1 ?_ herr
        simp only [evict_page_fifo] at hev
        split at hev
        · simp at hev
        · rename_i temp rest hpages
          split at hev
          · simp at hev
          · cases hfree : free_page_fifo env temp st.2 with
            | error e2 => rw [hfree] at hev; simp at hev
            | ok s1 =>
              rw [hfree] at hev
              simp only [Except.ok.injEq] at hev
              rw [← hev]
              rw [hpages] at hn
              simp only [List.length_cons] at hn ⊢
              omega
    · simp at herr

/-- `add_page_fifo` never stops for lack of iterations of its loop. -/
theorem add_page_fifo_fuel {σ : Type} (env : EvictionHook σ)
    (hhook : ∀ a s e, env.handle_page_eviction_to_swap a s = .error e → e.1 ≠ Halt.fuel)
    (a : Nat) (st : FIFOState × σ) (e : Halt × (FIFOState × σ))
    (herr : add_page_fifo env a st = .error e) : e.1 ≠ Halt.fuel := by
  simp only [add_page_fifo] at herr
  cases hloop : add_page_fifo_evict env (st.1.FIFO_QUEUE.pages.length + 1) st with
  | error e1 =>
    rw [hloop] at herr
    simp only [Except.error.injEq] at herr
    rw [← herr]
    exact add_page_fifo_evict_fuel env hhook _ st (by omega) e1 hloop
  | ok st1 => rw [hloop] at herr; simp at herr

/-! ## Sequences of FIFO adds -/

theorem fifo_adds_append {σ : Type} (env : EvictionHook σ) (l1 l2 : List Nat)
    (st : FIFOState × σ) :
    fifo_adds env (l1 ++ l2) st =
      match fifo_adds env l1 st with
      | .error e => .error e
      | .ok st1 => fifo_adds env l2 st1 := by
  induction l1 generalizing st with
  | nil => simp [fifo_adds]
  | cons a l1 ih =>
    simp only [List.cons_append, fifo_adds]
    cases add_page_fifo env a st with
    | error e => rfl
    | ok st1 => exact ih st1

/-- The FIFO state reached by the adds `l` from `init_fifo M`, whenever they all return. -/
theorem fifo_adds_init {σ : Type} (env : EvictionHook σ) (M : Nat) (hM : 1 ≤ M) (s0 : σ)
    (l : List Nat) (q : FIFOState) (s : σ)
    (hrun : fifo_adds env l (init_fifo (M : Int), s0) = .ok (q, s)) :
    q = { FIFO_QUEUE := { pages := l.drop (l.length - M)
                          num_of_pages := ((min l.length M : Nat) : Int)
                          max_pages := (M : Int) }
          PAGE_EVICTIONS_FIFO := ((l.length - M : Nat) : Int) } := by
  induction l using List.reverseRecOn generalizing q s with
  | nil =>
    simp only [fifo_adds, Except.ok.injEq, Prod.mk.injEq] at hrun
    rw [← hrun.1]
    simp [init_fifo]
  | append_singleton l a ih =>
    rw [fifo_adds_append] at hrun
    cases hl : fifo_adds env l (init_fifo (M : Int), s0) with
    | error e => rw [hl] at hrun; simp at hrun
    | ok st1 =>
      obtain ⟨q1, s1⟩ := st1
      have hq1 := ih q1 s1 hl
      rw [hl] at hrun
      simp only [fifo_adds] at hrun
      cases hadd : add_page_fifo env a (q1, s1) with
      | error e => rw [hadd] at hrun; simp at hrun
      | ok st2 =>
        rw [hadd] at hrun
        simp only [Except.ok.injEq] at hrun
        subst hrun
        by_cases hlt : l.length < M
        · have hb := add_page_fifo_below env a q1 s1 (by rw [hq1]; simp; omega)
          rw [hb] at hadd
          simp only [Except.ok.injEq, Prod.mk.injEq] at hadd
          rw [← hadd.1, hq1]
          have e1 : l.length - M = 0 := by omega
          have e2 : l.length + 1 - M = 0 := by omega
          have e3 : min l.length M = l.length := by omega
          have e4 : min (l.length + 1) M = l.length + 1 := by omega
          simp [e1, e2, e3, e4]
        · have hge : M ≤ l.length := by omega
          have hlen : (l.drop (l.length - M)).length = M := by
            rw [List.length_drop]; omega
          cases hd : l.drop (l.length - M) with
          | nil => rw [hd] at hlen; simp at hlen; omega
          | cons h t =>
            have e3 : min l.length M = M := by omega
            have hf := add_page_fifo_full env a q1 s1 h t (by rw [hq1]; exact hd)
              (by rw [hq1]; simp [e3]) (by rw [hq1]; simp; omega)
            rw [hf] at hadd
            cases hfree : free_page_fifo env h s1 with
            | error e => rw [hfree] at hadd; simp at hadd
            | ok s2 =>
              rw [hfree] at hadd
              simp only [Except.ok.injEq, Prod.mk.injEq] at hadd
              rw [← hadd.1, hq1]
              have ht : t = l.drop (l.length - M + 1) := by
                have := congrArg List.tail hd
                simp only [List.tail_drop, List.tail_cons] at this
                exact this.symm
              have e4 : min (l.length + 1) M = M := by omega
              have e5 : l.length + 1 - M = l.length - M + 1 := by omega
              have e6 : ((l.length - M : Nat) : Int) + 1 = ((l.length - M + 1 : Nat) : Int) := by
                push_cast; ring
              simp only [List.length_append, List.length_singleton, e4, e5, e6, ht]
              rw [List.drop_append_of_le_length (by omega)]

/-- With a hook that never exits, the adds from `init_fifo M` all return. -/
theorem fifo_adds_returns {σ : Type} (env : EvictionHook σ)
    (htot : ∀ a s, ∃ s1, env.handle_page_eviction_to_swap a s = .ok s1)
    (M : Nat) (hM : 1 ≤ M) (s0 : σ) (l : List Nat) :
    ∃ q s, fifo_adds env l (init_fifo (M : Int), s0) = .ok (q, s) := by
  induction l using List.reverseRecOn with
  | nil => exact ⟨_, _, rfl⟩
  | append_singleton l a ih =>
    obtain ⟨q1, s1, hl⟩ := ih
    have hq1 := fifo_adds_init env M hM s0 l q1 s1 hl
    rw [fifo_adds_append, hl]
    simp only [fifo_adds]
    by_cases hlt : l.length < M
    · rw [add_page_fifo_below env a q1 s1 (by rw [hq1]; simp; omega)]
      exact ⟨_, _, rfl⟩
    · have hlen : (l.drop (l.length - M)).length = M := by
        rw [List.length_drop]; omega
      cases hd : l.drop (l.length - M) with
      | nil => rw [hd] at hlen; simp at hlen; omega
      | cons h t =>
        have e3 : min l.length M = M := by omega
        rw [add_page_fifo_full env a q1 s1 h t (by rw [hq1]; exact hd)
          (by rw [hq1]; simp [e3]) (by rw [hq1]; simp; omega)]
        obtain ⟨s2, hs2⟩ := offer_and_unmap_total env htot h s1
        simp only [free_page_fifo, hs2]
        exact ⟨_, _, rfl⟩

/-! ## The Random policy -/

theorem tmod_cast (r M : Nat) : Int.tmod (r : Int) (M : Int) = ((r % M : Nat) : Int) := rfl

theorem tmod_cast_toNat (r M : Nat) : (Int.tmod (r : Int) (M : Int)).toNat = r % M := by
  rw [tmod_cast]; exact Int.toNat_ofNat _

theorem getD_set_other (l : List Nat) (i j a : Nat) (hij : j ≠ i) :
    (l.set i a).getD j 0 = l.getD j 0 := by
  have : ¬ i = j := fun h => hij h.symm
  simp [List.getD_eq_getElem?_getD, List.getElem?_set, this]

/-- Below the high-water mark `add_page_random` writes slot `alloc_idx` and calls nothing. -/
theorem add_page_random_below {σ : Type} (env : EvictionHook σ) (a rnd : Nat)
    (q : RandomState) (s : σ) (hne : q.PAGES.alloc_idx ≠ q.PAGES.max_pages) :
    add_page_random env a rnd (q, s) =
      .ok ({ PAGES := { adresses := q.PAGES.adresses.set q.PAGES.alloc_idx.toNat a
                        max_pages := q.PAGES.max_pages
                        alloc_idx := q.PAGES.alloc_idx + 1 }
             PAGE_EVICTIONS_RANDOM := q.PAGE_EVICTIONS_RANDOM }, s) := by
  simp [add_page_random, hne]

/-- At the high-water mark `add_page_random` frees the slot `rnd % max_pages` and reuses it. -/
theorem add_page_random_full {σ : Type} (env : EvictionHook σ) (a rnd : Nat)
    (q : RandomState) (s : σ) (M : Nat) (hmax : q.PAGES.max_pages = (M : Int))
    (hfull : q.PAGES.alloc_idx = q.PAGES.max_pages) :
    add_page_random env a rnd (q, s) =
      match offer_and_unmap env (q.PAGES.adresses.getD (rnd % M) 0) s with
      | .error e => .error (e.1, (q, e.2))
      | .ok s1 =>
        .ok ({ PAGES := { adresses := q.PAGES.adresses.set (rnd % M) a
                          max_pages := q.PAGES.max_pages
                          alloc_idx := q.PAGES.alloc_idx }
               PAGE_EVICTIONS_RANDOM := q.PAGE_EVICTIONS_RANDOM + 1 }, s1) := by
  simp only [add_page_random, hfull, if_true, free_page_random, hmax, tmod_cast_toNat]
  cases offer_and_unmap env (q.PAGES.adresses.getD (rnd % M) 0) s with
  | error e => rfl
  | ok s1 => simp [List.set_set]

/-- The shape of the Random array is kept by every add that returns. -/
theorem add_page_random_shape {σ : Type} (env : EvictionHook σ) (a rnd : Nat) (M : Nat)
    (q q1 : RandomState) (s s1 : σ)
    (hlen : q.PAGES.adresses.length = M) (hmax : q.PAGES.max_pages = (M : Int))
    (h0 : 0 ≤ q.PAGES.alloc_idx) (hle : q.PAGES.alloc_idx ≤ q.PAGES.max_pages)
    (hadd : add_page_random env a rnd (q, s) = .ok (q1, s1)) :
    q1.PAGES.adresses.length = M ∧ q1.PAGES.max_pages = (M : Int) ∧
      0 ≤ q1.PAGES.alloc_idx ∧ q1.PAGES.alloc_idx ≤ q1.PAGES.max_pages := by
  by_cases hfull : q.PAGES.alloc_idx = q.PAGES.max_pages
  · rw [add_page_random_full env a rnd q s M hmax hfull] at hadd
    cases hoff : offer_and_unmap env (q.PAGES.adresses.getD (rnd % M) 0) s with
    | error e => rw [hoff] at hadd; simp at hadd
    | ok s2 =>
      rw [hoff] at hadd
      simp only [Except.ok.injEq, Prod.mk.injEq] at hadd
      rw [← hadd.1]
      simp only [List.length_set]
      exact ⟨hlen, hmax, h0, hle⟩
  · rw [add_page_random_below env a rnd q s hfull] at hadd
    simp only [Except.ok.injEq, Prod.mk.injEq] at hadd
    rw [← hadd.1]
    simp only [List.length_set]
    refine ⟨hlen, hmax, by omega, by omega⟩

theorem random_adds_shape {σ : Type} (env : EvictionHook σ) (M : Nat)
    (l : List (Nat × Nat)) (q q1 : RandomState) (s s1 : σ)
    (hlen : q.PAGES.adresses.length = M) (hmax : q.PAGES.max_pages = (M : Int))
    (h0 : 0 ≤ q.PAGES.alloc_idx) (hle : q.PAGES.alloc_idx ≤ q.PAGES.max_pages)
    (hrun : random_adds env l (q, s) = .ok (q1, s1)) :
    q1.PAGES.adresses.length = M ∧ q1.PAGES.max_pages = (M : Int) ∧
      0 ≤ q1.PAGES.alloc_idx ∧ q1.PAGES.alloc_idx ≤ q1.PAGES.max_pages := by
  induction l generalizing q s with
  | nil =>
    simp only [random_adds, Except.ok.injEq, Prod.mk.injEq] at hrun
    rw [← hrun.1]; exact ⟨hlen, hmax, h0, hle⟩
  | cons x l ih =>
    simp only [random_adds] at hrun
    cases hadd : add_page_random env x.1 x.2 (q, s) with
    | error e => rw [hadd] at hrun; simp at hrun
    | ok st2 =>
      obtain ⟨q2, s2⟩ := st2
      rw [hadd] at hrun
      obtain ⟨a1, a2, a3, a4⟩ := add_page_random_shape env x.1 x.2 M q q2 s s2 hlen hmax h0 hle hadd
      exact ih q2 s2 a1 a2 a3 a4 hrun

theorem init_random_shape (M : Nat) :
    (init_random (M : Int)).PAGES.adresses.length = M ∧
      (init_random (M : Int)).PAGES.max_pages = (M : Int) ∧
      0 ≤ (init_random (M : Int)).PAGES.alloc_idx ∧
      (init_random (M : Int)).PAGES.alloc_idx ≤ (init_random (M : Int)).PAGES.max_pages := by
  simp [init_random]

/-- With a hook that never exits, the adds of the Random policy all return. -/
theorem random_adds_returns {σ : Type} (env : EvictionHook σ)
    (htot : ∀ a s, ∃ s1, env.handle_page_eviction_to_swap a s = .ok s1)
    (l : List (Nat × Nat)) (q : RandomState) (s : σ) :
    ∃ q1 s1, random_adds env l (q, s) = .ok (q1, s1) := by
  induction l generalizing q s with
  | nil => exact ⟨_, _, rfl⟩
  | cons x l ih =>
    simp only [random_adds]
    by_cases hfull : q.PAGES.alloc_idx = q.PAGES.max_pages
    · obtain ⟨s2, hs2⟩ := offer_and_unmap_total env htot
        (q.PAGES.adresses.getD (Int.tmod (x.2 : Int) q.PAGES.max_pages).toNat 0) s
      simp only [add_page_random, hfull, if_true, free_page_random, hs2]
      exact ih _ _
    · rw [add_page_random_below env x.1 x.2 q s hfull]
      exact ih _ _

/-! ## Claims on the replacement policies -/

/-- C1: for `max_pages ≥ 1` and every sequence of adds from the initial state that returns,
the FIFO queue holds at most `max_pages` nodes, which `num_of_pages` counts, and the Random
array holds at most `max_pages` resident (non-NULL) addresses whatever `rand()` returned;
every initial part of a sequence is itself a sequence, so this is the state after each add.
The adds do return whenever the eviction hook does not exit. -/
theorem C1_resident_count_le_max_pages {σ : Type} (env : EvictionHook σ) (max_pages : Int)
    (hmax : 1 ≤ max_pages) (s0 : σ) :
    (∀ (addrs : List Nat) (q : FIFOState) (s : σ),
        fifo_adds env addrs (init_fifo max_pages, s0) = .ok (q, s) →
        (q.FIFO_QUEUE.pages.length : Int) ≤ max_pages ∧
          q.FIFO_QUEUE.num_of_pages = (q.FIFO_QUEUE.pages.length : Int)) ∧
    (∀ (adds : List (Nat × Nat)) (q : RandomState) (s : σ),
        random_adds env adds (init_random max_pages, s0) = .ok (q, s) →
        ((random_residents q).length : Int) ≤ max_pages) ∧
    ((∀ a s, ∃ s1, env.handle_page_eviction_to_swap a s = .ok s1) →
      (∀ addrs : List Nat, ∃ q s, fifo_adds env addrs (init_fifo max_pages, s0) = .ok (q, s)) ∧
      (∀ adds : List (Nat × Nat),
        ∃ q s, random_adds env adds (init_random max_pages, s0) = .ok (q, s))) := by
  obtain ⟨M, rfl⟩ : ∃ M : Nat, max_pages = (M : Int) := ⟨max_pages.toNat, by omega⟩
  have hM : 1 ≤ M := by omega
  refine ⟨?_, ?_, ?_⟩
  · intro addrs q s hrun
    rw [fifo_adds_init env M hM s0 addrs q s hrun]
    simp only [List.length_drop]
    constructor <;> omega
  · intro adds q s hrun
    obtain ⟨i1, i2, i3, i4⟩ := init_random_shape M
    obtain ⟨a1, _, _, _⟩ := random_adds_shape env M adds _ q s0 s i1 i2 i3 i4 hrun
    have := List.length_filter_le (fun a => decide (a ≠ 0)) q.PAGES.adresses
    unfold random_residents
    omega
  · intro htot
    exact ⟨fun addrs => fifo_adds_returns env htot M hM s0 addrs,
      fun adds => random_adds_returns env htot adds _ s0⟩

/-- C2: under FIFO with `max_pages ≥ 1`, after `n` adds that return `page_evictions_fifo()`
is `max(0, n - max_pages)`; the adds return whenever the eviction hook does not exit; and
three adds with `max_pages = 4` return with 0 evictions. -/
theorem C2_fifo_evictions_count {σ : Type} (env : EvictionHook σ) (max_pages : Int)
    (hmax : 1 ≤ max_pages) (s0 : σ) :
    (∀ (addrs : List Nat) (q : FIFOState) (s : σ),
        fifo_adds env addrs (init_fifo max_pages, s0) = .ok (q, s) →
        page_evictions_fifo q = max 0 ((addrs.length : Int) - max_pages)) ∧
    ((∀ a s, ∃ s1, env.handle_page_eviction_to_swap a s = .ok s1) →
      ∀ addrs : List Nat, ∃ q s, fifo_adds env addrs (init_fifo max_pages, s0) = .ok (q, s)) ∧
    (∀ a b c : Nat, ∃ q s, fifo_adds env [a, b, c] (init_fifo 4, s0) = .ok (q, s) ∧
        page_evictions_fifo q = 0) := by
  obtain ⟨M, rfl⟩ : ∃ M : Nat, max_pages = (M : Int) := ⟨max_pages.toNat, by omega⟩
  have hM : 1 ≤ M := by omega
  refine ⟨?_, ?_, ?_⟩
  · intro addrs q s hrun
    rw [fifo_adds_init env M hM s0 addrs q s hrun]
    simp only [page_evictions_fifo]
    omega
  · intro htot addrs
    exact fifo_adds_returns env htot M hM s0 addrs
  · intro a b c
    refine ⟨{ FIFO_QUEUE := { pages := [a, b, c], num_of_pages := 3, max_pages := 4 }
              PAGE_EVICTIONS_FIFO := 0 }, s0, ?_, rfl⟩
    simp only [fifo_adds]
    rw [add_page_fifo_below env a _ s0 (by simp [init_fifo])]
    simp only []
    rw [add_page_fifo_below env b _ s0 (by simp [init_fifo])]
    simp only []
    rw [add_page_fifo_below env c _ s0 (by simp [init_fifo])]
    simp [init_fifo]

/-- C3: under FIFO with `max_pages ≥ 1`, after the adds `a1..an` (distinct or not) have
returned, the queue from head to tail is the last `min(n, max_pages)` of them in the order
they were added; and when the queue is full (`n ≥ max_pages`) a further add of `a` frees the
head node `h` and no other (`h` is offered to the hook and unmapped, unless it is NULL),
counts one eviction, and leaves the rest of the queue followed by `a`. -/
theorem C3_fifo_insertion_order {σ : Type} (env : EvictionHook σ) (max_pages : Int)
    (hmax : 1 ≤ max_pages) (s0 : σ) (addrs : List Nat) (q : FIFOState) (s : σ)
    (hrun : fifo_adds env addrs (init_fifo max_pages, s0) = .ok (q, s)) :
    q.FIFO_QUEUE.pages = addrs.drop (addrs.length - min addrs.length max_pages.toNat) ∧
    (max_pages ≤ (addrs.length : Int) →
      ∃ (h : Nat) (t : List Nat), q.FIFO_QUEUE.pages = h :: t ∧
        ∀ a : Nat, add_page_fifo env a (q, s) =
          match offer_and_unmap env h s with
          | .error e =>
            .error (e.1, ({ FIFO_QUEUE := { pages := t
                                            num_of_pages := max_pages
                                            max_pages := max_pages }
                            PAGE_EVICTIONS_FIFO := q.PAGE_EVICTIONS_FIFO }, e.2))
          | .ok s1 =>
            .ok ({ FIFO_QUEUE := { pages := t ++ [a]
                                   num_of_pages := max_pages
                                   max_pages := max_pages }
                   PAGE_EVICTIONS_FIFO := q.PAGE_EVICTIONS_FIFO + 1 }, s1)) := by
  obtain ⟨M, rfl⟩ : ∃ M : Nat, max_pages = (M : Int) := ⟨max_pages.toNat, by omega⟩
  have hM : 1 ≤ M := by omega
  have hq := fifo_adds_init env M hM s0 addrs q s hrun
  constructor
  · rw [hq]
    simp only [Int.toNat_ofNat]
    congr 1
    omega
  · intro hfull
    have hge : M ≤ addrs.length := by omega
    have hlen : (addrs.drop (addrs.length - M)).length = M := by
      rw [List.length_drop]; omega
    cases hd : addrs.drop (addrs.length - M) with
    | nil => rw [hd] at hlen; simp at hlen; omega
    | cons h t =>
      refine ⟨h, t, by rw [hq]; exact hd, ?_⟩
      intro a
      have e3 : min addrs.length M = M := by omega
      have hf := add_page_fifo_full env a q s h t (by rw [hq]; exact hd)
        (by rw [hq]; simp [e3]) (by rw [hq]; simp; omega)
      rw [hf]
      simp only [free_page_fifo]
      rw [hq]

theorem C1_resident_count_le_max_pages_witness :
    (1 : Int) ≤ 2 ∧
    fifo_adds idleHook [4096, 8192, 12288] (init_fifo 2, ()) =
      .ok ({ FIFO_QUEUE := { pages := [8192, 12288], num_of_pages := 2, max_pages := 2 }
             PAGE_EVICTIONS_FIFO := 1 }, ()) ∧
    (∀ (q : FIFOState) (s : Unit),
      fifo_adds idleHook [4096, 8192, 12288] (init_fifo 2, ()) = .ok (q, s) →
      (q.FIFO_QUEUE.pages.length : Int) ≤ 2 ∧
        q.FIFO_QUEUE.num_of_pages = (q.FIFO_QUEUE.pages.length : Int)) :=
  ⟨by decide, rfl,
    (C1_resident_count_le_max_pages idleHook 2 (by decide) ()).1 [4096, 8192, 12288]⟩

theorem C2_fifo_evictions_count_witness :
    (1 : Int) ≤ 2 ∧
    (∀ (q : FIFOState) (s : Unit),
      fifo_adds idleHook [4096, 8192, 12288] (init_fifo 2, ()) = .ok (q, s) →
      page_evictions_fifo q = max 0 ((([4096, 8192, 12288] : List Nat).length : Int) - 2)) :=
  ⟨by decide, (C2_fifo_evictions_count idleHook 2 (by decide) ()).1 [4096, 8192, 12288]⟩

theorem C3_fifo_insertion_order_witness :
    (1 : Int) ≤ 2 ∧
    fifo_adds idleHook [4096, 8192, 12288] (init_fifo 2, ()) =
      .ok ({ FIFO_QUEUE := { pages := [8192, 12288], num_of_pages := 2, max_pages := 2 }
             PAGE_EVICTIONS_FIFO := 1 }, ()) ∧
    ([8192, 12288] : List Nat) =
      ([4096, 8192, 12288] : List Nat).drop
        (([4096, 8192, 12288] : List Nat).length
          - min ([4096, 8192, 12288] : List Nat).length (2 : Int).toNat) :=
  ⟨by decide, rfl,
    (C3_fifo_insertion_order idleHook 2 (by decide) () [4096, 8192, 12288]
      { FIFO_QUEUE := { pages := [8192, 12288], num_of_pages := 2, max_pages := 2 }
        PAGE_EVICTIONS_FIFO := 1 } () rfl).1⟩

/-- The result of the lookup loop: either no header from here on contains `fa` and the result
is -1, or the result is the index of the first header that contains it. -/
theorem find_segment_of_fault_from_spec (w fa : Nat) (l : List Elf32_Phdr) (i : Int) :
    (find_segment_of_fault_from w fa l i = -1 ∧
      ∀ s ∈ l, ¬ (s.p_vaddr ≤ fa ∧ fa < ulong_add w s.p_vaddr s.p_memsz)) ∨
    (∃ k : Nat, k < l.length ∧ find_segment_of_fault_from w fa l i = i + (k : Int) ∧
      ((l.getD k default).p_vaddr ≤ fa ∧
        fa < ulong_add w (l.getD k default).p_vaddr (l.getD k default).p_memsz) ∧
      ∀ j : Nat, j < k →
        ¬ ((l.getD j default).p_vaddr ≤ fa ∧
          fa < ulong_add w (l.getD j default).p_vaddr (l.getD j default).p_memsz)) := by
  induction l generalizing i with
  | nil => left; simp [find_segment_of_fault_from]
  | cons seg rest ih =>
    by_cases hhit : seg.p_vaddr ≤ fa ∧ fa < ulong_add w seg.p_vaddr seg.p_memsz
    · right
      refine ⟨0, by simp, by simp [find_segment_of_fault_from, hhit], by simpa using hhit, ?_⟩
      intro j hj; omega
    · rcases ih (i + 1) with ⟨h1, h2⟩ | ⟨k, hk, h1, h2, h3⟩
      · left
        refine ⟨by simp only [find_segment_of_fault_from, hhit, if_false]; exact h1, ?_⟩
        intro s hs
        rcases List.mem_cons.mp hs with rfl | hs
        · exact hhit
        · exact h2 s hs
      · right
        refine ⟨k + 1, by simp; omega, ?_, by simpa using h2, ?_⟩
        · simp only [find_segment_of_fault_from, hhit, if_false, h1]
          push_cast; ring
        · intro j hj
          cases j with
          | zero => simpa using hhit
          | succ j => simpa using h3 j (by omega)

theorem getD_mem_of_lt {α : Type} [Inhabited α] (l : List α) (k : Nat) (hk : k < l.length) :
    l.getD k default ∈ l := by
  rw [List.getD_eq_getElem _ _ hk]
  exact List.getElem_mem hk

theorem collect_load_headers_eq_filter (table : List Elf32_Phdr) :
    collect_load_headers table = table.filter (fun ph => decide (ph.p_type = PT_LOAD)) := by
  induction table with
  | nil => rfl
  | cons ph rest ih =>
    simp only [collect_load_headers, List.filter_cons]
    by_cases h : ph.p_type = PT_LOAD
    · simp [h, ih]
    · simp [h, ih]

/-- The lookup returns -1 or the index of a header of the array. -/
theorem find_segment_of_fault_range (w : Nat) (segs : List Elf32_Phdr) (fa : Nat) :
    find_segment_of_fault w segs fa = -1 ∨
      ∃ k : Nat, k < segs.length ∧ find_segment_of_fault w segs fa = (k : Int) := by
  rcases find_segment_of_fault_from_spec w fa segs 0 with ⟨h1, _⟩ | ⟨k, hk, h1, _, _⟩
  · exact Or.inl h1
  · exact Or.inr ⟨k, hk, by simpa [find_segment_of_fault] using h1⟩

/-- A header found by the lookup contains the address, also as a range of numbers. -/
theorem find_segment_of_fault_hit (w : Nat) (segs : List Elf32_Phdr) (fa k : Nat)
    (h : find_segment_of_fault w segs fa = (k : Int)) :
    k < segs.length ∧ (segs.getD k default).p_vaddr ≤ fa ∧
      fa < ulong_add w (segs.getD k default).p_vaddr (segs.getD k default).p_memsz ∧
      fa < (segs.getD k default).p_vaddr + (segs.getD k default).p_memsz := by
  rcases find_segment_of_fault_from_spec w fa segs 0 with ⟨h1, _⟩ | ⟨k2, hk, h1, h2, _⟩
  · unfold find_segment_of_fault at h; omega
  · unfold find_segment_of_fault at h
    have : k2 = k := by omega
    subst this
    refine ⟨hk, h2.1, h2.2, lt_of_lt_of_le h2.2 ?_⟩
    unfold ulong_add
    exact Nat.mod_le _ _

theorem page_start_of_facts (fa : Nat) :
    page_start_of fa % 4096 = 0 ∧ page_start_of fa ≤ fa ∧ fa < page_start_of fa + 4096 := by
  unfold page_start_of PAGE_SIZE_IN_BYTES
  omega

/-- C10, as amended: when no segment end `vaddr + memsz` leaves the range of `unsigned long`,
`find_segment_of_fault` returns the index `k` exactly when `k` is the smallest index, in the
order of the array, with `vaddr_k ≤ fa < vaddr_k + memsz_k`, and returns -1 exactly when no
segment contains `fa`; it always returns one of the two. The array holds the `PT_LOAD`
headers in the order of the program header table of the file. In the -1 case the fault
handler exits with status 1, and the state at exit differs from the state at entry only by
the incremented `PAGE_FAULTS`: no page was mapped and no policy touched. -/
theorem C10_find_segment_of_fault (env : LoaderEnv) (fa : Nat)
    (hnw : ∀ s ∈ env.PHDRS_OF_SEGMENTS_TO_LOAD, s.p_vaddr + s.p_memsz < 2 ^ env.ulong_bits) :
    (∀ k : Nat, find_segment_of_fault env.ulong_bits env.PHDRS_OF_SEGMENTS_TO_LOAD fa = (k : Int) ↔
      (k < env.PHDRS_OF_SEGMENTS_TO_LOAD.length ∧
        ((env.PHDRS_OF_SEGMENTS_TO_LOAD.getD k default).p_vaddr ≤ fa ∧
          fa < (env.PHDRS_OF_SEGMENTS_TO_LOAD.getD k default).p_vaddr
                + (env.PHDRS_OF_SEGMENTS_TO_LOAD.getD k default).p_memsz) ∧
        ∀ j : Nat, j < k →
          ¬ ((env.PHDRS_OF_SEGMENTS_TO_LOAD.getD j default).p_vaddr ≤ fa ∧
            fa < (env.PHDRS_OF_SEGMENTS_TO_LOAD.getD j default).p_vaddr
                  + (env.PHDRS_OF_SEGMENTS_TO_LOAD.getD j default).p_memsz))) ∧
    (find_segment_of_fault env.ulong_bits env.PHDRS_OF_SEGMENTS_TO_LOAD fa = -1 ↔
      ∀ s ∈ env.PHDRS_OF_SEGMENTS_TO_LOAD, ¬ (s.p_vaddr ≤ fa ∧ fa < s.p_vaddr + s.p_memsz)) ∧
    (find_segment_of_fault env.ulong_bits env.PHDRS_OF_SEGMENTS_TO_LOAD fa = -1 ∨
      ∃ k : Nat, k < env.PHDRS_OF_SEGMENTS_TO_LOAD.length ∧
        find_segment_of_fault env.ulong_bits env.PHDRS_OF_SEGMENTS_TO_LOAD fa = (k : Int)) ∧
    (∀ table : List Elf32_Phdr, env.PHDRS_OF_SEGMENTS_TO_LOAD = collect_load_headers table →
      List.Sublist env.PHDRS_OF_SEGMENTS_TO_LOAD table ∧
      ∀ ph : Elf32_Phdr, ph ∈ env.PHDRS_OF_SEGMENTS_TO_LOAD ↔ (ph ∈ table ∧ ph.p_type = PT_LOAD)) ∧
    (find_segment_of_fault env.ulong_bits env.PHDRS_OF_SEGMENTS_TO_LOAD fa = -1 →
      ∀ (rnd : Nat) (st : LoaderState),
        segfault_handler env fa rnd st =
          .error (.exit 1, { st with PAGE_FAULTS := st.PAGE_FAULTS + 1 })) := by
  have hadd : ∀ s ∈ env.PHDRS_OF_SEGMENTS_TO_LOAD,
      ulong_add env.ulong_bits s.p_vaddr s.p_memsz = s.p_vaddr + s.p_memsz := by
    intro s hs
    exact Nat.mod_eq_of_lt (hnw s hs)
  have hspec := find_segment_of_fault_from_spec env.ulong_bits fa env.PHDRS_OF_SEGMENTS_TO_LOAD 0
  have horder : ∀ table : List Elf32_Phdr,
      env.PHDRS_OF_SEGMENTS_TO_LOAD = collect_load_headers table →
      List.Sublist env.PHDRS_OF_SEGMENTS_TO_LOAD table ∧
      ∀ ph : Elf32_Phdr,
        ph ∈ env.PHDRS_OF_SEGMENTS_TO_LOAD ↔ (ph ∈ table ∧ ph.p_type = PT_LOAD) := by
    intro table htab
    rw [htab, collect_load_headers_eq_filter]
    refine ⟨List.filter_sublist _, fun ph => ?_⟩
    simp [List.mem_filter]
  refine ⟨?_, ?_, find_segment_of_fault_range _ _ _, horder, ?_⟩
  · intro k
    unfold find_segment_of_fault
    constructor
    · intro hk
      rcases hspec with ⟨h1, _⟩ | ⟨k2, hk2, h1, h2, h3⟩
      · omega
      · have : k2 = k := by omega
        subst this
        have hm := getD_mem_of_lt env.PHDRS_OF_SEGMENTS_TO_LOAD k2 hk2
        refine ⟨hk2, ⟨h2.1, by rw [← hadd _ hm]; exact h2.2⟩, ?_⟩
        intro j hj hc
        have hmj := getD_mem_of_lt env.PHDRS_OF_SEGMENTS_TO_LOAD j (by omega)
        exact h3 j hj ⟨hc.1, by rw [hadd _ hmj]; exact hc.2⟩
    · rintro ⟨hk, hhit, hmin⟩
      have hm := getD_mem_of_lt env.PHDRS_OF_SEGMENTS_TO_LOAD k hk
      rcases hspec with ⟨_, h2⟩ | ⟨k2, hk2, h1, h2, h3⟩
      · exact absurd ⟨hhit.1, by rw [hadd _ hm]; exact hhit.2⟩ (h2 _ hm)
      · have hm2 := getD_mem_of_lt env.PHDRS_OF_SEGMENTS_TO_LOAD k2 hk2
        rcases Nat.lt_trichotomy k2 k with hlt | heq | hgt
        · exact absurd ⟨h2.1, by rw [← hadd _ hm2]; exact h2.2⟩ (hmin k2 hlt)
        · subst heq; simpa using h1
        · exact absurd ⟨hhit.1, by rw [hadd _ hm]; exact hhit.2⟩ (h3 k hgt)
  · unfold find_segment_of_fault
    constructor
    · intro hneg s hs hc
      rcases hspec with ⟨_, h2⟩ | ⟨k2, _, h1, _, _⟩
      · exact h2 s hs ⟨hc.1, by rw [hadd _ hs]; exact hc.2⟩
      · omega
    · intro hnone
      rcases hspec with ⟨h1, _⟩ | ⟨k2, hk2, _, h2, _⟩
      · exact h1
      · have hm2 := getD_mem_of_lt env.PHDRS_OF_SEGMENTS_TO_LOAD k2 hk2
        exact absurd ⟨h2.1, by rw [← hadd _ hm2]; exact h2.2⟩ (hnone _ hm2)
  · intro hneg rnd st
    simp [segfault_handler, hneg]

/-- C10 fails as stated: on 32-bit words, for the one segment with `p_vaddr` = 2^32 - 4096
and `p_memsz` = 8192, the address 2^32 - 2048 satisfies `vaddr ≤ fa < vaddr + memsz`, but the
end `vaddr + memsz` that the code computes in `unsigned long` is 4096, the test
`fa < seg_end` fails, and the lookup returns -1 although a segment contains the address. -/
theorem C10_counterexample :
    find_segment_of_fault topEnv.ulong_bits topEnv.PHDRS_OF_SEGMENTS_TO_LOAD 4294965248 = -1 ∧
    (∃ s ∈ topEnv.PHDRS_OF_SEGMENTS_TO_LOAD,
      s.p_vaddr ≤ 4294965248 ∧ 4294965248 < s.p_vaddr + s.p_memsz) ∧
    4294965248 < 2 ^ topEnv.ulong_bits ∧
    ulong_add topEnv.ulong_bits topSegment.p_vaddr topSegment.p_memsz = 4096 :=
  ⟨by decide, ⟨topSegment, List.mem_singleton.mpr rfl, by decide, by decide⟩, by decide,
    by decide⟩

/-! ## Files and memory -/

theorem file_pread_getElem? (file : List Nat) (off n j : Nat) :
    (file_pread file off n)[j]? = if j < n then file[off + j]? else none := by
  unfold file_pread
  rw [List.getElem?_take]
  split
  · rw [List.getElem?_drop]
  · rfl

theorem file_pwrite_head_length (file : List Nat) (off : Nat) :
    ((file ++ List.replicate (off - file.length) 0).take off).length = off := by
  simp only [List.length_take, List.length_append, List.length_replicate]
  omega

theorem file_pwrite_getElem?_before (file : List Nat) (off : Nat) (data : List Nat) (j : Nat)
    (h1 : j < off) (h2 : j < file.length) :
    (file_pwrite file off data)[j]? = file[j]? := by
  unfold file_pwrite
  rw [List.append_assoc, List.getElem?_append_left (by rw [file_pwrite_head_length]; exact h1),
    List.getElem?_take_of_lt h1, List.getElem?_append_left h2]

theorem file_pwrite_getElem?_data (file : List Nat) (off : Nat) (data : List Nat) (j : Nat)
    (h1 : j < data.length) :
    (file_pwrite file off data)[off + j]? = data[j]? := by
  unfold file_pwrite
  rw [List.append_assoc, List.getElem?_append_right (by rw [file_pwrite_head_length]; omega),
    file_pwrite_head_length, List.getElem?_append_left (by omega)]
  congr 1; omega

theorem file_pwrite_getElem?_after (file : List Nat) (off : Nat) (data : List Nat) (j : Nat)
    (h1 : off + data.length ≤ j) :
    (file_pwrite file off data)[j]? = file[j]? := by
  unfold file_pwrite
  rw [List.append_assoc, List.getElem?_append_right (by rw [file_pwrite_head_length]; omega),
    file_pwrite_head_length, List.getElem?_append_right (by omega), List.getElem?_drop]
  congr 1; omega

theorem file_pread_pwrite_same (file : List Nat) (off : Nat) (data : List Nat) :
    file_pread (file_pwrite file off data) off data.length = data := by
  apply List.ext_getElem?
  intro j
  rw [file_pread_getElem?]
  split
  · rename_i h; exact file_pwrite_getElem?_data file off data j h
  · rename_i h; rw [List.getElem?_eq_none (by omega)]

theorem file_pread_pwrite_other (file : List Nat) (off : Nat) (data : List Nat) (off2 n : Nat)
    (h : (off2 + n ≤ off ∧ off2 + n ≤ file.length) ∨ off + data.length ≤ off2) :
    file_pread (file_pwrite file off data) off2 n = file_pread file off2 n := by
  apply List.ext_getElem?
  intro j
  rw [file_pread_getElem?, file_pread_getElem?]
  split
  · rcases h with ⟨h1, h2⟩ | h1
    · exact file_pwrite_getElem?_before file off data _ (by omega) (by omega)
    · exact file_pwrite_getElem?_after file off data _ (by omega)
  · rfl

theorem file_pread_length (file : List Nat) (off n : Nat) :
    (file_pread file off n).length = min n (file.length - off) := by
  simp [file_pread]

theorem Memory.load_length (m : Memory) (a n : Nat) : (m.load a n).length = n := by
  simp [Memory.load]

theorem Memory.load_getElem? (m : Memory) (a n j : Nat) :
    (m.load a n)[j]? = if j < n then some (m.byte (a + j)) else none := by
  unfold Memory.load
  rw [List.getElem?_map]
  by_cases h : j < n
  · simp [h, List.getElem?_range h]
  · have hn : (List.range n)[j]? = none := List.getElem?_eq_none (by simp; omega)
    simp [h, hn]

theorem Memory.load_store_same (m : Memory) (a : Nat) (d : List Nat) :
    (m.store a d).load a d.length = d := by
  apply List.ext_getElem?
  intro j
  rw [Memory.load_getElem?]
  by_cases h : j < d.length
  · have h2 : a ≤ a + j ∧ a + j < a + d.length := ⟨by omega, by omega⟩
    simp only [h, if_true, Memory.store, h2, and_self]
    rw [List.getD_eq_getElem?_getD]
    have : a + j - a = j := by omega
    rw [this, List.getElem?_eq_getElem h]
    rfl
  · simp only [h, if_false]
    rw [List.getElem?_eq_none (by omega)]

theorem Memory.accessible_iff (m : Memory) (a n : Nat) :
    m.accessible a n = true ↔ ∀ i : Nat, i < n → m.mapped (a + i) = true := by
  simp [Memory.accessible, List.all_eq_true]

theorem Memory.accessible_mmap_fixed (m : Memory) (p : Nat) :
    (m.mmap_fixed p).accessible p PAGE_SIZE_IN_BYTES = true := by
  rw [Memory.accessible_iff]
  intro i hi
  have : p ≤ p + i ∧ p + i < p + PAGE_SIZE_IN_BYTES := ⟨by omega, by omega⟩
  simp [Memory.mmap_fixed, this]

/-! ## The slot search of the swap store -/

theorem wrap_int_of_range (x : Int) (hlo : -2147483648 ≤ x) (hhi : x ≤ 2147483647) :
    wrap_int x = x := by
  unfold wrap_int
  omega

/-- The offset of a slot below 524288 = 2^31 / 4096 fits an `int`. -/
theorem slot_offset_of_lt (k : Nat) (hk : k < 524288) :
    slot_offset k = (k : Int) * (PAGE_SIZE_IN_BYTES : Int) := by
  have hP : (PAGE_SIZE_IN_BYTES : Int) = 4096 := rfl
  unfold slot_offset
  rw [hP]
  exact wrap_int_of_range _ (by omega) (by omega)

theorem slot_offset_toNat (k : Nat) (hk : k < 524288) :
    (slot_offset k).toNat = k * PAGE_SIZE_IN_BYTES := by
  rw [slot_offset_of_lt k hk, ← Int.natCast_mul]
  exact Int.toNat_ofNat _

/-- Among the first 2^20 slots, those whose offset is not negative are the first 2^19. -/
theorem slot_offset_nonneg_lt (k : Nat) (hk : k < 1048576) (h0 : 0 ≤ slot_offset k) :
    k < 524288 := by
  have hPi : (PAGE_SIZE_IN_BYTES : Int) = 4096 := rfl
  unfold slot_offset wrap_int at h0
  rw [hPi] at h0
  omega

/-- In a table of at most 2^20 slots, two different slots whose offsets are not negative
have pages of the file that do not overlap. -/
theorem slot_offset_apart (i k : Nat) (hi : i < 1048576) (hk : k < 1048576) (hne : k ≠ i)
    (h0i : 0 ≤ slot_offset i) (h0k : 0 ≤ slot_offset k) :
    (slot_offset k).toNat + PAGE_SIZE_IN_BYTES ≤ (slot_offset i).toNat ∨
      (slot_offset i).toNat + PAGE_SIZE_IN_BYTES ≤ (slot_offset k).toNat := by
  have hP : PAGE_SIZE_IN_BYTES = 4096 := rfl
  rw [slot_offset_toNat i (slot_offset_nonneg_lt i hi h0i),
    slot_offset_toNat k (slot_offset_nonneg_lt k hk h0k), hP]
  omega

theorem find_swap_slot_spec (a : Nat) (l : List SwapEntry) (i slot : Int) (hi : 0 ≤ i) :
    (∃ k : Nat, k < l.length ∧ find_swap_slot a l i slot = i + (k : Int) ∧
        ((l.getD k default).is_active ≠ 0 ∧ (l.getD k default).vaddr = a) ∧
        ∀ j : Nat, j < k →
          ¬ ((l.getD j default).is_active ≠ 0 ∧ (l.getD j default).vaddr = a)) ∨
    ((∀ e ∈ l, ¬ (e.is_active ≠ 0 ∧ e.vaddr = a)) ∧
      ((slot ≠ -1 ∧ find_swap_slot a l i slot = slot) ∨
        (slot = -1 ∧
          ((∃ k : Nat, k < l.length ∧ find_swap_slot a l i slot = i + (k : Int) ∧
              (l.getD k default).is_active = 0 ∧
              ∀ j : Nat, j < k → (l.getD j default).is_active ≠ 0) ∨
            (find_swap_slot a l i slot = -1 ∧ ∀ e ∈ l, e.is_active ≠ 0))))) := by
  induction l generalizing i slot with
  | nil =>
    right
    refine ⟨by simp, ?_⟩
    by_cases hs : slot = -1
    · right; exact ⟨hs, Or.inr ⟨by simp [find_swap_slot, hs], by simp⟩⟩
    · left; exact ⟨hs, by simp [find_swap_slot]⟩
  | cons e rest ih =>
    by_cases hm : e.is_active ≠ 0 ∧ e.vaddr = a
    · left
      refine ⟨0, by simp, by simp [find_swap_slot, hm], by simpa using hm, ?_⟩
      intro j hj; omega
    · by_cases hin : e.is_active = 0 ∧ slot = -1
      · have hstep : find_swap_slot a (e :: rest) i slot = find_swap_slot a rest (i + 1) i := by
          simp only [find_swap_slot]
          rw [if_neg hm, if_pos hin]
        rcases ih (i + 1) i (by omega) with ⟨k, hk, h1, h2, h3⟩ | ⟨hno, hcase⟩
        · left
          refine ⟨k + 1, by simp; omega, by rw [hstep, h1]; push_cast; ring, by simpa using h2, ?_⟩
          intro j hj
          cases j with
          | zero => simpa using hm
          | succ j => simpa using h3 j (by omega)
        · right
          refine ⟨?_, Or.inr ⟨hin.2, Or.inl ⟨0, by simp, ?_, by simpa using hin.1, ?_⟩⟩⟩
          · intro x hx
            rcases List.mem_cons.mp hx with rfl | hx
            · exact hm
            · exact hno x hx
          · rcases hcase with ⟨_, h⟩ | ⟨h, _⟩
            · rw [hstep, h]; simp
            · omega
          · intro j hj; omega
      · have hstep : find_swap_slot a (e :: rest) i slot = find_swap_slot a rest (i + 1) slot := by
          simp only [find_swap_slot]
          rw [if_neg hm, if_neg hin]
        rcases ih (i + 1) slot (by omega) with ⟨k, hk, h1, h2, h3⟩ | ⟨hno, hcase⟩
        · left
          refine ⟨k + 1, by simp; omega, by rw [hstep, h1]; push_cast; ring, by simpa using h2, ?_⟩
          intro j hj
          cases j with
          | zero => simpa using hm
          | succ j => simpa using h3 j (by omega)
        · right
          refine ⟨?_, ?_⟩
          · intro x hx
            rcases List.mem_cons.mp hx with rfl | hx
            · exact hm
            · exact hno x hx
          · rcases hcase with ⟨hs, h⟩ | ⟨hs, hrest⟩
            · left; exact ⟨hs, by rw [hstep, h]⟩
            · right
              have hact : e.is_active ≠ 0 := fun h0 => hin ⟨h0, hs⟩
              refine ⟨hs, ?_⟩
              rcases hrest with ⟨k, hk, h1, h2, h3⟩ | ⟨h1, h2⟩
              · left
                refine ⟨k + 1, by simp; omega, by rw [hstep, h1]; push_cast; ring,
                  by simpa using h2, ?_⟩
                intro j hj
                cases j with
                | zero => simpa using hact
                | succ j => simpa using h3 j (by omega)
              · right
                refine ⟨by rw [hstep, h1], ?_⟩
                intro x hx
                rcases List.mem_cons.mp hx with rfl | hx
                · exact hact
                · exact h2 x hx

/-- The slot chosen for `a` in a whole table: none (-1) when every entry is active under
another key; else the first active entry keyed by `a`; else the first inactive entry. -/
theorem find_swap_slot_top (a : Nat) (l : List SwapEntry) :
    (find_swap_slot a l 0 (-1) = -1 ∧ ∀ e ∈ l, e.is_active ≠ 0 ∧ ¬ e.vaddr = a) ∨
    (∃ k : Nat, k < l.length ∧ find_swap_slot a l 0 (-1) = (k : Int) ∧
      (∀ j : Nat, j < k →
        ¬ ((l.getD j default).is_active ≠ 0 ∧ (l.getD j default).vaddr = a)) ∧
      (((l.getD k default).is_active ≠ 0 ∧ (l.getD k default).vaddr = a) ∨
        ((l.getD k default).is_active = 0 ∧
          (∀ e ∈ l, ¬ (e.is_active ≠ 0 ∧ e.vaddr = a)) ∧
          ∀ j : Nat, j < k → (l.getD j default).is_active ≠ 0))) := by
  rcases find_swap_slot_spec a l 0 (-1) (le_refl _) with
    ⟨k, hk, h1, h2, h3⟩ | ⟨hno, ⟨hs, _⟩ | ⟨_, ⟨k, hk, h1, h2, h3⟩ | ⟨h1, h2⟩⟩⟩
  · right; exact ⟨k, hk, by simpa using h1, h3, Or.inl h2⟩
  · exact absurd rfl hs
  · right
    refine ⟨k, hk, by simpa using h1, ?_, Or.inr ⟨h2, hno, h3⟩⟩
    intro j hj
    exact hno _ (getD_mem_of_lt l j (by omega))
  · left
    refine ⟨h1, fun e he => ⟨h2 e he, fun hv => hno e he ⟨h2 e he, hv⟩⟩⟩

/-! ## Eviction to swap and reload -/

/-- A page whose owning segment lacks `PF_W` is not stored: the call returns the state
it was given. -/
theorem handle_page_eviction_to_swap_read_only (w : Nat) (segs : List Elf32_Phdr) (a : Nat)
    (st : World) (hfound : find_segment_of_fault w segs a ≠ -1)
    (hro : Nat.land (segs.getD (find_segment_of_fault w segs a).toNat default).p_flags PF_W = 0) :
    handle_page_eviction_to_swap w segs a st = .ok st := by
  simp only [handle_page_eviction_to_swap]
  rw [if_pos ⟨hfound, hro⟩]

/-- The effect of a call that stores the page: slot `k` of the search is rewritten and the
page is written at the offset computed for slot `k`, which is not negative. -/
theorem handle_page_eviction_to_swap_stores (w : Nat) (segs : List Elf32_Phdr) (a : Nat)
    (st st1 : World)
    (hrw : ¬ (find_segment_of_fault w segs a ≠ -1 ∧
      Nat.land (segs.getD (find_segment_of_fault w segs a).toNat default).p_flags PF_W = 0))
    (hev : handle_page_eviction_to_swap w segs a st = .ok st1) :
    ∃ k : Nat, k < st.swap.SWAP_TABLE.length ∧
      find_swap_slot a st.swap.SWAP_TABLE 0 (-1) = (k : Int) ∧
      st.mem.accessible a PAGE_SIZE_IN_BYTES = true ∧
      0 ≤ slot_offset k ∧
      st1 = { swap := { SWAP_TABLE := st.swap.SWAP_TABLE.set k
                          { vaddr := a, swap_offset := slot_offset k, is_active := 1 }
                        swap_img := file_pwrite st.swap.swap_img (slot_offset k).toNat
                          (st.mem.load a PAGE_SIZE_IN_BYTES) }
              mem := st.mem } := by
  simp only [handle_page_eviction_to_swap] at hev
  rw [if_neg hrw] at hev
  rcases find_swap_slot_top a st.swap.SWAP_TABLE with ⟨h1, _⟩ | ⟨k, hk, h1, _, _⟩
  · rw [h1] at hev; simp at hev
  · rw [h1] at hev
    have hk1 : ¬ ((k : Int) = -1) := by omega
    rw [if_neg hk1] at hev
    by_cases hoff : wrap_int ((k : Int) * (PAGE_SIZE_IN_BYTES : Int)) < 0
    · rw [if_pos hoff] at hev; simp at hev
    · rw [if_neg hoff] at hev
      by_cases hacc : st.mem.accessible a PAGE_SIZE_IN_BYTES = true
      · refine ⟨k, hk, h1, hacc, by unfold slot_offset; omega, ?_⟩
        simp only [hacc, not_true_eq_false, if_false, Except.ok.injEq] at hev
        rw [← hev]
        simp only [Int.toNat_ofNat, slot_offset]
      · simp [hacc] at hev

/-- A call that returns keeps the number of slots. -/
theorem handle_page_eviction_to_swap_length (w : Nat) (segs : List Elf32_Phdr) (a : Nat)
    (st st1 : World) (hev : handle_page_eviction_to_swap w segs a st = .ok st1) :
    st1.swap.SWAP_TABLE.length = st.swap.SWAP_TABLE.length := by
  by_cases hro : find_segment_of_fault w segs a ≠ -1 ∧
      Nat.land (segs.getD (find_segment_of_fault w segs a).toNat default).p_flags PF_W = 0
  · rw [handle_page_eviction_to_swap_read_only w segs a st hro.1 hro.2] at hev
    simp only [Except.ok.injEq] at hev
    rw [← hev]
  · obtain ⟨k, _, _, _, _, rfl⟩ := handle_page_eviction_to_swap_stores w segs a st st1 hro hev
    simp

/-- After a call that stores the page of `a`, the store holds the page as it was in memory. -/
theorem handle_page_eviction_to_swap_holds (w : Nat) (segs : List Elf32_Phdr) (a : Nat)
    (st st1 : World)
    (hrw : ¬ (find_segment_of_fault w segs a ≠ -1 ∧
      Nat.land (segs.getD (find_segment_of_fault w segs a).toNat default).p_flags PF_W = 0))
    (hev : handle_page_eviction_to_swap w segs a st = .ok st1) :
    st1.swap.holds a (st.mem.load a PAGE_SIZE_IN_BYTES) := by
  obtain ⟨k, hk, hslot, _, h0, rfl⟩ := handle_page_eviction_to_swap_stores w segs a st st1 hrw hev
  rcases find_swap_slot_top a st.swap.SWAP_TABLE with ⟨h1, _⟩ | ⟨k2, _, h1, hbefore, _⟩
  · omega
  · have hkk : k2 = k := by omega
    subst hkk
    refine ⟨k2, by simpa using hk, ?_, ?_, h0, ?_, Memory.load_length _ _ _⟩
    · simp only [List.getD_eq_getElem?_getD, List.getElem?_set, if_true, hk]
      rfl
    · intro j hj
      have hne : ¬ k2 = j := by omega
      simpa only [List.getD_eq_getElem?_getD, List.getElem?_set, hne, if_false] using hbefore j hj
    · have := file_pread_pwrite_same st.swap.swap_img (slot_offset k2).toNat
        (st.mem.load a PAGE_SIZE_IN_BYTES)
      rw [Memory.load_length] at this
      exact this

/-- A run of calls that returns keeps the number of slots. -/
theorem swap_evictions_length (w : Nat) (segs : List Elf32_Phdr)
    (steps : List (Nat × Memory)) (st st1 : World)
    (hrun : swap_evictions w segs steps st = .ok st1) :
    st1.swap.SWAP_TABLE.length = st.swap.SWAP_TABLE.length := by
  induction steps generalizing st with
  | nil =>
    simp only [swap_evictions, Except.ok.injEq] at hrun
    rw [← hrun]
  | cons x rest ih =>
    simp only [swap_evictions] at hrun
    cases hev : handle_page_eviction_to_swap w segs x.1 { st with mem := x.2 } with
    | error e => rw [hev] at hrun; simp at hrun
    | ok st2 =>
      rw [hev] at hrun
      rw [ih st2 hrun, handle_page_eviction_to_swap_length w segs x.1 _ st2 hev]

/-- The scan of `load_from_swap_if_exists` stops at the first active entry keyed by `a`. -/
theorem load_from_swap_scan_first (a : Nat) (st : World) (l : List SwapEntry) (i : Nat)
    (hi : i < l.length)
    (hmatch : (l.getD i default).is_active ≠ 0 ∧ (l.getD i default).vaddr = a)
    (hfirst : ∀ j : Nat, j < i →
      ¬ ((l.getD j default).is_active ≠ 0 ∧ (l.getD j default).vaddr = a)) :
    load_from_swap_scan a st l = load_from_swap_scan a st [l.getD i default] := by
  induction l generalizing i with
  | nil => simp at hi
  | cons e rest ih =>
    cases i with
    | zero => simp only [List.getD_cons_zero] at hmatch ⊢; simp [load_from_swap_scan, hmatch]
    | succ i =>
      have h0 := hfirst 0 (by omega)
      simp only [List.getD_cons_zero] at h0
      simp only [List.getD_cons_succ] at hmatch ⊢
      have hrec := ih i (by simpa using hi) hmatch
        (fun j hj => by simpa using hfirst (j + 1) (by omega))
      rw [← hrec]
      simp only [load_from_swap_scan]
      rw [if_neg h0]

/-- When the store holds `c` for `a` and the page of `a` is mapped, the reload returns 1 and
copies `c` into the page. -/
theorem load_from_swap_if_exists_holds (a : Nat) (c : List Nat) (st : World)
    (hold : st.swap.holds a c) (hacc : st.mem.accessible a PAGE_SIZE_IN_BYTES = true) :
    load_from_swap_if_exists a st = .ok (1, { st with mem := st.mem.store a c }) := by
  obtain ⟨i, hi, hentry, hfirst, h0, hfile, hlen⟩ := hold
  unfold load_from_swap_if_exists
  rw [load_from_swap_scan_first a st st.swap.SWAP_TABLE i hi (by rw [hentry]; simp) hfirst,
    hentry]
  have hoff : ¬ (slot_offset i < 0) := by omega
  simp only [load_from_swap_scan, ne_eq, one_ne_zero, not_false_eq_true, and_self, if_true,
    hoff, if_false, hacc, not_true_eq_false, hfile, hlen]

/-- A call that is not for a read-only page, finds slot `k` and a mapped page, returns. -/
theorem handle_page_eviction_to_swap_ok (w : Nat) (segs : List Elf32_Phdr) (a : Nat)
    (st : World)
    (hrw : ¬ (find_segment_of_fault w segs a ≠ -1 ∧
      Nat.land (segs.getD (find_segment_of_fault w segs a).toNat default).p_flags PF_W = 0))
    (k : Nat) (hslot : find_swap_slot a st.swap.SWAP_TABLE 0 (-1) = (k : Int))
    (hk : k < 524288)
    (hacc : st.mem.accessible a PAGE_SIZE_IN_BYTES = true) :
    handle_page_eviction_to_swap w segs a st =
      .ok { swap := { SWAP_TABLE := st.swap.SWAP_TABLE.set k
                        { vaddr := a
                          swap_offset := (k : Int) * (PAGE_SIZE_IN_BYTES : Int)
                          is_active := 1 }
                      swap_img := file_pwrite st.swap.swap_img (k * PAGE_SIZE_IN_BYTES)
                        (st.mem.load a PAGE_SIZE_IN_BYTES) }
            mem := st.mem } := by
  have hk1 : ¬ ((k : Int) = -1) := by omega
  have hk2 : ¬ ((k : Int) * (PAGE_SIZE_IN_BYTES : Int) < 0) := by
    have : (0 : Int) ≤ (k : Int) * (PAGE_SIZE_IN_BYTES : Int) := by positivity
    omega
  have e1 : ((k : Int) * (PAGE_SIZE_IN_BYTES : Int)).toNat = k * PAGE_SIZE_IN_BYTES := by
    rw [← Int.natCast_mul]; exact Int.toNat_ofNat _
  have hw := slot_offset_of_lt k hk
  unfold slot_offset at hw
  simp only [handle_page_eviction_to_swap]
  rw [if_neg hrw, hslot, hw, if_neg hk1, if_neg hk2]
  simp only [hacc, not_true_eq_false, if_false, Int.toNat_ofNat, e1]

theorem init_swap_system_table (max_pages : Int) :
    ∃ n : Nat, 1 ≤ n ∧ (init_swap_system max_pages).SWAP_TABLE =
      List.replicate n { vaddr := 0, swap_offset := 0, is_active := 0 } ∧
      (init_swap_system max_pages).swap_img = [] := by
  refine ⟨(if wrap_int (wrap_int max_pages * MAX_ENTRY_MULTIPLIER) < MIN_SWAP_ENTRIES
    then MIN_SWAP_ENTRIES
    else wrap_int (wrap_int max_pages * MAX_ENTRY_MULTIPLIER)).toNat, ?_, rfl, rfl⟩
  unfold MIN_SWAP_ENTRIES
  split <;> omega

/-- The number of slots when `5 * max_pages` fits an `int`. -/
theorem init_swap_system_length (max_pages : Int) (hpos : 0 < max_pages)
    (hfit : 5 * max_pages ≤ 2147483647) :
    ((init_swap_system max_pages).SWAP_TABLE.length : Int) = max (5 * max_pages) 1024 := by
  have h1 : wrap_int max_pages = max_pages := wrap_int_of_range _ (by omega) (by omega)
  have h2 : wrap_int (max_pages * 5) = max_pages * 5 := wrap_int_of_range _ (by omega) (by omega)
  simp only [init_swap_system, MAX_ENTRY_MULTIPLIER, MIN_SWAP_ENTRIES, h1, h2,
    List.length_replicate]
  split <;> omega

theorem init_swap_system_inactive (max_pages : Int) (a : Nat) :
    ∀ e ∈ (init_swap_system max_pages).SWAP_TABLE, ¬ (e.is_active ≠ 0 ∧ e.vaddr = a) := by
  intro e he
  obtain ⟨n, _, htab, _⟩ := init_swap_system_table max_pages
  rw [htab] at he
  rw [List.eq_of_mem_replicate he]
  simp

/-- In the initial table the search picks slot 0. -/
theorem find_swap_slot_init (a : Nat) (max_pages : Int) :
    find_swap_slot a (init_swap_system max_pages).SWAP_TABLE 0 (-1) = 0 := by
  obtain ⟨n, hn, htab, _⟩ := init_swap_system_table max_pages
  rw [htab]
  obtain ⟨m, rfl⟩ : ∃ m, n = m + 1 := ⟨n - 1, by omega⟩
  rcases find_swap_slot_spec a (List.replicate m { vaddr := 0, swap_offset := 0, is_active := 0 })
      1 0 (by omega) with ⟨k, hk, _, h2, _⟩ | ⟨_, ⟨_, h⟩ | ⟨h, _⟩⟩
  · exfalso
    have hmem := getD_mem_of_lt _ k hk
    rw [List.eq_of_mem_replicate hmem] at h2
    simp at h2
  · simp only [List.replicate_succ, find_swap_slot]
    simpa using h
  · omega

theorem patternMemory_accessible (a n : Nat) : patternMemory.accessible a n = true := by
  rw [Memory.accessible_iff]
  intro i _
  rfl

/-- The slot that the search chooses in a table whose active slots are all below 524288 is
at most 524288: it is an active slot, or the first inactive one, and slot 524288 itself is
not active. -/
theorem find_swap_slot_le (a : Nat) (table : List SwapEntry) (k : Nat)
    (hlow : active_below table) (hslot : find_swap_slot a table 0 (-1) = (k : Int)) :
    k < table.length ∧ k ≤ 524288 := by
  rcases find_swap_slot_top a table with ⟨h1, _⟩ | ⟨k2, hk2, h1, _, hc⟩
  · rw [h1] at hslot; omega
  · rw [h1] at hslot
    have hkk : k2 = k := by omega
    subst hkk
    refine ⟨hk2, ?_⟩
    rcases hc with ⟨hact, _⟩ | ⟨_, _, hbefore⟩
    · exact Nat.le_of_lt (hlow k2 hk2 hact)
    · by_contra hgt
      have h := hlow 524288 (by omega) (hbefore 524288 (by omega))
      omega

theorem slot_offset_524288 : slot_offset 524288 = -2147483648 := by decide

/-- A call that returns keeps the active slots below 524288: the offset of slot 524288 is
negative, so the call that chooses it exits. -/
theorem handle_page_eviction_to_swap_below (w : Nat) (segs : List Elf32_Phdr) (a : Nat)
    (st st1 : World) (hlow : active_below st.swap.SWAP_TABLE)
    (hev : handle_page_eviction_to_swap w segs a st = .ok st1) :
    active_below st1.swap.SWAP_TABLE := by
  by_cases hro : find_segment_of_fault w segs a ≠ -1 ∧
      Nat.land (segs.getD (find_segment_of_fault w segs a).toNat default).p_flags PF_W = 0
  · rw [handle_page_eviction_to_swap_read_only w segs a st hro.1 hro.2] at hev
    simp only [Except.ok.injEq] at hev
    rw [← hev]; exact hlow
  · obtain ⟨k, hk, hslot, _, h0k, rfl⟩ :=
      handle_page_eviction_to_swap_stores w segs a st st1 hro hev
    obtain ⟨_, hle⟩ := find_swap_slot_le a st.swap.SWAP_TABLE k hlow hslot
    have hklt : k < 524288 := by
      rcases Nat.lt_or_ge k 524288 with h | h
      · exact h
      · have hk5 : k = 524288 := by omega
        rw [hk5, slot_offset_524288] at h0k
        omega
    intro i hi hact
    simp only [List.length_set] at hi
    by_cases hki : k = i
    · omega
    · simp only [List.getD_eq_getElem?_getD, List.getElem?_set, hki, if_false] at hact
      exact hlow i hi (by simpa only [List.getD_eq_getElem?_getD] using hact)

theorem init_swap_system_below (max_pages : Int) :
    active_below (init_swap_system max_pages).SWAP_TABLE := by
  intro i hi hact
  have hmem := getD_mem_of_lt (init_swap_system max_pages).SWAP_TABLE i hi
  exact absurd ⟨hact, rfl⟩ (init_swap_system_inactive max_pages _ _ hmem)

/-- Every swap table that evictions build from the initial one has its active slots below
524288. -/
theorem swap_evictions_below (w : Nat) (segs : List Elf32_Phdr)
    (steps : List (Nat × Memory)) (st st1 : World) (hlow : active_below st.swap.SWAP_TABLE)
    (hrun : swap_evictions w segs steps st = .ok st1) :
    active_below st1.swap.SWAP_TABLE := by
  induction steps generalizing st with
  | nil =>
    simp only [swap_evictions, Except.ok.injEq] at hrun
    rw [← hrun]; exact hlow
  | cons x rest ih =>
    simp only [swap_evictions] at hrun
    cases hev : handle_page_eviction_to_swap w segs x.1 { st with mem := x.2 } with
    | error e => rw [hev] at hrun; simp at hrun
    | ok st2 =>
      rw [hev] at hrun
      have hlow2 : active_below ({ st with mem := x.2 } : World).swap.SWAP_TABLE := hlow
      exact ih st2
        (handle_page_eviction_to_swap_below w segs x.1 { st with mem := x.2 } st2 hlow2 hev)
        hrun

/-- A call for another address keeps what the store holds for `a`, in a table whose active
slots are below 524288: the slot of `a` and the slot written have pages of the file that do
not overlap. -/
theorem handle_page_eviction_to_swap_keeps (w : Nat) (segs : List Elf32_Phdr) (a b : Nat)
    (c : List Nat) (st st1 : World) (hab : b ≠ a)
    (hlow : active_below st.swap.SWAP_TABLE) (hold : st.swap.holds a c)
    (hev : handle_page_eviction_to_swap w segs b st = .ok st1) :
    st1.swap.holds a c := by
  by_cases hro : find_segment_of_fault w segs b ≠ -1 ∧
      Nat.land (segs.getD (find_segment_of_fault w segs b).toNat default).p_flags PF_W = 0
  · rw [handle_page_eviction_to_swap_read_only w segs b st hro.1 hro.2] at hev
    simp only [Except.ok.injEq] at hev
    rw [← hev]; exact hold
  · obtain ⟨k, hk, hslot, _, h0k, rfl⟩ :=
      handle_page_eviction_to_swap_stores w segs b st st1 hro hev
    obtain ⟨_, hkle⟩ := find_swap_slot_le b st.swap.SWAP_TABLE k hlow hslot
    obtain ⟨i, hi, hentry, hfirst, h0i, hfile, hlen⟩ := hold
    have hilt : i < 524288 := hlow i hi (by rw [hentry]; simp)
    have hki : ¬ k = i := by
      intro hki
      subst hki
      rcases find_swap_slot_top b st.swap.SWAP_TABLE with ⟨h1, _⟩ | ⟨k2, _, h1, _, hk2⟩
      · omega
      · have hkk : k2 = k := by omega
        subst hkk
        rw [hentry] at hk2
        rcases hk2 with ⟨_, h⟩ | ⟨h, _⟩
        · exact hab h.symm
        · simp at h
    refine ⟨i, by simpa using hi, ?_, ?_, h0i, ?_, hlen⟩
    · simpa only [List.getD_eq_getElem?_getD, List.getElem?_set, hki, if_false] using hentry
    · intro j hj
      by_cases hkj : k = j
      · subst hkj
        simp only [List.getD_eq_getElem?_getD, List.getElem?_set, if_true, hk]
        intro hc
        exact hab hc.2
      · simpa only [List.getD_eq_getElem?_getD, List.getElem?_set, hkj, if_false] using hfirst j hj
    · show file_pread (file_pwrite st.swap.swap_img (slot_offset k).toNat
          (st.mem.load b PAGE_SIZE_IN_BYTES)) (slot_offset i).toNat PAGE_SIZE_IN_BYTES = c
      rw [← hfile]
      apply file_pread_pwrite_other
      rw [Memory.load_length]
      have hl := file_pread_length st.swap.swap_img (slot_offset i).toNat PAGE_SIZE_IN_BYTES
      rw [hfile, hlen] at hl
      have hap := slot_offset_apart i k (by omega) (by omega) hki h0i h0k
      have hP : PAGE_SIZE_IN_BYTES = 4096 := rfl
      rw [hP] at hl hap ⊢
      generalize (slot_offset i).toNat = oi at hl hap ⊢
      generalize (slot_offset k).toNat = ok at hap ⊢
      rcases hap with h | h
      · right; omega
      · left; omega

theorem swap_evictions_keeps (w : Nat) (segs : List Elf32_Phdr) (a : Nat) (c : List Nat)
    (others : List (Nat × Memory)) (st st1 : World) (hne : ∀ x ∈ others, x.1 ≠ a)
    (hlow : active_below st.swap.SWAP_TABLE)
    (hold : st.swap.holds a c) (hrun : swap_evictions w segs others st = .ok st1) :
    st1.swap.holds a c := by
  induction others generalizing st with
  | nil =>
    simp only [swap_evictions, Except.ok.injEq] at hrun
    rw [← hrun]; exact hold
  | cons x rest ih =>
    simp only [swap_evictions] at hrun
    cases hev : handle_page_eviction_to_swap w segs x.1 { st with mem := x.2 } with
    | error e => rw [hev] at hrun; simp at hrun
    | ok st2 =>
      rw [hev] at hrun
      have hold2 : ({ st with mem := x.2 } : World).swap.holds a c := hold
      have hlow2 : active_below ({ st with mem := x.2 } : World).swap.SWAP_TABLE := hlow
      exact ih st2 (fun y hy => hne y (List.mem_cons_of_mem _ hy))
        (handle_page_eviction_to_swap_below w segs x.1 { st with mem := x.2 } st2 hlow2 hev)
        (handle_page_eviction_to_swap_keeps w segs a x.1 c { st with mem := x.2 } st2
          (hne x (List.mem_cons_self _ _)) hlow2 hold2 hev) hrun

/-! ## Claims on the swap store -/

/-- C5: swap round trip. The store is one the loader can have: the initial store of
`init_swap_system`, for any `max_pages`, after any sequence of
`handle_page_eviction_to_swap` calls that returned. If `a` is not the address of a
read-only page (so in particular if its owning segment has `PF_W`), and
`handle_page_eviction_to_swap(a)` returns, having stored the page as it is in memory then,
and afterwards any number of other addresses are handed to `handle_page_eviction_to_swap`
(with any memory at each call), then `load_from_swap_if_exists(a)`, called with the page of
`a` mapped, returns 1 and fills the page with exactly the contents stored. -/
theorem C5_swap_round_trip (w : Nat) (segs : List Elf32_Phdr) (max_pages : Int)
    (m0 : Memory) (before : List (Nat × Memory)) (pre : World)
    (hreach : swap_evictions w segs before { swap := init_swap_system max_pages, mem := m0 }
      = .ok pre)
    (a : Nat) (st0 st1 : World) (hst0 : st0.swap = pre.swap)
    (hwr : ¬ (find_segment_of_fault w segs a ≠ -1 ∧
      Nat.land (segs.getD (find_segment_of_fault w segs a).toNat default).p_flags PF_W = 0))
    (hev : handle_page_eviction_to_swap w segs a st0 = .ok st1)
    (others : List (Nat × Memory)) (hne : ∀ x ∈ others, x.1 ≠ a) (st2 : World)
    (hrun : swap_evictions w segs others st1 = .ok st2)
    (m : Memory) (hmap : m.accessible a PAGE_SIZE_IN_BYTES = true) :
    ∃ st3 : World,
      load_from_swap_if_exists a { swap := st2.swap, mem := m } = .ok (1, st3) ∧
      st3.mem.load a PAGE_SIZE_IN_BYTES = st0.mem.load a PAGE_SIZE_IN_BYTES ∧
      st3.swap = st2.swap := by
  have hlow0 : active_below st0.swap.SWAP_TABLE := by
    rw [hst0]
    exact swap_evictions_below w segs before _ pre (init_swap_system_below max_pages) hreach
  have hlow1 := handle_page_eviction_to_swap_below w segs a st0 st1 hlow0 hev
  have h1 := handle_page_eviction_to_swap_holds w segs a st0 st1 hwr hev
  have h2 := swap_evictions_keeps w segs a _ others st1 st2 hne hlow1 h1 hrun
  refine ⟨_, load_from_swap_if_exists_holds a _ { swap := st2.swap, mem := m } h2 hmap, ?_, rfl⟩
  have := Memory.load_store_same m a (st0.mem.load a PAGE_SIZE_IN_BYTES)
  rw [Memory.load_length] at this
  exact this

/-- C6: when every address handed to `handle_page_eviction_to_swap` has an owning segment,
as found by `find_segment_of_fault`, without `PF_W`: each call returns the state it was
given, so the whole run returns with the swap table and the swap file unchanged, and a run
from the initial store leaves a swap file of zero bytes. -/
theorem C6_read_only_never_swapped (w : Nat) (segs : List Elf32_Phdr)
    (steps : List (Nat × Memory))
    (hro : ∀ x ∈ steps, find_segment_of_fault w segs x.1 ≠ -1 ∧
      Nat.land (segs.getD (find_segment_of_fault w segs x.1).toNat default).p_flags PF_W = 0) :
    (∀ x ∈ steps, ∀ st : World, handle_page_eviction_to_swap w segs x.1 st = .ok st) ∧
    (∀ st : World, ∃ st1 : World,
      swap_evictions w segs steps st = .ok st1 ∧ st1.swap = st.swap) ∧
    (∀ (max_pages : Int) (m0 : Memory), ∃ st1 : World,
      swap_evictions w segs steps { swap := init_swap_system max_pages, mem := m0 } = .ok st1 ∧
      st1.swap.swap_img.length = 0) := by
  have hall : ∀ st : World, ∃ st1 : World,
      swap_evictions w segs steps st = .ok st1 ∧ st1.swap = st.swap := by
    induction steps with
    | nil => intro st; exact ⟨st, rfl, rfl⟩
    | cons x rest ih =>
      intro st
      have hx := hro x (List.mem_cons_self _ _)
      obtain ⟨st1, h1, h2⟩ := ih (fun y hy => hro y (List.mem_cons_of_mem _ hy))
        { st with mem := x.2 }
      refine ⟨st1, ?_, h2⟩
      simp only [swap_evictions]
      rw [handle_page_eviction_to_swap_read_only w segs x.1 _ hx.1 hx.2]
      exact h1
  refine ⟨fun x hx st => handle_page_eviction_to_swap_read_only w segs x.1 st (hro x hx).1
    (hro x hx).2, hall, ?_⟩
  intro max_pages m0
  obtain ⟨st1, h1, h2⟩ := hall { swap := init_swap_system max_pages, mem := m0 }
  exact ⟨st1, h1, by rw [h2]; rfl⟩

/-- Every active entry is keyed by an address that was handed to the store and that is not
the address of a read-only page; calls that return keep this. -/
theorem swap_evictions_active_keys (w : Nat) (segs : List Elf32_Phdr)
    (steps : List (Nat × Memory)) (seen : List Nat) (st st1 : World)
    (hinv : ∀ e ∈ st.swap.SWAP_TABLE, e.is_active ≠ 0 →
      e.vaddr ∈ seen ∧
      ¬ (find_segment_of_fault w segs e.vaddr ≠ -1 ∧
        Nat.land (segs.getD (find_segment_of_fault w segs e.vaddr).toNat default).p_flags
          PF_W = 0))
    (hrun : swap_evictions w segs steps st = .ok st1) :
    ∀ e ∈ st1.swap.SWAP_TABLE, e.is_active ≠ 0 →
      e.vaddr ∈ seen ++ steps.map (fun x => x.1) ∧
      ¬ (find_segment_of_fault w segs e.vaddr ≠ -1 ∧
        Nat.land (segs.getD (find_segment_of_fault w segs e.vaddr).toNat default).p_flags
          PF_W = 0) := by
  induction steps generalizing seen st with
  | nil =>
    simp only [swap_evictions, Except.ok.injEq] at hrun
    rw [← hrun]
    simpa using hinv
  | cons x rest ih =>
    simp only [swap_evictions] at hrun
    cases hev : handle_page_eviction_to_swap w segs x.1 { st with mem := x.2 } with
    | error e => rw [hev] at hrun; simp at hrun
    | ok st2 =>
      rw [hev] at hrun
      have hstep : ∀ e ∈ st2.swap.SWAP_TABLE, e.is_active ≠ 0 →
          e.vaddr ∈ seen ++ [x.1] ∧
          ¬ (find_segment_of_fault w segs e.vaddr ≠ -1 ∧
            Nat.land (segs.getD (find_segment_of_fault w segs e.vaddr).toNat default).p_flags
              PF_W = 0) := by
        by_cases hro : find_segment_of_fault w segs x.1 ≠ -1 ∧
            Nat.land (segs.getD (find_segment_of_fault w segs x.1).toNat default).p_flags
              PF_W = 0
        · rw [handle_page_eviction_to_swap_read_only w segs x.1 _ hro.1 hro.2] at hev
          simp only [Except.ok.injEq] at hev
          rw [← hev]
          intro e he ha
          exact ⟨List.mem_append_left _ (hinv e he ha).1, (hinv e he ha).2⟩
        · obtain ⟨k, _, _, _, _, rfl⟩ :=
            handle_page_eviction_to_swap_stores w segs x.1 _ st2 hro hev
          intro e he ha
          rcases List.mem_or_eq_of_mem_set he with hold | rfl
          · exact ⟨List.mem_append_left _ (hinv e hold ha).1, (hinv e hold ha).2⟩
          · exact ⟨by simp, hro⟩
      have := ih (seen ++ [x.1]) st2 hstep hrun
      simpa using this

/-- C7, as amended: after any sequence of `handle_page_eviction_to_swap` calls that return,
starting from the initial swap table, every active slot is keyed by an address that was
handed to one of the calls and for which `find_segment_of_fault` finds either no segment
at all or a segment with `PF_W`. -/
theorem C7_active_slot_keys (w : Nat) (segs : List Elf32_Phdr) (max_pages : Int)
    (m0 : Memory) (steps : List (Nat × Memory)) (st1 : World)
    (hrun : swap_evictions w segs steps { swap := init_swap_system max_pages, mem := m0 }
      = .ok st1) :
    ∀ e ∈ st1.swap.SWAP_TABLE, e.is_active ≠ 0 →
      (∃ x ∈ steps, x.1 = e.vaddr) ∧
      (find_segment_of_fault w segs e.vaddr = -1 ∨
        Nat.land (segs.getD (find_segment_of_fault w segs e.vaddr).toNat default).p_flags
          PF_W ≠ 0) := by
  intro e he ha
  have hinit : ∀ e ∈ ({ swap := init_swap_system max_pages, mem := m0 } : World).swap.SWAP_TABLE,
      e.is_active ≠ 0 →
      e.vaddr ∈ ([] : List Nat) ∧
      ¬ (find_segment_of_fault w segs e.vaddr ≠ -1 ∧
        Nat.land (segs.getD (find_segment_of_fault w segs e.vaddr).toNat default).p_flags
          PF_W = 0) := by
    intro e he ha
    obtain ⟨n, _, htab, _⟩ := init_swap_system_table max_pages
    have he2 : e ∈ (init_swap_system max_pages).SWAP_TABLE := he
    rw [htab] at he2
    rw [List.eq_of_mem_replicate he2] at ha
    simp at ha
  obtain ⟨h1, h2⟩ := swap_evictions_active_keys w segs steps [] _ st1 hinit hrun e he ha
  constructor
  · simp only [List.nil_append, List.mem_map] at h1
    obtain ⟨x, hx, hxe⟩ := h1
    exact ⟨x, hx, hxe⟩
  · by_cases hf : find_segment_of_fault w segs e.vaddr = -1
    · exact Or.inl hf
    · exact Or.inr (fun h0 => h2 ⟨hf, h0⟩)

/-- C7 fails as stated: with the read-only segment at 409700 to 413795, the page 409600 of a
fault at 409704 lies in no segment; handed to `handle_page_eviction_to_swap` from the initial store
it takes slot 0, which is then active under a key that lies in no segment at all. -/
theorem C7_counterexample :
    ∃ st1 : World,
      swap_evictions 32 [unalignedSegment] [(409600, patternMemory)]
        { swap := init_swap_system 1, mem := patternMemory } = .ok st1 ∧
      ∃ e ∈ st1.swap.SWAP_TABLE, e.is_active ≠ 0 ∧ e.vaddr = 409600 ∧
        ¬ ∃ s ∈ [unalignedSegment],
          (s.p_vaddr ≤ e.vaddr ∧ e.vaddr < s.p_vaddr + s.p_memsz) ∧ Nat.land s.p_flags PF_W ≠ 0 := by
  have hfind : find_segment_of_fault 32 [unalignedSegment] 409600 = -1 := by decide
  have hok := handle_page_eviction_to_swap_ok 32 [unalignedSegment] 409600
    { swap := init_swap_system 1, mem := patternMemory } (fun h => h.1 hfind) 0
    (find_swap_slot_init 409600 1) (by decide) (patternMemory_accessible _ _)
  refine ⟨_, by simp only [swap_evictions]; rw [hok], ?_⟩
  obtain ⟨n, hn, htab, _⟩ := init_swap_system_table 1
  refine ⟨{ vaddr := 409600, swap_offset := ((0 : Nat) : Int) * (PAGE_SIZE_IN_BYTES : Int)
            is_active := 1 }, ?_, by decide, rfl, ?_⟩
  · show _ ∈ List.set (init_swap_system 1).SWAP_TABLE 0 _
    rw [htab]
    obtain ⟨m, rfl⟩ : ∃ m, n = m + 1 := ⟨n - 1, by omega⟩
    simp [List.replicate_succ]
  · simp [unalignedSegment]

/-! ## Capacity of the swap table -/

/-- C14, as amended: for every positive `max_pages` with `5 * max_pages` in the range of an
`int` (at most 2147483647), `init_swap_system` builds a swap table of
`max(5 * max_pages, 1024)` slots, all inactive, and an empty swap file. -/
theorem C14_swap_capacity (max_pages : Int) (hpos : 0 < max_pages)
    (hfit : 5 * max_pages ≤ 2147483647) :
    ((init_swap_system max_pages).SWAP_TABLE.length : Int) = max (5 * max_pages) 1024 ∧
    (∀ e ∈ (init_swap_system max_pages).SWAP_TABLE, e.is_active = 0) ∧
    (init_swap_system max_pages).swap_img = [] := by
  refine ⟨init_swap_system_length max_pages hpos hfit, ?_, rfl⟩
  · intro e he
    simp only [init_swap_system] at he
    rw [List.eq_of_mem_replicate he]

/-- C14 fails as stated: for `max_pages = 429496730` the product `5 * max_pages` is
2147483650, which no `int` holds; the `int` is negative after the multiplication and the
table gets 1024 slots. For `max_pages = 500000000` the table gets 2500000000 - 2^32 =
-1794967296, again raised to 1024 slots. -/
theorem C14_counterexample :
    (init_swap_system 429496730).SWAP_TABLE.length = 1024 ∧
    max (5 * (429496730 : Int)) 1024 = 2147483650 ∧
    (init_swap_system 500000000).SWAP_TABLE.length = 1024 ∧
    max (5 * (500000000 : Int)) 1024 = 2500000000 := by
  refine ⟨?_, by decide, ?_, by decide⟩
  · simp only [init_swap_system, List.length_replicate]
    decide
  · simp only [init_swap_system, List.length_replicate]
    decide

theorem C14_swap_capacity_witness :
    (0 : Int) < 300 ∧ 5 * (300 : Int) ≤ 2147483647 ∧
    ((init_swap_system 300).SWAP_TABLE.length : Int) = max (5 * 300) 1024 :=
  ⟨by decide, by decide, (C14_swap_capacity 300 (by decide) (by decide)).1⟩

/-! ## The slot an eviction takes -/

theorem find_swap_slot_first_match (a : Nat) (l : List SwapEntry) (k : Nat)
    (hk : k < l.length)
    (hmatch : (l.getD k default).is_active ≠ 0 ∧ (l.getD k default).vaddr = a)
    (hfirst : ∀ j : Nat, j < k →
      ¬ ((l.getD j default).is_active ≠ 0 ∧ (l.getD j default).vaddr = a)) :
    find_swap_slot a l 0 (-1) = (k : Int) := by
  rcases find_swap_slot_top a l with ⟨_, h2⟩ | ⟨k2, hk2, h1, hbefore, hcase⟩
  · exact absurd hmatch.2 (h2 _ (getD_mem_of_lt l k hk)).2
  · rcases hcase with hm2 | ⟨_, hno, _⟩
    · have hkk : k2 = k := by
        rcases Nat.lt_trichotomy k2 k with h | h | h
        · exact absurd hm2 (hfirst k2 h)
        · exact h
        · exact absurd hmatch (hbefore k h)
      rw [h1, hkk]
    · exact absurd hmatch (hno _ (getD_mem_of_lt l k hk))

theorem find_swap_slot_first_inactive (a : Nat) (l : List SwapEntry) (k : Nat)
    (hk : k < l.length) (hno : ∀ e ∈ l, ¬ (e.is_active ≠ 0 ∧ e.vaddr = a))
    (hin : (l.getD k default).is_active = 0)
    (hbefore : ∀ j : Nat, j < k → (l.getD j default).is_active ≠ 0) :
    find_swap_slot a l 0 (-1) = (k : Int) := by
  rcases find_swap_slot_top a l with ⟨_, h2⟩ | ⟨k2, hk2, h1, _, hcase⟩
  · exact absurd hin (h2 _ (getD_mem_of_lt l k hk)).1
  · rcases hcase with hm2 | ⟨hin2, _, hbefore2⟩
    · exact absurd hm2 (hno _ (getD_mem_of_lt l k2 hk2))
    · have hkk : k2 = k := by
        rcases Nat.lt_trichotomy k2 k with h | h | h
        · exact absurd hin2 (hbefore k2 h)
        · exact h
        · exact absurd hin (hbefore2 k h)
      rw [h1, hkk]

theorem find_swap_slot_full (a : Nat) (l : List SwapEntry)
    (hall : ∀ e ∈ l, e.is_active ≠ 0 ∧ ¬ e.vaddr = a) :
    find_swap_slot a l 0 (-1) = -1 := by
  rcases find_swap_slot_top a l with ⟨h1, _⟩ | ⟨k2, hk2, _, _, hcase⟩
  · exact h1
  · rcases hcase with hm2 | ⟨hin2, _, _⟩
    · exact absurd hm2.2 (hall _ (getD_mem_of_lt l k2 hk2)).2
    · exact absurd hin2 (hall _ (getD_mem_of_lt l k2 hk2)).1

/-- Writing into slot `k` the entry it already holds leaves the table as it is. -/
theorem set_getD_self (l : List SwapEntry) (k : Nat) (e : SwapEntry)
    (h : l.getD k default = e) (hk : k < l.length) : l.set k e = l := by
  induction l generalizing k with
  | nil => rfl
  | cons x rest ih =>
    cases k with
    | zero =>
      simp only [List.getD_cons_zero] at h
      simp [h]
    | succ k =>
      simp only [List.getD_cons_succ] at h
      simp only [List.set_cons_succ, List.cons.injEq, true_and]
      exact ih k h (by simpa using hk)

/-- The count of active slots after slot `k` was made active. -/
theorem active_slots_set (l : List SwapEntry) (k : Nat) (e : SwapEntry) (hk : k < l.length)
    (he : e.is_active ≠ 0) :
    active_slots (l.set k e) =
      if (l.getD k default).is_active ≠ 0 then active_slots l else active_slots l + 1 := by
  induction l generalizing k with
  | nil => simp at hk
  | cons x rest ih =>
    cases k with
    | zero =>
      simp only [List.set_cons_zero, List.getD_cons_zero, active_slots, List.countP_cons, he,
        ne_eq, not_false_eq_true, decide_True, if_true]
      by_cases hx : x.is_active = 0
      · simp [hx]
      · simp [hx]
    | succ k =>
      have := ih k (by simpa using hk)
      simp only [active_slots] at this
      simp only [List.set_cons_succ, List.getD_cons_succ, active_slots, List.countP_cons, this]
      split <;> omega

/-- A call that is not for a read-only page and finds no slot exits with status 1. -/
theorem handle_page_eviction_to_swap_full (w : Nat) (segs : List Elf32_Phdr) (a : Nat)
    (st : World)
    (hrw : ¬ (find_segment_of_fault w segs a ≠ -1 ∧
      Nat.land (segs.getD (find_segment_of_fault w segs a).toNat default).p_flags PF_W = 0))
    (hslot : find_swap_slot a st.swap.SWAP_TABLE 0 (-1) = -1) :
    handle_page_eviction_to_swap w segs a st = .error (.exit 1, st) := by
  simp only [handle_page_eviction_to_swap]
  rw [if_neg hrw, hslot, if_pos rfl]

/-- A call that is not for a read-only page and finds a slot whose offset is negative as an
`int` exits with status 1. -/
theorem handle_page_eviction_to_swap_overflow (w : Nat) (segs : List Elf32_Phdr) (a : Nat)
    (st : World)
    (hrw : ¬ (find_segment_of_fault w segs a ≠ -1 ∧
      Nat.land (segs.getD (find_segment_of_fault w segs a).toNat default).p_flags PF_W = 0))
    (k : Nat) (hslot : find_swap_slot a st.swap.SWAP_TABLE 0 (-1) = (k : Int))
    (hneg : slot_offset k < 0) :
    handle_page_eviction_to_swap w segs a st = .error (.exit 1, st) := by
  have hk1 : ¬ ((k : Int) = -1) := by omega
  unfold slot_offset at hneg
  simp only [handle_page_eviction_to_swap]
  rw [if_neg hrw, hslot, if_neg hk1, if_pos hneg]

theorem crowdedTable_length : crowdedTable.length = 524290 := by
  unfold crowdedTable
  rw [List.length_append, List.length_map, List.length_range, List.length_replicate]

theorem crowdedTable_getD_lt (j : Nat) (hj : j < 524288) :
    crowdedTable.getD j default =
      { vaddr := 4096 * (j + 1024), swap_offset := slot_offset j, is_active := 1 } := by
  unfold crowdedTable
  rw [List.getD_eq_getElem?_getD, List.getElem?_append_left (by simpa using hj),
    List.getElem?_map, List.getElem?_range hj]
  rfl

theorem crowdedTable_getD_ge (j : Nat) (hj : 524288 ≤ j) :
    (crowdedTable.getD j default).is_active = 0 := by
  unfold crowdedTable
  rw [List.getD_eq_getElem?_getD, List.getElem?_append_right (by simpa using hj),
    List.getElem?_replicate]
  split <;> rfl

theorem crowdedTable_keys (e : SwapEntry) (he : e ∈ crowdedTable) :
    ¬ (e.is_active ≠ 0 ∧ e.vaddr = 2151677952) := by
  unfold crowdedTable at he
  rcases List.mem_append.mp he with h | h
  · obtain ⟨i, hi, rfl⟩ := List.mem_map.mp h
    have hi2 : i < 524288 := List.mem_range.mp hi
    intro hc
    have := hc.2
    simp only at this
    omega
  · rw [List.eq_of_mem_replicate h]
    simp

theorem crowdedTable_slot : find_swap_slot 2151677952 crowdedTable 0 (-1) = 524288 := by
  have h := find_swap_slot_first_inactive 2151677952 crowdedTable 524288
    (by rw [crowdedTable_length]; omega) crowdedTable_keys
    (crowdedTable_getD_ge 524288 (le_refl _))
    (fun j hj => by rw [crowdedTable_getD_lt j hj]; simp)
  simpa using h

theorem init_swap_system_first (max_pages : Int) :
    0 < (init_swap_system max_pages).SWAP_TABLE.length ∧
    ((init_swap_system max_pages).SWAP_TABLE.getD 0 default).is_active = 0 := by
  obtain ⟨n, hn, htab, _⟩ := init_swap_system_table max_pages
  rw [htab]
  obtain ⟨m, rfl⟩ : ∃ m, n = m + 1 := ⟨n - 1, by omega⟩
  simp [List.replicate_succ]

/-- A call that is not for a read-only page, finds slot `k` with an offset that is not
negative, and a mapped page, returns: it has written the page at that offset and the key
into slot `k`. -/
theorem handle_page_eviction_to_swap_returns (w : Nat) (segs : List Elf32_Phdr) (a : Nat)
    (st : World)
    (hrw : ¬ (find_segment_of_fault w segs a ≠ -1 ∧
      Nat.land (segs.getD (find_segment_of_fault w segs a).toNat default).p_flags PF_W = 0))
    (k : Nat) (hslot : find_swap_slot a st.swap.SWAP_TABLE 0 (-1) = (k : Int))
    (h0 : 0 ≤ slot_offset k)
    (hacc : st.mem.accessible a PAGE_SIZE_IN_BYTES = true) :
    handle_page_eviction_to_swap w segs a st =
      .ok { swap := { SWAP_TABLE := st.swap.SWAP_TABLE.set k
                        { vaddr := a, swap_offset := slot_offset k, is_active := 1 }
                      swap_img := file_pwrite st.swap.swap_img (slot_offset k).toNat
                        (st.mem.load a PAGE_SIZE_IN_BYTES) }
            mem := st.mem } := by
  have hk1 : ¬ ((k : Int) = -1) := by omega
  unfold slot_offset at h0 ⊢
  have hk2 : ¬ (wrap_int ((k : Int) * (PAGE_SIZE_IN_BYTES : Int)) < 0) := by omega
  simp only [handle_page_eviction_to_swap]
  rw [if_neg hrw, hslot, if_neg hk1, if_neg hk2]
  simp only [hacc, not_true_eq_false, if_false, Int.toNat_ofNat]

/-! ## Claims on the slot of an eviction -/

/-- C13, as amended: for an address `a` that is not the address of a read-only page, with
the page of `a` mapped, `handle_page_eviction_to_swap(a)` (1) chooses the first slot that is
active under the key `a` when there is one, and when the index of that slot is below 524288
it returns and keeps the number of active slots; (2) chooses the lowest-index inactive slot
when no active slot has the key `a`, and when the index of that slot is below 524288 it
returns and the number of active slots grows by one; in both cases the call that returns has
written the page at `slot * 4096` in the file and `{a, slot * 4096, 1}` into the slot;
(3) exits with status 1, the table and the file unchanged, when every slot is active under
another key; (4) after a call for `a` that returned, a second call for `a` returns too,
writes into the slot of the first one and leaves the table, and so the number of active
slots, as it was. No bound on the number of slots is assumed. -/
theorem C13_eviction_slot (w : Nat) (segs : List Elf32_Phdr) (a : Nat) (st : World)
    (hrw : ¬ (find_segment_of_fault w segs a ≠ -1 ∧
      Nat.land (segs.getD (find_segment_of_fault w segs a).toNat default).p_flags PF_W = 0))
    (hacc : st.mem.accessible a PAGE_SIZE_IN_BYTES = true) :
    (∀ k : Nat, k < st.swap.SWAP_TABLE.length →
      ((st.swap.SWAP_TABLE.getD k default).is_active ≠ 0 ∧
        (st.swap.SWAP_TABLE.getD k default).vaddr = a) →
      (∀ j : Nat, j < k →
        ¬ ((st.swap.SWAP_TABLE.getD j default).is_active ≠ 0 ∧
          (st.swap.SWAP_TABLE.getD j default).vaddr = a)) →
      find_swap_slot a st.swap.SWAP_TABLE 0 (-1) = (k : Int) ∧
      (k < 524288 →
        handle_page_eviction_to_swap w segs a st =
          .ok { swap := { SWAP_TABLE := st.swap.SWAP_TABLE.set k
                            { vaddr := a
                              swap_offset := (k : Int) * (PAGE_SIZE_IN_BYTES : Int)
                              is_active := 1 }
                          swap_img := file_pwrite st.swap.swap_img (k * PAGE_SIZE_IN_BYTES)
                            (st.mem.load a PAGE_SIZE_IN_BYTES) }
                mem := st.mem } ∧
        active_slots (st.swap.SWAP_TABLE.set k
            { vaddr := a, swap_offset := (k : Int) * (PAGE_SIZE_IN_BYTES : Int), is_active := 1 })
          = active_slots st.swap.SWAP_TABLE)) ∧
    ((∀ e ∈ st.swap.SWAP_TABLE, ¬ (e.is_active ≠ 0 ∧ e.vaddr = a)) →
      ∀ k : Nat, k < st.swap.SWAP_TABLE.length →
      (st.swap.SWAP_TABLE.getD k default).is_active = 0 →
      (∀ j : Nat, j < k → (st.swap.SWAP_TABLE.getD j default).is_active ≠ 0) →
      find_swap_slot a st.swap.SWAP_TABLE 0 (-1) = (k : Int) ∧
      (k < 524288 →
        handle_page_eviction_to_swap w segs a st =
          .ok { swap := { SWAP_TABLE := st.swap.SWAP_TABLE.set k
                            { vaddr := a
                              swap_offset := (k : Int) * (PAGE_SIZE_IN_BYTES : Int)
                              is_active := 1 }
                          swap_img := file_pwrite st.swap.swap_img (k * PAGE_SIZE_IN_BYTES)
                            (st.mem.load a PAGE_SIZE_IN_BYTES) }
                mem := st.mem } ∧
        active_slots (st.swap.SWAP_TABLE.set k
            { vaddr := a, swap_offset := (k : Int) * (PAGE_SIZE_IN_BYTES : Int), is_active := 1 })
          = active_slots st.swap.SWAP_TABLE + 1)) ∧
    ((∀ e ∈ st.swap.SWAP_TABLE, e.is_active ≠ 0 ∧ ¬ e.vaddr = a) →
      handle_page_eviction_to_swap w segs a st = .error (.exit 1, st)) ∧
    (∀ st1 : World, handle_page_eviction_to_swap w segs a st = .ok st1 →
      ∀ m : Memory, m.accessible a PAGE_SIZE_IN_BYTES = true →
      ∃ k : Nat, k < st.swap.SWAP_TABLE.length ∧
        find_swap_slot a st.swap.SWAP_TABLE 0 (-1) = (k : Int) ∧
        st1.swap.SWAP_TABLE.getD k default =
          { vaddr := a, swap_offset := slot_offset k, is_active := 1 } ∧
        (k < 524288 → slot_offset k = (k : Int) * (PAGE_SIZE_IN_BYTES : Int)) ∧
        find_swap_slot a st1.swap.SWAP_TABLE 0 (-1) = (k : Int) ∧
        handle_page_eviction_to_swap w segs a { swap := st1.swap, mem := m } =
          .ok { swap := { SWAP_TABLE := st1.swap.SWAP_TABLE
                          swap_img := file_pwrite st1.swap.swap_img (slot_offset k).toNat
                            (m.load a PAGE_SIZE_IN_BYTES) }
                mem := m }) := by
  refine ⟨?_, ?_, ?_, ?_⟩
  · intro k hk hmatch hfirst
    have hslot := find_swap_slot_first_match a _ k hk hmatch hfirst
    refine ⟨hslot, fun hlt => ⟨handle_page_eviction_to_swap_ok w segs a st hrw k hslot hlt hacc,
      ?_⟩⟩
    rw [active_slots_set _ k _ hk (by simp), if_pos hmatch.1]
  · intro hno k hk hin hbefore
    have hslot := find_swap_slot_first_inactive a _ k hk hno hin hbefore
    refine ⟨hslot, fun hlt => ⟨handle_page_eviction_to_swap_ok w segs a st hrw k hslot hlt hacc,
      ?_⟩⟩
    rw [active_slots_set _ k _ hk (by simp), if_neg (fun h => h hin)]
  · intro hall
    exact handle_page_eviction_to_swap_full w segs a st hrw (find_swap_slot_full a _ hall)
  · intro st1 hev m hm
    obtain ⟨k, hk, hslot, _, h0k, rfl⟩ :=
      handle_page_eviction_to_swap_stores w segs a st st1 hrw hev
    have hent : (st.swap.SWAP_TABLE.set k
        { vaddr := a, swap_offset := slot_offset k, is_active := 1 }).getD k default =
        { vaddr := a, swap_offset := slot_offset k, is_active := 1 } := by
      simp only [List.getD_eq_getElem?_getD, List.getElem?_set, if_true, hk, Option.getD_some]
    have hbefore : ∀ j : Nat, j < k →
        ¬ ((st.swap.SWAP_TABLE.getD j default).is_active ≠ 0 ∧
          (st.swap.SWAP_TABLE.getD j default).vaddr = a) := by
      rcases find_swap_slot_top a st.swap.SWAP_TABLE with ⟨h1, _⟩ | ⟨k2, _, h1, hb, _⟩
      · omega
      · have hkk : k2 = k := by omega
        rw [← hkk]; exact hb
    have hslot2 : find_swap_slot a (st.swap.SWAP_TABLE.set k
        { vaddr := a, swap_offset := slot_offset k, is_active := 1 }) 0 (-1) = (k : Int) := by
      apply find_swap_slot_first_match a _ k (by simpa using hk)
      · rw [hent]; simp
      · intro j hj
        have hne : ¬ k = j := by omega
        simpa only [List.getD_eq_getElem?_getD, List.getElem?_set, hne, if_false]
          using hbefore j hj
    refine ⟨k, hk, hslot, hent, slot_offset_of_lt k, hslot2, ?_⟩
    have hok := handle_page_eviction_to_swap_returns w segs a
      { swap := { SWAP_TABLE := st.swap.SWAP_TABLE.set k
                    { vaddr := a, swap_offset := slot_offset k, is_active := 1 }
                  swap_img := file_pwrite st.swap.swap_img (slot_offset k).toNat
                    (st.mem.load a PAGE_SIZE_IN_BYTES) }
        mem := m } hrw k hslot2 h0k hm
    rw [hok]
    have hsame := set_getD_self (st.swap.SWAP_TABLE.set k
        { vaddr := a, swap_offset := slot_offset k, is_active := 1 }) k _ hent
        (by simpa using hk)
    simp only [hsame]

/-- C13 fails as stated: in the table of 524290 slots built for a limit of 104858 pages,
with the slots 0 to 524287 active under other keys, the eviction of the writable page
2151677952 finds the inactive slot 524288; the product 524288 * 4096 = 2^31 is not a value
of the `int` that holds the offset, the offset is negative, and the call exits with status 1
although an inactive slot exists, without recording the key. -/
theorem C13_counterexample :
    ((init_swap_system 104858).SWAP_TABLE.length = crowdedTable.length ∧
      (crowdedTable.getD 524288 default).is_active = 0 ∧
      (∀ e ∈ crowdedTable, ¬ (e.is_active ≠ 0 ∧ e.vaddr = 2151677952))) ∧
    (find_segment_of_fault 32 [wideSegment] 2151677952 = 0 ∧
      Nat.land wideSegment.p_flags PF_W ≠ 0) ∧
    find_swap_slot 2151677952 crowdedTable 0 (-1) = 524288 ∧
    slot_offset 524288 = -2147483648 ∧
    ∀ img : List Nat,
      handle_page_eviction_to_swap 32 [wideSegment] 2151677952
          { swap := { SWAP_TABLE := crowdedTable, swap_img := img }, mem := patternMemory } =
        .error (.exit 1,
          { swap := { SWAP_TABLE := crowdedTable, swap_img := img }, mem := patternMemory }) := by
  have hlen : (init_swap_system 104858).SWAP_TABLE.length = crowdedTable.length := by
    have := init_swap_system_length 104858 (by decide) (by decide)
    rw [crowdedTable_length]
    omega
  have hfind : find_segment_of_fault 32 [wideSegment] 2151677952 = 0 := by decide
  have hoff : slot_offset 524288 = -2147483648 := by decide
  refine ⟨⟨hlen, crowdedTable_getD_ge 524288 (le_refl _), crowdedTable_keys⟩,
    ⟨hfind, by decide⟩, crowdedTable_slot, hoff, ?_⟩
  intro img
  exact handle_page_eviction_to_swap_overflow 32 [wideSegment] 2151677952 _
    (by intro h; rw [hfind] at h; exact absurd h.2 (by decide)) 524288
    (by simpa using crowdedTable_slot) (by rw [hoff]; decide)

theorem C13_eviction_slot_witness :
    524288 < (init_swap_system 104858).SWAP_TABLE.length ∧
    find_swap_slot 417792 (init_swap_system 104858).SWAP_TABLE 0 (-1) = ((0 : Nat) : Int) ∧
    ∃ st1 st2 : World,
      handle_page_eviction_to_swap 32 [dataSegment] 417792
        { swap := init_swap_system 104858, mem := patternMemory } = .ok st1 ∧
      st1.swap.SWAP_TABLE = (init_swap_system 104858).SWAP_TABLE.set 0
        { vaddr := 417792, swap_offset := ((0 : Nat) : Int) * (PAGE_SIZE_IN_BYTES : Int)
          is_active := 1 } ∧
      active_slots st1.swap.SWAP_TABLE = active_slots (init_swap_system 104858).SWAP_TABLE + 1 ∧
      handle_page_eviction_to_swap 32 [dataSegment] 417792
        { swap := st1.swap, mem := patternMemory } = .ok st2 ∧
      st2.swap.SWAP_TABLE = st1.swap.SWAP_TABLE := by
  have hrw : ¬ (find_segment_of_fault 32 [dataSegment] 417792 ≠ -1 ∧
      Nat.land (([dataSegment] : List Elf32_Phdr).getD
        (find_segment_of_fault 32 [dataSegment] 417792).toNat default).p_flags PF_W = 0) := by
    decide
  have hlen : 524288 < (init_swap_system 104858).SWAP_TABLE.length := by
    have := init_swap_system_length 104858 (by decide) (by decide)
    omega
  have h := (C13_eviction_slot 32 [dataSegment] 417792
    { swap := init_swap_system 104858, mem := patternMemory } hrw
    (patternMemory_accessible _ _)).2.1
    (init_swap_system_inactive 104858 417792) 0 (init_swap_system_first 104858).1
    (init_swap_system_first 104858).2 (fun j hj => absurd hj (by omega))
  obtain ⟨hev, hact⟩ := h.2 (by decide)
  obtain ⟨k, _, _, _, _, _, hev2⟩ := (C13_eviction_slot 32 [dataSegment] 417792
    { swap := init_swap_system 104858, mem := patternMemory } hrw
    (patternMemory_accessible _ _)).2.2.2 _ hev patternMemory (patternMemory_accessible _ _)
  exact ⟨hlen, h.1, _, _, hev, rfl, hact, hev2, rfl⟩

/-! ## Shape of the swap stores the loader builds -/

theorem file_pwrite_length (file : List Nat) (off : Nat) (data : List Nat) :
    (file_pwrite file off data).length = max file.length (off + data.length) := by
  unfold file_pwrite
  simp only [List.length_append, List.length_take, List.length_replicate, List.length_drop]
  omega

theorem init_swap_system_wellformed (max_pages : Int) :
    (init_swap_system max_pages).wellformed := by
  intro i hi ha
  have hmem := getD_mem_of_lt (init_swap_system max_pages).SWAP_TABLE i hi
  exact absurd ⟨ha, rfl⟩ (init_swap_system_inactive max_pages _ _ hmem)

theorem handle_page_eviction_to_swap_wellformed (w : Nat) (segs : List Elf32_Phdr) (a : Nat)
    (st st1 : World) (hwf : st.swap.wellformed)
    (hev : handle_page_eviction_to_swap w segs a st = .ok st1) : st1.swap.wellformed := by
  by_cases hro : find_segment_of_fault w segs a ≠ -1 ∧
      Nat.land (segs.getD (find_segment_of_fault w segs a).toNat default).p_flags PF_W = 0
  · rw [handle_page_eviction_to_swap_read_only w segs a st hro.1 hro.2] at hev
    simp only [Except.ok.injEq] at hev
    rw [← hev]; exact hwf
  · obtain ⟨k, hk, _, _, h0, rfl⟩ := handle_page_eviction_to_swap_stores w segs a st st1 hro hev
    intro i hi ha
    simp only [List.length_set] at hi
    have hlen := file_pwrite_length st.swap.swap_img (slot_offset k).toNat
      (st.mem.load a PAGE_SIZE_IN_BYTES)
    rw [Memory.load_length] at hlen
    by_cases hki : k = i
    · subst hki
      simp only [List.getD_eq_getElem?_getD, List.getElem?_set, if_true, hk, Option.getD_some]
      refine ⟨trivial, trivial, h0, ?_⟩
      rw [hlen]
      exact le_max_right _ _
    · simp only [List.getD_eq_getElem?_getD, List.getElem?_set, hki, if_false] at ha ⊢
      have h := hwf i hi (by simpa only [List.getD_eq_getElem?_getD] using ha)
      simp only [List.getD_eq_getElem?_getD] at h
      refine ⟨h.1, h.2.1, h.2.2.1, ?_⟩
      rw [hlen]
      exact le_trans h.2.2.2 (le_max_left _ _)

/-- The swap stores reached from the initial one are well formed. -/
theorem swap_evictions_wellformed (w : Nat) (segs : List Elf32_Phdr)
    (steps : List (Nat × Memory)) (st st1 : World) (hwf : st.swap.wellformed)
    (hrun : swap_evictions w segs steps st = .ok st1) : st1.swap.wellformed := by
  induction steps generalizing st with
  | nil =>
    simp only [swap_evictions, Except.ok.injEq] at hrun
    rw [← hrun]; exact hwf
  | cons x rest ih =>
    simp only [swap_evictions] at hrun
    cases hev : handle_page_eviction_to_swap w segs x.1 { st with mem := x.2 } with
    | error e => rw [hev] at hrun; simp at hrun
    | ok st2 =>
      rw [hev] at hrun
      have hwf2 : ({ st with mem := x.2 } : World).swap.wellformed := hwf
      exact ih st2
        (handle_page_eviction_to_swap_wellformed w segs x.1 { st with mem := x.2 } st2 hwf2 hev)
        hrun

/-- A well formed store with an active entry for `a` holds a page for `a`. -/
theorem SwapStore.holds_of_active (sw : SwapStore) (a : Nat) (hwf : sw.wellformed)
    (hex : ∃ e ∈ sw.SWAP_TABLE, e.is_active ≠ 0 ∧ e.vaddr = a) : ∃ c : List Nat, sw.holds a c := by
  obtain ⟨e, he, hm⟩ := hex
  rcases find_swap_slot_top a sw.SWAP_TABLE with ⟨_, h2⟩ | ⟨k, hk, _, hbefore, hk2⟩
  · exact absurd hm.2 (h2 e he).2
  · rcases hk2 with hmatch | ⟨_, hno, _⟩
    · obtain ⟨h1, h2, h0, h3⟩ := hwf k hk hmatch.1
      refine ⟨_, k, hk, ?_, hbefore, h0, rfl, ?_⟩
      · cases hent : sw.SWAP_TABLE.getD k default with
        | mk v o act =>
          rw [hent] at h1 h2 hmatch
          simp only at h1 h2 hmatch
          rw [h1, h2, hmatch.2]
      · rw [file_pread_length]
        exact min_eq_left (Nat.le_sub_of_add_le (by rw [Nat.add_comm]; exact h3))
    · exact absurd hm (hno e he)

/-! ## Page materialisation -/

theorem load_from_swap_scan_none (a : Nat) (st : World) (l : List SwapEntry)
    (h : ∀ e ∈ l, ¬ (e.is_active ≠ 0 ∧ e.vaddr = a)) :
    load_from_swap_scan a st l = .ok (0, st) := by
  induction l with
  | nil => rfl
  | cons e rest ih =>
    simp only [load_from_swap_scan]
    rw [if_neg (h e (List.mem_cons_self _ _))]
    exact ih (fun x hx => h x (List.mem_cons_of_mem _ hx))

/-- The reload from the first active entry keyed by `a`, when its offset is not negative,
the page of `a` is mapped and the file holds a whole page at the offset. -/
theorem load_from_swap_if_exists_first (a : Nat) (st : World) (i : Nat)
    (hi : i < st.swap.SWAP_TABLE.length)
    (hmatch : (st.swap.SWAP_TABLE.getD i default).is_active ≠ 0 ∧
      (st.swap.SWAP_TABLE.getD i default).vaddr = a)
    (hfirst : ∀ j : Nat, j < i →
      ¬ ((st.swap.SWAP_TABLE.getD j default).is_active ≠ 0 ∧
        (st.swap.SWAP_TABLE.getD j default).vaddr = a))
    (hoff : 0 ≤ (st.swap.SWAP_TABLE.getD i default).swap_offset)
    (hacc : st.mem.accessible a PAGE_SIZE_IN_BYTES = true)
    (hlen : (file_pread st.swap.swap_img (st.swap.SWAP_TABLE.getD i default).swap_offset.toNat
      PAGE_SIZE_IN_BYTES).length = PAGE_SIZE_IN_BYTES) :
    load_from_swap_if_exists a st =
      .ok (1, { st with mem := (st.mem.store a
        (file_pread st.swap.swap_img (st.swap.SWAP_TABLE.getD i default).swap_offset.toNat
          PAGE_SIZE_IN_BYTES)) }) := by
  unfold load_from_swap_if_exists
  rw [load_from_swap_scan_first a st st.swap.SWAP_TABLE i hi hmatch hfirst]
  have hoff2 : ¬ (st.swap.SWAP_TABLE.getD i default).swap_offset < 0 := by omega
  simp only [load_from_swap_scan]
  rw [if_pos hmatch, if_neg hoff2]
  simp only [hacc, not_true_eq_false, if_false, hlen, ne_eq]

/-- The bytes of a freshly mapped page after `data`, at most `n` bytes, was read into it and
the tail from `n` on was zeroed when `n` is short of a page. -/
theorem Memory.load_filled (m : Memory) (p n : Nat) (data : List Nat)
    (hd : data.length ≤ n) (hn : n ≤ PAGE_SIZE_IN_BYTES) :
    (if n < PAGE_SIZE_IN_BYTES then
        ((m.mmap_fixed p).store p data).store (p + n) (List.replicate (PAGE_SIZE_IN_BYTES - n) 0)
      else (m.mmap_fixed p).store p data).load p PAGE_SIZE_IN_BYTES =
      data ++ List.replicate (PAGE_SIZE_IN_BYTES - data.length) 0 := by
  apply List.ext_getElem?
  intro j
  rw [Memory.load_getElem?]
  by_cases hj : j < PAGE_SIZE_IN_BYTES
  · rw [if_pos hj]
    have hrhs : (data ++ List.replicate (PAGE_SIZE_IN_BYTES - data.length) 0)[j]? =
        some (data.getD j 0) := by
      by_cases hjd : j < data.length
      · rw [List.getElem?_append_left hjd, List.getD_eq_getElem?_getD,
          List.getElem?_eq_getElem hjd]
        rfl
      · have hz : data.getD j 0 = 0 := by
          rw [List.getD_eq_getElem?_getD, List.getElem?_eq_none (by omega)]
          rfl
        rw [hz, List.getElem?_append_right (by omega), List.getElem?_replicate]
        rw [if_pos (by omega)]
    rw [hrhs]
    congr 1
    have hbase : ((m.mmap_fixed p).store p data).byte (p + j) = data.getD j 0 := by
      simp only [Memory.store, Memory.mmap_fixed]
      by_cases hjd : j < data.length
      · rw [if_pos ⟨by omega, by omega⟩]
        congr 1; omega
      · rw [if_neg (by omega), if_pos ⟨by omega, by omega⟩, List.getD_eq_getElem?_getD,
          List.getElem?_eq_none (by omega)]
        rfl
    by_cases hn2 : n < PAGE_SIZE_IN_BYTES
    · rw [if_pos hn2]
      by_cases hjn : n ≤ j
      · have hz : data.getD j 0 = 0 := by
          rw [List.getD_eq_getElem?_getD, List.getElem?_eq_none (by omega)]
          rfl
        rw [hz]
        simp only [Memory.store, List.length_replicate]
        rw [if_pos ⟨by omega, by omega⟩, List.getD_eq_getElem?_getD, List.getElem?_replicate]
        split <;> rfl
      · rw [← hbase]
        simp only [Memory.store, List.length_replicate]
        rw [if_neg (by omega)]
    · rw [if_neg hn2]
      exact hbase
  · rw [if_neg hj, List.getElem?_eq_none]
    simp only [List.length_append, List.length_replicate]
    omega

theorem Memory.load_zero_page (m : Memory) (p : Nat) :
    ((m.mmap_fixed p).store p (List.replicate PAGE_SIZE_IN_BYTES 0)).load p PAGE_SIZE_IN_BYTES =
      List.replicate PAGE_SIZE_IN_BYTES 0 := by
  have := Memory.load_store_same (m.mmap_fixed p) p (List.replicate PAGE_SIZE_IN_BYTES 0)
  rw [List.length_replicate] at this
  exact this

/-- The fill when the swap store has no active entry for the page and the page starts
inside the file image of the segment. -/
theorem allocate_page_fill_from_file (env : LoaderEnv) (segment : Elf32_Phdr)
    (page_start : Nat) (world : World) (hmap : env.mmap_ok page_start = true)
    (hnone : ∀ e ∈ world.swap.SWAP_TABLE, ¬ (e.is_active ≠ 0 ∧ e.vaddr = page_start))
    (hin : ulong_sub env.ulong_bits page_start segment.p_vaddr < segment.p_filesz) (n : Nat)
    (hn : n = if ulong_add env.ulong_bits (ulong_sub env.ulong_bits page_start segment.p_vaddr)
                PAGE_SIZE_IN_BYTES > segment.p_filesz
              then segment.p_filesz - ulong_sub env.ulong_bits page_start segment.p_vaddr
              else PAGE_SIZE_IN_BYTES) :
    allocate_page_fill env segment page_start world =
      .ok { swap := world.swap
            mem :=
              if n < PAGE_SIZE_IN_BYTES then
                ((world.mem.mmap_fixed page_start).store page_start
                  (file_pread env.elf_file
                    (ulong_add env.ulong_bits segment.p_offset
                      (ulong_sub env.ulong_bits page_start segment.p_vaddr)) n)).store
                  (page_start + n) (List.replicate (PAGE_SIZE_IN_BYTES - n) 0)
              else
                (world.mem.mmap_fixed page_start).store page_start
                  (file_pread env.elf_file
                    (ulong_add env.ulong_bits segment.p_offset
                      (ulong_sub env.ulong_bits page_start segment.p_vaddr)) n) } := by
  have hscan : load_from_swap_if_exists page_start
      { world with mem := world.mem.mmap_fixed page_start } =
      .ok (0, { world with mem := world.mem.mmap_fixed page_start }) :=
    load_from_swap_scan_none page_start _ _ hnone
  simp only [allocate_page_fill, hmap, not_true_eq_false, if_false, hscan, ne_eq,
    if_pos hin, ← hn]

/-- The fill when the swap store has no active entry for the page and the page starts
past the file image of the segment. -/
theorem allocate_page_fill_zero (env : LoaderEnv) (segment : Elf32_Phdr)
    (page_start : Nat) (world : World) (hmap : env.mmap_ok page_start = true)
    (hnone : ∀ e ∈ world.swap.SWAP_TABLE, ¬ (e.is_active ≠ 0 ∧ e.vaddr = page_start))
    (hout : ¬ ulong_sub env.ulong_bits page_start segment.p_vaddr < segment.p_filesz) :
    allocate_page_fill env segment page_start world =
      .ok { swap := world.swap
            mem := (world.mem.mmap_fixed page_start).store page_start
              (List.replicate PAGE_SIZE_IN_BYTES 0) } := by
  have hscan : load_from_swap_if_exists page_start
      { world with mem := world.mem.mmap_fixed page_start } =
      .ok (0, { world with mem := world.mem.mmap_fixed page_start }) :=
    load_from_swap_scan_none page_start _ _ hnone
  simp only [allocate_page_fill, hmap, not_true_eq_false, if_false, hscan, ne_eq,
    if_neg hout]

/-- The fill when the first active entry for the page can be read back in full. -/
theorem allocate_page_fill_from_swap (env : LoaderEnv) (segment : Elf32_Phdr)
    (page_start : Nat) (world : World) (hmap : env.mmap_ok page_start = true) (i : Nat)
    (hi : i < world.swap.SWAP_TABLE.length)
    (hmatch : (world.swap.SWAP_TABLE.getD i default).is_active ≠ 0 ∧
      (world.swap.SWAP_TABLE.getD i default).vaddr = page_start)
    (hfirst : ∀ j : Nat, j < i →
      ¬ ((world.swap.SWAP_TABLE.getD j default).is_active ≠ 0 ∧
        (world.swap.SWAP_TABLE.getD j default).vaddr = page_start))
    (hoff : 0 ≤ (world.swap.SWAP_TABLE.getD i default).swap_offset)
    (hlen : (file_pread world.swap.swap_img
      (world.swap.SWAP_TABLE.getD i default).swap_offset.toNat PAGE_SIZE_IN_BYTES).length
        = PAGE_SIZE_IN_BYTES) :
    allocate_page_fill env segment page_start world =
      .ok { swap := world.swap
            mem := (world.mem.mmap_fixed page_start).store page_start
              (file_pread world.swap.swap_img
                (world.swap.SWAP_TABLE.getD i default).swap_offset.toNat PAGE_SIZE_IN_BYTES) } := by
  have hscan := load_from_swap_if_exists_first page_start
    { world with mem := world.mem.mmap_fixed page_start } i hi hmatch hfirst hoff
    (Memory.accessible_mmap_fixed _ _) hlen
  simp only [allocate_page_fill, hmap, not_true_eq_false, if_false, hscan, ne_eq,
    one_ne_zero, not_false_eq_true, if_true]

theorem ulong_sub_of_le (w a b : Nat) (hba : b ≤ a) (ha : a < 2 ^ w) :
    ulong_sub w a b = a - b := by
  unfold ulong_sub
  have h1 : ((a : Int) - (b : Int)) = ((a - b : Nat) : Int) := by omega
  have h2 : ((2 : Int) ^ w) = ((2 ^ w : Nat) : Int) := by push_cast; rfl
  rw [h1, h2, ← Int.natCast_mod, Int.toNat_ofNat]
  exact Nat.mod_eq_of_lt (by omega)

theorem ulong_add_of_lt (w a b : Nat) (h : a + b < 2 ^ w) : ulong_add w a b = a + b :=
  Nat.mod_eq_of_lt h

/-- The branches of the fill of a page, for a page the host lets the loader map, with
`offset_in_segment = page_start - segment.vaddr` and
`file_offset = segment.offset + offset_in_segment` computed in `unsigned long` (they are the
plain difference and sum when `vaddr ≤ page_start` and nothing exceeds the word).
(a) If the swap store has an active slot for `page_start`, whose first such entry can be
read back in full, the fill returns and the page holds those swapped bytes; the page holds
`c` when the store holds `c` for `page_start`; and in a store reached from the initial one
by evictions, an active slot for `page_start` is enough: the store then holds a page for
it, which the fill copies. (b) Otherwise, if
`offset_in_segment < filesz`, the fill returns and the page holds the
`min(4096, filesz - offset_in_segment)` bytes of the ELF file from `file_offset` (those of
them the file has) followed by zeros up to 4096 bytes. (c) Otherwise the fill returns and
the whole page is zero. The swap store is never changed. -/
theorem allocate_page_fill_branches (env : LoaderEnv) (segment : Elf32_Phdr) (page_start : Nat)
    (world : World) (hmap : env.mmap_ok page_start = true) :
    (∀ i : Nat, i < world.swap.SWAP_TABLE.length →
      ((world.swap.SWAP_TABLE.getD i default).is_active ≠ 0 ∧
        (world.swap.SWAP_TABLE.getD i default).vaddr = page_start) →
      (∀ j : Nat, j < i →
        ¬ ((world.swap.SWAP_TABLE.getD j default).is_active ≠ 0 ∧
          (world.swap.SWAP_TABLE.getD j default).vaddr = page_start)) →
      0 ≤ (world.swap.SWAP_TABLE.getD i default).swap_offset →
      (file_pread world.swap.swap_img
        (world.swap.SWAP_TABLE.getD i default).swap_offset.toNat PAGE_SIZE_IN_BYTES).length
          = PAGE_SIZE_IN_BYTES →
      ∃ world1 : World, allocate_page_fill env segment page_start world = .ok world1 ∧
        world1.swap = world.swap ∧
        world1.mem.load page_start PAGE_SIZE_IN_BYTES =
          file_pread world.swap.swap_img
            (world.swap.SWAP_TABLE.getD i default).swap_offset.toNat PAGE_SIZE_IN_BYTES) ∧
    (∀ c : List Nat, world.swap.holds page_start c →
      ∃ world1 : World, allocate_page_fill env segment page_start world = .ok world1 ∧
        world1.swap = world.swap ∧ world1.mem.load page_start PAGE_SIZE_IN_BYTES = c) ∧
    (∀ (segs : List Elf32_Phdr) (max_pages : Int) (m0 : Memory) (steps : List (Nat × Memory))
        (st : World),
      swap_evictions env.ulong_bits segs steps
        { swap := init_swap_system max_pages, mem := m0 } = .ok st →
      world.swap = st.swap →
      (∃ e ∈ world.swap.SWAP_TABLE, e.is_active ≠ 0 ∧ e.vaddr = page_start) →
      ∃ (world1 : World) (c : List Nat),
        allocate_page_fill env segment page_start world = .ok world1 ∧
        world1.swap = world.swap ∧ world.swap.holds page_start c ∧
        world1.mem.load page_start PAGE_SIZE_IN_BYTES = c) ∧
    ((∀ e ∈ world.swap.SWAP_TABLE, ¬ (e.is_active ≠ 0 ∧ e.vaddr = page_start)) →
      ulong_sub env.ulong_bits page_start segment.p_vaddr < segment.p_filesz →
      segment.p_filesz + PAGE_SIZE_IN_BYTES ≤ 2 ^ env.ulong_bits →
      ∃ world1 : World, allocate_page_fill env segment page_start world = .ok world1 ∧
        world1.swap = world.swap ∧
        world1.mem.load page_start PAGE_SIZE_IN_BYTES =
          file_pread env.elf_file
            (ulong_add env.ulong_bits segment.p_offset
              (ulong_sub env.ulong_bits page_start segment.p_vaddr))
            (min PAGE_SIZE_IN_BYTES
              (segment.p_filesz - ulong_sub env.ulong_bits page_start segment.p_vaddr))
          ++ List.replicate
              (PAGE_SIZE_IN_BYTES -
                (file_pread env.elf_file
                  (ulong_add env.ulong_bits segment.p_offset
                    (ulong_sub env.ulong_bits page_start segment.p_vaddr))
                  (min PAGE_SIZE_IN_BYTES
                    (segment.p_filesz
                      - ulong_sub env.ulong_bits page_start segment.p_vaddr))).length) 0) ∧
    ((∀ e ∈ world.swap.SWAP_TABLE, ¬ (e.is_active ≠ 0 ∧ e.vaddr = page_start)) →
      ¬ ulong_sub env.ulong_bits page_start segment.p_vaddr < segment.p_filesz →
      ∃ world1 : World, allocate_page_fill env segment page_start world = .ok world1 ∧
        world1.swap = world.swap ∧
        world1.mem.load page_start PAGE_SIZE_IN_BYTES = List.replicate PAGE_SIZE_IN_BYTES 0) ∧
    (segment.p_vaddr ≤ page_start → page_start < 2 ^ env.ulong_bits →
      ulong_sub env.ulong_bits page_start segment.p_vaddr = page_start - segment.p_vaddr) ∧
    (segment.p_offset + ulong_sub env.ulong_bits page_start segment.p_vaddr
        < 2 ^ env.ulong_bits →
      ulong_add env.ulong_bits segment.p_offset
          (ulong_sub env.ulong_bits page_start segment.p_vaddr) =
        segment.p_offset + ulong_sub env.ulong_bits page_start segment.p_vaddr) := by
  have hA : ∀ i : Nat, i < world.swap.SWAP_TABLE.length →
      ((world.swap.SWAP_TABLE.getD i default).is_active ≠ 0 ∧
        (world.swap.SWAP_TABLE.getD i default).vaddr = page_start) →
      (∀ j : Nat, j < i →
        ¬ ((world.swap.SWAP_TABLE.getD j default).is_active ≠ 0 ∧
          (world.swap.SWAP_TABLE.getD j default).vaddr = page_start)) →
      0 ≤ (world.swap.SWAP_TABLE.getD i default).swap_offset →
      (file_pread world.swap.swap_img
        (world.swap.SWAP_TABLE.getD i default).swap_offset.toNat PAGE_SIZE_IN_BYTES).length
          = PAGE_SIZE_IN_BYTES →
      ∃ world1 : World, allocate_page_fill env segment page_start world = .ok world1 ∧
        world1.swap = world.swap ∧
        world1.mem.load page_start PAGE_SIZE_IN_BYTES =
          file_pread world.swap.swap_img
            (world.swap.SWAP_TABLE.getD i default).swap_offset.toNat PAGE_SIZE_IN_BYTES := by
    intro i hi hmatch hfirst hoff hlen
    refine ⟨_, allocate_page_fill_from_swap env segment page_start world hmap i hi hmatch
      hfirst hoff hlen, rfl, ?_⟩
    have := Memory.load_store_same (world.mem.mmap_fixed page_start) page_start
      (file_pread world.swap.swap_img
        (world.swap.SWAP_TABLE.getD i default).swap_offset.toNat PAGE_SIZE_IN_BYTES)
    rw [hlen] at this
    exact this
  have hB : ∀ c : List Nat, world.swap.holds page_start c →
      ∃ world1 : World, allocate_page_fill env segment page_start world = .ok world1 ∧
        world1.swap = world.swap ∧ world1.mem.load page_start PAGE_SIZE_IN_BYTES = c := by
    intro c hold
    obtain ⟨i, hi, hentry, hfirst, hoff, hfile, hlen⟩ := hold
    obtain ⟨world1, h1, h2, h3⟩ := hA i hi (by rw [hentry]; simp) hfirst
      (by rw [hentry]; exact hoff) (by rw [hentry]; simp only []; rw [hfile]; exact hlen)
    refine ⟨world1, h1, h2, ?_⟩
    rw [h3, hentry]
    exact hfile
  refine ⟨hA, hB, ?_, ?_, ?_, ulong_sub_of_le _ _ _, ulong_add_of_lt _ _ _⟩
  · intro segs max_pages m0 steps st hrun hsw hex
    have hwf : world.swap.wellformed := by
      rw [hsw]
      exact swap_evictions_wellformed env.ulong_bits segs steps _ st
        (init_swap_system_wellformed max_pages) hrun
    obtain ⟨c, hc⟩ := SwapStore.holds_of_active world.swap page_start hwf hex
    obtain ⟨world1, h1, h2, h3⟩ := hB c hc
    exact ⟨world1, c, h1, h2, hc, h3⟩
  · intro hnone hin hfit
    have hP : PAGE_SIZE_IN_BYTES = 4096 := rfl
    have hsum : ulong_add env.ulong_bits (ulong_sub env.ulong_bits page_start segment.p_vaddr)
        PAGE_SIZE_IN_BYTES =
        ulong_sub env.ulong_bits page_start segment.p_vaddr + PAGE_SIZE_IN_BYTES :=
      ulong_add_of_lt _ _ _ (by omega)
    have hn : min PAGE_SIZE_IN_BYTES
        (segment.p_filesz - ulong_sub env.ulong_bits page_start segment.p_vaddr) =
        if ulong_add env.ulong_bits (ulong_sub env.ulong_bits page_start segment.p_vaddr)
                PAGE_SIZE_IN_BYTES > segment.p_filesz
        then segment.p_filesz - ulong_sub env.ulong_bits page_start segment.p_vaddr
        else PAGE_SIZE_IN_BYTES := by
      rw [hsum]
      split <;> omega
    refine ⟨_, allocate_page_fill_from_file env segment page_start world hmap hnone hin _ hn,
      rfl, ?_⟩
    apply Memory.load_filled
    · rw [file_pread_length]; omega
    · omega
  · intro hnone hout
    exact ⟨_, allocate_page_fill_zero env segment page_start world hmap hnone hout, rfl,
      Memory.load_zero_page _ _⟩

/-! ## The page of a fault -/

theorem load_from_swap_scan_frame (a : Nat) (st : World) (l : List SwapEntry) (r : Int)
    (st1 : World) (h : load_from_swap_scan a st l = .ok (r, st1)) :
    st1.swap = st.swap ∧ st1.mem.mapped = st.mem.mapped := by
  induction l with
  | nil =>
    simp only [load_from_swap_scan, Except.ok.injEq, Prod.mk.injEq] at h
    rw [← h.2]; exact ⟨rfl, rfl⟩
  | cons e rest ih =>
    simp only [load_from_swap_scan] at h
    split at h
    · split at h
      · simp only [Except.ok.injEq, Prod.mk.injEq] at h
        rw [← h.2]; exact ⟨rfl, rfl⟩
      · split at h
        · simp at h
        · split at h
          · simp at h
          · simp only [Except.ok.injEq, Prod.mk.injEq] at h
            rw [← h.2]; exact ⟨rfl, rfl⟩
    · exact ih h

theorem Memory.accessible_of_mapped_eq (m1 m2 : Memory) (a n : Nat)
    (h : m1.mapped = m2.mapped) : m1.accessible a n = m2.accessible a n := by
  simp [Memory.accessible, h]

/-- A fill that returns leaves the page mapped and the swap store as it was. -/
theorem allocate_page_fill_mapped (env : LoaderEnv) (segment : Elf32_Phdr) (page_start : Nat)
    (world world1 : World) (h : allocate_page_fill env segment page_start world = .ok world1) :
    world1.mem.accessible page_start PAGE_SIZE_IN_BYTES = true ∧ world1.swap = world.swap := by
  simp only [allocate_page_fill] at h
  split at h
  · simp at h
  · cases hscan : load_from_swap_if_exists page_start
        { world with mem := world.mem.mmap_fixed page_start } with
    | error e => rw [hscan] at h; simp at h
    | ok res =>
      obtain ⟨found, world2⟩ := res
      rw [hscan] at h
      obtain ⟨hsw, hmp⟩ := load_from_swap_scan_frame page_start _ _ found world2 hscan
      have hacc : world2.mem.accessible page_start PAGE_SIZE_IN_BYTES = true := by
        rw [Memory.accessible_of_mapped_eq world2.mem (world.mem.mmap_fixed page_start) _ _ hmp]
        exact Memory.accessible_mmap_fixed _ _
      simp only at h
      split at h
      · simp only [Except.ok.injEq] at h
        rw [← h]; exact ⟨hacc, hsw⟩
      · split at h
        · simp only [Except.ok.injEq] at h
          rw [← h]
          refine ⟨?_, hsw⟩
          rw [← hacc]
          apply Memory.accessible_of_mapped_eq
          simp only
          split_ifs <;> rfl
        · simp only [Except.ok.injEq] at h
          rw [← h]
          refine ⟨?_, hsw⟩
          rw [← hacc]
          apply Memory.accessible_of_mapped_eq
          rfl

theorem add_page_fifo_last {σ : Type} (env : EvictionHook σ) (a : Nat) (st st1 : FIFOState × σ)
    (h : add_page_fifo env a st = .ok st1) :
    st1.1.FIFO_QUEUE.pages.getLast? = some a := by
  simp only [add_page_fifo] at h
  split at h
  · simp at h
  · simp only [Except.ok.injEq] at h
    rw [← h]
    simp

/-- C8, as amended: for a fault address `fa` that `find_segment_of_fault` places in segment
`i`, the page start `(fa / 4096) * 4096` is a multiple of 4096 with
`page_start ≤ fa < page_start + 4096`; `fa` lies in the range of the segment, so the page
meets the segment; `page_start` itself lies in `[vaddr, vaddr + memsz)` whenever
`vaddr ≤ page_start`, which holds when `vaddr` is a multiple of 4096. A handler run that
returns has mapped that page, filled it with `allocate_page_fill`, and charged that same
address to the policy (under FIFO it is the tail of the queue). -/
theorem C8_page_start_of_fault (env : LoaderEnv) (fa i : Nat)
    (hseg : find_segment_of_fault env.ulong_bits env.PHDRS_OF_SEGMENTS_TO_LOAD fa = (i : Int)) :
    page_start_of fa % 4096 = 0 ∧ page_start_of fa ≤ fa ∧ fa < page_start_of fa + 4096 ∧
    ((env.PHDRS_OF_SEGMENTS_TO_LOAD.getD i default).p_vaddr ≤ fa ∧
      fa < (env.PHDRS_OF_SEGMENTS_TO_LOAD.getD i default).p_vaddr
            + (env.PHDRS_OF_SEGMENTS_TO_LOAD.getD i default).p_memsz) ∧
    ((env.PHDRS_OF_SEGMENTS_TO_LOAD.getD i default).p_vaddr ≤ page_start_of fa →
      page_start_of fa < (env.PHDRS_OF_SEGMENTS_TO_LOAD.getD i default).p_vaddr
            + (env.PHDRS_OF_SEGMENTS_TO_LOAD.getD i default).p_memsz) ∧
    ((env.PHDRS_OF_SEGMENTS_TO_LOAD.getD i default).p_vaddr % 4096 = 0 →
      (env.PHDRS_OF_SEGMENTS_TO_LOAD.getD i default).p_vaddr ≤ page_start_of fa) ∧
    (∀ (rnd : Nat) (st st1 : LoaderState), segfault_handler env fa rnd st = .ok st1 →
      ∃ world1 : World,
        allocate_page_fill env (env.PHDRS_OF_SEGMENTS_TO_LOAD.getD i default)
          (page_start_of fa) st.world = .ok world1 ∧
        world1.mem.accessible (page_start_of fa) PAGE_SIZE_IN_BYTES = true ∧
        allocate_page_charge env (i : Int) (page_start_of fa) rnd
          { st with PAGE_FAULTS := st.PAGE_FAULTS + 1, world := world1 } = .ok st1 ∧
        (st.ADD_PAGE = .fifo →
          st1.fifo.FIFO_QUEUE.pages.getLast? = some (page_start_of fa))) := by
  obtain ⟨_, hlo, _, hhi⟩ := find_segment_of_fault_hit _ _ _ _ hseg
  obtain ⟨p1, p2, p3⟩ := page_start_of_facts fa
  refine ⟨p1, p2, p3, ⟨hlo, hhi⟩, fun _ => by omega, fun hal => ?_, ?_⟩
  · unfold page_start_of PAGE_SIZE_IN_BYTES
    omega
  · intro rnd st st1 hrun
    have hne : ¬ ((i : Int) = -1) := by omega
    simp only [segfault_handler, hseg, ne_eq, hne, not_false_eq_true, if_true, allocate_page,
      Int.toNat_ofNat] at hrun
    split at hrun
    · simp at hrun
    · cases hfill : allocate_page_fill env (env.PHDRS_OF_SEGMENTS_TO_LOAD.getD i default)
          (page_start_of fa) st.world with
      | error e => rw [hfill] at hrun; simp at hrun
      | ok world1 =>
        rw [hfill] at hrun
        refine ⟨world1, rfl, (allocate_page_fill_mapped _ _ _ _ _ hfill).1, hrun, ?_⟩
        intro hfifo
        simp only [allocate_page_charge, hfifo] at hrun
        cases hadd : add_page_fifo (swapHook env.ulong_bits env.PHDRS_OF_SEGMENTS_TO_LOAD)
            (page_start_of fa) (st.fifo, world1) with
        | error e => rw [hadd] at hrun; simp at hrun
        | ok r =>
          rw [hadd] at hrun
          simp only [Except.ok.injEq] at hrun
          rw [← hrun]
          exact add_page_fifo_last _ _ _ _ hadd

/-- A fault in segment `i` under FIFO below capacity: the handler returns, with the page
filled, appended to the queue, and both counters incremented. -/
theorem segfault_handler_fifo_below (env : LoaderEnv) (fa i rnd : Nat) (st : LoaderState)
    (world1 : World)
    (hseg : find_segment_of_fault env.ulong_bits env.PHDRS_OF_SEGMENTS_TO_LOAD fa = (i : Int))
    (hfa : fa ≠ 0)
    (hfill : allocate_page_fill env (env.PHDRS_OF_SEGMENTS_TO_LOAD.getD i default)
      (page_start_of fa) st.world = .ok world1)
    (hops : st.ADD_PAGE = .fifo)
    (hroom : st.fifo.FIFO_QUEUE.num_of_pages < st.fifo.FIFO_QUEUE.max_pages) :
    segfault_handler env fa rnd st =
      .ok { PAGE_FAULTS := st.PAGE_FAULTS + 1
            PAGE_ALLOCATIONS := st.PAGE_ALLOCATIONS + 1
            PAGES_ALLOCED_TO_SEGMENT :=
              st.PAGES_ALLOCED_TO_SEGMENT.set i (st.PAGES_ALLOCED_TO_SEGMENT.getD i 0 + 1)
            MODE := st.MODE
            ADD_PAGE := st.ADD_PAGE
            fifo := { FIFO_QUEUE := { pages := st.fifo.FIFO_QUEUE.pages ++ [page_start_of fa]
                                      num_of_pages := st.fifo.FIFO_QUEUE.num_of_pages + 1
                                      max_pages := st.fifo.FIFO_QUEUE.max_pages }
                      PAGE_EVICTIONS_FIFO := st.fifo.PAGE_EVICTIONS_FIFO }
            random := st.random
            world := world1 } := by
  have hne : ¬ ((i : Int) = -1) := by omega
  have hadd := add_page_fifo_below (swapHook env.ulong_bits env.PHDRS_OF_SEGMENTS_TO_LOAD)
    (page_start_of fa) st.fifo world1 hroom
  simp only [segfault_handler, hseg, ne_eq, hne, not_false_eq_true, if_true, allocate_page,
    Int.toNat_ofNat, hfa, if_false, hfill, allocate_page_charge, hops, hadd]

/-- C8 fails as stated: the fault address 409704 lies inside the segment that covers 409700
to 413795, yet the page start 409600 that the handler maps and appends to the FIFO queue lies
below the segment. -/
theorem C8_counterexample :
    find_segment_of_fault unalignedEnv.ulong_bits unalignedEnv.PHDRS_OF_SEGMENTS_TO_LOAD 409704
      = 0 ∧
    (unalignedSegment.p_vaddr ≤ 409704 ∧
      409704 < unalignedSegment.p_vaddr + unalignedSegment.p_memsz) ∧
    page_start_of 409704 = 409600 ∧
    ¬ (unalignedSegment.p_vaddr ≤ page_start_of 409704 ∧
      page_start_of 409704 < unalignedSegment.p_vaddr + unalignedSegment.p_memsz) ∧
    ∃ st1 : LoaderState,
      segfault_handler unalignedEnv 409704 0 (loader_start .fifo 0 1 2) = .ok st1 ∧
      st1.world.mem.accessible 409600 PAGE_SIZE_IN_BYTES = true ∧
      st1.fifo.FIFO_QUEUE.pages = [409600] := by
  have hfind : find_segment_of_fault unalignedEnv.ulong_bits
      unalignedEnv.PHDRS_OF_SEGMENTS_TO_LOAD 409704 = ((0 : Nat) : Int) := by decide
  have hfill := allocate_page_fill_zero unalignedEnv unalignedSegment 409600
    (loader_start .fifo 0 1 2).world rfl (init_swap_system_inactive 2 409600) (by decide)
  have hrun := segfault_handler_fifo_below unalignedEnv 409704 0 0 (loader_start .fifo 0 1 2) _
    hfind (by decide) hfill rfl (by decide)
  refine ⟨hfind, by decide, by decide, by decide, _, hrun, ?_, rfl⟩
  exact (allocate_page_fill_mapped _ _ _ _ _ hfill).1

/-! ## Instances of the swap and fault claims -/

/-- In the initial table with slot 0 taken by another key, the search picks slot 1. -/
theorem find_swap_slot_second (a b : Nat) (max_pages : Int) (off : Int) (hab : ¬ b = a) :
    find_swap_slot a ((init_swap_system max_pages).SWAP_TABLE.set 0
      { vaddr := b, swap_offset := off, is_active := 1 }) 0 (-1) = ((1 : Nat) : Int) := by
  obtain ⟨n, hn, htab, _⟩ := init_swap_system_table max_pages
  have hlen : 1024 ≤ (init_swap_system max_pages).SWAP_TABLE.length := by
    simp only [init_swap_system, MIN_SWAP_ENTRIES, List.length_replicate]
    split <;> omega
  have hone : ((init_swap_system max_pages).SWAP_TABLE.set 0
      { vaddr := b, swap_offset := off, is_active := 1 }).getD 1 default
      = { vaddr := 0, swap_offset := 0, is_active := 0 } := by
    have hmem := getD_mem_of_lt (init_swap_system max_pages).SWAP_TABLE 1 (by omega)
    rw [htab] at hmem
    have h1 := List.eq_of_mem_replicate hmem
    rw [← htab] at h1
    simpa [List.getD_eq_getElem?_getD, List.getElem?_set] using h1
  apply find_swap_slot_first_inactive
  · simp only [List.length_set]; omega
  · intro e he
    rcases List.mem_or_eq_of_mem_set he with h | h
    · exact init_swap_system_inactive max_pages a e h
    · rw [h]
      intro hc
      exact hab hc.2
  · rw [hone]
  · intro j hj
    have hj0 : j = 0 := by omega
    subst hj0
    have hpos : 0 < (init_swap_system max_pages).SWAP_TABLE.length := by omega
    simp [List.getD_eq_getElem?_getD, List.getElem?_set, hpos]

/-- A sequence of one call is that call, made with the memory that comes with it. -/
theorem swap_evictions_single (w : Nat) (segs : List Elf32_Phdr) (b : Nat) (mb m : Memory)
    (sw : SwapStore) :
    swap_evictions w segs [(b, mb)] { swap := sw, mem := m }
      = handle_page_eviction_to_swap w segs b { swap := sw, mem := mb } := by
  simp only [swap_evictions]
  cases handle_page_eviction_to_swap w segs b { swap := sw, mem := mb } <;> rfl

theorem C5_swap_round_trip_witness :
    ∃ st1 st2 st3 : World,
      handle_page_eviction_to_swap 32 [dataSegment] 417792
        { swap := init_swap_system 1, mem := patternMemory } = .ok st1 ∧
      swap_evictions 32 [dataSegment] [(421888, patternMemory)] st1 = .ok st2 ∧
      (st2.swap.SWAP_TABLE.getD 1 default).vaddr = 421888 ∧
      load_from_swap_if_exists 417792 { swap := st2.swap, mem := patternMemory.mmap_fixed 417792 }
        = .ok (1, st3) ∧
      st3.mem.load 417792 PAGE_SIZE_IN_BYTES = patternMemory.load 417792 PAGE_SIZE_IN_BYTES := by
  have hrw : ¬ (find_segment_of_fault 32 [dataSegment] 417792 ≠ -1 ∧
      Nat.land (([dataSegment] : List Elf32_Phdr).getD
        (find_segment_of_fault 32 [dataSegment] 417792).toNat default).p_flags PF_W = 0) := by
    decide
  have hrw2 : ¬ (find_segment_of_fault 32 [dataSegment] 421888 ≠ -1 ∧
      Nat.land (([dataSegment] : List Elf32_Phdr).getD
        (find_segment_of_fault 32 [dataSegment] 421888).toNat default).p_flags PF_W = 0) := by
    decide
  have hev := handle_page_eviction_to_swap_ok 32 [dataSegment] 417792
    { swap := init_swap_system 1, mem := patternMemory } hrw 0
    (find_swap_slot_init 417792 1) (by decide) (patternMemory_accessible _ _)
  have hev2 := handle_page_eviction_to_swap_ok 32 [dataSegment] 421888
    { swap := { SWAP_TABLE := (init_swap_system 1).SWAP_TABLE.set 0
                  { vaddr := 417792
                    swap_offset := ((0 : Nat) : Int) * (PAGE_SIZE_IN_BYTES : Int)
                    is_active := 1 }
                swap_img := file_pwrite (init_swap_system 1).swap_img (0 * PAGE_SIZE_IN_BYTES)
                  (patternMemory.load 417792 PAGE_SIZE_IN_BYTES) }
      mem := patternMemory } hrw2 1
    (find_swap_slot_second 421888 417792 1 _ (by decide)) (by decide)
    (patternMemory_accessible _ _)
  have hrun := (swap_evictions_single 32 [dataSegment] 421888 patternMemory patternMemory _).trans
    hev2
  have hlen : 1024 ≤ (init_swap_system 1).SWAP_TABLE.length := by
    have := init_swap_system_length 1 (by decide) (by decide)
    omega
  obtain ⟨st3, h1, h2, _⟩ := C5_swap_round_trip 32 [dataSegment] 1 emptyMemory [] _ rfl 417792
    { swap := init_swap_system 1, mem := patternMemory } _ rfl hrw hev
    [(421888, patternMemory)]
    (fun x hx => by
      rw [List.mem_singleton] at hx
      subst hx
      decide) _ hrun (patternMemory.mmap_fixed 417792)
    (Memory.accessible_mmap_fixed _ _)
  refine ⟨_, _, st3, hev, hrun, ?_, h1, h2⟩
  have hl : 1 < (init_swap_system 1).SWAP_TABLE.length := by omega
  simp [List.getD_eq_getElem?_getD, List.getElem?_set, hl]

theorem C6_read_only_never_swapped_witness :
    (find_segment_of_fault 32 [unalignedSegment] 409704 ≠ -1 ∧
      Nat.land (([unalignedSegment] : List Elf32_Phdr).getD
        (find_segment_of_fault 32 [unalignedSegment] 409704).toNat default).p_flags PF_W = 0) ∧
    ∃ st1 : World,
      swap_evictions 32 [unalignedSegment] [(409704, patternMemory)]
        { swap := init_swap_system 1, mem := emptyMemory } = .ok st1 ∧
      st1.swap.swap_img.length = 0 :=
  ⟨by decide,
    (C6_read_only_never_swapped 32 [unalignedSegment] [(409704, patternMemory)]
      (fun x hx => by
        rw [List.mem_singleton] at hx
        subst hx
        decide)).2.2 1 emptyMemory⟩

theorem C7_active_slot_keys_witness :
    ∃ st1 : World,
      swap_evictions 32 [dataSegment] [(417792, patternMemory)]
        { swap := init_swap_system 1, mem := emptyMemory } = .ok st1 ∧
      ∀ e ∈ st1.swap.SWAP_TABLE, e.is_active ≠ 0 →
        (∃ x ∈ [(417792, patternMemory)], x.1 = e.vaddr) ∧
        (find_segment_of_fault 32 [dataSegment] e.vaddr = -1 ∨
          Nat.land (([dataSegment] : List Elf32_Phdr).getD
            (find_segment_of_fault 32 [dataSegment] e.vaddr).toNat default).p_flags PF_W ≠ 0) := by
  have hrw : ¬ (find_segment_of_fault 32 [dataSegment] 417792 ≠ -1 ∧
      Nat.land (([dataSegment] : List Elf32_Phdr).getD
        (find_segment_of_fault 32 [dataSegment] 417792).toNat default).p_flags PF_W = 0) := by
    decide
  have hev := handle_page_eviction_to_swap_ok 32 [dataSegment] 417792
    { swap := init_swap_system 1, mem := patternMemory } hrw 0
    (find_swap_slot_init 417792 1) (by decide) (patternMemory_accessible _ _)
  have hrun : ∃ st1 : World, swap_evictions 32 [dataSegment] [(417792, patternMemory)]
      { swap := init_swap_system 1, mem := emptyMemory } = .ok st1 :=
    ⟨_, by simp only [swap_evictions]; rw [hev]⟩
  obtain ⟨st1, hrun⟩ := hrun
  exact ⟨st1, hrun,
    C7_active_slot_keys 32 [dataSegment] 1 emptyMemory [(417792, patternMemory)] st1 hrun⟩

theorem C8_page_start_of_fault_witness :
    find_segment_of_fault dataEnv.ulong_bits dataEnv.PHDRS_OF_SEGMENTS_TO_LOAD 421900
      = ((0 : Nat) : Int) ∧
    page_start_of 421900 % 4096 = 0 ∧ page_start_of 421900 ≤ 421900 ∧
    421900 < page_start_of 421900 + 4096 :=
  ⟨by decide,
    (C8_page_start_of_fault dataEnv 421900 0 (by decide)).1,
    (C8_page_start_of_fault dataEnv 421900 0 (by decide)).2.1,
    (C8_page_start_of_fault dataEnv 421900 0 (by decide)).2.2.1⟩

theorem C10_find_segment_of_fault_witness :
    (∀ s ∈ overlapEnv.PHDRS_OF_SEGMENTS_TO_LOAD,
      s.p_vaddr + s.p_memsz < 2 ^ overlapEnv.ulong_bits) ∧
    ((dataSegment.p_vaddr ≤ 421900 ∧ 421900 < dataSegment.p_vaddr + dataSegment.p_memsz) ∧
      (overlapSegment.p_vaddr ≤ 421900 ∧
        421900 < overlapSegment.p_vaddr + overlapSegment.p_memsz) ∧
      find_segment_of_fault overlapEnv.ulong_bits overlapEnv.PHDRS_OF_SEGMENTS_TO_LOAD 421900
        = ((0 : Nat) : Int)) ∧
    find_segment_of_fault overlapEnv.ulong_bits overlapEnv.PHDRS_OF_SEGMENTS_TO_LOAD 426000
      = ((1 : Nat) : Int) ∧
    find_segment_of_fault overlapEnv.ulong_bits overlapEnv.PHDRS_OF_SEGMENTS_TO_LOAD 409600
      = -1 ∧
    ∀ (rnd : Nat) (st : LoaderState),
      segfault_handler overlapEnv 409600 rnd st =
        .error (.exit 1, { st with PAGE_FAULTS := st.PAGE_FAULTS + 1 }) :=
  have hnw : ∀ s ∈ overlapEnv.PHDRS_OF_SEGMENTS_TO_LOAD,
      s.p_vaddr + s.p_memsz < 2 ^ overlapEnv.ulong_bits := by
    intro s hs
    have hs2 : s ∈ [dataSegment, overlapSegment] := hs
    simp only [List.mem_cons, List.mem_singleton, List.not_mem_nil, or_false] at hs2
    rcases hs2 with rfl | rfl <;> decide
  have hnone : find_segment_of_fault overlapEnv.ulong_bits
      overlapEnv.PHDRS_OF_SEGMENTS_TO_LOAD 409600 = -1 :=
    (C10_find_segment_of_fault overlapEnv 409600 hnw).2.1.mpr (fun s hs => by
      have hs2 : s ∈ [dataSegment, overlapSegment] := hs
      simp only [List.mem_cons, List.mem_singleton, List.not_mem_nil, or_false] at hs2
      rcases hs2 with rfl | rfl <;> decide)
  ⟨hnw,
    ⟨by decide, by decide,
      ((C10_find_segment_of_fault overlapEnv 421900 hnw).1 0).mpr
        ⟨by decide, by decide, fun j hj => absurd hj (Nat.not_lt_zero j)⟩⟩,
    ((C10_find_segment_of_fault overlapEnv 426000 hnw).1 1).mpr
      ⟨by decide, by decide, fun j hj => by
        have hj0 : j = 0 := by omega
        subst hj0
        decide⟩,
    hnone,
    (C10_find_segment_of_fault overlapEnv 409600 hnw).2.2.2.2 hnone⟩

/-! ## Counters of the fault handler -/

/-- A handler run that returns has counted one fault and one allocation and keeps the
policy in use. -/
theorem segfault_handler_counters (env : LoaderEnv) (fa rnd : Nat) (st st1 : LoaderState)
    (h : segfault_handler env fa rnd st = .ok st1) :
    st1.PAGE_FAULTS = st.PAGE_FAULTS + 1 ∧ st1.PAGE_ALLOCATIONS = st.PAGE_ALLOCATIONS + 1 ∧
    st1.ADD_PAGE = st.ADD_PAGE ∧ st1.MODE = st.MODE := by
  simp only [segfault_handler] at h
  split at h
  · simp only [allocate_page] at h
    split at h
    · simp at h
    · split at h
      · simp at h
      · simp only [allocate_page_charge] at h
        split at h
        · split at h
          · simp at h
          · simp only [Except.ok.injEq] at h
            rw [← h]
            exact ⟨rfl, rfl, rfl, rfl⟩
        · split at h
          · simp at h
          · simp only [Except.ok.injEq] at h
            rw [← h]
            exact ⟨rfl, rfl, rfl, rfl⟩
  · simp at h

/-- A handler run that exits has counted the fault and no allocation. -/
theorem segfault_handler_counters_exit (env : LoaderEnv) (fa rnd : Nat) (st : LoaderState)
    (e : Halt × LoaderState) (h : segfault_handler env fa rnd st = .error e) :
    e.2.PAGE_FAULTS = st.PAGE_FAULTS + 1 ∧ e.2.PAGE_ALLOCATIONS = st.PAGE_ALLOCATIONS := by
  simp only [segfault_handler] at h
  split at h
  · simp only [allocate_page] at h
    split at h
    · simp only [Except.error.injEq] at h
      rw [← h]; exact ⟨rfl, rfl⟩
    · split at h
      · simp only [Except.error.injEq] at h
        rw [← h]; exact ⟨rfl, rfl⟩
      · simp only [allocate_page_charge] at h
        split at h
        · split at h
          · simp only [Except.error.injEq] at h
            rw [← h]; exact ⟨rfl, rfl⟩
          · simp at h
        · split at h
          · simp only [Except.error.injEq] at h
            rw [← h]; exact ⟨rfl, rfl⟩
          · simp at h
  · simp only [Except.error.injEq] at h
    rw [← h]; exact ⟨rfl, rfl⟩

theorem fault_trace_counters (env : LoaderEnv) (trace : List Fault) (st st1 : LoaderState)
    (h : fault_trace env trace st = .ok st1) :
    st1.PAGE_FAULTS = st.PAGE_FAULTS + (trace.length : Int) ∧
    st1.PAGE_ALLOCATIONS = st.PAGE_ALLOCATIONS + (trace.length : Int) ∧
    st1.ADD_PAGE = st.ADD_PAGE ∧ st1.MODE = st.MODE := by
  induction trace generalizing st with
  | nil =>
    simp only [fault_trace, Except.ok.injEq] at h
    rw [← h]; simp
  | cons f rest ih =>
    simp only [fault_trace] at h
    cases hrun : segfault_handler env f.fault_addr f.rnd
        { st with world := { st.world with mem := guest_run f.guest_stores st.world.mem } } with
    | error e => rw [hrun] at h; simp at h
    | ok st2 =>
      rw [hrun] at h
      obtain ⟨a1, a2, a3, a4⟩ := segfault_handler_counters env _ _ _ st2 hrun
      obtain ⟨b1, b2, b3, b4⟩ := ih st2 h
      simp only at a1 a2 a3 a4
      refine ⟨?_, ?_, by rw [b3, a3], by rw [b4, a4]⟩
      · rw [List.length_cons]; push_cast; omega
      · rw [List.length_cons]; push_cast; omega

theorem fault_trace_counters_exit (env : LoaderEnv) (trace : List Fault) (st : LoaderState)
    (e : Halt × LoaderState) (h : fault_trace env trace st = .error e) :
    ∃ n : Nat, n < trace.length ∧ e.2.PAGE_FAULTS = st.PAGE_FAULTS + (n : Int) + 1 ∧
      e.2.PAGE_ALLOCATIONS = st.PAGE_ALLOCATIONS + (n : Int) := by
  induction trace generalizing st with
  | nil => simp [fault_trace] at h
  | cons f rest ih =>
    simp only [fault_trace] at h
    cases hrun : segfault_handler env f.fault_addr f.rnd
        { st with world := { st.world with mem := guest_run f.guest_stores st.world.mem } } with
    | error e2 =>
      rw [hrun] at h
      simp only [Except.error.injEq] at h
      subst h
      obtain ⟨a1, a2⟩ := segfault_handler_counters_exit env _ _ _ e2 hrun
      exact ⟨0, by simp, by simpa using a1, by simpa using a2⟩
    | ok st2 =>
      rw [hrun] at h
      obtain ⟨a1, a2, _, _⟩ := segfault_handler_counters env _ _ _ st2 hrun
      obtain ⟨n, hn, b1, b2⟩ := ih st2 h
      simp only at a1 a2
      refine ⟨n + 1, by simp; omega, ?_, ?_⟩
      · push_cast; omega
      · push_cast; omega

/-- C11, as amended: every invocation of the fault handler that returns has incremented
`PAGE_FAULTS` and `PAGE_ALLOCATIONS` by exactly one each, so after every run of the guest
whose faults were all served both counters have grown by the number of faults, and from the
initial state `PAGE_ALLOCATIONS = PAGE_FAULTS`; an invocation that exits has incremented
`PAGE_FAULTS` only, so when a run ends in an exit of the handler `PAGE_FAULTS` is one more
than `PAGE_ALLOCATIONS`. -/
theorem C11_allocations_match_faults (env : LoaderEnv) (trace : List Fault)
    (st : LoaderState) :
    (∀ (fa rnd : Nat) (st0 st1 : LoaderState), segfault_handler env fa rnd st0 = .ok st1 →
      st1.PAGE_FAULTS = st0.PAGE_FAULTS + 1 ∧
      st1.PAGE_ALLOCATIONS = st0.PAGE_ALLOCATIONS + 1) ∧
    (∀ st1 : LoaderState, fault_trace env trace st = .ok st1 →
      st1.PAGE_FAULTS = st.PAGE_FAULTS + (trace.length : Int) ∧
      st1.PAGE_ALLOCATIONS = st.PAGE_ALLOCATIONS + (trace.length : Int) ∧
      (st.PAGE_ALLOCATIONS = st.PAGE_FAULTS → st1.PAGE_ALLOCATIONS = st1.PAGE_FAULTS)) ∧
    (∀ e : Halt × LoaderState, fault_trace env trace st = .error e →
      (st.PAGE_ALLOCATIONS = st.PAGE_FAULTS → e.2.PAGE_FAULTS = e.2.PAGE_ALLOCATIONS + 1) ∧
      ∃ n : Nat, n < trace.length ∧ e.2.PAGE_FAULTS = st.PAGE_FAULTS + (n : Int) + 1 ∧
        e.2.PAGE_ALLOCATIONS = st.PAGE_ALLOCATIONS + (n : Int)) := by
  refine ⟨?_, ?_, ?_⟩
  · intro fa rnd st0 st1 h
    obtain ⟨a1, a2, _, _⟩ := segfault_handler_counters env fa rnd st0 st1 h
    exact ⟨a1, a2⟩
  · intro st1 h
    obtain ⟨a1, a2, _, _⟩ := fault_trace_counters env trace st st1 h
    exact ⟨a1, a2, fun h0 => by omega⟩
  · intro e h
    obtain ⟨n, hn, b1, b2⟩ := fault_trace_counters_exit env trace st e h
    exact ⟨fun h0 => by omega, n, hn, b1, b2⟩

theorem fault_trace_cons_ok (env : LoaderEnv) (f : Fault) (rest : List Fault)
    (st st1 : LoaderState)
    (h : segfault_handler env f.fault_addr f.rnd
      { st with world := { st.world with mem := guest_run f.guest_stores st.world.mem } }
        = .ok st1) :
    fault_trace env (f :: rest) st = fault_trace env rest st1 := by
  simp only [fault_trace, h]

theorem fault_trace_cons_exit (env : LoaderEnv) (f : Fault) (rest : List Fault)
    (st : LoaderState) (e : Halt × LoaderState)
    (h : segfault_handler env f.fault_addr f.rnd
      { st with world := { st.world with mem := guest_run f.guest_stores st.world.mem } }
        = .error e) :
    fault_trace env (f :: rest) st = .error e := by
  simp only [fault_trace, h]

/-- A fault at an address that lies in no segment: the handler exits with status 1, the
fault counted. -/
theorem segfault_handler_no_segment (env : LoaderEnv) (fa rnd : Nat) (st : LoaderState)
    (h : find_segment_of_fault env.ulong_bits env.PHDRS_OF_SEGMENTS_TO_LOAD fa = -1) :
    segfault_handler env fa rnd st =
      .error (.exit 1, { st with PAGE_FAULTS := st.PAGE_FAULTS + 1 }) := by
  simp only [segfault_handler, h, ne_eq, not_true_eq_false, if_false]

/-- The first fault of a guest whose only segment is `dataSegment`, under FIFO, at the start
of the segment: the handler returns with the page 417792 in the queue. -/
theorem dataSegment_first_fault (env : LoaderEnv) (max_pages : Int) (hmax : 1 ≤ max_pages)
    (hbits : env.ulong_bits = 32) (hsegs : env.PHDRS_OF_SEGMENTS_TO_LOAD = [dataSegment])
    (hmap : env.mmap_ok 417792 = true) :
    ∃ world1 : World,
      allocate_page_fill env dataSegment 417792
        (loader_start .fifo 0 1 max_pages).world = .ok world1 ∧
      segfault_handler env 417792 0 (loader_start .fifo 0 1 max_pages) =
        .ok { PAGE_FAULTS := 1
              PAGE_ALLOCATIONS := 1
              PAGES_ALLOCED_TO_SEGMENT := [1]
              MODE := 0
              ADD_PAGE := .fifo
              fifo := { FIFO_QUEUE := { pages := [417792], num_of_pages := 1
                                        max_pages := max_pages }
                        PAGE_EVICTIONS_FIFO := 0 }
              random := init_random max_pages
              world := world1 } := by
  have hfind : find_segment_of_fault env.ulong_bits env.PHDRS_OF_SEGMENTS_TO_LOAD 417792
      = ((0 : Nat) : Int) := by rw [hbits, hsegs]; decide
  have hseg : env.PHDRS_OF_SEGMENTS_TO_LOAD.getD 0 default = dataSegment := by rw [hsegs]; rfl
  have hfill := allocate_page_fill_from_file env dataSegment 417792
    (loader_start .fifo 0 1 max_pages).world hmap (init_swap_system_inactive max_pages 417792)
    (by rw [hbits]; decide) _ rfl
  have hroom : (loader_start .fifo 0 1 max_pages).fifo.FIFO_QUEUE.num_of_pages <
      (loader_start .fifo 0 1 max_pages).fifo.FIFO_QUEUE.max_pages := by
    show (0 : Int) < max_pages
    omega
  refine ⟨_, hfill, ?_⟩
  rw [segfault_handler_fifo_below env 417792 0 0 (loader_start .fifo 0 1 max_pages) _
    hfind (by decide) (by rw [hseg]; exact hfill) rfl hroom]
  rfl

/-- C11 fails as stated: under FIFO with a limit of two pages, the guest of `dataEnv` faults
at 417792, inside its segment, and then at 409600, which lies in no segment; the second
invocation of the handler increments `PAGE_FAULTS` and exits with status 1 without
incrementing `PAGE_ALLOCATIONS`: the counters are 2 and 1. -/
theorem C11_counterexample :
    ∃ e : Halt × LoaderState,
      fault_trace dataEnv
        [{ guest_stores := [], fault_addr := 417792, rnd := 0 },
         { guest_stores := [], fault_addr := 409600, rnd := 0 }]
        (loader_start .fifo 0 1 2) = .error e ∧
      e.1 = Halt.exit 1 ∧ e.2.PAGE_FAULTS = 2 ∧ e.2.PAGE_ALLOCATIONS = 1 := by
  obtain ⟨world1, _, h1⟩ := dataSegment_first_fault dataEnv 2 (by decide) rfl rfl rfl
  have key : ∀ st1 : LoaderState,
      segfault_handler dataEnv 417792 0 (loader_start .fifo 0 1 2) = .ok st1 →
      fault_trace dataEnv
        [{ guest_stores := [], fault_addr := 417792, rnd := 0 },
         { guest_stores := [], fault_addr := 409600, rnd := 0 }]
        (loader_start .fifo 0 1 2) =
          .error (.exit 1, { st1 with PAGE_FAULTS := st1.PAGE_FAULTS + 1 }) := by
    intro st1 h
    rw [fault_trace_cons_ok dataEnv { guest_stores := [], fault_addr := 417792, rnd := 0 }
      _ (loader_start .fifo 0 1 2) st1 h]
    exact fault_trace_cons_exit dataEnv { guest_stores := [], fault_addr := 409600, rnd := 0 }
      [] st1 _ (segfault_handler_no_segment dataEnv 409600 0 st1 (by decide))
  exact ⟨_, key _ h1, rfl, rfl, rfl⟩

/-- An instance of C11: a run of one fault that is served, with both counters at 1. -/
theorem C11_allocations_match_faults_witness :
    ∃ st1 : LoaderState,
      fault_trace dataEnv [{ guest_stores := [], fault_addr := 417792, rnd := 0 }]
        (loader_start .fifo 0 1 2) = .ok st1 ∧
      st1.PAGE_FAULTS = 1 ∧ st1.PAGE_ALLOCATIONS = 1 := by
  obtain ⟨world1, _, h1⟩ := dataSegment_first_fault dataEnv 2 (by decide) rfl rfl rfl
  have key : ∀ st1 : LoaderState,
      segfault_handler dataEnv 417792 0 (loader_start .fifo 0 1 2) = .ok st1 →
      fault_trace dataEnv [{ guest_stores := [], fault_addr := 417792, rnd := 0 }]
        (loader_start .fifo 0 1 2) = .ok st1 := by
    intro st1 h
    rw [fault_trace_cons_ok dataEnv { guest_stores := [], fault_addr := 417792, rnd := 0 }
      _ (loader_start .fifo 0 1 2) st1 h]
    rfl
  have hrun := key _ h1
  obtain ⟨a1, a2, _⟩ := (C11_allocations_match_faults dataEnv
    [{ guest_stores := [], fault_addr := 417792, rnd := 0 }] (loader_start .fifo 0 1 2)).2.1
      _ hrun
  exact ⟨_, hrun, a1, a2⟩

/-! ## Mapped pages and resident pages -/

/-- A call of the swap store that returns leaves the memory as it was. -/
theorem handle_page_eviction_to_swap_mem (w : Nat) (segs : List Elf32_Phdr) (a : Nat)
    (st st1 : World) (hev : handle_page_eviction_to_swap w segs a st = .ok st1) :
    st1.mem = st.mem := by
  by_cases hro : find_segment_of_fault w segs a ≠ -1 ∧
      Nat.land (segs.getD (find_segment_of_fault w segs a).toNat default).p_flags PF_W = 0
  · rw [handle_page_eviction_to_swap_read_only w segs a st hro.1 hro.2] at hev
    simp only [Except.ok.injEq] at hev
    rw [← hev]
  · obtain ⟨k, _, _, _, _, rfl⟩ := handle_page_eviction_to_swap_stores w segs a st st1 hro hev
    rfl

/-- The victim handed to the hook of the loader is unmapped, unless it is `NULL`. -/
theorem offer_and_unmap_swap_mem (w : Nat) (segs : List Elf32_Phdr) (p : Nat) (s s1 : World)
    (h : offer_and_unmap (swapHook w segs) p s = .ok s1) :
    s1.mem = if p ≠ 0 then s.mem.munmap p else s.mem := by
  unfold offer_and_unmap at h
  by_cases hp : p ≠ 0
  · rw [if_pos hp] at h
    rw [if_pos hp]
    cases hev : (swapHook w segs).handle_page_eviction_to_swap p s with
    | error e => rw [hev] at h; simp at h
    | ok s2 =>
      rw [hev] at h
      simp only [Except.ok.injEq] at h
      rw [← h]
      have := handle_page_eviction_to_swap_mem w segs p s s2 hev
      show s2.mem.munmap p = s.mem.munmap p
      rw [this]
  · rw [if_neg hp] at h
    rw [if_neg hp]
    simp only [Except.ok.injEq] at h
    rw [← h]

theorem Memory.within_mono (m : Memory) (l l2 : List Nat) (h : m.within l)
    (hsub : ∀ q ∈ l, q ∈ l2) : m.within l2 := by
  intro a ha
  obtain ⟨q, hq, h1, h2⟩ := h a ha
  exact ⟨q, hsub q hq, h1, h2⟩

/-- After the page at `p` is unmapped, the pages other than `p` cover what is mapped. -/
theorem Memory.within_munmap (m : Memory) (l l2 : List Nat) (p : Nat)
    (hal : p % PAGE_SIZE_IN_BYTES = 0) (h : m.within l)
    (hsub : ∀ q ∈ l, q ≠ p → q ∈ l2) : (m.munmap p).within l2 := by
  intro a ha
  simp only [Memory.munmap, hal, if_true] at ha
  by_cases hr : p ≤ a ∧ a < p + PAGE_SIZE_IN_BYTES
  · rw [if_pos hr] at ha
    exact absurd ha (by simp)
  · rw [if_neg hr] at ha
    obtain ⟨q, hq, h1, h2⟩ := h a ha
    refine ⟨q, hsub q hq ?_, h1, h2⟩
    intro hqp
    rw [hqp] at h1 h2
    exact hr ⟨h1, h2⟩

/-- After the page at `p` is mapped, `p` and the pages that covered the memory cover it. -/
theorem Memory.within_mmap_fixed (m m1 : Memory) (l : List Nat) (p : Nat) (h : m.within l)
    (hmap : m1.mapped = (m.mmap_fixed p).mapped) : m1.within (p :: l) := by
  intro a ha
  rw [hmap] at ha
  simp only [Memory.mmap_fixed] at ha
  by_cases hr : p ≤ a ∧ a < p + PAGE_SIZE_IN_BYTES
  · exact ⟨p, List.mem_cons_self _ _, hr.1, hr.2⟩
  · rw [if_neg hr] at ha
    obtain ⟨q, hq, h1, h2⟩ := h a ha
    exact ⟨q, List.mem_cons_of_mem _ hq, h1, h2⟩

/-- The copies of the guest map and unmap nothing. -/
theorem guest_run_mapped (stores : List (Nat × List Nat)) (m : Memory) :
    (guest_run stores m).mapped = m.mapped := by
  unfold guest_run
  induction stores generalizing m with
  | nil => rfl
  | cons x rest ih =>
    simp only [List.foldl_cons]
    rw [ih]
    rfl

/-- A fill that returns has mapped the page, where the host allows it, and nothing else. -/
theorem allocate_page_fill_mapped_eq (env : LoaderEnv) (segment : Elf32_Phdr)
    (page_start : Nat) (world world1 : World)
    (h : allocate_page_fill env segment page_start world = .ok world1) :
    env.mmap_ok page_start = true ∧
    world1.mem.mapped = (world.mem.mmap_fixed page_start).mapped := by
  simp only [allocate_page_fill] at h
  split at h
  · simp at h
  · rename_i hok
    refine ⟨by simpa using hok, ?_⟩
    cases hscan : load_from_swap_if_exists page_start
        { world with mem := world.mem.mmap_fixed page_start } with
    | error e => rw [hscan] at h; simp at h
    | ok res =>
      obtain ⟨found, world2⟩ := res
      rw [hscan] at h
      obtain ⟨_, hmp⟩ := load_from_swap_scan_frame page_start _ _ found world2 hscan
      simp only at h hmp
      split at h
      · simp only [Except.ok.injEq] at h
        rw [← h]; exact hmp
      · split at h
        · simp only [Except.ok.injEq] at h
          rw [← h, ← hmp]
          simp only
          split_ifs <;> rfl
        · simp only [Except.ok.injEq] at h
          rw [← h, ← hmp]
          rfl

/-- An address other than the old content of slot `idx` stays resident when the slot is
overwritten. -/
theorem mem_residents_set (l : List Nat) (idx ps x : Nat) (hidx : idx < l.length)
    (hps : ps ≠ 0) (hx : x ∈ ps :: l.filter (fun a => decide (a ≠ 0)))
    (hne : x ≠ l.getD idx 0) :
    x ∈ (l.set idx ps).filter (fun a => decide (a ≠ 0)) := by
  rw [List.mem_filter]
  rcases List.mem_cons.mp hx with rfl | hx
  · refine ⟨?_, by simpa using hps⟩
    rw [List.mem_iff_getElem]
    exact ⟨idx, by simpa using hidx, by simp⟩
  · rw [List.mem_filter] at hx
    refine ⟨?_, hx.2⟩
    obtain ⟨j, hj, hjx⟩ := List.mem_iff_getElem.mp hx.1
    have hji : idx ≠ j := by
      intro hij
      subst hij
      rw [List.getD_eq_getElem l 0 hj] at hne
      exact hne hjx.symm
    rw [List.mem_iff_getElem]
    exact ⟨j, by simpa using hj, by rw [List.getElem_set_ne hji]; exact hjx⟩

/-- An add of the FIFO policy, with the new page mapped already, leaves every mapped byte
in a page of the queue. -/
theorem add_page_fifo_sound (w : Nat) (segs : List Elf32_Phdr) (ps : Nat) (q : FIFOState)
    (s : World) (r : FIFOState × World) (max_pages : Int) (hpos : 1 ≤ max_pages)
    (hmax : q.FIFO_QUEUE.max_pages = max_pages)
    (hnum : q.FIFO_QUEUE.num_of_pages = (q.FIFO_QUEUE.pages.length : Int))
    (hle : (q.FIFO_QUEUE.pages.length : Int) ≤ max_pages)
    (hal : ∀ p ∈ q.FIFO_QUEUE.pages, p % PAGE_SIZE_IN_BYTES = 0 ∧ p ≠ 0)
    (hps : ps % PAGE_SIZE_IN_BYTES = 0 ∧ ps ≠ 0)
    (hwithin : s.mem.within (ps :: q.FIFO_QUEUE.pages))
    (hadd : add_page_fifo (swapHook w segs) ps (q, s) = .ok r) :
    r.2.mem.within r.1.FIFO_QUEUE.pages ∧
    r.1.FIFO_QUEUE.max_pages = max_pages ∧
    r.1.FIFO_QUEUE.num_of_pages = (r.1.FIFO_QUEUE.pages.length : Int) ∧
    (r.1.FIFO_QUEUE.pages.length : Int) ≤ max_pages ∧
    ∀ p ∈ r.1.FIFO_QUEUE.pages, p % PAGE_SIZE_IN_BYTES = 0 ∧ p ≠ 0 := by
  by_cases hlt : q.FIFO_QUEUE.num_of_pages < q.FIFO_QUEUE.max_pages
  · rw [add_page_fifo_below _ ps q s hlt] at hadd
    simp only [Except.ok.injEq] at hadd
    rw [← hadd]
    simp only [List.length_append, List.length_singleton, Nat.cast_add, Nat.cast_one]
    refine ⟨?_, hmax, by omega, by omega, ?_⟩
    · apply Memory.within_mono _ _ _ hwithin
      intro x hx
      rcases List.mem_cons.mp hx with rfl | hx
      · simp
      · simp [hx]
    · intro x hx
      rcases List.mem_append.mp hx with hx | hx
      · exact hal x hx
      · rw [List.mem_singleton.mp hx]; exact hps
  · have hn : q.FIFO_QUEUE.num_of_pages = q.FIFO_QUEUE.max_pages := by omega
    cases hp : q.FIFO_QUEUE.pages with
    | nil => rw [hp] at hnum; simp at hnum; omega
    | cons h t =>
      rw [add_page_fifo_full _ ps q s h t hp hn (by omega)] at hadd
      have hh := hal h (by rw [hp]; exact List.mem_cons_self _ _)
      cases hfree : free_page_fifo (swapHook w segs) h s with
      | error e => rw [hfree] at hadd; simp at hadd
      | ok s1 =>
        rw [hfree] at hadd
        simp only [Except.ok.injEq] at hadd
        have hmem := offer_and_unmap_swap_mem w segs h s s1 hfree
        rw [if_pos hh.2] at hmem
        rw [← hadd]
        rw [hp] at hnum hle hal hwithin
        simp only [List.length_append, List.length_cons, List.length_nil, Nat.cast_add,
          Nat.cast_one, Nat.cast_zero] at hnum hle ⊢
        refine ⟨?_, hmax, by omega, by omega, ?_⟩
        · show s1.mem.within (t ++ [ps])
          rw [hmem]
          apply Memory.within_munmap _ _ _ h hh.1 hwithin
          intro x hx hne
          rcases List.mem_cons.mp hx with rfl | hx
          · simp
          · rcases List.mem_cons.mp hx with rfl | hx
            · exact absurd rfl hne
            · simp [hx]
        · intro x hx
          rcases List.mem_append.mp hx with hx | hx
          · exact hal x (List.mem_cons_of_mem _ hx)
          · rw [List.mem_singleton.mp hx]; exact hps

/-- An add of the Random policy, with the new page mapped already, leaves every mapped byte
in a page of a slot that is not `NULL`. -/
theorem add_page_random_sound (w : Nat) (segs : List Elf32_Phdr) (ps rnd : Nat)
    (q : RandomState) (s : World) (r : RandomState × World) (M : Nat) (hpos : 1 ≤ M)
    (hmax : q.PAGES.max_pages = (M : Int)) (hlen : q.PAGES.adresses.length = M)
    (h0 : 0 ≤ q.PAGES.alloc_idx) (hle : q.PAGES.alloc_idx ≤ (M : Int))
    (hal : ∀ p ∈ q.PAGES.adresses, p % PAGE_SIZE_IN_BYTES = 0)
    (hzero : ∀ j : Nat, q.PAGES.alloc_idx ≤ (j : Int) → q.PAGES.adresses.getD j 0 = 0)
    (hps : ps % PAGE_SIZE_IN_BYTES = 0 ∧ ps ≠ 0)
    (hwithin : s.mem.within (ps :: random_residents q))
    (hadd : add_page_random (swapHook w segs) ps rnd (q, s) = .ok r) :
    r.2.mem.within (random_residents r.1) ∧
    r.1.PAGES.max_pages = (M : Int) ∧ r.1.PAGES.adresses.length = M ∧
    0 ≤ r.1.PAGES.alloc_idx ∧ r.1.PAGES.alloc_idx ≤ (M : Int) ∧
    (∀ p ∈ r.1.PAGES.adresses, p % PAGE_SIZE_IN_BYTES = 0) ∧
    ∀ j : Nat, r.1.PAGES.alloc_idx ≤ (j : Int) → r.1.PAGES.adresses.getD j 0 = 0 := by
  have hset : ∀ (idx : Nat), ∀ p ∈ q.PAGES.adresses.set idx ps, p % PAGE_SIZE_IN_BYTES = 0 := by
    intro idx p hp
    rcases List.mem_or_eq_of_mem_set hp with h | h
    · exact hal p h
    · rw [h]; exact hps.1
  by_cases hfull : q.PAGES.alloc_idx = q.PAGES.max_pages
  · rw [add_page_random_full _ ps rnd q s M hmax hfull] at hadd
    have hidx : rnd % M < q.PAGES.adresses.length := by
      rw [hlen]; exact Nat.mod_lt _ (by omega)
    cases hoff : offer_and_unmap (swapHook w segs) (q.PAGES.adresses.getD (rnd % M) 0) s with
    | error e => rw [hoff] at hadd; simp at hadd
    | ok s1 =>
      rw [hoff] at hadd
      simp only [Except.ok.injEq] at hadd
      have hmem := offer_and_unmap_swap_mem w segs _ s s1 hoff
      rw [← hadd]
      simp only [List.length_set]
      refine ⟨?_, hmax, hlen, h0, by omega, hset _, ?_⟩
      · show s1.mem.within (List.filter (fun a => decide (a ≠ 0))
          (q.PAGES.adresses.set (rnd % M) ps))
        rw [hmem]
        by_cases hv : q.PAGES.adresses.getD (rnd % M) 0 ≠ 0
        · rw [if_pos hv]
          apply Memory.within_munmap _ _ _ _
            (hal _ (by rw [List.getD_eq_getElem _ _ hidx]; exact List.getElem_mem _)) hwithin
          intro x hx hne
          exact mem_residents_set _ _ _ _ hidx hps.2 hx hne
        · rw [if_neg hv]
          apply Memory.within_mono _ _ _ hwithin
          intro x hx
          apply mem_residents_set _ _ _ _ hidx hps.2 hx
          have hv0 : q.PAGES.adresses.getD (rnd % M) 0 = 0 := by omega
          rw [hv0]
          rcases List.mem_cons.mp hx with rfl | hx
          · exact hps.2
          · have := (List.mem_filter.mp hx).2
            simpa using this
      · intro j hj
        have hjM : M ≤ j := by omega
        rw [List.getD_eq_getElem?_getD, List.getElem?_eq_none (by simp; omega)]
        rfl
  · rw [add_page_random_below _ ps rnd q s hfull] at hadd
    simp only [Except.ok.injEq] at hadd
    have hidx : q.PAGES.alloc_idx.toNat < q.PAGES.adresses.length := by omega
    rw [← hadd]
    simp only [List.length_set]
    refine ⟨?_, hmax, hlen, by omega, by omega, hset _, ?_⟩
    · show s.mem.within (List.filter (fun a => decide (a ≠ 0))
        (q.PAGES.adresses.set q.PAGES.alloc_idx.toNat ps))
      apply Memory.within_mono _ _ _ hwithin
      intro x hx
      apply mem_residents_set _ _ _ _ hidx hps.2 hx
      rw [hzero _ (by omega)]
      rcases List.mem_cons.mp hx with rfl | hx
      · exact hps.2
      · have := (List.mem_filter.mp hx).2
        simpa using this
    · intro j hj
      rw [getD_set_other _ _ _ _ (by omega)]
      exact hzero j (by omega)

/-- The end of `allocate_page`, run with the new page mapped, restores what the handler
keeps between two faults. -/
theorem allocate_page_charge_sound (env : LoaderEnv) (idx : Int) (ps rnd : Nat)
    (st st1 : LoaderState) (max_pages : Int) (hpos : 1 ≤ max_pages)
    (hps : ps % PAGE_SIZE_IN_BYTES = 0 ∧ ps ≠ 0)
    (hfifo : st.ADD_PAGE = .fifo →
      st.fifo.FIFO_QUEUE.max_pages = max_pages ∧
      st.fifo.FIFO_QUEUE.num_of_pages = (st.fifo.FIFO_QUEUE.pages.length : Int) ∧
      (st.fifo.FIFO_QUEUE.pages.length : Int) ≤ max_pages ∧
      ∀ p ∈ st.fifo.FIFO_QUEUE.pages, p % PAGE_SIZE_IN_BYTES = 0 ∧ p ≠ 0)
    (hrandom : st.ADD_PAGE = .random →
      st.random.PAGES.max_pages = max_pages ∧
      (st.random.PAGES.adresses.length : Int) = max_pages ∧
      0 ≤ st.random.PAGES.alloc_idx ∧ st.random.PAGES.alloc_idx ≤ max_pages ∧
      (∀ p ∈ st.random.PAGES.adresses, p % PAGE_SIZE_IN_BYTES = 0) ∧
      ∀ j : Nat, st.random.PAGES.alloc_idx ≤ (j : Int) → st.random.PAGES.adresses.getD j 0 = 0)
    (hwithin : st.world.mem.within (ps :: resident_pages st))
    (h : allocate_page_charge env idx ps rnd st = .ok st1) : st1.sound max_pages := by
  cases hops : st.ADD_PAGE with
  | fifo =>
    obtain ⟨f1, f2, f3, f4⟩ := hfifo hops
    simp only [allocate_page_charge, hops] at h
    cases hadd : add_page_fifo (swapHook env.ulong_bits env.PHDRS_OF_SEGMENTS_TO_LOAD) ps
        (st.fifo, st.world) with
    | error e => rw [hadd] at h; simp at h
    | ok r =>
      rw [hadd] at h
      simp only [Except.ok.injEq] at h
      have hw : st.world.mem.within (ps :: st.fifo.FIFO_QUEUE.pages) := by
        simpa only [resident_pages, hops] using hwithin
      obtain ⟨g1, g2, g3, g4, g5⟩ := add_page_fifo_sound _ _ ps st.fifo st.world r max_pages
        hpos f1 f2 f3 f4 hps hw hadd
      rw [← h]
      refine ⟨?_, fun _ => ⟨g2, g3, g4, g5⟩, fun hc => ?_⟩
      · simpa only [resident_pages, hops] using g1
      · simp only [hops] at hc
        exact absurd hc (by decide)
  | random =>
    obtain ⟨f1, f2, f3, f4, f5, f6⟩ := hrandom hops
    obtain ⟨M, hM⟩ : ∃ M : Nat, max_pages = (M : Int) := ⟨max_pages.toNat, by omega⟩
    subst hM
    simp only [allocate_page_charge, hops] at h
    cases hadd : add_page_random (swapHook env.ulong_bits env.PHDRS_OF_SEGMENTS_TO_LOAD) ps rnd
        (st.random, st.world) with
    | error e => rw [hadd] at h; simp at h
    | ok r =>
      rw [hadd] at h
      simp only [Except.ok.injEq] at h
      have hw : st.world.mem.within (ps :: random_residents st.random) := by
        simpa only [resident_pages, hops] using hwithin
      obtain ⟨g1, g2, g3, g4, g5, g6, g7⟩ := add_page_random_sound _ _ ps rnd st.random
        st.world r M (by omega) f1 (by omega) f3 f4 f5 f6 hps hw hadd
      rw [← h]
      refine ⟨?_, fun hc => ?_, fun _ => ⟨g2, by simp only; omega, g4, g5, g6, g7⟩⟩
      · simpa only [resident_pages, hops] using g1
      · simp only [hops] at hc
        exact absurd hc (by decide)

/-- Between the mapping of the new page and the add of the policy, every mapped byte lies
in the new page or in a resident page. -/
theorem allocate_page_fill_within (env : LoaderEnv) (segment : Elf32_Phdr) (ps : Nat)
    (pages : List Nat) (world world1 : World) (hw : world.mem.within pages)
    (h : allocate_page_fill env segment ps world = .ok world1) :
    world1.mem.within (ps :: pages) :=
  Memory.within_mmap_fixed world.mem world1.mem pages ps hw
    (allocate_page_fill_mapped_eq env segment ps world world1 h).2

/-- A handler run that returns keeps what holds between two faults, when the host maps
nothing at address 0. -/
theorem segfault_handler_sound (env : LoaderEnv) (fa rnd : Nat) (st st1 : LoaderState)
    (max_pages : Int) (hpos : 1 ≤ max_pages) (hnull : env.mmap_ok 0 = false)
    (hs : st.sound max_pages) (h : segfault_handler env fa rnd st = .ok st1) :
    st1.sound max_pages := by
  simp only [segfault_handler] at h
  split at h
  · simp only [allocate_page] at h
    split at h
    · simp at h
    · cases hfill : allocate_page_fill env
          (env.PHDRS_OF_SEGMENTS_TO_LOAD.getD
            (find_segment_of_fault env.ulong_bits env.PHDRS_OF_SEGMENTS_TO_LOAD fa).toNat default)
          (page_start_of fa) st.world with
      | error e => rw [hfill] at h; simp at h
      | ok world1 =>
        rw [hfill] at h
        simp only at h
        have hok := (allocate_page_fill_mapped_eq _ _ _ _ _ hfill).1
        have hps : page_start_of fa % PAGE_SIZE_IN_BYTES = 0 ∧ page_start_of fa ≠ 0 := by
          refine ⟨(page_start_of_facts fa).1, ?_⟩
          intro h0
          rw [h0, hnull] at hok
          exact absurd hok (by decide)
        have hmid := allocate_page_fill_within env _ (page_start_of fa) (resident_pages st)
          st.world world1 hs.1 hfill
        exact allocate_page_charge_sound env _ (page_start_of fa) rnd
          { st with PAGE_FAULTS := st.PAGE_FAULTS + 1, world := world1 } st1 max_pages hpos hps
          hs.2.1 hs.2.2 hmid h
  · simp at h

theorem guest_run_sound (stores : List (Nat × List Nat)) (st : LoaderState) (max_pages : Int)
    (hs : st.sound max_pages) :
    LoaderState.sound max_pages
      { st with world := { st.world with mem := guest_run stores st.world.mem } } := by
  refine ⟨?_, hs.2.1, hs.2.2⟩
  intro a ha
  have hm : (guest_run stores st.world.mem).mapped a = true := ha
  rw [guest_run_mapped] at hm
  exact hs.1 a hm

theorem fault_trace_sound (env : LoaderEnv) (trace : List Fault) (st st1 : LoaderState)
    (max_pages : Int) (hpos : 1 ≤ max_pages) (hnull : env.mmap_ok 0 = false)
    (hs : st.sound max_pages) (h : fault_trace env trace st = .ok st1) :
    st1.sound max_pages := by
  induction trace generalizing st with
  | nil =>
    simp only [fault_trace, Except.ok.injEq] at h
    rw [← h]; exact hs
  | cons f rest ih =>
    simp only [fault_trace] at h
    cases hrun : segfault_handler env f.fault_addr f.rnd
        { st with world := { st.world with mem := guest_run f.guest_stores st.world.mem } } with
    | error e => rw [hrun] at h; simp at h
    | ok st2 =>
      rw [hrun] at h
      exact ih st2 (segfault_handler_sound env _ _ _ st2 max_pages hpos hnull
        (guest_run_sound f.guest_stores st max_pages hs) hrun) h

theorem loader_start_sound (ops : ReplacementOps) (MODE : Int) (nsegs : Nat) (max_pages : Int)
    (hpos : 1 ≤ max_pages) : (loader_start ops MODE nsegs max_pages).sound max_pages := by
  refine ⟨fun a ha => ?_, fun _ => ⟨rfl, rfl, ?_, ?_⟩, fun _ => ⟨rfl, ?_, le_refl _, ?_, ?_, ?_⟩⟩
  · exact absurd ha (by simp [loader_start, emptyMemory])
  · show ((0 : Nat) : Int) ≤ max_pages
    omega
  · intro p hp
    simp [loader_start, init_fifo] at hp
  · simp only [loader_start, init_random, List.length_replicate]
    omega
  · show (0 : Int) ≤ max_pages
    omega
  · intro p hp
    simp only [loader_start, init_random] at hp
    rw [List.eq_of_mem_replicate hp]
    rfl
  · intro j _
    simp only [loader_start, init_random, List.getD_eq_getElem?_getD, List.getElem?_replicate]
    split <;> rfl

/-- The resident pages are at most `max_pages`. -/
theorem resident_pages_length (st : LoaderState) (max_pages : Int)
    (hs : st.sound max_pages) : ((resident_pages st).length : Int) ≤ max_pages := by
  cases hops : st.ADD_PAGE with
  | fifo =>
    simp only [resident_pages, hops]
    exact (hs.2.1 hops).2.2.1
  | random =>
    simp only [resident_pages, hops, random_residents]
    have h1 := (hs.2.2 hops).2.1
    have h2 := List.length_filter_le (fun a => decide (a ≠ 0)) st.random.PAGES.adresses
    omega

/-! ## Claims on the number of mapped pages -/

/-- C12, as amended: when the host maps nothing at address 0, after every run of the guest
whose faults were all served, from the initial state with a limit `max_pages ≥ 1`, every
mapped byte lies in a page resident in the policy in use and these are at most `max_pages`,
so at most `max_pages` pages are mapped between two faults; during the handling of the next
fault, between the mapping of the new page and the add of the policy, every mapped byte lies
in the new page or in a resident page, so at most `max_pages + 1` pages are mapped. -/
theorem C12_mapped_pages_bound (env : LoaderEnv) (ops : ReplacementOps) (MODE : Int)
    (nsegs : Nat) (max_pages : Int) (hpos : 1 ≤ max_pages) (hnull : env.mmap_ok 0 = false)
    (trace : List Fault) (st : LoaderState)
    (hrun : fault_trace env trace (loader_start ops MODE nsegs max_pages) = .ok st) :
    (st.world.mem.within (resident_pages st) ∧
      ((resident_pages st).length : Int) ≤ max_pages ∧
      st.world.mem.at_most_pages max_pages) ∧
    (∀ (f : Fault) (world1 : World),
      allocate_page_fill env
        (env.PHDRS_OF_SEGMENTS_TO_LOAD.getD
          (find_segment_of_fault env.ulong_bits env.PHDRS_OF_SEGMENTS_TO_LOAD
            f.fault_addr).toNat default)
        (page_start_of f.fault_addr)
        { st.world with mem := guest_run f.guest_stores st.world.mem } = .ok world1 →
      world1.mem.within (page_start_of f.fault_addr :: resident_pages st) ∧
      world1.mem.at_most_pages (max_pages + 1)) := by
  have hs := fault_trace_sound env trace _ st max_pages hpos hnull
    (loader_start_sound ops MODE nsegs max_pages hpos) hrun
  have hlen := resident_pages_length st max_pages hs
  refine ⟨⟨hs.1, hlen, resident_pages st, hlen, hs.1⟩, ?_⟩
  intro f world1 hfill
  have hs2 := guest_run_sound f.guest_stores st max_pages hs
  have hmid := allocate_page_fill_within env _ (page_start_of f.fault_addr) (resident_pages st)
    { st.world with mem := guest_run f.guest_stores st.world.mem } world1 hs2.1 hfill
  refine ⟨hmid, page_start_of f.fault_addr :: resident_pages st, ?_, hmid⟩
  simp only [List.length_cons, Nat.cast_add, Nat.cast_one]
  omega

/-- C12 fails as stated: under FIFO with a limit of one page, the guest of `dataEnv` faults at
417792 and then at 421888; when the handler has mapped and filled the page 421888 and has
not yet called the policy, which then evicts 417792, both pages are mapped: two pages with
`max_pages = 1`. -/
theorem C12_counterexample :
    ∃ (st1 : LoaderState) (world2 : World),
      fault_trace dataEnv [{ guest_stores := [], fault_addr := 417792, rnd := 0 }]
        (loader_start .fifo 0 1 1) = .ok st1 ∧
      find_segment_of_fault dataEnv.ulong_bits dataEnv.PHDRS_OF_SEGMENTS_TO_LOAD 421888 = 0 ∧
      page_start_of 421888 = 421888 ∧
      allocate_page_fill dataEnv dataSegment 421888 st1.world = .ok world2 ∧
      world2.mem.accessible 417792 PAGE_SIZE_IN_BYTES = true ∧
      world2.mem.accessible 421888 PAGE_SIZE_IN_BYTES = true ∧
      ¬ world2.mem.at_most_pages 1 := by
  obtain ⟨world1, hfill1, h1⟩ := dataSegment_first_fault dataEnv 1 (by decide) rfl rfl rfl
  have key : ∀ st1 : LoaderState,
      segfault_handler dataEnv 417792 0 (loader_start .fifo 0 1 1) = .ok st1 →
      fault_trace dataEnv [{ guest_stores := [], fault_addr := 417792, rnd := 0 }]
        (loader_start .fifo 0 1 1) = .ok st1 := by
    intro st1 h
    rw [fault_trace_cons_ok dataEnv { guest_stores := [], fault_addr := 417792, rnd := 0 }
      _ (loader_start .fifo 0 1 1) st1 h]
    rfl
  obtain ⟨hacc1, hsw1⟩ := allocate_page_fill_mapped _ _ _ _ _ hfill1
  have hnone : ∀ e ∈ world1.swap.SWAP_TABLE, ¬ (e.is_active ≠ 0 ∧ e.vaddr = 421888) := by
    rw [hsw1]
    exact init_swap_system_inactive 1 421888
  have hfill2 := allocate_page_fill_zero dataEnv dataSegment 421888 world1 rfl hnone
    (by decide)
  obtain ⟨hacc2, _⟩ := allocate_page_fill_mapped _ _ _ _ _ hfill2
  have hmap2 := (allocate_page_fill_mapped_eq _ _ _ _ _ hfill2).2
  have hacc3 : ({ swap := world1.swap
                  mem := (world1.mem.mmap_fixed 421888).store 421888
                    (List.replicate PAGE_SIZE_IN_BYTES 0) } : World).mem.accessible 417792
      PAGE_SIZE_IN_BYTES = true := by
    rw [Memory.accessible_iff] at hacc1 ⊢
    intro i hi
    have := hacc1 i hi
    show (if 421888 ≤ 417792 + i ∧ 417792 + i < 421888 + PAGE_SIZE_IN_BYTES then true
      else world1.mem.mapped (417792 + i)) = true
    rw [this]
    simp
  refine ⟨_, _, key _ h1, by decide, by decide, hfill2, hacc3, hacc2, ?_⟩
  rintro ⟨pages, hlen, hcover⟩
  rw [Memory.accessible_iff] at hacc2 hacc3
  obtain ⟨p, hp, hp1, hp2⟩ := hcover 417792 (hacc3 0 (by decide))
  obtain ⟨q, hq, hq1, hq2⟩ := hcover 421888 (hacc2 0 (by decide))
  have hP : PAGE_SIZE_IN_BYTES = 4096 := rfl
  rw [hP] at hp2 hq2
  match pages, hlen, hp, hq with
  | [], _, hp, _ => simp at hp
  | [x], _, hp, hq =>
    simp only [List.mem_singleton] at hp hq
    omega
  | _ :: _ :: _, hlen, _, _ =>
    simp only [List.length_cons, Nat.cast_add, Nat.cast_one] at hlen
    omega

theorem C12_mapped_pages_bound_witness :
    ∃ st1 : LoaderState,
      fault_trace guardedEnv [{ guest_stores := [], fault_addr := 417792, rnd := 0 }]
        (loader_start .fifo 0 1 1) = .ok st1 ∧
      resident_pages st1 = [417792] ∧
      st1.world.mem.within (resident_pages st1) ∧
      st1.world.mem.at_most_pages 1 := by
  obtain ⟨world1, _, h1⟩ := dataSegment_first_fault guardedEnv 1 (by decide) rfl rfl rfl
  have key : ∀ st1 : LoaderState,
      segfault_handler guardedEnv 417792 0 (loader_start .fifo 0 1 1) = .ok st1 →
      fault_trace guardedEnv [{ guest_stores := [], fault_addr := 417792, rnd := 0 }]
        (loader_start .fifo 0 1 1) = .ok st1 := by
    intro st1 h
    rw [fault_trace_cons_ok guardedEnv { guest_stores := [], fault_addr := 417792, rnd := 0 }
      _ (loader_start .fifo 0 1 1) st1 h]
    rfl
  have hrun := key _ h1
  obtain ⟨⟨a1, _, a3⟩, _⟩ := C12_mapped_pages_bound guardedEnv .fifo 0 1 1 (by decide) rfl
    [{ guest_stores := [], fault_addr := 417792, rnd := 0 }] _ hrun
  exact ⟨_, hrun, rfl, a1, a3⟩

/-! ## Internal fragmentation -/

theorem foldl_add_eq_sum (f : Nat → Int) (l : List Nat) (z : Int) :
    l.foldl (fun total address => total + f address) z = z + (l.map f).sum := by
  induction l generalizing z with
  | nil => simp
  | cons x rest ih =>
    simp only [List.foldl_cons, List.map_cons, List.sum_cons]
    rw [ih]
    ring

theorem foldl_add_nonnull_eq_sum (f : Nat → Int) (l : List Nat) (z : Int) :
    l.foldl (fun total address => if address ≠ 0 then total + f address else total) z =
      z + ((l.filter (fun a => decide (a ≠ 0))).map f).sum := by
  induction l generalizing z with
  | nil => simp
  | cons x rest ih =>
    simp only [List.foldl_cons]
    rw [ih]
    by_cases hx : x = 0
    · simp [hx]
    · simp [hx]
      ring

/-- The waste `calculate_page_waste` computes for a page, when neither the end of the page
nor the end of a segment leaves the range of `unsigned long`: 0 when the start of the page
lies in no segment, else the claimed waste for the first segment that contains the start of
the page. -/
theorem calculate_page_waste_eq (env : LoaderEnv) (page : Nat)
    (hsegs : ∀ s ∈ env.PHDRS_OF_SEGMENTS_TO_LOAD, s.p_vaddr + s.p_memsz < 2 ^ env.ulong_bits)
    (hpage : page + PAGE_SIZE_IN_BYTES < 2 ^ env.ulong_bits) :
    calculate_page_waste env page =
      if find_segment_of_fault env.ulong_bits env.PHDRS_OF_SEGMENTS_TO_LOAD page = -1 then 0
      else claimed_page_waste
        (env.PHDRS_OF_SEGMENTS_TO_LOAD.getD
          (find_segment_of_fault env.ulong_bits env.PHDRS_OF_SEGMENTS_TO_LOAD page).toNat
          default) page := by
  rcases find_segment_of_fault_range env.ulong_bits env.PHDRS_OF_SEGMENTS_TO_LOAD page with
    h | ⟨k, hk, h⟩
  · simp only [calculate_page_waste, h, if_true]
  · obtain ⟨_, hlo, _, hhi⟩ := find_segment_of_fault_hit _ _ _ _ h
    have hne : ¬ ((k : Int) = -1) := by omega
    have hfit := hsegs _ (getD_mem_of_lt env.PHDRS_OF_SEGMENTS_TO_LOAD k hk)
    have e1 : ulong_add env.ulong_bits page PAGE_SIZE_IN_BYTES = page + PAGE_SIZE_IN_BYTES :=
      ulong_add_of_lt _ _ _ hpage
    have e2 : ulong_add env.ulong_bits (env.PHDRS_OF_SEGMENTS_TO_LOAD.getD k default).p_vaddr
        (env.PHDRS_OF_SEGMENTS_TO_LOAD.getD k default).p_memsz =
        (env.PHDRS_OF_SEGMENTS_TO_LOAD.getD k default).p_vaddr
          + (env.PHDRS_OF_SEGMENTS_TO_LOAD.getD k default).p_memsz :=
      ulong_add_of_lt _ _ _ hfit
    simp only [calculate_page_waste, h, hne, if_false, Int.toNat_ofNat, e1, e2,
      claimed_page_waste]
    generalize (env.PHDRS_OF_SEGMENTS_TO_LOAD.getD k default).p_vaddr = v at hlo hhi hfit ⊢
    generalize (env.PHDRS_OF_SEGMENTS_TO_LOAD.getD k default).p_memsz = ms at hhi hfit ⊢
    have hP : PAGE_SIZE_IN_BYTES = 4096 := rfl
    rw [hP] at hpage ⊢
    have hstart : (if page > v then page else v) = page := by split <;> omega
    rw [hstart]
    have hmax : max page v = page := by omega
    rw [hmax]
    by_cases hend : page + 4096 < v + ms
    · have hmin : min (page + 4096) (v + ms) = page + 4096 := by omega
      rw [if_pos hend, hmin, if_neg (by omega), ulong_sub_of_le _ _ _ (by omega) hpage]
    · have hmin : min (page + 4096) (v + ms) = v + ms := by omega
      rw [if_neg hend, hmin, if_neg (by omega), ulong_sub_of_le _ _ _ (by omega) hfit]

/-- C15, as amended: for the policy arguments "FIFO" and "RANDOM", when neither the end of a
segment nor the end of a resident page leaves the range of `unsigned long`, the total that
`calculate_internal_fragmentation` computes equals the sum, over the pages resident in the
policy in use, of the waste of the page: 0 for a page whose start address lies in no
segment, and otherwise 4096 minus the length of the intersection of `[page, page + 4096)` with
the range `[vaddr, vaddr + memsz)` of the first segment that contains the start address of
the page. -/
theorem C15_internal_fragmentation (env : LoaderEnv) (st : LoaderState) (mode : String)
    (hmode : mode = "FIFO" ∨ mode = "RANDOM")
    (hst : (st.MODE, st.ADD_PAGE) = assign_replacement_mode mode)
    (hsegs : ∀ s ∈ env.PHDRS_OF_SEGMENTS_TO_LOAD, s.p_vaddr + s.p_memsz < 2 ^ env.ulong_bits)
    (hpages : ∀ p ∈ resident_pages st, p + PAGE_SIZE_IN_BYTES < 2 ^ env.ulong_bits) :
    calculate_internal_fragmentation env st =
      ((resident_pages st).map (fun page =>
        if find_segment_of_fault env.ulong_bits env.PHDRS_OF_SEGMENTS_TO_LOAD page = -1 then 0
        else claimed_page_waste
          (env.PHDRS_OF_SEGMENTS_TO_LOAD.getD
            (find_segment_of_fault env.ulong_bits env.PHDRS_OF_SEGMENTS_TO_LOAD page).toNat
            default) page)).sum := by
  have hmap : (resident_pages st).map (calculate_page_waste env) =
      (resident_pages st).map (fun page =>
        if find_segment_of_fault env.ulong_bits env.PHDRS_OF_SEGMENTS_TO_LOAD page = -1 then 0
        else claimed_page_waste
          (env.PHDRS_OF_SEGMENTS_TO_LOAD.getD
            (find_segment_of_fault env.ulong_bits env.PHDRS_OF_SEGMENTS_TO_LOAD page).toNat
            default) page) := by
    apply List.map_congr_left
    intro p hp
    exact calculate_page_waste_eq env p hsegs (hpages p hp)
  rw [← hmap]
  rcases hmode with rfl | rfl
  · have h1 : st.MODE = FIFO_REPLACEMENT_MODE := congrArg Prod.fst hst
    have h2 : st.ADD_PAGE = .fifo := congrArg Prod.snd hst
    simp only [calculate_internal_fragmentation, h1, if_true, resident_pages, h2]
    rw [foldl_add_eq_sum, zero_add]
  · have h1 : st.MODE = RANDOM_REPLACEMENT_MODE := congrArg Prod.fst hst
    have h2 : st.ADD_PAGE = .random := congrArg Prod.snd hst
    have hne : ¬ RANDOM_REPLACEMENT_MODE = FIFO_REPLACEMENT_MODE := by decide
    simp only [calculate_internal_fragmentation, h1, hne, if_false, if_true, resident_pages, h2,
      random_residents]
    rw [foldl_add_nonnull_eq_sum, zero_add]

/-- C15 fails as stated: under the policy argument "FIFO", the guest of `unalignedEnv` faults
at 409704, inside its segment, which covers 409700 to 413795; the page 409600 is resident,
and it shares the 3996 addresses from 409700 to 413695 with the segment, so the claimed
waste is 100; the start of the page lies in no segment, and the computed total is 0. -/
theorem C15_counterexample :
    assign_replacement_mode "FIFO" = (0, ReplacementOps.fifo) ∧
    ∃ st1 : LoaderState,
      segfault_handler unalignedEnv 409704 0 (loader_start .fifo 0 1 2) = .ok st1 ∧
      (st1.MODE, st1.ADD_PAGE) = assign_replacement_mode "FIFO" ∧
      resident_pages st1 = [409600] ∧
      claimed_page_waste unalignedSegment 409600 = 100 ∧
      calculate_internal_fragmentation unalignedEnv st1 = 0 := by
  have hfind : find_segment_of_fault unalignedEnv.ulong_bits
      unalignedEnv.PHDRS_OF_SEGMENTS_TO_LOAD 409704 = ((0 : Nat) : Int) := by decide
  have hfill := allocate_page_fill_zero unalignedEnv unalignedSegment 409600
    (loader_start .fifo 0 1 2).world rfl (init_swap_system_inactive 2 409600) (by decide)
  have hrun := segfault_handler_fifo_below unalignedEnv 409704 0 0 (loader_start .fifo 0 1 2) _
    hfind (by decide) hfill rfl (by decide)
  refine ⟨by decide, _, hrun, by decide, rfl, by decide, ?_⟩
  simp only [calculate_internal_fragmentation, loader_start, FIFO_REPLACEMENT_MODE, if_true,
    init_fifo, List.nil_append, List.foldl_cons, List.foldl_nil]
  decide

/-- For a policy argument other than "FIFO" and "RANDOM", `MODE` is
`UNDEFINED_REPLACEMENT_MODE` with the FIFO routines in use, and
`calculate_internal_fragmentation` computes 0 whatever is resident, as for the page 413696
of the guest of `unalignedEnv`, whose waste is 3996. -/
theorem calculate_internal_fragmentation_undefined_mode :
    assign_replacement_mode "LRU" = (-1, ReplacementOps.fifo) ∧
    (∀ (env : LoaderEnv) (st : LoaderState), st.MODE = UNDEFINED_REPLACEMENT_MODE →
      calculate_internal_fragmentation env st = 0) ∧
    calculate_page_waste unalignedEnv 413696 = 3996 := by
  refine ⟨by decide, ?_, by decide⟩
  intro env st h
  have h1 : ¬ UNDEFINED_REPLACEMENT_MODE = FIFO_REPLACEMENT_MODE := by decide
  have h2 : ¬ UNDEFINED_REPLACEMENT_MODE = RANDOM_REPLACEMENT_MODE := by decide
  simp only [calculate_internal_fragmentation, h, h1, h2, if_false]

theorem C15_internal_fragmentation_witness :
    calculate_internal_fragmentation unalignedEnv
        { loader_start .fifo 0 1 2 with
          fifo := { FIFO_QUEUE := { pages := [413696], num_of_pages := 1, max_pages := 2 }
                    PAGE_EVICTIONS_FIFO := 0 } } =
      ([413696].map (fun page =>
        if find_segment_of_fault unalignedEnv.ulong_bits
            unalignedEnv.PHDRS_OF_SEGMENTS_TO_LOAD page = -1 then 0
        else claimed_page_waste
          (unalignedEnv.PHDRS_OF_SEGMENTS_TO_LOAD.getD
            (find_segment_of_fault unalignedEnv.ulong_bits
              unalignedEnv.PHDRS_OF_SEGMENTS_TO_LOAD page).toNat default) page)).sum :=
  C15_internal_fragmentation unalignedEnv
    { loader_start .fifo 0 1 2 with
      fifo := { FIFO_QUEUE := { pages := [413696], num_of_pages := 1, max_pages := 2 }
                PAGE_EVICTIONS_FIFO := 0 } } "FIFO" (Or.inl rfl) (by decide)
    (by decide) (by decide)

/-! ## Exit status of the start of the loader -/

theorem read_phdr_table_exit (host : HostEnv) (file : List Nat) (phoffset phsize n i : Nat)
    (PHDR : List Nat) (e : Nat)
    (h : read_phdr_table host file phoffset phsize n i PHDR = .error e) : e = 2 := by
  induction n generalizing i PHDR with
  | zero => simp [read_phdr_table] at h
  | succ n ih =>
    simp only [read_phdr_table] at h
    split at h
    · simp only [Except.error.injEq] at h; exact h.symm
    · split at h
      · simp only [Except.error.injEq] at h; exact h.symm
      · split at h
        · rename_i e1 hrec
          simp only [Except.error.injEq] at h
          subst h
          exact ih _ _ hrec
        · simp at h

/-- With a file that opens and holds a whole ELF header, `initialise_global_data_structures`
exits with status 2 when `atol` of the last argument is not positive. -/
theorem initialise_global_data_structures_max_pages (host : HostEnv) (PHDR0 : List Nat)
    (exe : List String) (MODE : Int) (ops : ReplacementOps) (file : List Nat)
    (hopen : host.open_file (exe.getD 1 "") = some file)
    (hlen : (file_pread file 0 52).length = 52) (hmax : host.atol (exe.getD 3 "") ≤ 0) :
    initialise_global_data_structures host PHDR0 exe MODE ops = .error 2 := by
  simp only [initialise_global_data_structures, hopen, hlen, ne_eq, not_true_eq_false,
    if_false]
  split
  · rename_i e h1
    rw [read_phdr_table_exit _ _ _ _ _ _ _ _ h1]
  · split
    · rename_i e h2
      rw [read_phdr_table_exit _ _ _ _ _ _ _ _ h2]
    · simp only [hmax, if_true, ite_self]

theorem file_pread_header (file : List Nat) : file_pread file 0 52 = file.take 52 := by
  simp [file_pread]

/-- A file that is too short for an ELF header, or that `isValidElf` refuses, ends the
launcher with status 1. -/
theorem main_invalid_elf (host : HostEnv) (PHDR0 : List Nat) (argv : List String)
    (file : List Nat) (h : argv.length = 4) (hopen : host.open_file (argv.getD 1 "") = some file)
    (hbad : file.length < 52 ∨ isValidElf (read_ehdr (file.take 52)) ≠ none) :
    main host PHDR0 argv = .error 1 := by
  simp only [main, h, ne_eq, not_true_eq_false, if_false, hopen]
  by_cases hl : (file_pread file 0 52).length = 52
  · rcases hbad with hshort | hinv
    · rw [file_pread_header, List.length_take] at hl
      omega
    · rw [← file_pread_header] at hinv
      simp only [hl, not_true_eq_false, if_false, hinv, not_false_eq_true, if_true]
  · simp only [hl, not_false_eq_true, if_true]

/-- With four arguments and a valid ELF file, a last argument on which `atol` is not
positive ends the loader with status 2. -/
theorem main_max_pages (host : HostEnv) (PHDR0 : List Nat) (argv : List String)
    (file : List Nat) (h : argv.length = 4) (hopen : host.open_file (argv.getD 1 "") = some file)
    (hlen : 52 ≤ file.length) (hvalid : isValidElf (read_ehdr (file.take 52)) = none)
    (hmax : host.atol (argv.getD 3 "") ≤ 0) :
    main host PHDR0 argv = .error 2 := by
  have hl : (file_pread file 0 52).length = 52 := by
    rw [file_pread_header, List.length_take]; omega
  rw [← file_pread_header] at hvalid
  simp only [main, h, ne_eq, not_true_eq_false, if_false, hopen, hl, hvalid]
  exact initialise_global_data_structures_max_pages host PHDR0 argv _ _ file hopen hl hmax

/-- C16, as amended: the loader exits with status 1 for a wrong argument count, for an ELF
path that cannot be opened, and for a file that is not a valid 32-bit little-endian
executable ELF (shorter than an ELF header, or refused by `isValidElf`); for a max-pages
argument on which `atol` is not positive, the other inputs being valid, it exits with
status 2. -/
theorem C16_invalid_input_status (host : HostEnv) (PHDR0 : List Nat) (argv : List String) :
    (argv.length ≠ 4 → main host PHDR0 argv = .error 1) ∧
    (argv.length = 4 → host.open_file (argv.getD 1 "") = none →
      main host PHDR0 argv = .error 1) ∧
    (∀ file : List Nat, argv.length = 4 → host.open_file (argv.getD 1 "") = some file →
      (file.length < 52 ∨ isValidElf (read_ehdr (file.take 52)) ≠ none) →
      main host PHDR0 argv = .error 1) ∧
    (∀ file : List Nat, argv.length = 4 → host.open_file (argv.getD 1 "") = some file →
      52 ≤ file.length → isValidElf (read_ehdr (file.take 52)) = none →
      (read_ehdr (file.take 52)).e_phentsize ≤ 32 →
      host.atol (argv.getD 3 "") ≤ 0 →
      main host PHDR0 argv = .error 2) := by
  refine ⟨?_, ?_, ?_, ?_⟩
  · intro h
    simp only [main, h, ne_eq, not_false_eq_true, if_true]
  · intro h hopen
    simp only [main, h, ne_eq, not_true_eq_false, if_false, hopen]
  · intro file h hopen hbad
    exact main_invalid_elf host PHDR0 argv file h hopen hbad
  · intro file h hopen hlen hvalid _ hmax
    exact main_max_pages host PHDR0 argv file h hopen hlen hvalid hmax

/-- C16 fails as stated: with the three arguments "prog", "FIFO" and "0", the file behind
"prog" a valid 32-bit little-endian executable ELF, `atol("0")` is 0, not a positive
integer, and the loader exits with status 2, from `initialise_global_data_structures`. -/
theorem C16_counterexample :
    isValidElf (read_ehdr (tinyElf.take 52)) = none ∧
    c_atol "0" = 0 ∧
    main tinyHost (List.replicate 32 0) ["launcher", "prog", "FIFO", "0"] = .error 2 ∧
    main tinyHost (List.replicate 32 0) ["launcher", "prog", "FIFO", "0"] ≠ .error 1 := by
  have hvalid : isValidElf (read_ehdr (tinyElf.take 52)) = none := by decide
  have hatol : c_atol "0" = 0 := by decide
  have hrun := main_max_pages tinyHost (List.replicate 32 0)
    ["launcher", "prog", "FIFO", "0"] tinyElf rfl rfl (by decide) hvalid
    (by rw [show tinyHost.atol = c_atol from rfl]; decide)
  refine ⟨hvalid, hatol, hrun, ?_⟩
  rw [hrun]
  intro h
  cases h

/-- Instances of C16: a missing argument, a path that does not open, and a last argument
that is not a number. -/
theorem C16_invalid_input_status_witness :
    main tinyHost (List.replicate 32 0) ["launcher", "prog", "FIFO"] = .error 1 ∧
    main tinyHost (List.replicate 32 0) ["launcher", "other", "FIFO", "4"] = .error 1 ∧
    main tinyHost (List.replicate 32 0) ["launcher", "prog", "RANDOM", "many"] = .error 2 :=
  ⟨(C16_invalid_input_status tinyHost (List.replicate 32 0)
      ["launcher", "prog", "FIFO"]).1 (by decide),
    (C16_invalid_input_status tinyHost (List.replicate 32 0)
      ["launcher", "other", "FIFO", "4"]).2.1 rfl (by decide),
    (C16_invalid_input_status tinyHost (List.replicate 32 0)
      ["launcher", "prog", "RANDOM", "many"]).2.2.2 tinyElf rfl rfl (by decide) (by decide)
      (by decide) (by rw [show tinyHost.atol = c_atol from rfl]; decide)⟩

/-! ## Keys of the active slots -/

theorem ulong_sub_of_lt (w a b : Nat) (hab : a < b) (hb : b ≤ 2 ^ w) :
    ulong_sub w a b = 2 ^ w - (b - a) := by
  unfold ulong_sub
  have h2 : ((2 : Int) ^ w) = ((2 ^ w : Nat) : Int) := by push_cast; rfl
  have h1 : ((a : Int) - (b : Int)) % (2 : Int) ^ w = ((2 ^ w - (b - a) : Nat) : Int) := by
    rw [h2]
    have hpos : (0 : Int) < ((2 ^ w : Nat) : Int) := by
      have : 0 < 2 ^ w := Nat.two_pow_pos w
      exact_mod_cast this
    rw [← Int.add_emod_self]
    have e : (a : Int) - (b : Int) + ((2 ^ w : Nat) : Int) = ((2 ^ w - (b - a) : Nat) : Int) := by
      omega
    rw [e]
    exact Int.emod_eq_of_lt (by omega) (by omega)
  rw [h1, Int.toNat_ofNat]

theorem Memory.byte_of_load (m : Memory) (p i : Nat) (hi : i < PAGE_SIZE_IN_BYTES) :
    m.byte (p + i) = (m.load p PAGE_SIZE_IN_BYTES).getD i 0 := by
  rw [List.getD_eq_getElem?_getD, Memory.load_getElem?, if_pos hi]
  rfl

/-- The byte at index `i` of what was read from the file, padded with zeros, is the byte of
the file at that place when the read covers the index, and zero when it does not. -/
theorem file_pread_padded_getD (file : List Nat) (off n k i : Nat) :
    (file_pread file off n ++ List.replicate k 0).getD i 0 =
      if i < n then file.getD (off + i) 0 else 0 := by
  unfold file_pread
  rw [List.getD_eq_getElem?_getD]
  by_cases hin : i < n
  · rw [if_pos hin]
    by_cases hif : off + i < file.length
    · rw [List.getElem?_append_left (by simp; omega)]
      rw [List.getElem?_take_of_lt hin, List.getElem?_drop, List.getD_eq_getElem?_getD]
    · rw [List.getElem?_append_right (by simp; omega)]
      rw [List.getD_eq_getElem?_getD, List.getElem?_eq_none (l := file) (by omega)]
      rw [List.getElem?_replicate]
      split <;> rfl
  · rw [if_neg hin]
    rw [List.getElem?_append_right (by simp; omega), List.getElem?_replicate]
    split <;> rfl

theorem getD_replicate_zero (n i : Nat) : (List.replicate n 0).getD i 0 = 0 := by
  rw [List.getD_eq_getElem?_getD, List.getElem?_replicate]
  split <;> rfl

/-- The byte at a fault address after the fill that writes a page of zeros. -/
theorem byte_after_zero_fill (m : Memory) (fa : Nat) :
    ((m.mmap_fixed (page_start_of fa)).store (page_start_of fa)
      (List.replicate PAGE_SIZE_IN_BYTES 0)).byte fa = 0 := by
  obtain ⟨_, h2, h3⟩ := page_start_of_facts fa
  have hP : PAGE_SIZE_IN_BYTES = 4096 := rfl
  have hfa : fa = page_start_of fa + (fa - page_start_of fa) := by omega
  rw [hfa, Memory.byte_of_load _ _ _ (by rw [hP]; omega), ← hfa, Memory.load_zero_page]
  exact getD_replicate_zero _ _

/-! ## Claims on page materialisation -/

/-- C9, what the code does: page materialisation, for a page the host lets the loader map.
(a) If the swap store has an active slot for `page_start`, whose first such entry can be
read back in full, the fill returns and the page holds those swapped bytes; the page holds
`c` when the store holds `c` for `page_start`; and in a store reached from the initial one
by evictions, an active slot for `page_start` is enough: the store then holds a page for
it, which the fill copies. Otherwise, when no active slot has the key `page_start`:
(b) for a page that starts at or behind `p_vaddr`, as every page of a segment with an
aligned `p_vaddr` does, with `offset_in_segment = page_start - p_vaddr` and
`file_offset = p_offset + offset_in_segment` as plain numbers and the sizes inside
`unsigned long`, if `offset_in_segment < filesz` the fill returns and the page holds the
`min(4096, filesz - offset_in_segment)` bytes of the ELF file from `file_offset` (those of
them the file has) followed by zeros up to 4096 bytes; (c) for such a page with
`offset_in_segment ≥ filesz` the fill returns and the whole page is zero. (d) For a page
that starts before `p_vaddr`, the first page of a segment whose `p_vaddr` is not a multiple
of the page size, where `page_start - p_vaddr` is negative and so below `filesz`, the code
computes the difference in `unsigned long`, it wraps around to
`2^w - (p_vaddr - page_start)`, the test against `filesz` fails, and the whole page is zero
whatever the file holds. The swap store is never changed. -/
theorem C9_page_materialisation (env : LoaderEnv) (segment : Elf32_Phdr) (page_start : Nat)
    (world : World) (hmap : env.mmap_ok page_start = true) :
    (∀ i : Nat, i < world.swap.SWAP_TABLE.length →
      ((world.swap.SWAP_TABLE.getD i default).is_active ≠ 0 ∧
        (world.swap.SWAP_TABLE.getD i default).vaddr = page_start) →
      (∀ j : Nat, j < i →
        ¬ ((world.swap.SWAP_TABLE.getD j default).is_active ≠ 0 ∧
          (world.swap.SWAP_TABLE.getD j default).vaddr = page_start)) →
      0 ≤ (world.swap.SWAP_TABLE.getD i default).swap_offset →
      (file_pread world.swap.swap_img
        (world.swap.SWAP_TABLE.getD i default).swap_offset.toNat PAGE_SIZE_IN_BYTES).length
          = PAGE_SIZE_IN_BYTES →
      ∃ world1 : World, allocate_page_fill env segment page_start world = .ok world1 ∧
        world1.swap = world.swap ∧
        world1.mem.load page_start PAGE_SIZE_IN_BYTES =
          file_pread world.swap.swap_img
            (world.swap.SWAP_TABLE.getD i default).swap_offset.toNat PAGE_SIZE_IN_BYTES) ∧
    (∀ c : List Nat, world.swap.holds page_start c →
      ∃ world1 : World, allocate_page_fill env segment page_start world = .ok world1 ∧
        world1.swap = world.swap ∧ world1.mem.load page_start PAGE_SIZE_IN_BYTES = c) ∧
    (∀ (segs : List Elf32_Phdr) (max_pages : Int) (m0 : Memory) (steps : List (Nat × Memory))
        (st : World),
      swap_evictions env.ulong_bits segs steps
        { swap := init_swap_system max_pages, mem := m0 } = .ok st →
      world.swap = st.swap →
      (∃ e ∈ world.swap.SWAP_TABLE, e.is_active ≠ 0 ∧ e.vaddr = page_start) →
      ∃ (world1 : World) (c : List Nat),
        allocate_page_fill env segment page_start world = .ok world1 ∧
        world1.swap = world.swap ∧ world.swap.holds page_start c ∧
        world1.mem.load page_start PAGE_SIZE_IN_BYTES = c) ∧
    ((∀ e ∈ world.swap.SWAP_TABLE, ¬ (e.is_active ≠ 0 ∧ e.vaddr = page_start)) →
      segment.p_vaddr ≤ page_start → page_start < 2 ^ env.ulong_bits →
      page_start - segment.p_vaddr < segment.p_filesz →
      segment.p_offset + segment.p_filesz ≤ 2 ^ env.ulong_bits →
      segment.p_filesz + PAGE_SIZE_IN_BYTES ≤ 2 ^ env.ulong_bits →
      ∃ world1 : World, allocate_page_fill env segment page_start world = .ok world1 ∧
        world1.swap = world.swap ∧
        world1.mem.load page_start PAGE_SIZE_IN_BYTES =
          file_pread env.elf_file (segment.p_offset + (page_start - segment.p_vaddr))
            (min PAGE_SIZE_IN_BYTES (segment.p_filesz - (page_start - segment.p_vaddr)))
          ++ List.replicate
              (PAGE_SIZE_IN_BYTES -
                (file_pread env.elf_file (segment.p_offset + (page_start - segment.p_vaddr))
                  (min PAGE_SIZE_IN_BYTES
                    (segment.p_filesz - (page_start - segment.p_vaddr)))).length) 0) ∧
    ((∀ e ∈ world.swap.SWAP_TABLE, ¬ (e.is_active ≠ 0 ∧ e.vaddr = page_start)) →
      segment.p_vaddr ≤ page_start → page_start < 2 ^ env.ulong_bits →
      ¬ page_start - segment.p_vaddr < segment.p_filesz →
      ∃ world1 : World, allocate_page_fill env segment page_start world = .ok world1 ∧
        world1.swap = world.swap ∧
        world1.mem.load page_start PAGE_SIZE_IN_BYTES = List.replicate PAGE_SIZE_IN_BYTES 0) ∧
    ((∀ e ∈ world.swap.SWAP_TABLE, ¬ (e.is_active ≠ 0 ∧ e.vaddr = page_start)) →
      page_start < segment.p_vaddr → segment.p_vaddr ≤ 2 ^ env.ulong_bits →
      segment.p_filesz + (segment.p_vaddr - page_start) ≤ 2 ^ env.ulong_bits →
      ulong_sub env.ulong_bits page_start segment.p_vaddr
          = 2 ^ env.ulong_bits - (segment.p_vaddr - page_start) ∧
      ∃ world1 : World, allocate_page_fill env segment page_start world = .ok world1 ∧
        world1.swap = world.swap ∧
        world1.mem.load page_start PAGE_SIZE_IN_BYTES = List.replicate PAGE_SIZE_IN_BYTES 0) := by
  obtain ⟨hA, hB, hC, hfile, hzero, _, _⟩ :=
    allocate_page_fill_branches env segment page_start world hmap
  refine ⟨hA, hB, hC, ?_, ?_, ?_⟩
  · intro hnone hle hps hin hoffs hfit
    have hsub := ulong_sub_of_le env.ulong_bits page_start segment.p_vaddr hle hps
    have hadd := ulong_add_of_lt env.ulong_bits segment.p_offset
      (page_start - segment.p_vaddr) (by omega)
    have h := hfile hnone (by rw [hsub]; exact hin) hfit
    rw [hsub, hadd] at h
    exact h
  · intro hnone hle hps hout
    exact hzero hnone (by
      rw [ulong_sub_of_le env.ulong_bits page_start segment.p_vaddr hle hps]; exact hout)
  · intro hnone hlt hv hfit
    have hsub := ulong_sub_of_lt env.ulong_bits page_start segment.p_vaddr hlt hv
    exact ⟨hsub, hzero hnone (by rw [hsub]; omega)⟩

/-- The failing input of C9: in the loader of `unalignedEnv`, whose segment starts at 409700
with 4096 bytes in the file from offset 100 on, the page at 409600 has the offset
409600 - 409700 = -100 in the segment, which is below `filesz`, and the file offset
100 - 100 = 0, where the file holds the byte 144; the fill leaves the whole page zero. With
it, a page of `dataEnv` that starts at `p_vaddr` and is filled from the file. -/
theorem C9_page_materialisation_witness :
    ((unalignedEnv.mmap_ok 409600 = true ∧
        (409600 : Int) - (unalignedSegment.p_vaddr : Int) < (unalignedSegment.p_filesz : Int) ∧
        (unalignedSegment.p_offset : Int) + ((409600 : Int) - (unalignedSegment.p_vaddr : Int))
          = 0 ∧
        unalignedEnv.elf_file.getD 0 0 = 144) ∧
      ∃ world1 : World,
        allocate_page_fill unalignedEnv unalignedSegment 409600
          { swap := init_swap_system 2, mem := emptyMemory } = .ok world1 ∧
        world1.swap = init_swap_system 2 ∧
        world1.mem.load 409600 PAGE_SIZE_IN_BYTES = List.replicate PAGE_SIZE_IN_BYTES 0) ∧
    (dataEnv.mmap_ok 417792 = true ∧
      ∃ world1 : World,
        allocate_page_fill dataEnv dataSegment 417792
          { swap := init_swap_system 2, mem := emptyMemory } = .ok world1 ∧
        world1.swap = init_swap_system 2 ∧
        world1.mem.load 417792 PAGE_SIZE_IN_BYTES =
          file_pread dataEnv.elf_file (dataSegment.p_offset + (417792 - dataSegment.p_vaddr))
              (min PAGE_SIZE_IN_BYTES (dataSegment.p_filesz - (417792 - dataSegment.p_vaddr)))
            ++ List.replicate
                (PAGE_SIZE_IN_BYTES -
                  (file_pread dataEnv.elf_file
                    (dataSegment.p_offset + (417792 - dataSegment.p_vaddr))
                    (min PAGE_SIZE_IN_BYTES
                      (dataSegment.p_filesz - (417792 - dataSegment.p_vaddr)))).length) 0) := by
  have hbyte : unalignedEnv.elf_file.getD 0 0 = 144 := by
    show (List.replicate 4196 144).getD 0 0 = 144
    rw [List.getD_eq_getElem?_getD, List.getElem?_replicate]
    rfl
  exact ⟨⟨⟨rfl, by decide, by decide, hbyte⟩,
      ((C9_page_materialisation unalignedEnv unalignedSegment 409600
        { swap := init_swap_system 2, mem := emptyMemory } rfl).2.2.2.2.2
        (init_swap_system_inactive 2 409600) (by decide) (by decide) (by decide)).2⟩,
    ⟨rfl,
      (C9_page_materialisation dataEnv dataSegment 417792
        { swap := init_swap_system 2, mem := emptyMemory } rfl).2.2.2.1
        (init_swap_system_inactive 2 417792) (by decide) (by decide) (by decide) (by decide)
        (by decide)⟩⟩

/-! ## Claims on the byte at a fault address -/

/-- C28, what the code does. The fault address `fa` lies at or behind the start of a
segment, the page of `fa` has no active swap slot and the host grants the mapping; the
sizes stay inside `unsigned long`. When the page of `fa` starts at or behind `p_vaddr`, as
every page of a segment with an aligned `p_vaddr` does, the byte at `fa` after the fill of
`allocate_page` is the byte of the ELF file at `p_offset + (fa - p_vaddr)` for
`fa < p_vaddr + p_filesz` (zero if the file ends before) and zero from `p_vaddr + p_filesz`
on. When the page of `fa` starts before `p_vaddr`, the first page of a segment whose
`p_vaddr` is not a multiple of the page size, `page_start - p_vaddr` wraps around in
`unsigned long`, the test against `p_filesz` fails and the whole page is zeroed: the byte at
`fa` is zero whatever the file holds. -/
theorem C28_fault_byte (env : LoaderEnv) (segment : Elf32_Phdr) (fa : Nat) (world : World)
    (hmap : env.mmap_ok (page_start_of fa) = true)
    (hnone : ∀ e ∈ world.swap.SWAP_TABLE, ¬ (e.is_active ≠ 0 ∧ e.vaddr = page_start_of fa))
    (hfa : fa < 2 ^ env.ulong_bits) (hseg : segment.p_vaddr ≤ fa)
    (hfile : segment.p_offset + segment.p_filesz ≤ 2 ^ env.ulong_bits)
    (hw : segment.p_filesz + PAGE_SIZE_IN_BYTES ≤ 2 ^ env.ulong_bits) :
    ∃ world1 : World,
      allocate_page_fill env segment (page_start_of fa) world = .ok world1 ∧
      (segment.p_vaddr ≤ page_start_of fa →
        (fa < segment.p_vaddr + segment.p_filesz →
          world1.mem.byte fa =
            env.elf_file.getD (segment.p_offset + (fa - segment.p_vaddr)) 0) ∧
        (segment.p_vaddr + segment.p_filesz ≤ fa → world1.mem.byte fa = 0)) ∧
      (page_start_of fa < segment.p_vaddr → world1.mem.byte fa = 0) := by
  obtain ⟨_, h2, h3⟩ := page_start_of_facts fa
  have hP : PAGE_SIZE_IN_BYTES = 4096 := rfl
  rw [hP] at hw
  by_cases hal : segment.p_vaddr ≤ page_start_of fa
  · have hoff : ulong_sub env.ulong_bits (page_start_of fa) segment.p_vaddr =
        page_start_of fa - segment.p_vaddr := ulong_sub_of_le _ _ _ hal (by omega)
    by_cases hin : ulong_sub env.ulong_bits (page_start_of fa) segment.p_vaddr
        < segment.p_filesz
    · have hsum : ulong_add env.ulong_bits
          (ulong_sub env.ulong_bits (page_start_of fa) segment.p_vaddr) PAGE_SIZE_IN_BYTES =
          ulong_sub env.ulong_bits (page_start_of fa) segment.p_vaddr + PAGE_SIZE_IN_BYTES :=
        ulong_add_of_lt _ _ _ (by rw [hP]; omega)
      have hfo : ulong_add env.ulong_bits segment.p_offset
          (ulong_sub env.ulong_bits (page_start_of fa) segment.p_vaddr) =
          segment.p_offset + (page_start_of fa - segment.p_vaddr) := by
        rw [hoff]
        exact ulong_add_of_lt _ _ _ (by omega)
      obtain ⟨n, hn1, hn2⟩ : ∃ n : Nat,
          (n = if ulong_add env.ulong_bits
                  (ulong_sub env.ulong_bits (page_start_of fa) segment.p_vaddr)
                  PAGE_SIZE_IN_BYTES > segment.p_filesz
                then segment.p_filesz
                  - ulong_sub env.ulong_bits (page_start_of fa) segment.p_vaddr
                else PAGE_SIZE_IN_BYTES) ∧
          ((n = segment.p_filesz - (page_start_of fa - segment.p_vaddr) ∧ n ≤ 4096) ∨
            (n = 4096 ∧ 4096 ≤ segment.p_filesz - (page_start_of fa - segment.p_vaddr))) := by
        refine ⟨_, rfl, ?_⟩
        rw [hsum, hoff, hP]
        split
        · left; constructor
          · rfl
          · omega
        · right; constructor
          · rfl
          · omega
      refine ⟨_, allocate_page_fill_from_file env segment (page_start_of fa) world hmap hnone
        hin n hn1, ?_, fun hlt => absurd hal (by omega)⟩
      intro _
      have hbyte : ∀ i : Nat, i < 4096 →
          (if n < PAGE_SIZE_IN_BYTES then
            ((world.mem.mmap_fixed (page_start_of fa)).store (page_start_of fa)
              (file_pread env.elf_file
                (ulong_add env.ulong_bits segment.p_offset
                  (ulong_sub env.ulong_bits (page_start_of fa) segment.p_vaddr)) n)).store
              (page_start_of fa + n) (List.replicate (PAGE_SIZE_IN_BYTES - n) 0)
          else
            (world.mem.mmap_fixed (page_start_of fa)).store (page_start_of fa)
              (file_pread env.elf_file
                (ulong_add env.ulong_bits segment.p_offset
                  (ulong_sub env.ulong_bits (page_start_of fa) segment.p_vaddr)) n)).byte
            (page_start_of fa + i) =
          if i < n then
            env.elf_file.getD (segment.p_offset + (page_start_of fa - segment.p_vaddr) + i) 0
          else 0 := by
        intro i hi
        rw [Memory.byte_of_load _ _ _ (by rw [hP]; exact hi)]
        rw [Memory.load_filled world.mem (page_start_of fa) n _
          (by rw [file_pread_length]; exact Nat.min_le_left _ _)
          (by rw [hP]; rcases hn2 with ⟨_, h⟩ | ⟨h, _⟩ <;> omega)]
        rw [file_pread_padded_getD, hfo]
      have hfaeq : fa = page_start_of fa + (fa - page_start_of fa) := by omega
      have hb := hbyte (fa - page_start_of fa) (by omega)
      rw [← hfaeq] at hb
      constructor
      · intro hlt
        refine hb.trans ?_
        have hi : fa - page_start_of fa < n := by
          rcases hn2 with ⟨h, _⟩ | ⟨h, _⟩ <;> omega
        rw [if_pos hi]
        congr 1
        omega
      · intro hge
        refine hb.trans ?_
        have hi : ¬ fa - page_start_of fa < n := by
          rcases hn2 with ⟨h, _⟩ | ⟨h, _⟩ <;> omega
        rw [if_neg hi]
    · refine ⟨_, allocate_page_fill_zero env segment (page_start_of fa) world hmap hnone hin,
        ?_, fun hlt => absurd hal (by omega)⟩
      intro _
      constructor
      · intro hlt
        exfalso
        apply hin
        rw [hoff]
        omega
      · intro _
        exact byte_after_zero_fill world.mem fa
  · have hoff : ulong_sub env.ulong_bits (page_start_of fa) segment.p_vaddr =
        2 ^ env.ulong_bits - (segment.p_vaddr - page_start_of fa) :=
      ulong_sub_of_lt _ _ _ (by omega) (by omega)
    have hout : ¬ ulong_sub env.ulong_bits (page_start_of fa) segment.p_vaddr
        < segment.p_filesz := by
      rw [hoff]
      omega
    exact ⟨_, allocate_page_fill_zero env segment (page_start_of fa) world hmap hnone hout,
      fun h => absurd h hal, fun _ => byte_after_zero_fill world.mem fa⟩

/-- The failing input of C28: in the loader of `unalignedEnv`, whose segment starts at
409700 with 4096 bytes in the file from offset 100 on, a fault at 409704 leaves the byte 0
at 409704, while the file holds 144 at offset 104. -/
theorem C28_fault_byte_witness :
    ∃ world1 : World,
      allocate_page_fill unalignedEnv unalignedSegment (page_start_of 409704)
        { swap := init_swap_system 2, mem := emptyMemory } = .ok world1 ∧
      world1.mem.byte 409704 = 0 ∧
      unalignedEnv.elf_file.getD
        (unalignedSegment.p_offset + (409704 - unalignedSegment.p_vaddr)) 0 = 144 := by
  obtain ⟨world1, h1, _, h3⟩ := C28_fault_byte unalignedEnv unalignedSegment 409704
    { swap := init_swap_system 2, mem := emptyMemory } rfl
    (init_swap_system_inactive 2 (page_start_of 409704)) (by decide) (by decide) (by decide)
    (by decide)
  refine ⟨world1, h1, h3 (by decide), ?_⟩
  show (List.replicate 4196 144).getD 104 0 = 144
  rw [List.getD_eq_getElem?_getD, List.getElem?_replicate]
  rfl

end SmartLoader

namespace SimpleScheduler

/-! ## Queues -/

theorem popNode_nil (q : Queue) (h : q.nodes = []) : popNode q = (none, q) := by
  simp [popNode, h]

theorem popNode_cons (q : Queue) (n : ProcessInfoNode) (rest : List ProcessInfoNode)
    (h : q.nodes = n :: rest) : popNode q = (some n, { nodes := rest }) := by
  simp [popNode, h]

/-- The preemption loop, given as many iterations as there are running jobs, empties
`running`: every job of it, with one more run slice, goes to the tail of `buffer` or of
`complete`, and nothing else changes. -/
theorem preempt_loop_spec (stops : Nat → StopOutcome) (n k : Nat) (st : SchedState)
    (hn : st.running.nodes.length ≤ n) :
    ∃ moved_b moved_c : List ProcessInfoNode,
      preempt_loop stops n k st =
        { st with running := { nodes := [] }
                  buffer := { nodes := st.buffer.nodes ++ moved_b }
                  complete := { nodes := st.complete.nodes ++ moved_c } } ∧
      (moved_b ++ moved_c).Perm (st.running.nodes.map ran) := by
  induction n generalizing k st with
  | zero =>
    obtain ⟨ready, ⟨rn⟩, ⟨bn⟩, ⟨cn⟩, sc, tk, na⟩ := st
    have : rn = [] := by simpa using hn
    subst this
    exact ⟨[], [], by simp [preempt_loop], List.Perm.refl _⟩
  | succ n ih =>
    obtain ⟨ready, ⟨rn⟩, ⟨bn⟩, ⟨cn⟩, sc, tk, na⟩ := st
    cases rn with
    | nil =>
      refine ⟨[], [], ?_, List.Perm.refl _⟩
      simp [preempt_loop, Queue.count]
    | cons node rest =>
      have hpos : (0 : Int) < ((node :: rest).length : Int) := by simp
      simp only [preempt_loop, Queue.count, gt_iff_lt, hpos, if_true, popNode]
      have hrest : rest.length ≤ n := by simpa using hn
      cases hs : stops k with
      | dead =>
        obtain ⟨mb, mc, h1, h2⟩ := ih (k + 1)
          { ready := ready, running := { nodes := rest }, buffer := { nodes := bn }
            complete := mark_complete_node { node with run_slices := node.run_slices + 1 }
              { nodes := cn }
            shell_closed := sc, tick := tk, next_addr := na } hrest
        refine ⟨mb, ran node :: mc, ?_, ?_⟩
        · rw [h1]
          simp [mark_complete_node, pushNode, ran]
        · simp only [List.map_cons]
          exact (List.perm_middle).trans (List.Perm.cons _ h2)
      | esrch =>
        obtain ⟨mb, mc, h1, h2⟩ := ih (k + 1)
          { ready := ready, running := { nodes := rest }, buffer := { nodes := bn }
            complete := mark_complete_node { node with run_slices := node.run_slices + 1 }
              { nodes := cn }
            shell_closed := sc, tick := tk, next_addr := na } hrest
        refine ⟨mb, ran node :: mc, ?_, ?_⟩
        · rw [h1]
          simp [mark_complete_node, pushNode, ran]
        · simp only [List.map_cons]
          exact (List.perm_middle).trans (List.Perm.cons _ h2)
      | failed =>
        obtain ⟨mb, mc, h1, h2⟩ := ih (k + 1)
          { ready := ready, running := { nodes := rest }
            buffer := pushNode { nodes := bn } { node with run_slices := node.run_slices + 1 }
            complete := { nodes := cn }
            shell_closed := sc, tick := tk, next_addr := na } hrest
        refine ⟨ran node :: mb, mc, ?_, ?_⟩
        · rw [h1]
          simp [pushNode, ran]
        · simp only [List.map_cons, List.cons_append]
          exact List.Perm.cons _ h2
      | stopped =>
        obtain ⟨mb, mc, h1, h2⟩ := ih (k + 1)
          { ready := ready, running := { nodes := rest }
            buffer := pushNode { nodes := bn } { node with run_slices := node.run_slices + 1 }
            complete := { nodes := cn }
            shell_closed := sc, tick := tk, next_addr := na } hrest
        refine ⟨ran node :: mb, mc, ?_, ?_⟩
        · rw [h1]
          simp [pushNode, ran]
        · simp only [List.map_cons, List.cons_append]
          exact List.Perm.cons _ h2

/-- The loop that moves the buffer back, given as many iterations as there are buffered
jobs, empties `buffer`: every job of it goes, unchanged, to the tail of `ready` or of
`complete`. -/
theorem rearm_loop_spec (rearm_dead : Nat → Bool) (n k : Nat) (st : SchedState)
    (hn : st.buffer.nodes.length ≤ n) :
    ∃ moved_r moved_c : List ProcessInfoNode,
      rearm_loop rearm_dead n k st =
        { st with buffer := { nodes := [] }
                  ready := { nodes := st.ready.nodes ++ moved_r }
                  complete := { nodes := st.complete.nodes ++ moved_c } } ∧
      (moved_r ++ moved_c).Perm st.buffer.nodes := by
  induction n generalizing k st with
  | zero =>
    obtain ⟨⟨rd⟩, running, ⟨bn⟩, ⟨cn⟩, sc, tk, na⟩ := st
    have : bn = [] := by simpa using hn
    subst this
    exact ⟨[], [], by simp [rearm_loop], List.Perm.refl _⟩
  | succ n ih =>
    obtain ⟨⟨rd⟩, running, ⟨bn⟩, ⟨cn⟩, sc, tk, na⟩ := st
    cases bn with
    | nil =>
      refine ⟨[], [], ?_, List.Perm.refl _⟩
      simp [rearm_loop, Queue.count]
    | cons node rest =>
      have hpos : (0 : Int) < ((node :: rest).length : Int) := by simp
      simp only [rearm_loop, Queue.count, gt_iff_lt, hpos, if_true, popNode]
      have hrest : rest.length ≤ n := by simpa using hn
      cases hd : rearm_dead k with
      | true =>
        obtain ⟨mr, mc, h1, h2⟩ := ih (k + 1)
          { ready := { nodes := rd }, running := running, buffer := { nodes := rest }
            complete := mark_complete_node node { nodes := cn }
            shell_closed := sc, tick := tk, next_addr := na } hrest
        refine ⟨mr, node :: mc, ?_, ?_⟩
        · simp only [if_true]
          rw [h1]
          simp [mark_complete_node, pushNode]
        · exact (List.perm_middle).trans (List.Perm.cons _ h2)
      | false =>
        obtain ⟨mr, mc, h1, h2⟩ := ih (k + 1)
          { ready := pushNode { nodes := rd } node, running := running
            buffer := { nodes := rest }, complete := { nodes := cn }
            shell_closed := sc, tick := tk, next_addr := na } hrest
        refine ⟨node :: mr, mc, ?_, ?_⟩
        · simp only [Bool.false_eq_true, if_false]
          rw [h1]
          simp [pushNode]
        · simp only [List.cons_append]
          exact List.Perm.cons _ h2

/-- The intake appends the jobs it creates to `ready`: they have the next addresses in
order and no slice yet; nothing else changes but `shell_closed` and `next_addr`. -/
theorem intake_spec (reads : List ReadResult) (st : SchedState) :
    ∃ (created : List ProcessInfoNode) (closed : Bool),
      intake reads st =
        { st with ready := { nodes := st.ready.nodes ++ created }
                  shell_closed := closed
                  next_addr := st.next_addr + created.length } ∧
      created.map (fun n => n.addr) = List.range' st.next_addr created.length ∧
      (∀ n ∈ created, n.run_slices = 0 ∧ n.wait_slices = 0) ∧
      created.length ≤ reads.length := by
  induction reads generalizing st with
  | nil =>
    obtain ⟨⟨rd⟩, running, buffer, complete, sc, tk, na⟩ := st
    exact ⟨[], sc, by simp [intake], by simp, by simp, by simp⟩
  | cons r rest ih =>
    obtain ⟨⟨rd⟩, running, buffer, complete, sc, tk, na⟩ := st
    have hskip : ∀ st0 : SchedState, st0 =
        { ready := { nodes := rd }, running := running, buffer := buffer, complete := complete
          shell_closed := sc, tick := tk, next_addr := na } →
        ∃ (created : List ProcessInfoNode) (closed : Bool),
          intake rest st0 =
            { ready := { nodes := rd ++ created }, running := running, buffer := buffer
              complete := complete, shell_closed := closed, tick := tk
              next_addr := na + created.length } ∧
          created.map (fun n => n.addr) = List.range' na created.length ∧
          (∀ n ∈ created, n.run_slices = 0 ∧ n.wait_slices = 0) ∧
          created.length ≤ (r :: rest).length := by
      intro st0 h0
      obtain ⟨cr, cl, h1, h2, h3, h4⟩ := ih st0
      subst h0
      exact ⟨cr, cl, h1, h2, h3, by simp; omega⟩
    cases r with
    | pid newpid node_ok =>
      cases node_ok with
      | true =>
        obtain ⟨cr, cl, h1, h2, h3, h4⟩ := ih
          { ready := pushNode { nodes := rd } (createNode na newpid), running := running
            buffer := buffer, complete := complete, shell_closed := sc, tick := tk
            next_addr := na + 1 }
        refine ⟨createNode na newpid :: cr, cl, ?_, ?_, ?_, by simp; omega⟩
        · simp only [intake]
          rw [h1]
          simp [pushNode]
          omega
        · simp only [List.map_cons, List.length_cons, List.range'_succ, h2]
          rfl
        · intro n hn
          rcases List.mem_cons.mp hn with rfl | hn
          · exact ⟨rfl, rfl⟩
          · exact h3 n hn
      | false => simpa only [intake] using hskip _ rfl
    | partial_read => simpa only [intake] using hskip _ rfl
    | eintr => simpa only [intake] using hskip _ rfl
    | eof => exact ⟨[], true, by simp [intake], by simp, by simp, by simp⟩
    | eagain => exact ⟨[], sc, by simp [intake], by simp, by simp, by simp⟩
    | failed => exact ⟨[], sc, by simp [intake], by simp, by simp, by simp⟩

/-- The dispatch loop, whether it ends or the answers run out: the jobs it has taken from
`ready` and not put back are at the tail of `running` or of `complete`, unchanged; those put
into `running` are at most `to_dispatch - i`; nothing else changes. -/
theorem dispatch_loop_spec (to_dispatch : Int) (conts : List ContOutcome) (i : Int)
    (st r : SchedState)
    (h : dispatch_loop to_dispatch conts i st = .ok r ∨
      dispatch_loop to_dispatch conts i st = .error r) :
    ∃ moved_run moved_c : List ProcessInfoNode,
      r = { st with ready := r.ready
                    running := { nodes := st.running.nodes ++ moved_run }
                    complete := { nodes := st.complete.nodes ++ moved_c } } ∧
      (r.ready.nodes ++ moved_run ++ moved_c).Perm st.ready.nodes ∧
      (moved_run.length : Int) ≤ max 0 (to_dispatch - i) := by
  have hstay : ∀ (j : Int) (st0 : SchedState), ∃ moved_run moved_c : List ProcessInfoNode,
      st0 = { st0 with ready := st0.ready
                       running := { nodes := st0.running.nodes ++ moved_run }
                       complete := { nodes := st0.complete.nodes ++ moved_c } } ∧
      (st0.ready.nodes ++ moved_run ++ moved_c).Perm st0.ready.nodes ∧
      (moved_run.length : Int) ≤ max 0 (to_dispatch - j) := by
    intro j st0
    refine ⟨[], [], by simp, by simp, by simp⟩
  induction conts generalizing i st with
  | nil =>
    have hr : r = st := by
      simp only [dispatch_loop] at h
      split at h
      · split at h
        · rcases h with h | h
          · simp only [Except.ok.injEq] at h; exact h.symm
          · simp at h
        · rcases h with h | h
          · simp at h
          · simp only [Except.error.injEq] at h; exact h.symm
      · rcases h with h | h
        · simp only [Except.ok.injEq] at h; exact h.symm
        · simp at h
    subst hr
    exact hstay i r
  | cons c rest ih =>
    obtain ⟨⟨rd⟩, ⟨rn⟩, buffer, ⟨cn⟩, sc, tk, na⟩ := st
    by_cases hi : i < to_dispatch
    · cases rd with
      | nil =>
        have hr : r = { ready := { nodes := [] }, running := { nodes := rn }, buffer := buffer
                        complete := { nodes := cn }, shell_closed := sc, tick := tk
                        next_addr := na } := by
          simp only [dispatch_loop, hi, if_true, popNode] at h
          rcases h with h | h
          · simp only [Except.ok.injEq] at h; exact h.symm
          · simp at h
        subst hr
        exact hstay i _
      | cons node rd =>
        simp only [dispatch_loop, hi, if_true, popNode] at h
        cases c with
        | dead =>
          obtain ⟨mr, mc, h1, h2, h3⟩ := ih i _ h
          refine ⟨mr, node :: mc, ?_, ?_, h3⟩
          · rw [h1]
            simp [mark_complete_node, pushNode]
          · simp only at h2
            rw [← Multiset.coe_eq_coe] at h2 ⊢
            simp only [← Multiset.coe_add, ← Multiset.cons_coe, ← Multiset.singleton_add]
              at h2 ⊢
            rw [← h2]
            abel
        | esrch =>
          obtain ⟨mr, mc, h1, h2, h3⟩ := ih i _ h
          refine ⟨mr, node :: mc, ?_, ?_, h3⟩
          · rw [h1]
            simp [mark_complete_node, pushNode]
          · simp only at h2
            rw [← Multiset.coe_eq_coe] at h2 ⊢
            simp only [← Multiset.coe_add, ← Multiset.cons_coe, ← Multiset.singleton_add]
              at h2 ⊢
            rw [← h2]
            abel
        | failed =>
          obtain ⟨mr, mc, h1, h2, h3⟩ := ih i _ h
          refine ⟨mr, mc, ?_, ?_, h3⟩
          · rw [h1]
          · simp only [pushNode] at h2
            rw [← Multiset.coe_eq_coe] at h2 ⊢
            simp only [← Multiset.coe_add, ← Multiset.cons_coe, ← Multiset.singleton_add,
              Multiset.coe_nil, add_zero] at h2 ⊢
            rw [h2]
            abel
        | continued =>
          obtain ⟨mr, mc, h1, h2, h3⟩ := ih (i + 1) _ h
          refine ⟨node :: mr, mc, ?_, ?_, ?_⟩
          · rw [h1]
            simp [pushNode]
          · simp only at h2
            rw [← Multiset.coe_eq_coe] at h2 ⊢
            simp only [← Multiset.coe_add, ← Multiset.cons_coe, ← Multiset.singleton_add]
              at h2 ⊢
            rw [← h2]
            abel
          · simp only [List.length_cons, Nat.cast_add, Nat.cast_one]
            omega
    · have hr : r = { ready := { nodes := rd }, running := { nodes := rn }, buffer := buffer
                      complete := { nodes := cn }, shell_closed := sc, tick := tk
                      next_addr := na } := by
        simp only [dispatch_loop, hi, if_false] at h
        rcases h with h | h
        · simp only [Except.ok.injEq] at h; exact h.symm
        · simp at h
      subst hr
      exact hstay i _

theorem tick_balance {M : Type} [AddCommMonoid M] (R MRUN MC3 W MR CR C MC MC2 B MB RAN : M)
    (h1 : R + MRUN + MC3 = W + MR + CR) (h2 : MR + MC2 = B + MB) (h3 : MB + MC = RAN) :
    R + MRUN + (C + MC + MC2 + MC3) = W + RAN + B + C + CR := by
  calc R + MRUN + (C + MC + MC2 + MC3) = (R + MRUN + MC3) + C + MC + MC2 := by abel
    _ = W + MR + CR + C + MC + MC2 := by rw [h1]
    _ = W + (MR + MC2) + CR + C + MC := by abel
    _ = W + (B + MB) + CR + C + MC := by rw [h2]
    _ = W + (MB + MC) + B + C + CR := by abel
    _ = W + RAN + B + C + CR := by rw [h3]

/-- One tick, whether its dispatch ends or the answers run out: the jobs that were in
`ready` have one more wait slice, those that were in `running` one more run slice, the others
are as they were, and the jobs created by the intake, with the next addresses and no slice,
have joined them; `buffer` is empty and `running` holds at most `NCPU` jobs. -/
theorem tick_spec (NCPU : Int) (env : TickEnv) (st r : SchedState)
    (h : tick NCPU env st = .ok r ∨ tick NCPU env st = .error r) :
    ∃ created : List ProcessInfoNode,
      (all_nodes r).Perm (st.ready.nodes.map waited ++ st.running.nodes.map ran
        ++ st.buffer.nodes ++ st.complete.nodes ++ created) ∧
      created.map (fun n => n.addr) = List.range' st.next_addr created.length ∧
      (∀ n ∈ created, n.run_slices = 0 ∧ n.wait_slices = 0) ∧
      r.next_addr = st.next_addr + created.length ∧
      r.tick = st.tick + 1 ∧
      r.buffer.nodes = [] ∧
      (r.running.nodes.length : Int) ≤ max 0 NCPU := by
  obtain ⟨mb, mc, hp1, hp2⟩ := preempt_loop_spec env.stops st.running.nodes.length 0
    { st with tick := st.tick + 1 } (le_refl _)
  obtain ⟨mr, mc2, hr1, hr2⟩ := rearm_loop_spec env.rearm_dead
    (credit_wait (preempt env.stops { st with tick := st.tick + 1 })).buffer.nodes.length 0
    (credit_wait (preempt env.stops { st with tick := st.tick + 1 })) (le_refl _)
  obtain ⟨created, closed, hi1, hi2, hi3, _⟩ := intake_spec env.reads
    (rearm env.rearm_dead (credit_wait (preempt env.stops { st with tick := st.tick + 1 })))
  have hpre : preempt env.stops { st with tick := st.tick + 1 } =
      { st with tick := st.tick + 1
                running := { nodes := [] }
                buffer := { nodes := st.buffer.nodes ++ mb }
                complete := { nodes := st.complete.nodes ++ mc } } := hp1
  have hrearm : rearm env.rearm_dead
      (credit_wait (preempt env.stops { st with tick := st.tick + 1 })) =
      { st with tick := st.tick + 1
                running := { nodes := [] }
                buffer := { nodes := [] }
                ready := { nodes := st.ready.nodes.map waited ++ mr }
                complete := { nodes := st.complete.nodes ++ mc ++ mc2 } } := by
    unfold rearm
    rw [hr1, hpre]
    simp only [credit_wait]
    rfl
  rw [hpre] at hr2
  simp only [credit_wait] at hr2
  rw [hrearm] at hi1 hi2
  simp only at hi1 hi2
  obtain ⟨mrun, mc3, hd1, hd2, hd3⟩ := dispatch_loop_spec _ env.conts 0 _ r
    (show dispatch_loop _ env.conts 0 (intake env.reads (rearm env.rearm_dead
      (credit_wait (preempt env.stops { st with tick := st.tick + 1 })))) = .ok r ∨ _ from h)
  rw [hrearm, hi1] at hd1 hd2 hd3
  simp only at hd1 hd2 hd3
  refine ⟨created, ?_, hi2, hi3, ?_, ?_, ?_, ?_⟩
  · rw [hd1]
    simp only [all_nodes, List.nil_append, List.append_nil]
    rw [← Multiset.coe_eq_coe] at hd2 hr2 hp2 ⊢
    simp only [← Multiset.coe_add] at hd2 hr2 hp2 ⊢
    have := tick_balance _ _ _ _ _ _ (↑st.complete.nodes : Multiset ProcessInfoNode) _ _ _ _ _
      hd2 hr2 hp2
    convert this using 1
  · rw [hd1]
  · rw [hd1]
  · rw [hd1]
  · rw [hd1]
    simp only [List.nil_append]
    simp only [Queue.count] at hd3
    split at hd3 <;> omega

/-- The dispatch loop ends when no answer is a failure of `SIGCONT` for another reason than
`ESRCH` and there is an answer for every job of `ready`. -/
theorem dispatch_loop_returns (to_dispatch : Int) (conts : List ContOutcome) (i : Int)
    (st : SchedState) (hok : ∀ c ∈ conts, c ≠ ContOutcome.failed)
    (hlen : st.ready.nodes.length ≤ conts.length) :
    ∃ r : SchedState, dispatch_loop to_dispatch conts i st = .ok r := by
  induction conts generalizing i st with
  | nil =>
    have hnil : st.ready.nodes = [] := by simpa using hlen
    simp only [dispatch_loop, popNode, hnil]
    split <;> exact ⟨_, rfl⟩
  | cons c rest ih =>
    obtain ⟨⟨rd⟩, running, buffer, complete, sc, tk, na⟩ := st
    by_cases hi : i < to_dispatch
    · cases rd with
      | nil =>
        simp only [dispatch_loop, hi, if_true, popNode]
        exact ⟨_, rfl⟩
      | cons node rd =>
        have hrest : ∀ c2 ∈ rest, c2 ≠ ContOutcome.failed :=
          fun c2 h2 => hok c2 (List.mem_cons_of_mem _ h2)
        have hl : rd.length ≤ rest.length := by simpa using hlen
        simp only [dispatch_loop, hi, if_true, popNode]
        cases c with
        | dead => exact ih i _ hrest hl
        | esrch => exact ih i _ hrest hl
        | failed => exact absurd rfl (hok _ (List.mem_cons_self _ _))
        | continued => exact ih (i + 1) _ hrest hl
    · simp only [dispatch_loop, hi, if_false]
      exact ⟨_, rfl⟩

/-- A tick ends when no answer at dispatch is such a failure and there are as many answers
as there can be jobs in `ready`. -/
theorem tick_returns (NCPU : Int) (env : TickEnv) (st : SchedState)
    (hok : ∀ c ∈ env.conts, c ≠ ContOutcome.failed)
    (hlen : st.ready.nodes.length + st.running.nodes.length + st.buffer.nodes.length
      + env.reads.length ≤ env.conts.length) :
    ∃ r : SchedState, tick NCPU env st = .ok r := by
  obtain ⟨mb, mc, hp1, hp2⟩ := preempt_loop_spec env.stops st.running.nodes.length 0
    { st with tick := st.tick + 1 } (le_refl _)
  obtain ⟨mr, mc2, hr1, hr2⟩ := rearm_loop_spec env.rearm_dead
    (credit_wait (preempt env.stops { st with tick := st.tick + 1 })).buffer.nodes.length 0
    (credit_wait (preempt env.stops { st with tick := st.tick + 1 })) (le_refl _)
  obtain ⟨created, closed, hi1, _, _, hi4⟩ := intake_spec env.reads
    (rearm env.rearm_dead (credit_wait (preempt env.stops { st with tick := st.tick + 1 })))
  have hpre : preempt env.stops { st with tick := st.tick + 1 } =
      { st with tick := st.tick + 1
                running := { nodes := [] }
                buffer := { nodes := st.buffer.nodes ++ mb }
                complete := { nodes := st.complete.nodes ++ mc } } := hp1
  have hrearm : rearm env.rearm_dead
      (credit_wait (preempt env.stops { st with tick := st.tick + 1 })) =
      { st with tick := st.tick + 1
                running := { nodes := [] }
                buffer := { nodes := [] }
                ready := { nodes := st.ready.nodes.map waited ++ mr }
                complete := { nodes := st.complete.nodes ++ mc ++ mc2 } } := by
    unfold rearm
    rw [hr1, hpre]
    simp only [credit_wait]
    rfl
  rw [hpre] at hr2
  simp only [credit_wait] at hr2
  rw [hrearm] at hi1
  simp only at hi1
  have l1 := hp2.length_eq
  have l2 := hr2.length_eq
  simp only [List.length_append, List.length_map] at l1 l2
  unfold tick dispatch
  rw [hrearm, hi1]
  apply dispatch_loop_returns _ _ _ _ hok
  simp only [List.length_append, List.length_map]
  omega

/-! ## Every job in one queue -/

theorem map_addr_ran (l : List ProcessInfoNode) :
    (l.map ran).map (fun n => n.addr) = l.map (fun n => n.addr) := by
  rw [List.map_map]
  rfl

theorem map_addr_waited (l : List ProcessInfoNode) :
    (l.map waited).map (fun n => n.addr) = l.map (fun n => n.addr) := by
  rw [List.map_map]
  rfl

/-- A step that keeps the addresses of the nodes and adds the next `k` addresses keeps every
job in the queues exactly once. -/
theorem jobs_once_step (s s1 : SchedState) (k : Nat)
    (hperm : ((all_nodes s1).map (fun n => n.addr)).Perm
      ((all_nodes s).map (fun n => n.addr) ++ List.range' s.next_addr k))
    (hnext : s1.next_addr = s.next_addr + k) (h : jobs_once s) : jobs_once s1 := by
  unfold jobs_once at h ⊢
  rw [hnext]
  refine hperm.trans ?_
  have h2 : List.range (s.next_addr + k) = List.range s.next_addr ++ List.range' s.next_addr k := by
    rw [List.range_eq_range', List.range_eq_range']
    have := List.range'_append 0 s.next_addr k 1
    simp only [Nat.one_mul, Nat.zero_add] at this
    rw [this, Nat.add_comm]
  rw [h2]
  exact List.Perm.append_right _ h

/-- The four states of `tick_phases`, written out. -/
theorem tick_phases_spec (env : TickEnv) (st : SchedState) :
    ∃ (mb mc mr mc2 created : List ProcessInfoNode) (closed : Bool),
      tick_phases env st =
        [{ st with tick := st.tick + 1
                   running := { nodes := [] }
                   buffer := { nodes := st.buffer.nodes ++ mb }
                   complete := { nodes := st.complete.nodes ++ mc } },
         { st with tick := st.tick + 1
                   ready := { nodes := st.ready.nodes.map waited }
                   running := { nodes := [] }
                   buffer := { nodes := st.buffer.nodes ++ mb }
                   complete := { nodes := st.complete.nodes ++ mc } },
         { st with tick := st.tick + 1
                   running := { nodes := [] }
                   buffer := { nodes := [] }
                   ready := { nodes := st.ready.nodes.map waited ++ mr }
                   complete := { nodes := st.complete.nodes ++ mc ++ mc2 } },
         { st with tick := st.tick + 1
                   running := { nodes := [] }
                   buffer := { nodes := [] }
                   ready := { nodes := st.ready.nodes.map waited ++ mr ++ created }
                   complete := { nodes := st.complete.nodes ++ mc ++ mc2 }
                   shell_closed := closed
                   next_addr := st.next_addr + created.length }] ∧
      (mb ++ mc).Perm (st.running.nodes.map ran) ∧
      (mr ++ mc2).Perm (st.buffer.nodes ++ mb) ∧
      created.map (fun n => n.addr) = List.range' st.next_addr created.length ∧
      (∀ n ∈ created, n.run_slices = 0 ∧ n.wait_slices = 0) ∧
      created.length ≤ env.reads.length := by
  obtain ⟨mb, mc, hp1, hp2⟩ := preempt_loop_spec env.stops st.running.nodes.length 0
    { st with tick := st.tick + 1 } (le_refl _)
  obtain ⟨mr, mc2, hr1, hr2⟩ := rearm_loop_spec env.rearm_dead
    (credit_wait (preempt env.stops { st with tick := st.tick + 1 })).buffer.nodes.length 0
    (credit_wait (preempt env.stops { st with tick := st.tick + 1 })) (le_refl _)
  obtain ⟨created, closed, hi1, hi2, hi3, hi4⟩ := intake_spec env.reads
    (rearm env.rearm_dead (credit_wait (preempt env.stops { st with tick := st.tick + 1 })))
  have hpre : preempt env.stops { st with tick := st.tick + 1 } =
      { st with tick := st.tick + 1
                running := { nodes := [] }
                buffer := { nodes := st.buffer.nodes ++ mb }
                complete := { nodes := st.complete.nodes ++ mc } } := hp1
  have hrearm : rearm env.rearm_dead
      (credit_wait (preempt env.stops { st with tick := st.tick + 1 })) =
      { st with tick := st.tick + 1
                running := { nodes := [] }
                buffer := { nodes := [] }
                ready := { nodes := st.ready.nodes.map waited ++ mr }
                complete := { nodes := st.complete.nodes ++ mc ++ mc2 } } := by
    unfold rearm
    rw [hr1, hpre]
    simp only [credit_wait]
    rfl
  rw [hpre] at hr2
  simp only [credit_wait] at hr2
  rw [hrearm] at hi1 hi2
  simp only at hi1 hi2
  refine ⟨mb, mc, mr, mc2, created, closed, ?_, hp2, hr2, hi2, hi3, hi4⟩
  show [preempt env.stops { st with tick := st.tick + 1 },
    credit_wait (preempt env.stops { st with tick := st.tick + 1 }),
    rearm env.rearm_dead (credit_wait (preempt env.stops { st with tick := st.tick + 1 })),
    intake env.reads (rearm env.rearm_dead
      (credit_wait (preempt env.stops { st with tick := st.tick + 1 })))] = _
  rw [hrearm, hi1, hpre]
  rfl

/-- Every phase of a tick before the dispatch keeps every job in the queues exactly once. -/
theorem tick_phases_jobs_once (env : TickEnv) (st : SchedState) (h : jobs_once st) :
    ∀ s ∈ tick_phases env st, jobs_once s := by
  obtain ⟨mb, mc, mr, mc2, created, closed, heq, hp2, hr2, hi2, _, _⟩ := tick_phases_spec env st
  have hp := hp2.map (fun n => n.addr)
  have hr := hr2.map (fun n => n.addr)
  rw [map_addr_ran] at hp
  rw [← Multiset.coe_eq_coe] at hp hr
  simp only [List.map_append, ← Multiset.coe_add] at hp hr
  rw [heq]
  intro s hs
  simp only [List.mem_cons, List.mem_singleton, List.not_mem_nil, or_false] at hs
  rcases hs with rfl | rfl | rfl | rfl
  · refine jobs_once_step st _ 0 ?_ (by simp) h
    rw [← Multiset.coe_eq_coe]
    simp only [all_nodes, List.map_append, ← Multiset.coe_add, List.range'_zero, List.map_nil,
      Multiset.coe_nil, add_zero]
    rw [← hp]
    abel
  · refine jobs_once_step st _ 0 ?_ (by simp) h
    rw [← Multiset.coe_eq_coe]
    simp only [all_nodes, List.map_append, ← Multiset.coe_add, List.range'_zero, List.map_nil,
      Multiset.coe_nil, add_zero, map_addr_waited]
    rw [← hp]
    abel
  · refine jobs_once_step st _ 0 ?_ (by simp) h
    rw [← Multiset.coe_eq_coe]
    simp only [all_nodes, List.map_append, ← Multiset.coe_add, List.range'_zero, List.map_nil,
      Multiset.coe_nil, add_zero, map_addr_waited]
    rw [← hp]
    have e : (↑(mr.map (fun n => n.addr)) : Multiset Nat) + ↑(mc2.map (fun n => n.addr))
        + ↑(mc.map (fun n => n.addr)) =
        ↑(st.buffer.nodes.map (fun n => n.addr)) + ↑(mb.map (fun n => n.addr))
        + ↑(mc.map (fun n => n.addr)) := by rw [hr]
    calc _ = (↑(st.ready.nodes.map (fun n => n.addr)) : Multiset Nat)
          + ↑(st.complete.nodes.map (fun n => n.addr))
          + ((↑(mr.map (fun n => n.addr)) : Multiset Nat) + ↑(mc2.map (fun n => n.addr))
            + ↑(mc.map (fun n => n.addr))) := by abel
      _ = _ := by rw [e]; abel
  · refine jobs_once_step st _ created.length ?_ rfl h
    rw [← Multiset.coe_eq_coe]
    simp only [all_nodes, List.map_append, ← Multiset.coe_add, List.map_nil,
      Multiset.coe_nil, add_zero, map_addr_waited, hi2]
    rw [← hp]
    have e : (↑(mr.map (fun n => n.addr)) : Multiset Nat) + ↑(mc2.map (fun n => n.addr))
        + ↑(mc.map (fun n => n.addr)) =
        ↑(st.buffer.nodes.map (fun n => n.addr)) + ↑(mb.map (fun n => n.addr))
        + ↑(mc.map (fun n => n.addr)) := by rw [hr]
    calc _ = (↑(st.ready.nodes.map (fun n => n.addr)) : Multiset Nat)
          + ↑(st.complete.nodes.map (fun n => n.addr))
          + ↑(List.range' st.next_addr created.length)
          + ((↑(mr.map (fun n => n.addr)) : Multiset Nat) + ↑(mc2.map (fun n => n.addr))
            + ↑(mc.map (fun n => n.addr))) := by abel
      _ = _ := by rw [e]; abel

/-- A tick, whether its dispatch ends or the answers run out, keeps every job in the queues
exactly once. -/
theorem tick_jobs_once (NCPU : Int) (env : TickEnv) (st r : SchedState)
    (hr : tick NCPU env st = .ok r ∨ tick NCPU env st = .error r) (h : jobs_once st) :
    jobs_once r := by
  obtain ⟨created, hperm, haddr, _, hnext, _, _, _⟩ := tick_spec NCPU env st r hr
  refine jobs_once_step st r created.length ?_ hnext h
  have := hperm.map (fun n => n.addr)
  simp only [List.map_append, map_addr_ran, map_addr_waited, haddr] at this
  refine this.trans ?_
  rw [← Multiset.coe_eq_coe]
  simp only [all_nodes, List.map_append, ← Multiset.coe_add]

theorem all_queues_empty_iff (st : SchedState) :
    all_queues_empty st = true ↔
      st.ready.nodes = [] ∧ st.running.nodes = [] ∧ st.buffer.nodes = [] := by
  simp [all_queues_empty, Queue.count, and_assoc]

/-- With nothing in `ready`, `running` and `buffer`, the scans of the final sweeps visit no
node, whatever the host answers. -/
theorem final_sweep_of_empty (dead node_ok : Nat → Nat → Nat → Bool) (st : SchedState)
    (h : all_queues_empty st = true) : final_sweep dead node_ok st = st := by
  obtain ⟨h1, h2, h3⟩ := (all_queues_empty_iff st).mp h
  have hscan : ∀ (q : QueueName) (d o : Nat → Bool), scan_and_mark_dead q d o st = st := by
    intro q d o
    cases q <;> simp [scan_and_mark_dead, SchedState.queue, h1, h2, h3, scan_loop]
  have hsweep : ∀ d o : Nat → Nat → Bool, sweep_once d o st = st := by
    intro d o
    simp only [sweep_once, hscan]
  simp only [final_sweep, hsweep]

theorem loop_exit_empty (env : TickEnv) (st : SchedState) (h : loop_exit env st = true) :
    all_queues_empty st = true := by
  unfold loop_exit at h
  cases hq : all_queues_empty st with
  | true => rfl
  | false => simp [hq] at h

/-- In a run of the loop of `main`, every job is in the queues exactly once at the start of
every tick and at the exit, where `ready`, `running` and `buffer` are empty. -/
theorem main_loop_jobs_once (NCPU : Int) (envs : List TickEnv) (st fin : SchedState)
    (hist : List SchedState) (h : jobs_once st)
    (hrun : main_loop NCPU envs st = some (hist, fin)) :
    (∀ s ∈ hist, jobs_once s) ∧ jobs_once fin ∧ all_queues_empty fin = true := by
  induction envs generalizing st hist with
  | nil => simp [main_loop] at hrun
  | cons env rest ih =>
    simp only [main_loop] at hrun
    cases ht : tick NCPU env st with
    | error e => rw [ht] at hrun; simp at hrun
    | ok st1 =>
      rw [ht] at hrun
      have h1 : jobs_once st1 := tick_jobs_once NCPU env st st1 (Or.inl ht) h
      simp only at hrun
      by_cases hex : loop_exit env st1 = true
      · rw [if_pos hex] at hrun
        simp only [Option.some.injEq, Prod.mk.injEq] at hrun
        obtain ⟨rfl, rfl⟩ := hrun
        refine ⟨?_, h1, loop_exit_empty env _ hex⟩
        intro s hs
        rw [List.mem_singleton.mp hs]
        exact h
      · rw [if_neg hex] at hrun
        cases hrec : main_loop NCPU rest st1 with
        | none => rw [hrec] at hrun; simp at hrun
        | some r =>
          obtain ⟨hist1, fin1⟩ := r
          rw [hrec] at hrun
          simp only [Option.some.injEq, Prod.mk.injEq] at hrun
          obtain ⟨rfl, rfl⟩ := hrun
          obtain ⟨a1, a2, a3⟩ := ih st1 hist1 h1 hrec
          refine ⟨?_, a2, a3⟩
          intro s hs
          rcases List.mem_cons.mp hs with rfl | hs
          · exact h
          · exact a1 s hs

/-- When every job is in the queues exactly once, each address below `next_addr` is the
address of exactly one node of the four queues, and there is no other node. -/
theorem jobs_once_count (st : SchedState) (h : jobs_once st) :
    (∀ a : Nat, a < st.next_addr →
      (all_nodes st).countP (fun n => decide (n.addr = a)) = 1) ∧
    (∀ n ∈ all_nodes st, n.addr < st.next_addr) ∧
    ((all_nodes st).map (fun n => n.addr)).Nodup := by
  unfold jobs_once at h
  have hnd : ((all_nodes st).map (fun n => n.addr)).Nodup :=
    (h.nodup_iff).mpr (List.nodup_range _)
  refine ⟨?_, ?_, hnd⟩
  · intro a ha
    have hc : ((all_nodes st).map (fun n => n.addr)).count a = 1 := by
      rw [h.count_eq]
      exact List.count_eq_one_of_mem (List.nodup_range _) (List.mem_range.mpr ha)
    rw [List.count, List.countP_map] at hc
    rw [← hc]
    congr 1
  · intro n hn
    have : n.addr ∈ (all_nodes st).map (fun n => n.addr) := List.mem_map_of_mem _ hn
    exact List.mem_range.mp ((h.mem_iff).mp this)

/-! ## Slices -/

/-- In a state where every job is in the queues once, a node of `ready` is not in `running`,
and a node of `buffer` or `complete` is in neither. -/
theorem jobs_once_apart (st : SchedState) (h : jobs_once st) :
    (∀ n ∈ st.ready.nodes, n.addr ∉ st.running.nodes.map (fun m => m.addr)) ∧
    (∀ n ∈ st.running.nodes, n.addr ∉ st.ready.nodes.map (fun m => m.addr)) ∧
    (∀ n ∈ st.buffer.nodes, n.addr ∉ st.ready.nodes.map (fun m => m.addr) ∧
      n.addr ∉ st.running.nodes.map (fun m => m.addr)) ∧
    (∀ n ∈ st.complete.nodes, n.addr ∉ st.ready.nodes.map (fun m => m.addr) ∧
      n.addr ∉ st.running.nodes.map (fun m => m.addr)) := by
  have hnd := (jobs_once_count st h).2.2
  simp only [all_nodes, List.map_append] at hnd
  obtain ⟨h123, _, d4⟩ := List.nodup_append.mp hnd
  obtain ⟨h12, _, d3⟩ := List.nodup_append.mp h123
  obtain ⟨_, _, d2⟩ := List.nodup_append.mp h12
  have m : ∀ (l : List ProcessInfoNode) (n : ProcessInfoNode), n ∈ l →
      n.addr ∈ l.map (fun m => m.addr) := fun l n hn => List.mem_map_of_mem _ hn
  refine ⟨?_, ?_, ?_, ?_⟩
  · intro n hn hc
    exact d2 (m _ n hn) hc
  · intro n hn hc
    exact d2 hc (m _ n hn)
  · intro n hn
    exact ⟨fun hc => d3 (List.mem_append_left _ hc) (m _ n hn),
      fun hc => d3 (List.mem_append_right _ hc) (m _ n hn)⟩
  · intro n hn
    exact ⟨fun hc => d4 (List.mem_append_left _ (List.mem_append_left _ hc)) (m _ n hn),
      fun hc => d4 (List.mem_append_left _ (List.mem_append_right _ hc)) (m _ n hn)⟩

/-- What a tick does to each job: a node after the tick is a node from before it, at the
same address and with the same pid, with one more run slice exactly when it was in `running`
and one more wait slice exactly when it was in `ready`, or it is a node the intake created,
with no slice. -/
theorem tick_node (NCPU : Int) (env : TickEnv) (st r : SchedState)
    (hr : tick NCPU env st = .ok r ∨ tick NCPU env st = .error r) (hst : jobs_once st)
    (n1 : ProcessInfoNode) (hn1 : n1 ∈ all_nodes r) :
    (∃ n ∈ all_nodes st, n1.addr = n.addr ∧ n1.pid = n.pid ∧
      n1.run_slices = n.run_slices +
        (if n.addr ∈ st.running.nodes.map (fun m => m.addr) then 1 else 0) ∧
      n1.wait_slices = n.wait_slices +
        (if n.addr ∈ st.ready.nodes.map (fun m => m.addr) then 1 else 0)) ∨
    (st.next_addr ≤ n1.addr ∧ n1.run_slices = 0 ∧ n1.wait_slices = 0) := by
  obtain ⟨created, hperm, haddr, hzero, _, _, _, _⟩ := tick_spec NCPU env st r hr
  obtain ⟨a1, a2, a3, a4⟩ := jobs_once_apart st hst
  have hmem := (hperm.mem_iff).mp hn1
  have m : ∀ (l : List ProcessInfoNode) (n : ProcessInfoNode), n ∈ l →
      n.addr ∈ l.map (fun m => m.addr) := fun l n hn => List.mem_map_of_mem _ hn
  simp only [List.mem_append, List.mem_map] at hmem
  rcases hmem with (((⟨n, hn, rfl⟩ | ⟨n, hn, rfl⟩) | hn) | hn) | hn
  · left
    refine ⟨n, by simp [all_nodes, hn], rfl, rfl, ?_, ?_⟩
    · rw [if_neg (a1 n hn)]; simp [waited]
    · rw [if_pos (m _ n hn)]; rfl
  · left
    refine ⟨n, by simp [all_nodes, hn], rfl, rfl, ?_, ?_⟩
    · rw [if_pos (m _ n hn)]; rfl
    · rw [if_neg (a2 n hn)]; simp [ran]
  · left
    refine ⟨n1, by simp [all_nodes, hn], rfl, rfl, ?_, ?_⟩
    · rw [if_neg (a3 n1 hn).2]; simp
    · rw [if_neg (a3 n1 hn).1]; simp
  · left
    refine ⟨n1, by simp [all_nodes, hn], rfl, rfl, ?_, ?_⟩
    · rw [if_neg (a4 n1 hn).2]; simp
    · rw [if_neg (a4 n1 hn).1]; simp
  · right
    have : n1.addr ∈ created.map (fun m => m.addr) := m _ n1 hn
    rw [haddr, List.mem_range'_1] at this
    exact ⟨this.1, hzero n1 hn⟩

theorem ticks_running_append (a : Nat) (past : List SchedState) (st : SchedState) :
    ((ticks_running a (past ++ [st]) : Nat) : Int) = (ticks_running a past : Int) +
      (if a ∈ st.running.nodes.map (fun m => m.addr) then 1 else 0) := by
  simp only [ticks_running, List.countP_append, List.countP_cons, List.countP_nil]
  split <;> simp_all

theorem ticks_ready_append (a : Nat) (past : List SchedState) (st : SchedState) :
    ((ticks_ready a (past ++ [st]) : Nat) : Int) = (ticks_ready a past : Int) +
      (if a ∈ st.ready.nodes.map (fun m => m.addr) then 1 else 0) := by
  simp only [ticks_ready, List.countP_append, List.countP_cons, List.countP_nil]
  split <;> simp_all

/-- A job whose address no state of `hist` holds has run and waited in none of them. -/
theorem ticks_of_new (a : Nat) (hist : List SchedState)
    (h : ∀ s ∈ hist, ∀ m ∈ all_nodes s, m.addr < a) :
    ticks_running a hist = 0 ∧ ticks_ready a hist = 0 := by
  constructor
  · unfold ticks_running
    rw [List.countP_eq_zero]
    intro s hs
    simp only [decide_eq_true_eq, List.mem_map, not_exists, not_and]
    intro m hm hma
    have := h s hs m (by simp [all_nodes, hm])
    omega
  · unfold ticks_ready
    rw [List.countP_eq_zero]
    intro s hs
    simp only [decide_eq_true_eq, List.mem_map, not_exists, not_and]
    intro m hm hma
    have := h s hs m (by simp [all_nodes, hm])
    omega

/-- In a run of the loop of `main` from a state whose nodes carry, as slices, the numbers of
past ticks at whose start they were in `running` and in `ready`, the nodes at the exit carry
these numbers for the past ticks and the ticks of the run. -/
theorem main_loop_slices (NCPU : Int) (envs : List TickEnv) (st fin : SchedState)
    (past hist : List SchedState) (hst : jobs_once st)
    (hcount : ∀ n ∈ all_nodes st, n.run_slices = (ticks_running n.addr past : Int) ∧
      n.wait_slices = (ticks_ready n.addr past : Int))
    (hpast : ∀ s ∈ past, ∀ m ∈ all_nodes s, m.addr < st.next_addr)
    (hrun : main_loop NCPU envs st = some (hist, fin)) :
    ∀ n ∈ all_nodes fin, n.run_slices = (ticks_running n.addr (past ++ hist) : Int) ∧
      n.wait_slices = (ticks_ready n.addr (past ++ hist) : Int) := by
  induction envs generalizing st past hist with
  | nil => simp [main_loop] at hrun
  | cons env rest ih =>
    simp only [main_loop] at hrun
    cases ht : tick NCPU env st with
    | error e => rw [ht] at hrun; simp at hrun
    | ok st1 =>
      rw [ht] at hrun
      simp only at hrun
      have h1 : jobs_once st1 := tick_jobs_once NCPU env st st1 (Or.inl ht) hst
      obtain ⟨created, _, _, _, hnext, _, _, _⟩ := tick_spec NCPU env st st1 (Or.inl ht)
      have hlt := (jobs_once_count st hst).2.1
      have hstep : ∀ n ∈ all_nodes st1,
          n.run_slices = (ticks_running n.addr (past ++ [st]) : Int) ∧
          n.wait_slices = (ticks_ready n.addr (past ++ [st]) : Int) := by
        intro n1 hn1
        rw [ticks_running_append, ticks_ready_append]
        rcases tick_node NCPU env st st1 (Or.inl ht) hst n1 hn1 with
          ⟨n, hn, e1, _, e3, e4⟩ | ⟨hnew, z1, z2⟩
        · obtain ⟨c1, c2⟩ := hcount n hn
          rw [e3, e4, e1, c1, c2]
          exact ⟨rfl, rfl⟩
        · have hp : ∀ s ∈ past ++ [st], ∀ m ∈ all_nodes s, m.addr < n1.addr := by
            intro s hs m hm
            rcases List.mem_append.mp hs with hs | hs
            · have := hpast s hs m hm
              omega
            · rw [List.mem_singleton.mp hs] at hm
              have := hlt m hm
              omega
          obtain ⟨t1, t2⟩ := ticks_of_new n1.addr (past ++ [st]) hp
          have t1a := ticks_running_append n1.addr past st
          have t2a := ticks_ready_append n1.addr past st
          rw [t1] at t1a
          rw [t2] at t2a
          rw [z1, z2]
          exact ⟨by simpa using t1a, by simpa using t2a⟩
      have hpast1 : ∀ s ∈ past ++ [st], ∀ m ∈ all_nodes s, m.addr < st1.next_addr := by
        intro s hs m hm
        rcases List.mem_append.mp hs with hs | hs
        · have := hpast s hs m hm
          omega
        · rw [List.mem_singleton.mp hs] at hm
          have := hlt m hm
          omega
      by_cases hex : loop_exit env st1 = true
      · rw [if_pos hex] at hrun
        simp only [Option.some.injEq, Prod.mk.injEq] at hrun
        obtain ⟨rfl, rfl⟩ := hrun
        exact hstep
      · rw [if_neg hex] at hrun
        cases hrec : main_loop NCPU rest st1 with
        | none => rw [hrec] at hrun; simp at hrun
        | some r =>
          obtain ⟨hist1, fin1⟩ := r
          rw [hrec] at hrun
          simp only [Option.some.injEq, Prod.mk.injEq] at hrun
          obtain ⟨rfl, rfl⟩ := hrun
          have := ih st1 (past ++ [st]) hist1 h1 hstep hpast1 hrec
          simpa only [List.append_assoc, List.singleton_append] using this

/-- What a tick does to each job, seen from the job: a node before the tick has, after it,
a node at the same address and with the same pid, with one more run slice exactly when it
was in `running` and one more wait slice exactly when it was in `ready`. -/
theorem tick_node_forward (NCPU : Int) (env : TickEnv) (st r : SchedState)
    (hr : tick NCPU env st = .ok r ∨ tick NCPU env st = .error r) (hst : jobs_once st)
    (n : ProcessInfoNode) (hn : n ∈ all_nodes st) :
    ∃ n1 ∈ all_nodes r, n1.addr = n.addr ∧ n1.pid = n.pid ∧
      n1.run_slices = n.run_slices +
        (if n.addr ∈ st.running.nodes.map (fun m => m.addr) then 1 else 0) ∧
      n1.wait_slices = n.wait_slices +
        (if n.addr ∈ st.ready.nodes.map (fun m => m.addr) then 1 else 0) := by
  obtain ⟨created, hperm, _, _, _, _, _, _⟩ := tick_spec NCPU env st r hr
  obtain ⟨a1, a2, a3, a4⟩ := jobs_once_apart st hst
  have m : ∀ (l : List ProcessInfoNode) (n : ProcessInfoNode), n ∈ l →
      n.addr ∈ l.map (fun m => m.addr) := fun l n hn => List.mem_map_of_mem _ hn
  simp only [all_nodes, List.mem_append] at hn
  rcases hn with ((hn | hn) | hn) | hn
  · refine ⟨waited n, (hperm.mem_iff).mpr ?_, rfl, rfl, ?_, ?_⟩
    · simp only [List.mem_append, List.mem_map]
      exact Or.inl (Or.inl (Or.inl (Or.inl ⟨n, hn, rfl⟩)))
    · rw [if_neg (a1 n hn)]; simp [waited]
    · rw [if_pos (m _ n hn)]; rfl
  · refine ⟨ran n, (hperm.mem_iff).mpr ?_, rfl, rfl, ?_, ?_⟩
    · simp only [List.mem_append, List.mem_map]
      exact Or.inl (Or.inl (Or.inl (Or.inr ⟨n, hn, rfl⟩)))
    · rw [if_pos (m _ n hn)]; rfl
    · rw [if_neg (a2 n hn)]; simp [ran]
  · refine ⟨n, (hperm.mem_iff).mpr ?_, rfl, rfl, ?_, ?_⟩
    · simp only [List.mem_append]
      exact Or.inl (Or.inl (Or.inr hn))
    · rw [if_neg (a3 n hn).2]; simp
    · rw [if_neg (a3 n hn).1]; simp
  · refine ⟨n, (hperm.mem_iff).mpr ?_, rfl, rfl, ?_, ?_⟩
    · simp only [List.mem_append]
      exact Or.inl (Or.inr hn)
    · rw [if_neg (a4 n hn).2]; simp
    · rw [if_neg (a4 n hn).1]; simp

theorem jobs_once_sched_start : jobs_once sched_start := by
  unfold jobs_once
  exact List.Perm.refl _

/-- In a run of the scheduler from its start, every node at the exit of the loop carries the
number of ticks at whose start it was in `running` and the number of ticks at whose start it
was in `ready`. -/
theorem main_loop_slices_start (NCPU : Int) (envs : List TickEnv) (fin : SchedState)
    (hist : List SchedState) (hrun : main_loop NCPU envs sched_start = some (hist, fin)) :
    ∀ n ∈ all_nodes fin, n.run_slices = (ticks_running n.addr hist : Int) ∧
      n.wait_slices = (ticks_ready n.addr hist : Int) := by
  have h := main_loop_slices NCPU envs sched_start fin [] hist jobs_once_sched_start
    (by intro n hn; simp [all_nodes, sched_start, initQueue] at hn)
    (by intro s hs; simp at hs) hrun
  simpa using h

/-! ## The report -/

theorem write_frames_all_ok (write_ok : Nat → Bool) (h : ∀ k, write_ok k = true) (k : Nat)
    (frames : List JobResult) : write_frames write_ok k frames = frames := by
  induction frames generalizing k with
  | nil => rfl
  | cons f rest ih => simp [write_frames, h, ih]

/-- The final reporting hands to `write` the frames of the nodes of `complete`, in order,
and then the end marker, on both of its branches. -/
theorem report_eq (write_ok : Nat → Bool) (st : SchedState) :
    report write_ok st =
      write_frames write_ok 0 (st.complete.nodes.map send_job_result ++ [end_marker]) := by
  unfold report send_all_results Queue.count
  split
  · rfl
  · rename_i h
    have : st.complete.nodes = [] := by
      cases hc : st.complete.nodes with
      | nil => rfl
      | cons a l => rw [hc] at h; simp at h
    rw [this]
    rfl

/-- The frames of a run of the scheduler are those of the queue `complete` at the exit of
the loop of `main`. -/
theorem scheduler_run_eq (NCPU : Int) (envs : List TickEnv)
    (dead node_ok : Nat → Nat → Nat → Bool) (write_ok : Nat → Bool) (frames : List JobResult)
    (h : scheduler_run NCPU envs dead node_ok write_ok = some frames) :
    ∃ (hist : List SchedState) (fin : SchedState),
      main_loop NCPU envs sched_start = some (hist, fin) ∧
      all_queues_empty fin = true ∧ jobs_once fin ∧
      final_sweep dead node_ok fin = fin ∧
      frames = write_frames write_ok 0
        (fin.complete.nodes.map send_job_result ++ [end_marker]) := by
  unfold scheduler_run at h
  cases hrun : main_loop NCPU envs sched_start with
  | none => rw [hrun] at h; simp at h
  | some r =>
    obtain ⟨hist, fin⟩ := r
    rw [hrun] at h
    simp only [Option.some.injEq] at h
    obtain ⟨_, a2, a3⟩ := main_loop_jobs_once NCPU envs sched_start fin hist
      jobs_once_sched_start hrun
    refine ⟨hist, fin, rfl, a3, a2, final_sweep_of_empty dead node_ok fin a3, ?_⟩
    rw [← h, final_sweep_of_empty dead node_ok fin a3, report_eq]

/-! ## Claims on the scheduler -/

/-- C18: for every `NCPU ≥ 1`, every state at the start of a tick and every answer of the
host to the liveness probes and to the stop and continue signals, the queue `running` holds
at most `NCPU` jobs at the end of the dispatch phase, also when the dispatch loop is cut
short; and the tick does reach the end of its dispatch phase when no continue signal fails
for another reason than `ESRCH` and the host has an answer for every job that can be in
`ready`. -/
theorem C18_running_at_most_NCPU (NCPU : Int) (hN : 1 ≤ NCPU) (env : TickEnv)
    (st : SchedState) :
    (∀ r : SchedState, tick NCPU env st = .ok r ∨ tick NCPU env st = .error r →
      r.running.count ≤ NCPU) ∧
    ((∀ c ∈ env.conts, c ≠ ContOutcome.failed) →
      st.ready.nodes.length + st.running.nodes.length + st.buffer.nodes.length
        + env.reads.length ≤ env.conts.length →
      ∃ r : SchedState, tick NCPU env st = .ok r ∧ r.running.count ≤ NCPU) := by
  have hbound : ∀ r : SchedState, tick NCPU env st = .ok r ∨ tick NCPU env st = .error r →
      r.running.count ≤ NCPU := by
    intro r hr
    obtain ⟨_, _, _, _, _, _, _, h⟩ := tick_spec NCPU env st r hr
    unfold Queue.count
    omega
  refine ⟨hbound, ?_⟩
  intro hok hlen
  obtain ⟨r, hr⟩ := tick_returns NCPU env st hok hlen
  exact ⟨r, hr, hbound r (Or.inl hr)⟩

theorem C18_running_at_most_NCPU_witness :
    ∃ r : SchedState,
      tick 1 (calmEnv [.pid 100 true, .pid 200 true, .eagain] [.continued, .continued])
        sched_start = .ok r ∧
      r.running.nodes = [createNode 0 100] ∧ r.ready.nodes = [createNode 1 200] ∧
      r.running.count ≤ 1 := by
  have h := (C18_running_at_most_NCPU 1 (le_refl _)
    (calmEnv [.pid 100 true, .pid 200 true, .eagain] [.continued, .continued])
    sched_start).1
  exact ⟨_, rfl, rfl, rfl, h _ (Or.inl rfl)⟩

/-- C19: from a state in which every job created so far is a node of exactly one of the
four queues, once (the addresses of the nodes of `ready`, `running`, `buffer` and `complete`
are the numbers below `next_addr`, each once), the same holds after each of the phases of a
tick: the preemption, the wait credit, the move of the buffer, the intake, which adds the
jobs it creates, and the dispatch, whatever the host answers. It holds before the first
tick, so in a run of the scheduler it holds at the start of every tick and at the exit of
the loop; there `ready`, `running` and `buffer` are empty, the three final sweeps change
nothing, and it holds after them. In such a state each address below `next_addr` is the
address of exactly one node of the four queues and there is no other node. -/
theorem C19_each_job_in_one_queue (NCPU : Int) (env : TickEnv) (st : SchedState)
    (hst : jobs_once st) :
    (∀ s ∈ tick_phases env st, jobs_once s) ∧
    (∀ r : SchedState, tick NCPU env st = .ok r ∨ tick NCPU env st = .error r →
      jobs_once r) ∧
    jobs_once sched_start ∧
    (∀ (envs : List TickEnv) (hist : List SchedState) (fin : SchedState),
      main_loop NCPU envs sched_start = some (hist, fin) →
      (∀ s ∈ hist, jobs_once s) ∧ jobs_once fin ∧
      ∀ dead node_ok : Nat → Nat → Nat → Bool,
        final_sweep dead node_ok fin = fin ∧ jobs_once (final_sweep dead node_ok fin)) ∧
    (∀ a : Nat, a < st.next_addr →
      (all_nodes st).countP (fun n => decide (n.addr = a)) = 1) ∧
    (∀ n ∈ all_nodes st, n.addr < st.next_addr) := by
  have hstart : jobs_once sched_start := by
    unfold jobs_once
    exact List.Perm.refl _
  refine ⟨tick_phases_jobs_once env st hst,
    fun r hr => tick_jobs_once NCPU env st r hr hst, hstart, ?_,
    (jobs_once_count st hst).1, (jobs_once_count st hst).2.1⟩
  intro envs hist fin hrun
  obtain ⟨a1, a2, a3⟩ := main_loop_jobs_once NCPU envs sched_start fin hist hstart hrun
  refine ⟨a1, a2, fun dead node_ok => ?_⟩
  rw [final_sweep_of_empty dead node_ok fin a3]
  exact ⟨rfl, a2⟩

theorem C19_each_job_in_one_queue_witness :
    jobs_once
      { ready := { nodes := [createNode 1 200] }, running := { nodes := [createNode 0 100] }
        buffer := initQueue, complete := initQueue, shell_closed := false, tick := 1
        next_addr := 2 } ∧
    ∃ r : SchedState,
      tick 1 (endingEnv [.eagain] [.continued])
        { ready := { nodes := [createNode 1 200] }, running := { nodes := [createNode 0 100] }
          buffer := initQueue, complete := initQueue, shell_closed := false, tick := 1
          next_addr := 2 } = .ok r ∧
      r.running.nodes = [waited (createNode 1 200)] ∧
      r.complete.nodes = [ran (createNode 0 100)] ∧ jobs_once r := by
  have hst : jobs_once
      { ready := { nodes := [createNode 1 200] }, running := { nodes := [createNode 0 100] }
        buffer := initQueue, complete := initQueue, shell_closed := false, tick := 1
        next_addr := 2 } := by
    unfold jobs_once
    decide
  exact ⟨hst, _, rfl, rfl, rfl,
    (C19_each_job_in_one_queue 1 (endingEnv [.eagain] [.continued]) _ hst).2.1 _ (Or.inl rfl)⟩

/-- C20: in one tick, whatever the host answers, a job's `run_slices` grows by exactly 1 if
the job was in `running` at the start of the tick and by 0 otherwise, and its `wait_slices`
grows by exactly 1 if the job was in `ready` at the start of the tick, which is the queue
`ready` that the wait credit walks, before the buffer is moved back and before the intake,
and by 0 otherwise; every node after the tick is such a job or a job the intake created,
with both counters 0. So in a run of the scheduler a job that was in `running` at the start
of `k` ticks and in `ready` at the start of `w` ticks is reported with the counters
`(k, w)`. -/
theorem C20_slices_credited (NCPU : Int) (env : TickEnv) (st : SchedState)
    (hst : jobs_once st) :
    (∀ r : SchedState, tick NCPU env st = .ok r ∨ tick NCPU env st = .error r →
      (∀ n ∈ all_nodes st, ∃ n1 ∈ all_nodes r, n1.addr = n.addr ∧ n1.pid = n.pid ∧
        n1.run_slices = n.run_slices +
          (if n.addr ∈ st.running.nodes.map (fun m => m.addr) then 1 else 0) ∧
        n1.wait_slices = n.wait_slices +
          (if n.addr ∈ st.ready.nodes.map (fun m => m.addr) then 1 else 0)) ∧
      (∀ n1 ∈ all_nodes r,
        (∃ n ∈ all_nodes st, n1.addr = n.addr ∧ n1.pid = n.pid ∧
          n1.run_slices = n.run_slices +
            (if n.addr ∈ st.running.nodes.map (fun m => m.addr) then 1 else 0) ∧
          n1.wait_slices = n.wait_slices +
            (if n.addr ∈ st.ready.nodes.map (fun m => m.addr) then 1 else 0)) ∨
        (st.next_addr ≤ n1.addr ∧ n1.run_slices = 0 ∧ n1.wait_slices = 0))) ∧
    (∀ (envs : List TickEnv) (hist : List SchedState) (fin : SchedState),
      main_loop NCPU envs sched_start = some (hist, fin) →
      ∀ n ∈ fin.complete.nodes,
        (send_job_result n).run_slices = (ticks_running n.addr hist : Int) ∧
        (send_job_result n).wait_slices = (ticks_ready n.addr hist : Int)) := by
  refine ⟨fun r hr => ⟨fun n hn => tick_node_forward NCPU env st r hr hst n hn,
    fun n1 hn1 => tick_node NCPU env st r hr hst n1 hn1⟩, ?_⟩
  intro envs hist fin hrun n hn
  exact main_loop_slices_start NCPU envs fin hist hrun n (by simp [all_nodes, hn])

theorem C20_slices_credited_witness :
    ∃ (hist : List SchedState) (fin : SchedState),
      main_loop 1 twoJobs sched_start = some (hist, fin) ∧
      fin.complete.nodes =
        [{ addr := 0, pid := 100, run_slices := 1, wait_slices := 0 },
         { addr := 1, pid := 200, run_slices := 1, wait_slices := 1 }] ∧
      ticks_running 1 hist = 1 ∧ ticks_ready 1 hist = 1 ∧
      ∀ n ∈ fin.complete.nodes,
        (send_job_result n).run_slices = (ticks_running n.addr hist : Int) ∧
        (send_job_result n).wait_slices = (ticks_ready n.addr hist : Int) := by
  refine ⟨_, _, rfl, rfl, by decide, by decide, ?_⟩
  exact (C20_slices_credited 1 (calmEnv [] []) sched_start
    (List.Perm.refl _)).2 twoJobs _ _ rfl

/-- C17: at shutdown the final reporting hands to `write`, one call each, the frame
`{pid, run_slices, wait_slices, run_slices + wait_slices}` of every job of the queue
`complete`, in queue order, and then one frame `end_marker`, whose pid is -1; with an empty
queue it hands over the end marker alone. A frame is shorter than `PIPE_BUF`, so a call of
`write` puts it into the pipe whole or not at all: when no call fails the pipe receives
exactly these frames, in this order. In a run of the scheduler the queue reported is the
queue `complete` at the exit of the loop, which the final sweeps leave as it is. -/
theorem C17_report_frames (write_ok : Nat → Bool) (st : SchedState) :
    report write_ok st =
      write_frames write_ok 0 (st.complete.nodes.map send_job_result ++ [end_marker]) ∧
    ((∀ k, write_ok k = true) →
      report write_ok st = st.complete.nodes.map send_job_result ++ [end_marker]) ∧
    (∀ n ∈ st.complete.nodes, send_job_result n =
      { pid := n.pid, run_slices := n.run_slices, wait_slices := n.wait_slices
        completion_slices := n.run_slices + n.wait_slices }) ∧
    end_marker.pid = -1 ∧
    (st.complete.nodes = [] → (∀ k, write_ok k = true) →
      report write_ok st = [end_marker]) ∧
    (∀ (NCPU : Int) (envs : List TickEnv) (dead node_ok : Nat → Nat → Nat → Bool)
      (frames : List JobResult),
      scheduler_run NCPU envs dead node_ok write_ok = some frames →
      ∃ (hist : List SchedState) (fin : SchedState),
        main_loop NCPU envs sched_start = some (hist, fin) ∧
        final_sweep dead node_ok fin = fin ∧
        frames = write_frames write_ok 0
          (fin.complete.nodes.map send_job_result ++ [end_marker])) := by
  refine ⟨report_eq write_ok st, ?_, fun n _ => rfl, rfl, ?_, ?_⟩
  · intro h
    rw [report_eq, write_frames_all_ok write_ok h]
  · intro hc h
    rw [report_eq, write_frames_all_ok write_ok h, hc]
    rfl
  · intro NCPU envs dead node_ok frames h
    obtain ⟨hist, fin, h1, _, _, h4, h5⟩ :=
      scheduler_run_eq NCPU envs dead node_ok write_ok frames h
    exact ⟨hist, fin, h1, h4, h5⟩

theorem C17_report_frames_witness :
    scheduler_run 1 twoJobs (fun _ _ _ => false) (fun _ _ _ => true) (fun _ => true) =
      some [{ pid := 100, run_slices := 1, wait_slices := 0, completion_slices := 1 },
            { pid := 200, run_slices := 1, wait_slices := 1, completion_slices := 2 },
            { pid := -1, run_slices := 0, wait_slices := 0, completion_slices := 0 }] ∧
    report (fun _ => true) sched_start = [end_marker] := by
  refine ⟨rfl, ?_⟩
  exact (C17_report_frames (fun _ => true) sched_start).2.2.2.2.1 rfl (fun _ => rfl)

/-! ## The dispatch phase -/

/-- The intake appends to `ready` the jobs of `intake_jobs`, in the order of the reads. -/
theorem intake_eq (reads : List ReadResult) (st : SchedState) :
    ∃ closed : Bool,
      intake reads st =
        { st with ready := { nodes := st.ready.nodes ++ intake_jobs reads st.next_addr }
                  shell_closed := closed
                  next_addr := st.next_addr + (intake_jobs reads st.next_addr).length } := by
  induction reads generalizing st with
  | nil =>
    obtain ⟨⟨rd⟩, running, buffer, complete, sc, tk, na⟩ := st
    exact ⟨sc, by simp [intake, intake_jobs]⟩
  | cons r rest ih =>
    obtain ⟨⟨rd⟩, running, buffer, complete, sc, tk, na⟩ := st
    cases r with
    | pid newpid node_ok =>
      cases node_ok with
      | true =>
        obtain ⟨closed, h⟩ := ih { ready := pushNode ⟨rd⟩ (createNode na newpid)
                                   running := running, buffer := buffer, complete := complete
                                   shell_closed := sc, tick := tk, next_addr := na + 1 }
        refine ⟨closed, ?_⟩
        simp only [intake, intake_jobs]
        rw [h]
        simp [pushNode, Nat.add_assoc, Nat.add_comm 1]
      | false =>
        obtain ⟨closed, h⟩ := ih { ready := ⟨rd⟩
                                   running := running, buffer := buffer, complete := complete
                                   shell_closed := sc, tick := tk, next_addr := na }
        exact ⟨closed, by simp only [intake, intake_jobs]; exact h⟩
    | partial_read =>
      obtain ⟨closed, h⟩ := ih { ready := ⟨rd⟩
                                 running := running, buffer := buffer, complete := complete
                                 shell_closed := sc, tick := tk, next_addr := na }
      exact ⟨closed, by simp only [intake, intake_jobs]; exact h⟩
    | eintr =>
      obtain ⟨closed, h⟩ := ih { ready := ⟨rd⟩
                                 running := running, buffer := buffer, complete := complete
                                 shell_closed := sc, tick := tk, next_addr := na }
      exact ⟨closed, by simp only [intake, intake_jobs]; exact h⟩
    | eof => exact ⟨true, by simp [intake, intake_jobs]⟩
    | eagain => exact ⟨sc, by simp [intake, intake_jobs]⟩
    | failed => exact ⟨sc, by simp [intake, intake_jobs]⟩

/-- The dispatch loop when every answer is a continue signal that succeeds: it moves the
first `to_dispatch - i` jobs of `ready`, in order, to the tail of `running`. -/
theorem dispatch_loop_all_continued (to_dispatch : Int) (conts : List ContOutcome) (i : Int)
    (st : SchedState) (hall : ∀ c ∈ conts, c = ContOutcome.continued)
    (m : Nat) (hm : (m : Int) = to_dispatch - i) (hready : m ≤ st.ready.nodes.length)
    (hconts : m ≤ conts.length) :
    dispatch_loop to_dispatch conts i st =
      .ok { st with ready := { nodes := st.ready.nodes.drop m }
                    running := { nodes := st.running.nodes ++ st.ready.nodes.take m } } := by
  induction conts generalizing i st m with
  | nil =>
    have hm0 : m = 0 := by simpa using hconts
    subst hm0
    have hi : ¬ i < to_dispatch := by omega
    obtain ⟨⟨rd⟩, ⟨rn⟩, buffer, complete, sc, tk, na⟩ := st
    simp [dispatch_loop, hi]
  | cons c rest ih =>
    obtain ⟨⟨rd⟩, ⟨rn⟩, buffer, complete, sc, tk, na⟩ := st
    cases m with
    | zero =>
      have hi : ¬ i < to_dispatch := by omega
      simp [dispatch_loop, hi]
    | succ k =>
      have hi : i < to_dispatch := by omega
      have hc : c = ContOutcome.continued := hall c (List.mem_cons_self _ _)
      subst hc
      cases rd with
      | nil => simp at hready
      | cons n l =>
        simp only [dispatch_loop, if_pos hi, popNode]
        rw [ih (i + 1) _ (fun c hc => hall c (List.mem_cons_of_mem _ hc)) k (by omega)
          (by simpa using hready) (by simpa using hconts)]
        simp [pushNode]

/-- The dispatch loop when no continue signal fails for another reason than `ESRCH`,
whether it ends or the answers run out: the jobs it takes are a head part `taken` of
`ready`; each goes, unchanged, to the tail of `running` or of `complete`, in the order in
which they stood in `ready`; and a job that stood before a job moved to `running` was moved
to `running` before it or moved to `complete`. -/
theorem dispatch_loop_fifo (to_dispatch : Int) (conts : List ContOutcome) (i : Int)
    (st r : SchedState) (hok : ∀ c ∈ conts, c ≠ ContOutcome.failed)
    (h : dispatch_loop to_dispatch conts i st = .ok r ∨
      dispatch_loop to_dispatch conts i st = .error r) :
    ∃ taken moved_run moved_c : List ProcessInfoNode,
      st.ready.nodes = taken ++ r.ready.nodes ∧
      r = { st with ready := r.ready
                    running := { nodes := st.running.nodes ++ moved_run }
                    complete := { nodes := st.complete.nodes ++ moved_c } } ∧
      moved_run.Sublist taken ∧ moved_c.Sublist taken ∧
      taken.length = moved_run.length + moved_c.length ∧
      (st.ready.nodes.Nodup → ∀ A B : ProcessInfoNode, [A, B].Sublist st.ready.nodes →
        B ∈ moved_run → [A, B].Sublist moved_run ∨ A ∈ moved_c) := by
  have hstay : ∀ st0 : SchedState, ∃ taken moved_run moved_c : List ProcessInfoNode,
      st0.ready.nodes = taken ++ st0.ready.nodes ∧
      st0 = { st0 with ready := st0.ready
                       running := { nodes := st0.running.nodes ++ moved_run }
                       complete := { nodes := st0.complete.nodes ++ moved_c } } ∧
      moved_run.Sublist taken ∧ moved_c.Sublist taken ∧
      taken.length = moved_run.length + moved_c.length ∧
      (st0.ready.nodes.Nodup → ∀ A B : ProcessInfoNode, [A, B].Sublist st0.ready.nodes →
        B ∈ moved_run → [A, B].Sublist moved_run ∨ A ∈ moved_c) := by
    intro st0
    refine ⟨[], [], [], by simp, by simp, List.Sublist.refl _, List.Sublist.refl _, rfl, ?_⟩
    intro _ A B _ hB
    simp at hB
  induction conts generalizing i st with
  | nil =>
    have hr : r = st := by
      simp only [dispatch_loop] at h
      split at h
      · split at h
        · rcases h with h | h
          · simp only [Except.ok.injEq] at h; exact h.symm
          · simp at h
        · rcases h with h | h
          · simp at h
          · simp only [Except.error.injEq] at h; exact h.symm
      · rcases h with h | h
        · simp only [Except.ok.injEq] at h; exact h.symm
        · simp at h
    subst hr
    exact hstay r
  | cons c rest ih =>
    have hok2 : ∀ c ∈ rest, c ≠ ContOutcome.failed :=
      fun c hc => hok c (List.mem_cons_of_mem _ hc)
    obtain ⟨⟨rd⟩, ⟨rn⟩, buffer, ⟨cn⟩, sc, tk, na⟩ := st
    by_cases hi : i < to_dispatch
    · cases rd with
      | nil =>
        have hr : r = { ready := { nodes := [] }, running := { nodes := rn }, buffer := buffer
                        complete := { nodes := cn }, shell_closed := sc, tick := tk
                        next_addr := na } := by
          simp only [dispatch_loop, hi, if_true, popNode] at h
          rcases h with h | h
          · simp only [Except.ok.injEq] at h; exact h.symm
          · simp at h
        subst hr
        exact hstay _
      | cons node rd =>
        simp only [dispatch_loop, hi, if_true, popNode] at h
        have hdead : ∀ r0 : SchedState,
            (∃ taken moved_run moved_c : List ProcessInfoNode,
              rd = taken ++ r0.ready.nodes ∧
              r0 = { ready := r0.ready, running := { nodes := rn ++ moved_run }
                     buffer := buffer, complete := { nodes := (cn ++ [node]) ++ moved_c }
                     shell_closed := sc, tick := tk, next_addr := na } ∧
              moved_run.Sublist taken ∧ moved_c.Sublist taken ∧
              taken.length = moved_run.length + moved_c.length ∧
              (rd.Nodup → ∀ A B : ProcessInfoNode, [A, B].Sublist rd →
                B ∈ moved_run → [A, B].Sublist moved_run ∨ A ∈ moved_c)) →
            ∃ taken moved_run moved_c : List ProcessInfoNode,
              node :: rd = taken ++ r0.ready.nodes ∧
              r0 = { ready := r0.ready, running := { nodes := rn ++ moved_run }
                     buffer := buffer, complete := { nodes := cn ++ moved_c }
                     shell_closed := sc, tick := tk, next_addr := na } ∧
              moved_run.Sublist taken ∧ moved_c.Sublist taken ∧
              taken.length = moved_run.length + moved_c.length ∧
              ((node :: rd).Nodup → ∀ A B : ProcessInfoNode, [A, B].Sublist (node :: rd) →
                B ∈ moved_run → [A, B].Sublist moved_run ∨ A ∈ moved_c) := by
          rintro r0 ⟨tk0, mr, mc, h1, h2, h3, h4, h5, h6⟩
          refine ⟨node :: tk0, mr, node :: mc, by rw [h1]; rfl, ?_,
            List.Sublist.cons _ h3, List.Sublist.cons₂ _ h4, by simp [h5]; omega, ?_⟩
          · rw [h2]; simp
          · intro hnd A B hAB hB
            rcases List.sublist_cons_iff.mp hAB with hl | ⟨t, ht, hl⟩
            · rcases h6 (List.nodup_cons.mp hnd).2 A B hl hB with h | h
              · exact Or.inl h
              · exact Or.inr (List.mem_cons_of_mem _ h)
            · simp only [List.cons.injEq] at ht
              exact Or.inr (by rw [ht.1]; exact List.mem_cons_self _ _)
        cases c with
        | dead => exact hdead r (ih i _ hok2 h)
        | esrch => exact hdead r (ih i _ hok2 h)
        | failed => exact absurd rfl (hok _ (List.mem_cons_self _ _))
        | continued =>
          obtain ⟨tk0, mr, mc, h1, h2, h3, h4, h5, h6⟩ := ih (i + 1) _ hok2 h
          simp only [pushNode] at h1 h2 h6
          refine ⟨node :: tk0, node :: mr, mc, by rw [h1]; rfl, ?_,
            List.Sublist.cons₂ _ h3, List.Sublist.cons _ h4, by simp [h5]; omega, ?_⟩
          · rw [h2]; simp
          · intro hnd A B hAB hB
            obtain ⟨hnot, hnd2⟩ := List.nodup_cons.mp hnd
            rcases List.sublist_cons_iff.mp hAB with hl | ⟨t, ht, hl⟩
            · have hBrd : B ∈ rd := hl.subset (by simp)
              have hBne : B ≠ node := fun e => hnot (e ▸ hBrd)
              have hB2 : B ∈ mr := by
                rcases List.mem_cons.mp hB with e | e
                · exact absurd e hBne
                · exact e
              rcases h6 hnd2 A B hl hB2 with h | h
              · exact Or.inl (List.Sublist.cons _ h)
              · exact Or.inr h
            · simp only [List.cons.injEq] at ht
              obtain ⟨hA, ht2⟩ := ht
              subst ht2
              have hBrd : B ∈ rd := hl.subset (by simp)
              have hBne : B ≠ node := fun e => hnot (e ▸ hBrd)
              have hB2 : B ∈ mr := by
                rcases List.mem_cons.mp hB with e | e
                · exact absurd e hBne
                · exact e
              left
              rw [hA]
              exact List.Sublist.cons₂ _ (List.singleton_sublist.mpr hB2)
    · have hr : r = { ready := { nodes := rd }, running := { nodes := rn }, buffer := buffer
                      complete := { nodes := cn }, shell_closed := sc, tick := tk
                      next_addr := na } := by
        simp only [dispatch_loop, hi, if_false] at h
        rcases h with h | h
        · simp only [Except.ok.injEq] at h; exact h.symm
        · simp at h
      subst hr
      exact hstay _

/-- The dispatch loop while the continue signal fails for another reason than `ESRCH`: after
`n` such answers the loop has popped and put back `n` jobs, `i` is what it was, and with a
job in `ready` the loop goes on to the next answer. -/
theorem dispatch_loop_failing (to_dispatch : Int) (n : Nat) (i : Int) (st : SchedState)
    (hi : i < to_dispatch) (hne : st.ready.nodes ≠ []) :
    dispatch_loop to_dispatch (List.replicate n ContOutcome.failed) i st =
      .error { st with ready := { nodes := st.ready.nodes.rotate n } } := by
  induction n generalizing st with
  | zero =>
    obtain ⟨⟨rd⟩, running, buffer, complete, sc, tk, na⟩ := st
    cases rd with
    | nil => exact absurd rfl hne
    | cons a l => simp [dispatch_loop, hi, popNode]
  | succ k ih =>
    obtain ⟨⟨rd⟩, running, buffer, complete, sc, tk, na⟩ := st
    cases rd with
    | nil => exact absurd rfl hne
    | cons a l =>
      simp only [List.replicate_succ, dispatch_loop, if_pos hi, popNode, pushNode]
      rw [ih _ (by simp)]
      simp [List.rotate_cons_succ]

theorem take_min_length {α : Type} (l : List α) (n : Nat) :
    l.take (min l.length n) = l.take n ∧ l.drop (min l.length n) = l.drop n := by
  by_cases h : n ≤ l.length
  · rw [Nat.min_eq_right h]
    exact ⟨rfl, rfl⟩
  · have h2 : l.length ≤ n := by omega
    rw [Nat.min_eq_left h2, List.take_of_length_le h2, List.drop_of_length_le h2]
    simp

/-- The dispatch phase when every answer is a continue signal that succeeds, with an answer
for each of the `NCPU` jobs it can move: the first `NCPU` jobs of `ready` go to the tail of
`running`, in order, and the others stay. -/
theorem dispatch_all_continued (NCPU : Int) (hN : 0 ≤ NCPU) (conts : List ContOutcome)
    (st : SchedState) (hall : ∀ c ∈ conts, c = ContOutcome.continued)
    (hlen : NCPU.toNat ≤ conts.length) :
    dispatch NCPU conts st =
      .ok { st with ready := { nodes := st.ready.nodes.drop NCPU.toNat }
                    running := { nodes := st.running.nodes
                                  ++ st.ready.nodes.take NCPU.toNat } } := by
  unfold dispatch
  have hm : ((min st.ready.nodes.length NCPU.toNat : Nat) : Int) =
      (if st.ready.count < NCPU then st.ready.count else NCPU) - 0 := by
    unfold Queue.count
    split <;> omega
  rw [dispatch_loop_all_continued _ conts 0 st hall (min st.ready.nodes.length NCPU.toNat) hm
    (Nat.min_le_left _ _) (le_trans (Nat.min_le_right _ _) hlen)]
  rw [(take_min_length st.ready.nodes NCPU.toNat).1, (take_min_length st.ready.nodes NCPU.toNat).2]

/-- In a state where every job is in the queues once, no node stands twice in `ready`. -/
theorem jobs_once_ready_nodup (st : SchedState) (h : jobs_once st) : st.ready.nodes.Nodup := by
  have hnd := (jobs_once_count st h).2.2
  have h2 : (all_nodes st).Nodup := List.Nodup.of_map _ hnd
  simp only [all_nodes, List.append_assoc] at h2
  exact (List.nodup_append.mp h2).1

/-! ## Jobs accepted and jobs reported -/

theorem intake_jobs_addr (reads : List ReadResult) (a : Nat) :
    (intake_jobs reads a).map (fun n => n.addr) =
      List.range' a (intake_jobs reads a).length := by
  induction reads generalizing a with
  | nil => rfl
  | cons r rest ih =>
    cases r with
    | pid newpid node_ok =>
      cases node_ok with
      | true =>
        simp only [intake_jobs, List.map_cons, List.length_cons, List.range'_succ]
        rw [ih (a + 1)]
        rfl
      | false => simpa only [intake_jobs] using ih a
    | partial_read => simpa only [intake_jobs] using ih a
    | eintr => simpa only [intake_jobs] using ih a
    | eof => rfl
    | eagain => rfl
    | failed => rfl

theorem intake_jobs_pid (reads : List ReadResult) (a : Nat) :
    (intake_jobs reads a).map (fun n => n.pid) =
      (intake_jobs reads 0).map (fun n => n.pid) := by
  have key : ∀ a b : Nat, (intake_jobs reads a).map (fun n => n.pid) =
      (intake_jobs reads b).map (fun n => n.pid) := by
    induction reads with
    | nil => intro a b; rfl
    | cons r rest ih =>
      intro a b
      cases r with
      | pid newpid node_ok =>
        cases node_ok with
        | true =>
          simp only [intake_jobs, List.map_cons, createNode]
          rw [ih (a + 1) (b + 1)]
        | false => simpa only [intake_jobs] using ih a b
      | partial_read => simpa only [intake_jobs] using ih a b
      | eintr => simpa only [intake_jobs] using ih a b
      | eof => rfl
      | eagain => rfl
      | failed => rfl
  exact key a 0

theorem intake_jobs_zero (reads : List ReadResult) (a : Nat) :
    ∀ n ∈ intake_jobs reads a, n.run_slices = 0 ∧ n.wait_slices = 0 := by
  induction reads generalizing a with
  | nil => intro n hn; simp [intake_jobs] at hn
  | cons r rest ih =>
    intro n hn
    cases r with
    | pid newpid node_ok =>
      cases node_ok with
      | true =>
        simp only [intake_jobs, List.mem_cons] at hn
        rcases hn with rfl | hn
        · exact ⟨rfl, rfl⟩
        · exact ih (a + 1) n hn
      | false => exact ih a n (by simpa only [intake_jobs] using hn)
    | partial_read => exact ih a n (by simpa only [intake_jobs] using hn)
    | eintr => exact ih a n (by simpa only [intake_jobs] using hn)
    | eof => simp [intake_jobs] at hn
    | eagain => simp [intake_jobs] at hn
    | failed => simp [intake_jobs] at hn

/-- One tick, whether its dispatch ends or the answers run out, with the jobs of the intake
named: the nodes after it are those from before it, credited, and the jobs of
`intake_jobs`; the queue `complete` has only grown at its tail. -/
theorem tick_spec_jobs (NCPU : Int) (env : TickEnv) (st r : SchedState)
    (h : tick NCPU env st = .ok r ∨ tick NCPU env st = .error r) :
    (all_nodes r).Perm (st.ready.nodes.map waited ++ st.running.nodes.map ran
      ++ st.buffer.nodes ++ st.complete.nodes ++ intake_jobs env.reads st.next_addr) ∧
    r.next_addr = st.next_addr + (intake_jobs env.reads st.next_addr).length ∧
    ∃ grown : List ProcessInfoNode, r.complete.nodes = st.complete.nodes ++ grown := by
  obtain ⟨mb, mc, hp1, hp2⟩ := preempt_loop_spec env.stops st.running.nodes.length 0
    { st with tick := st.tick + 1 } (le_refl _)
  obtain ⟨mr, mc2, hr1, hr2⟩ := rearm_loop_spec env.rearm_dead
    (credit_wait (preempt env.stops { st with tick := st.tick + 1 })).buffer.nodes.length 0
    (credit_wait (preempt env.stops { st with tick := st.tick + 1 })) (le_refl _)
  obtain ⟨closed, hi1⟩ := intake_eq env.reads
    (rearm env.rearm_dead (credit_wait (preempt env.stops { st with tick := st.tick + 1 })))
  have hpre : preempt env.stops { st with tick := st.tick + 1 } =
      { st with tick := st.tick + 1
                running := { nodes := [] }
                buffer := { nodes := st.buffer.nodes ++ mb }
                complete := { nodes := st.complete.nodes ++ mc } } := hp1
  have hrearm : rearm env.rearm_dead
      (credit_wait (preempt env.stops { st with tick := st.tick + 1 })) =
      { st with tick := st.tick + 1
                running := { nodes := [] }
                buffer := { nodes := [] }
                ready := { nodes := st.ready.nodes.map waited ++ mr }
                complete := { nodes := st.complete.nodes ++ mc ++ mc2 } } := by
    unfold rearm
    rw [hr1, hpre]
    simp only [credit_wait]
    rfl
  rw [hpre] at hr2
  simp only [credit_wait] at hr2
  rw [hrearm] at hi1
  simp only at hi1
  obtain ⟨mrun, mc3, hd1, hd2, hd3⟩ := dispatch_loop_spec _ env.conts 0 _ r
    (show dispatch_loop _ env.conts 0 (intake env.reads (rearm env.rearm_dead
      (credit_wait (preempt env.stops { st with tick := st.tick + 1 })))) = .ok r ∨ _ from h)
  rw [hrearm, hi1] at hd1 hd2 hd3
  simp only at hd1 hd2 hd3
  refine ⟨?_, ?_, mc ++ mc2 ++ mc3, ?_⟩
  · rw [hd1]
    simp only [all_nodes, List.nil_append, List.append_nil]
    rw [← Multiset.coe_eq_coe] at hd2 hr2 hp2 ⊢
    simp only [← Multiset.coe_add] at hd2 hr2 hp2 ⊢
    have := tick_balance _ _ _ _ _ _ (↑st.complete.nodes : Multiset ProcessInfoNode) _ _ _ _ _
      hd2 hr2 hp2
    convert this using 1
  · rw [hd1]
  · rw [hd1]
    simp

/-- A tick keeps the record of the pids: when the node at each address carries the pid that
the list `P` has at this index, the same holds after the tick for `P` followed by the pids
of the jobs the intake of the tick creates. -/
theorem tick_pids (NCPU : Int) (env : TickEnv) (st r : SchedState)
    (h : tick NCPU env st = .ok r ∨ tick NCPU env st = .error r) (P : List Int)
    (hlen : P.length = st.next_addr)
    (hP : ∀ n ∈ all_nodes st, P[n.addr]? = some n.pid) :
    (P ++ (intake_jobs env.reads 0).map (fun n => n.pid)).length = r.next_addr ∧
    ∀ n ∈ all_nodes r,
      (P ++ (intake_jobs env.reads 0).map (fun n => n.pid))[n.addr]? = some n.pid := by
  obtain ⟨hperm, hnext, _⟩ := tick_spec_jobs NCPU env st r h
  have hjl : ((intake_jobs env.reads 0).map (fun n => n.pid)).length =
      (intake_jobs env.reads st.next_addr).length := by
    rw [← intake_jobs_pid env.reads st.next_addr, List.length_map]
  constructor
  · rw [List.length_append, hjl, hlen, hnext]
  · have hold : ∀ n ∈ all_nodes st,
        (P ++ (intake_jobs env.reads 0).map (fun n => n.pid))[n.addr]? = some n.pid := by
      intro n hn
      have h1 := hP n hn
      have h2 : n.addr < P.length := by
        rcases List.getElem?_eq_some.mp h1 with ⟨hlt, _⟩
        exact hlt
      rw [List.getElem?_append_left h2]
      exact h1
    intro n1 hn1
    have hmem := (hperm.mem_iff).mp hn1
    simp only [List.mem_append, List.mem_map] at hmem
    rcases hmem with (((⟨n, hn, rfl⟩ | ⟨n, hn, rfl⟩) | hn) | hn) | hn
    · exact hold n (by simp [all_nodes, hn])
    · exact hold n (by simp [all_nodes, hn])
    · exact hold n1 (by simp [all_nodes, hn])
    · exact hold n1 (by simp [all_nodes, hn])
    · obtain ⟨k, hk⟩ := List.mem_iff_getElem?.mp hn
      have hklt : k < (intake_jobs env.reads st.next_addr).length := by
        rcases List.getElem?_eq_some.mp hk with ⟨hlt, _⟩
        exact hlt
      have haddr : n1.addr = st.next_addr + k := by
        have h1 := congrArg (fun l => l[k]?) (intake_jobs_addr env.reads st.next_addr)
        simp only [List.getElem?_map, hk, Option.map_some'] at h1
        rw [List.getElem?_range' _ _ hklt] at h1
        simp only [Option.some.injEq, Nat.one_mul] at h1
        exact h1
      have hpid : ((intake_jobs env.reads 0).map (fun n => n.pid))[k]? = some n1.pid := by
        rw [← intake_jobs_pid env.reads st.next_addr, List.getElem?_map, hk]
        rfl
      rw [haddr, List.getElem?_append_right (by omega), hlen, Nat.add_sub_cancel_left]
      exact hpid

/-- In a run of the loop of `main`, the node at each address carries, at the exit, the pid
that was accepted at this position, the jobs accepted before the run counted first. -/
theorem main_loop_pids (NCPU : Int) (envs : List TickEnv) (st fin : SchedState)
    (hist : List SchedState) (P : List Int) (hlen : P.length = st.next_addr)
    (hP : ∀ n ∈ all_nodes st, P[n.addr]? = some n.pid)
    (hrun : main_loop NCPU envs st = some (hist, fin)) :
    (P ++ accepted_pids (envs.take hist.length)).length = fin.next_addr ∧
    ∀ n ∈ all_nodes fin,
      (P ++ accepted_pids (envs.take hist.length))[n.addr]? = some n.pid := by
  induction envs generalizing st hist P with
  | nil => simp [main_loop] at hrun
  | cons env rest ih =>
    simp only [main_loop] at hrun
    cases ht : tick NCPU env st with
    | error e => rw [ht] at hrun; simp at hrun
    | ok st1 =>
      rw [ht] at hrun
      simp only at hrun
      obtain ⟨h1, h2⟩ := tick_pids NCPU env st st1 (Or.inl ht) P hlen hP
      by_cases hex : loop_exit env st1 = true
      · rw [if_pos hex] at hrun
        simp only [Option.some.injEq, Prod.mk.injEq] at hrun
        obtain ⟨rfl, rfl⟩ := hrun
        simp only [List.length_singleton, List.take_succ_cons, List.take_zero, accepted_pids,
          List.append_nil]
        exact ⟨h1, h2⟩
      · rw [if_neg hex] at hrun
        cases hrec : main_loop NCPU rest st1 with
        | none => rw [hrec] at hrun; simp at hrun
        | some res =>
          obtain ⟨hist1, fin1⟩ := res
          rw [hrec] at hrun
          simp only [Option.some.injEq, Prod.mk.injEq] at hrun
          obtain ⟨rfl, rfl⟩ := hrun
          have := ih st1 hist1 _ h1 h2 hrec
          simpa only [List.length_cons, List.take_succ_cons, accepted_pids,
            List.append_assoc] using this

/-! ## Claims on the dispatch phase -/

/-- C21, as the code has it: a job whose pid is read from the submit pipe during the intake
phase of a tick, and for which `createNode` gets a node, is appended at the tail of `ready`,
behind the jobs that are there and in the order of the reads. The dispatch phase of the same
tick follows the intake and takes its jobs from this queue: when the continue signals of the
tick succeed, the first `NCPU` jobs of `ready`, the new ones among them, are moved to
`running`, so a new job is dispatched in the tick of its arrival exactly when fewer than
`NCPU` jobs stand ahead of it. -/
theorem C21_intake_then_dispatch (NCPU : Int) (reads : List ReadResult)
    (conts : List ContOutcome) (st : SchedState) :
    (∃ closed : Bool,
      intake reads st =
        { st with ready := { nodes := st.ready.nodes ++ intake_jobs reads st.next_addr }
                  shell_closed := closed
                  next_addr := st.next_addr + (intake_jobs reads st.next_addr).length }) ∧
    (0 ≤ NCPU → (∀ c ∈ conts, c = ContOutcome.continued) → NCPU.toNat ≤ conts.length →
      ∃ r : SchedState, dispatch NCPU conts (intake reads st) = .ok r ∧
        r.running.nodes = st.running.nodes ++
          (st.ready.nodes ++ intake_jobs reads st.next_addr).take NCPU.toNat ∧
        r.ready.nodes =
          (st.ready.nodes ++ intake_jobs reads st.next_addr).drop NCPU.toNat) := by
  obtain ⟨closed, hin⟩ := intake_eq reads st
  refine ⟨⟨closed, hin⟩, ?_⟩
  intro hN hall hlen
  refine ⟨_, dispatch_all_continued NCPU hN conts (intake reads st) hall hlen, ?_, ?_⟩
  · rw [hin]
  · rw [hin]

/-- C21 fails: in the first tick of a scheduler with one core the shell submits the pid 100;
the job is created by the intake of the tick and the dispatch phase of the same tick moves
it to `running`. -/
theorem C21_counterexample :
    intake_jobs (calmEnv [.pid 100 true, .eagain] [.continued]).reads sched_start.next_addr =
      [createNode 0 100] ∧
    ∃ r : SchedState,
      tick 1 (calmEnv [.pid 100 true, .eagain] [.continued]) sched_start = .ok r ∧
      createNode 0 100 ∈ r.running.nodes ∧ r.ready.nodes = [] :=
  ⟨rfl, _, rfl, by decide, rfl⟩

theorem C21_intake_then_dispatch_witness :
    ∃ r : SchedState,
      dispatch 1 [.continued]
        (intake [.pid 100 true, .pid 200 true, .eagain] sched_start) = .ok r ∧
      r.running.nodes = [createNode 0 100] ∧ r.ready.nodes = [createNode 1 200] := by
  obtain ⟨r, h1, h2, h3⟩ := (C21_intake_then_dispatch 1 [.pid 100 true, .pid 200 true, .eagain]
    [.continued] sched_start).2 (by decide) (by decide) (by decide)
  exact ⟨r, h1, h2, h3⟩

/-- C22, as the code has it: in a dispatch phase in which no continue signal fails for
another reason than `ESRCH`, from a state in which every job is in the queues once, the jobs
taken are a head part of `ready`; each of them goes to the tail of `running` or, found dead,
to the tail of `complete`, in the order in which they stood in `ready`; so if job `A` stands
before job `B` in `ready` before the dispatch and `B` is moved to `running`, then `A` was
moved to `running` before `B` or moved to `complete`. This holds whether the loop ends or
the answers run out. -/
theorem C22_dispatch_fifo (NCPU : Int) (conts : List ContOutcome) (st r : SchedState)
    (hst : jobs_once st) (hok : ∀ c ∈ conts, c ≠ ContOutcome.failed)
    (h : dispatch NCPU conts st = .ok r ∨ dispatch NCPU conts st = .error r) :
    ∃ taken moved_run moved_c : List ProcessInfoNode,
      st.ready.nodes = taken ++ r.ready.nodes ∧
      r.running.nodes = st.running.nodes ++ moved_run ∧
      r.complete.nodes = st.complete.nodes ++ moved_c ∧
      r.buffer = st.buffer ∧
      moved_run.Sublist taken ∧ moved_c.Sublist taken ∧
      taken.length = moved_run.length + moved_c.length ∧
      ∀ A B : ProcessInfoNode, [A, B].Sublist st.ready.nodes → B ∈ moved_run →
        [A, B].Sublist moved_run ∨ A ∈ moved_c := by
  obtain ⟨taken, mr, mc, h1, h2, h3, h4, h5, h6⟩ := dispatch_loop_fifo _ conts 0 st r hok h
  refine ⟨taken, mr, mc, h1, ?_, ?_, ?_, h3, h4, h5, h6 (jobs_once_ready_nodup st hst)⟩
  · rw [h2]
  · rw [h2]
  · rw [h2]

/-- C22 fails: with one core and the jobs `A` (pid 100) before `B` (pid 200) in `ready`, the
continue signal of `A` fails for another reason than `ESRCH` and that of `B` succeeds: `B` is
moved to `running` while `A`, which stood before it, is neither in `running` nor in
`complete` but back in `ready`. -/
theorem C22_counterexample :
    ∃ r : SchedState,
      dispatch 1 [.failed, .continued]
        { ready := { nodes := [createNode 0 100, createNode 1 200] }, running := initQueue
          buffer := initQueue, complete := initQueue, shell_closed := false, tick := 1
          next_addr := 2 } = .ok r ∧
      r.running.nodes = [createNode 1 200] ∧ r.complete.nodes = [] ∧
      r.ready.nodes = [createNode 0 100] ∧
      createNode 0 100 ∉ r.running.nodes ∧ createNode 0 100 ∉ r.complete.nodes :=
  ⟨_, rfl, rfl, rfl, rfl, by decide, by decide⟩

theorem C22_dispatch_fifo_witness :
    ∃ (r : SchedState) (taken moved_run : List ProcessInfoNode),
      dispatch 2 [.dead, .continued, .continued]
        { ready := { nodes := [createNode 0 100, createNode 1 200, createNode 2 300] }
          running := initQueue, buffer := initQueue, complete := initQueue
          shell_closed := false, tick := 1, next_addr := 3 } = .ok r ∧
      r.running.nodes = [createNode 1 200, createNode 2 300] ∧
      r.complete.nodes = [createNode 0 100] ∧
      [createNode 0 100, createNode 1 200, createNode 2 300] = taken ++ r.ready.nodes ∧
      r.running.nodes = [] ++ moved_run ∧ moved_run.Sublist taken := by
  obtain ⟨taken, mr, mc, h1, h2, _, _, h5, _⟩ := C22_dispatch_fifo 2
    [.dead, .continued, .continued]
    { ready := { nodes := [createNode 0 100, createNode 1 200, createNode 2 300] }
      running := initQueue, buffer := initQueue, complete := initQueue
      shell_closed := false, tick := 1, next_addr := 3 } _
    (by unfold jobs_once; decide) (by decide) (Or.inl rfl)
  exact ⟨_, taken, mr, rfl, rfl, rfl, h1, h2, h5⟩

/-- C30, what the code does: with `NCPU ≥ 1` and a job in `ready`, as long as the continue
signal fails for another reason than `ESRCH` the dispatch loop does not end: after any
number `n` of such failures it has put `n` jobs back at the tail of `ready`, `i` is still 0
and it goes on to pop the next job. The dispatch phase does end when no continue signal
fails in this way and the host answers for every job of `ready`. -/
theorem C30_dispatch_termination (NCPU : Int) (hN : 1 ≤ NCPU) (st : SchedState)
    (hne : st.ready.nodes ≠ []) :
    (∀ n : Nat, dispatch NCPU (List.replicate n ContOutcome.failed) st =
      .error { st with ready := { nodes := st.ready.nodes.rotate n } }) ∧
    (∀ conts : List ContOutcome, (∀ c ∈ conts, c ≠ ContOutcome.failed) →
      st.ready.nodes.length ≤ conts.length →
      ∃ r : SchedState, dispatch NCPU conts st = .ok r) := by
  constructor
  · intro n
    unfold dispatch
    apply dispatch_loop_failing _ n 0 st _ hne
    have : 0 < st.ready.nodes.length := List.length_pos.mpr hne
    unfold Queue.count
    split <;> omega
  · intro conts hok hlen
    exact dispatch_loop_returns _ conts 0 st hok hlen

theorem C30_dispatch_termination_witness :
    dispatch 1 (List.replicate 3 ContOutcome.failed)
      { ready := { nodes := [createNode 0 100] }, running := initQueue, buffer := initQueue
        complete := initQueue, shell_closed := false, tick := 1, next_addr := 1 } =
      .error { ready := { nodes := [createNode 0 100] }, running := initQueue
               buffer := initQueue, complete := initQueue, shell_closed := false, tick := 1
               next_addr := 1 } := by
  have h := (C30_dispatch_termination 1 (le_refl _)
    { ready := { nodes := [createNode 0 100] }, running := initQueue, buffer := initQueue
      complete := initQueue, shell_closed := false, tick := 1, next_addr := 1 }
    (by simp)).1 3
  rw [h]
  simp [List.rotate_singleton]

/-! ## Runs with one or two jobs -/

theorem intake_no_jobs (reads : List ReadResult) (st : SchedState)
    (h : intake_jobs reads 0 = []) :
    ∃ closed : Bool, intake reads st = { st with shell_closed := closed } := by
  obtain ⟨closed, hin⟩ := intake_eq reads st
  have h2 : intake_jobs reads st.next_addr = [] := by
    have := intake_jobs_pid reads st.next_addr
    rw [h] at this
    simpa using this
  refine ⟨closed, ?_⟩
  rw [hin, h2]
  obtain ⟨⟨rd⟩, running, buffer, complete, sc, tk, na⟩ := st
  simp

theorem dispatch_loop_done (to_dispatch : Int) (conts : List ContOutcome) (i : Int)
    (st : SchedState) (h : ¬ i < to_dispatch) :
    dispatch_loop to_dispatch conts i st = .ok st := by
  cases conts <;> simp [dispatch_loop, h]

theorem dispatch_loop_empty (to_dispatch : Int) (conts : List ContOutcome) (i : Int)
    (st : SchedState) (h : st.ready.nodes = []) :
    dispatch_loop to_dispatch conts i st = .ok st := by
  cases conts <;> simp [dispatch_loop, popNode, h]

/-- One tick of a scheduler with one core and two live jobs, one in `running` and one in
`ready`: the job that ran gets its slice and goes to `ready`, the job that waited gets its
slice and is resumed. -/
theorem tick_two_jobs (env : TickEnv) (a b : ProcessInfoNode) (c : Queue) (sc : Bool)
    (tk : Int) (na : Nat) (halive : all_alive env) (hnone : intake_jobs env.reads 0 = []) :
    ∃ closed : Bool,
      tick 1 env { ready := { nodes := [b] }, running := { nodes := [a] }
                   buffer := { nodes := [] }, complete := c, shell_closed := sc, tick := tk
                   next_addr := na } =
        .ok { ready := { nodes := [ran a] }, running := { nodes := [waited b] }
              buffer := { nodes := [] }, complete := c, shell_closed := closed
              tick := tk + 1, next_addr := na } := by
  obtain ⟨hs, hr, rest, hc⟩ := halive
  have hpre : preempt env.stops
      { ready := { nodes := [b] }, running := { nodes := [a] }
        buffer := { nodes := [] }, complete := c, shell_closed := sc, tick := tk + 1
        next_addr := na } =
      { ready := { nodes := [b] }, running := { nodes := [] }
        buffer := { nodes := [ran a] }, complete := c, shell_closed := sc, tick := tk + 1
        next_addr := na } := by
    have h0 := hs 0
    simp only [preempt, List.length_singleton, preempt_loop, Queue.count, popNode]
    cases hst : env.stops 0 with
    | dead => exact absurd hst h0.1
    | esrch => exact absurd hst h0.2
    | failed => simp [pushNode, ran]
    | stopped => simp [pushNode, ran]
  have hrearm : rearm env.rearm_dead (credit_wait
      { ready := { nodes := [b] }, running := { nodes := [] }
        buffer := { nodes := [ran a] }, complete := c, shell_closed := sc, tick := tk + 1
        next_addr := na }) =
      { ready := { nodes := [waited b, ran a] }, running := { nodes := [] }
        buffer := { nodes := [] }, complete := c, shell_closed := sc, tick := tk + 1
        next_addr := na } := by
    simp [rearm, credit_wait, rearm_loop, Queue.count, popNode, hr 0, pushNode, waited]
  obtain ⟨closed, hin⟩ := intake_no_jobs env.reads
    { ready := { nodes := [waited b, ran a] }, running := { nodes := [] }
      buffer := { nodes := [] }, complete := c, shell_closed := sc, tick := tk + 1
      next_addr := na } hnone
  refine ⟨closed, ?_⟩
  unfold tick
  simp only
  rw [hpre, hrearm, hin, hc]
  simp only [dispatch, Queue.count, List.length_cons, List.length_nil]
  simp only [dispatch_loop, popNode, pushNode]
  norm_num
  exact dispatch_loop_done _ _ _ _ (by norm_num)

/-- A tick that starts with `ready`, `running` and `buffer` empty is the intake followed by
the dispatch. -/
theorem tick_idle (NCPU : Int) (env : TickEnv) (c : Queue) (sc : Bool) (tk : Int) (na : Nat) :
    tick NCPU env { ready := { nodes := [] }, running := { nodes := [] }
                    buffer := { nodes := [] }, complete := c, shell_closed := sc, tick := tk
                    next_addr := na } =
      dispatch NCPU env.conts (intake env.reads
        { ready := { nodes := [] }, running := { nodes := [] }
          buffer := { nodes := [] }, complete := c, shell_closed := sc, tick := tk + 1
          next_addr := na }) := by
  simp [tick, preempt, preempt_loop, credit_wait, rearm, rearm_loop]

theorem loop_exit_ready (env : TickEnv) (st : SchedState) (h : st.ready.nodes ≠ []) :
    loop_exit env st = false := by
  have hq : all_queues_empty st = false := by
    cases hq : all_queues_empty st with
    | false => rfl
    | true => exact absurd ((all_queues_empty_iff st).mp hq).1 h
  simp [loop_exit, hq]

theorem loop_exit_running (env : TickEnv) (st : SchedState) (h : st.running.nodes ≠ []) :
    loop_exit env st = false := by
  have hq : all_queues_empty st = false := by
    cases hq : all_queues_empty st with
    | false => rfl
    | true => exact absurd ((all_queues_empty_iff st).mp hq).2.1 h
  simp [loop_exit, hq]

/-- Any number of ticks of a scheduler with one core and two live jobs, one in `running` and
one in `ready`, with no submission: the two jobs take turns, and their counters stay in one
of two relations. -/
theorem run_ticks_two_jobs (envs : List TickEnv) (a b : ProcessInfoNode) (c : Queue)
    (sc : Bool) (tk : Int) (na : Nat) (halive : ∀ env ∈ envs, all_alive env)
    (hnone : ∀ env ∈ envs, intake_jobs env.reads 0 = [])
    (hrel : (a.run_slices = b.run_slices ∧ a.wait_slices = b.wait_slices ∧
        a.wait_slices = a.run_slices) ∨
      (b.run_slices = a.run_slices + 1 ∧ a.wait_slices = b.wait_slices + 1 ∧
        a.wait_slices = b.run_slices)) :
    ∃ (a1 b1 : ProcessInfoNode) (closed : Bool),
      run_ticks 1 envs { ready := { nodes := [b] }, running := { nodes := [a] }
                         buffer := { nodes := [] }, complete := c, shell_closed := sc
                         tick := tk, next_addr := na } =
        .ok { ready := { nodes := [b1] }, running := { nodes := [a1] }
              buffer := { nodes := [] }, complete := c, shell_closed := closed
              tick := tk + (envs.length : Int), next_addr := na } ∧
      ((a1.addr = a.addr ∧ a1.pid = a.pid ∧ b1.addr = b.addr ∧ b1.pid = b.pid) ∨
        (a1.addr = b.addr ∧ a1.pid = b.pid ∧ b1.addr = a.addr ∧ b1.pid = a.pid)) ∧
      ((a1.run_slices = b1.run_slices ∧ a1.wait_slices = b1.wait_slices ∧
          a1.wait_slices = a1.run_slices) ∨
        (b1.run_slices = a1.run_slices + 1 ∧ a1.wait_slices = b1.wait_slices + 1 ∧
          a1.wait_slices = b1.run_slices)) := by
  induction envs generalizing a b sc tk with
  | nil => exact ⟨a, b, sc, by simp [run_ticks], Or.inl ⟨rfl, rfl, rfl, rfl⟩, hrel⟩
  | cons env rest ih =>
    obtain ⟨closed, ht⟩ := tick_two_jobs env a b c sc tk na
      (halive env (List.mem_cons_self _ _)) (hnone env (List.mem_cons_self _ _))
    have hrel2 : ((waited b).run_slices = (ran a).run_slices ∧
        (waited b).wait_slices = (ran a).wait_slices ∧
        (waited b).wait_slices = (waited b).run_slices) ∨
      ((ran a).run_slices = (waited b).run_slices + 1 ∧
        (waited b).wait_slices = (ran a).wait_slices + 1 ∧
        (waited b).wait_slices = (ran a).run_slices) := by
      simp only [waited, ran]
      omega
    obtain ⟨a1, b1, closed1, hrun, hid, hr⟩ := ih (waited b) (ran a) closed (tk + 1)
      (fun e he => halive e (List.mem_cons_of_mem _ he))
      (fun e he => hnone e (List.mem_cons_of_mem _ he)) hrel2
    refine ⟨a1, b1, closed1, ?_, ?_, hr⟩
    · simp only [run_ticks, ht]
      rw [loop_exit_ready env _ (by simp)]
      simp only [Bool.false_eq_true, if_false]
      rw [hrun]
      simp only [List.length_cons, Nat.cast_add, Nat.cast_one]
      congr 2
      omega
    · simp only [waited, ran] at hid
      rcases hid with ⟨h1, h2, h3, h4⟩ | ⟨h1, h2, h3, h4⟩
      · exact Or.inr ⟨h1, h2, h3, h4⟩
      · exact Or.inl ⟨h1, h2, h3, h4⟩

/-- C25: round-robin fairness. A scheduler with one core is idle (`ready`, `running` and
`buffer` are empty); in one intake the two jobs `J1` and `J2` enter `ready`, in this order;
from then on nothing is submitted, every probe finds its process alive and no signal fails
because the process is gone. Then every tick ends, the loop does not exit, and after every
tick, the one of the arrival included, the two jobs are one in `running` and one in `ready`
with `|run_slices(J1) - run_slices(J2)| ≤ 1` and `wait_slices(Ji) ≥ run_slices(Jj) - 1` for
`i ≠ j`. -/
theorem C25_round_robin_fairness (st0 : SchedState) (env0 : TickEnv) (envs : List TickEnv)
    (p1 p2 : Int)
    (hidle : st0.ready.nodes = [] ∧ st0.running.nodes = [] ∧ st0.buffer.nodes = [])
    (hjobs : intake_jobs env0.reads st0.next_addr =
      [createNode st0.next_addr p1, createNode (st0.next_addr + 1) p2])
    (halive : ∀ env ∈ env0 :: envs, all_alive env)
    (hnone : ∀ env ∈ envs, intake_jobs env.reads 0 = []) :
    ∃ (r : SchedState) (j1 j2 : ProcessInfoNode),
      run_ticks 1 (env0 :: envs) st0 = .ok r ∧
      r.tick = st0.tick + ((envs.length : Int) + 1) ∧
      ((r.running.nodes = [j1] ∧ r.ready.nodes = [j2]) ∨
        (r.running.nodes = [j2] ∧ r.ready.nodes = [j1])) ∧
      r.buffer.nodes = [] ∧ r.complete = st0.complete ∧
      j1.addr = st0.next_addr ∧ j1.pid = p1 ∧
      j2.addr = st0.next_addr + 1 ∧ j2.pid = p2 ∧
      |j1.run_slices - j2.run_slices| ≤ 1 ∧
      j2.run_slices - 1 ≤ j1.wait_slices ∧ j1.run_slices - 1 ≤ j2.wait_slices := by
  obtain ⟨⟨rd⟩, ⟨rn⟩, ⟨bf⟩, c, sc, tk, na⟩ := st0
  obtain ⟨h1, h2, h3⟩ := hidle
  simp only at h1 h2 h3 hjobs
  subst h1 h2 h3
  obtain ⟨hs, hr, crest, hc⟩ := halive env0 (List.mem_cons_self _ _)
  obtain ⟨closed, hin⟩ := intake_eq env0.reads
    { ready := { nodes := [] }, running := { nodes := [] }
      buffer := { nodes := [] }, complete := c, shell_closed := sc, tick := tk + 1
      next_addr := na }
  simp only [hjobs, List.nil_append, List.length_cons, List.length_nil] at hin
  have ht : tick 1 env0 { ready := { nodes := [] }, running := { nodes := [] }
                          buffer := { nodes := [] }, complete := c, shell_closed := sc
                          tick := tk, next_addr := na } =
      .ok { ready := { nodes := [createNode (na + 1) p2] }
            running := { nodes := [createNode na p1] }
            buffer := { nodes := [] }, complete := c, shell_closed := closed
            tick := tk + 1, next_addr := na + 2 } := by
    rw [tick_idle, hin, hc]
    simp only [dispatch, Queue.count, List.length_cons, List.length_nil]
    simp only [dispatch_loop, popNode, pushNode]
    norm_num
    exact dispatch_loop_done _ _ _ _ (by norm_num)
  obtain ⟨a1, b1, closed1, hrun, hid, hrel⟩ := run_ticks_two_jobs envs (createNode na p1)
    (createNode (na + 1) p2) c closed (tk + 1) (na + 2)
    (fun e he => halive e (List.mem_cons_of_mem _ he)) hnone
    (Or.inl ⟨rfl, rfl, rfl⟩)
  have hrt : run_ticks 1 (env0 :: envs)
      { ready := { nodes := [] }, running := { nodes := [] }
        buffer := { nodes := [] }, complete := c, shell_closed := sc
        tick := tk, next_addr := na } =
      .ok { ready := { nodes := [b1] }, running := { nodes := [a1] }
            buffer := { nodes := [] }, complete := c, shell_closed := closed1
            tick := tk + 1 + (envs.length : Int), next_addr := na + 2 } := by
    simp only [run_ticks, ht]
    rw [loop_exit_ready env0 _ (by simp)]
    simp only [Bool.false_eq_true, if_false]
    exact hrun
  simp only [createNode] at hid
  rcases hid with ⟨e1, e2, e3, e4⟩ | ⟨e1, e2, e3, e4⟩
  · refine ⟨_, a1, b1, hrt, by simp only; omega, Or.inl ⟨rfl, rfl⟩, rfl, rfl, e1, e2, e3, e4,
      ?_, ?_, ?_⟩
    · rw [abs_le]; omega
    · omega
    · omega
  · refine ⟨_, b1, a1, hrt, by simp only; omega, Or.inr ⟨rfl, rfl⟩, rfl, rfl, e3, e4, e1, e2,
      ?_, ?_, ?_⟩
    · rw [abs_le]; omega
    · omega
    · omega

/-- The dispatch loop on a queue `ready` of one job, when it ends: the job is at the tail of
`running` or of `complete`, whatever number of times its continue signal failed before. -/
theorem dispatch_loop_single (to_dispatch : Int) (conts : List ContOutcome) (i : Int)
    (x : ProcessInfoNode) (rn cn : List ProcessInfoNode) (bf : Queue) (sc : Bool) (tk : Int)
    (na : Nat) (r : SchedState) (hi : i < to_dispatch)
    (h : dispatch_loop to_dispatch conts i
      { ready := { nodes := [x] }, running := { nodes := rn }, buffer := bf
        complete := { nodes := cn }, shell_closed := sc, tick := tk, next_addr := na } =
      .ok r) :
    r = { ready := { nodes := [] }, running := { nodes := rn ++ [x] }, buffer := bf
          complete := { nodes := cn }, shell_closed := sc, tick := tk, next_addr := na } ∨
    r = { ready := { nodes := [] }, running := { nodes := rn }, buffer := bf
          complete := { nodes := cn ++ [x] }, shell_closed := sc, tick := tk
          next_addr := na } := by
  induction conts with
  | nil => simp [dispatch_loop, hi, popNode] at h
  | cons c rest ih =>
    simp only [dispatch_loop, if_pos hi, popNode] at h
    cases c with
    | dead =>
      simp only [mark_complete_node, pushNode] at h
      rw [dispatch_loop_empty _ _ _ _ rfl] at h
      simp only [Except.ok.injEq] at h
      exact Or.inr h.symm
    | esrch =>
      simp only [mark_complete_node, pushNode] at h
      rw [dispatch_loop_empty _ _ _ _ rfl] at h
      simp only [Except.ok.injEq] at h
      exact Or.inr h.symm
    | failed =>
      simp only [pushNode, List.nil_append] at h
      exact ih h
    | continued =>
      simp only [pushNode] at h
      rw [dispatch_loop_empty _ _ _ _ rfl] at h
      simp only [Except.ok.injEq] at h
      exact Or.inl h.symm

/-- One tick of a scheduler whose only job is in `running`, with no submission, when the
tick ends: the job has one more run slice and is in `running` again or in `complete`. -/
theorem tick_single_running (NCPU : Int) (hN : 1 ≤ NCPU) (env : TickEnv)
    (j : ProcessInfoNode) (sc : Bool) (tk : Int) (na : Nat) (r : SchedState)
    (hnone : intake_jobs env.reads 0 = [])
    (h : tick NCPU env { ready := { nodes := [] }, running := { nodes := [j] }
                         buffer := { nodes := [] }, complete := { nodes := [] }
                         shell_closed := sc, tick := tk, next_addr := na } = .ok r) :
    ∃ closed : Bool,
      r = { ready := { nodes := [] }, running := { nodes := [ran j] }
            buffer := { nodes := [] }, complete := { nodes := [] }
            shell_closed := closed, tick := tk + 1, next_addr := na } ∨
      r = { ready := { nodes := [] }, running := { nodes := [] }
            buffer := { nodes := [] }, complete := { nodes := [ran j] }
            shell_closed := closed, tick := tk + 1, next_addr := na } := by
  have hgone : ∀ s : SchedState,
      s = { ready := { nodes := [] }, running := { nodes := [] }
            buffer := { nodes := [] }, complete := { nodes := [ran j] }
            shell_closed := sc, tick := tk + 1, next_addr := na } →
      dispatch NCPU env.conts (intake env.reads s) = .ok r →
      ∃ closed : Bool,
        r = { ready := { nodes := [] }, running := { nodes := [ran j] }
              buffer := { nodes := [] }, complete := { nodes := [] }
              shell_closed := closed, tick := tk + 1, next_addr := na } ∨
        r = { ready := { nodes := [] }, running := { nodes := [] }
              buffer := { nodes := [] }, complete := { nodes := [ran j] }
              shell_closed := closed, tick := tk + 1, next_addr := na } := by
    intro s hs hd
    obtain ⟨closed, hin⟩ := intake_no_jobs env.reads s hnone
    rw [hin, hs] at hd
    unfold dispatch at hd
    rw [dispatch_loop_empty _ _ _ _ rfl] at hd
    simp only [Except.ok.injEq] at hd
    exact ⟨closed, Or.inr hd.symm⟩
  have hback : ∀ s : SchedState,
      s = { ready := { nodes := [ran j] }, running := { nodes := [] }
            buffer := { nodes := [] }, complete := { nodes := [] }
            shell_closed := sc, tick := tk + 1, next_addr := na } →
      dispatch NCPU env.conts (intake env.reads s) = .ok r →
      ∃ closed : Bool,
        r = { ready := { nodes := [] }, running := { nodes := [ran j] }
              buffer := { nodes := [] }, complete := { nodes := [] }
              shell_closed := closed, tick := tk + 1, next_addr := na } ∨
        r = { ready := { nodes := [] }, running := { nodes := [] }
              buffer := { nodes := [] }, complete := { nodes := [ran j] }
              shell_closed := closed, tick := tk + 1, next_addr := na } := by
    intro s hs hd
    obtain ⟨closed, hin⟩ := intake_no_jobs env.reads s hnone
    rw [hin, hs] at hd
    unfold dispatch at hd
    have hlt : (0 : Int) < (if ({ nodes := [ran j] } : Queue).count < NCPU
        then ({ nodes := [ran j] } : Queue).count else NCPU) := by
      unfold Queue.count
      simp only [List.length_singleton, Nat.cast_one]
      split <;> omega
    rcases dispatch_loop_single _ env.conts 0 (ran j) [] [] _ closed (tk + 1) na r hlt hd
      with h1 | h1
    · exact ⟨closed, Or.inl h1⟩
    · exact ⟨closed, Or.inr h1⟩
  unfold tick at h
  simp only [preempt, List.length_singleton, preempt_loop, Queue.count, popNode] at h
  cases hst : env.stops 0 with
  | dead =>
    rw [hst] at h
    refine hgone _ ?_ (by simpa [credit_wait, rearm, rearm_loop, mark_complete_node, pushNode]
      using h)
    simp [ran]
  | esrch =>
    rw [hst] at h
    refine hgone _ ?_ (by simpa [credit_wait, rearm, rearm_loop, mark_complete_node, pushNode]
      using h)
    simp [ran]
  | failed =>
    rw [hst] at h
    cases hrd : env.rearm_dead 0 with
    | true =>
      refine hgone _ ?_ (by simpa [credit_wait, rearm, rearm_loop, mark_complete_node,
        pushNode, Queue.count, popNode, hrd] using h)
      simp [ran]
    | false =>
      refine hback _ ?_ (by simpa [credit_wait, rearm, rearm_loop, mark_complete_node,
        pushNode, Queue.count, popNode, hrd] using h)
      simp [ran]
  | stopped =>
    rw [hst] at h
    cases hrd : env.rearm_dead 0 with
    | true =>
      refine hgone _ ?_ (by simpa [credit_wait, rearm, rearm_loop, mark_complete_node,
        pushNode, Queue.count, popNode, hrd] using h)
      simp [ran]
    | false =>
      refine hback _ ?_ (by simpa [credit_wait, rearm, rearm_loop, mark_complete_node,
        pushNode, Queue.count, popNode, hrd] using h)
      simp [ran]

/-- One tick of a scheduler whose only job is retired, with no submission: nothing moves. -/
theorem tick_single_complete (NCPU : Int) (env : TickEnv) (j : ProcessInfoNode) (sc : Bool)
    (tk : Int) (na : Nat) (hnone : intake_jobs env.reads 0 = []) :
    ∃ closed : Bool,
      tick NCPU env { ready := { nodes := [] }, running := { nodes := [] }
                      buffer := { nodes := [] }, complete := { nodes := [j] }
                      shell_closed := sc, tick := tk, next_addr := na } =
        .ok { ready := { nodes := [] }, running := { nodes := [] }
              buffer := { nodes := [] }, complete := { nodes := [j] }
              shell_closed := closed, tick := tk + 1, next_addr := na } := by
  obtain ⟨closed, hin⟩ := intake_no_jobs env.reads
    { ready := { nodes := [] }, running := { nodes := [] }
      buffer := { nodes := [] }, complete := { nodes := [j] }
      shell_closed := sc, tick := tk + 1, next_addr := na } hnone
  refine ⟨closed, ?_⟩
  rw [tick_idle, hin]
  unfold dispatch
  rw [dispatch_loop_empty _ _ _ _ rfl]

/-- A tick with no submission keeps the one job of the scheduler: its address, its pid and
its wait slices are what they were. -/
theorem tick_only_job (NCPU : Int) (hN : 1 ≤ NCPU) (env : TickEnv) (st r : SchedState)
    (j : ProcessInfoNode) (hnone : intake_jobs env.reads 0 = []) (hj : only_job st j)
    (h : tick NCPU env st = .ok r) :
    ∃ j1 : ProcessInfoNode, only_job r j1 ∧ j1.addr = j.addr ∧ j1.pid = j.pid ∧
      j1.wait_slices = j.wait_slices := by
  obtain ⟨⟨rd⟩, ⟨rn⟩, ⟨bf⟩, ⟨cn⟩, sc, tk, na⟩ := st
  obtain ⟨h1, h2, h3⟩ := hj
  simp only at h1 h2 h3
  subst h1 h2
  rcases h3 with ⟨h3, h4, h5⟩ | ⟨h3, h4, h5⟩
  · subst h3 h4
    obtain ⟨closed, hr | hr⟩ := tick_single_running NCPU hN env j sc tk na r hnone h
    · refine ⟨ran j, ?_, rfl, rfl, rfl⟩
      rw [hr]
      exact ⟨rfl, rfl, Or.inl ⟨rfl, rfl, by simp only [ran]; omega⟩⟩
    · refine ⟨ran j, ?_, rfl, rfl, rfl⟩
      rw [hr]
      exact ⟨rfl, rfl, Or.inr ⟨rfl, rfl, by simp only [ran]; omega⟩⟩
  · subst h3 h4
    obtain ⟨closed, hr⟩ := tick_single_complete NCPU env j sc tk na hnone
    rw [hr] at h
    simp only [Except.ok.injEq] at h
    refine ⟨j, ?_, rfl, rfl, rfl⟩
    rw [← h]
    exact ⟨rfl, rfl, Or.inr ⟨rfl, rfl, h5⟩⟩

theorem run_ticks_only_job (NCPU : Int) (hN : 1 ≤ NCPU) (envs : List TickEnv)
    (st r : SchedState) (j : ProcessInfoNode)
    (hnone : ∀ env ∈ envs, intake_jobs env.reads 0 = []) (hj : only_job st j)
    (h : run_ticks NCPU envs st = .ok r) :
    ∃ j1 : ProcessInfoNode, only_job r j1 ∧ j1.addr = j.addr ∧ j1.pid = j.pid ∧
      j1.wait_slices = j.wait_slices := by
  induction envs generalizing st j with
  | nil =>
    simp only [run_ticks, Except.ok.injEq] at h
    exact ⟨j, h ▸ hj, rfl, rfl, rfl⟩
  | cons env rest ih =>
    simp only [run_ticks] at h
    cases ht : tick NCPU env st with
    | error e => rw [ht] at h; simp at h
    | ok st1 =>
      rw [ht] at h
      simp only at h
      obtain ⟨j1, hj1, e1, e2, e3⟩ := tick_only_job NCPU hN env st st1 j
        (hnone env (List.mem_cons_self _ _)) hj ht
      by_cases hex : loop_exit env st1 = true
      · rw [if_pos hex] at h
        simp only [Except.ok.injEq] at h
        exact ⟨j1, h ▸ hj1, e1, e2, e3⟩
      · rw [if_neg hex] at h
        obtain ⟨j2, hj2, f1, f2, f3⟩ := ih st1 j1
          (fun e he => hnone e (List.mem_cons_of_mem _ he)) hj1 h
        exact ⟨j2, hj2, by rw [f1, e1], by rw [f2, e2], by rw [f3, e3]⟩

theorem main_loop_only_job (NCPU : Int) (hN : 1 ≤ NCPU) (envs : List TickEnv)
    (st fin : SchedState) (hist : List SchedState) (j : ProcessInfoNode)
    (hnone : ∀ env ∈ envs, intake_jobs env.reads 0 = []) (hj : only_job st j)
    (h : main_loop NCPU envs st = some (hist, fin)) :
    ∃ j1 : ProcessInfoNode, fin.complete.nodes = [j1] ∧ 1 ≤ j1.run_slices ∧
      all_queues_empty fin = true ∧ j1.addr = j.addr ∧ j1.pid = j.pid ∧
      j1.wait_slices = j.wait_slices := by
  induction envs generalizing st j hist with
  | nil => simp [main_loop] at h
  | cons env rest ih =>
    simp only [main_loop] at h
    cases ht : tick NCPU env st with
    | error e => rw [ht] at h; simp at h
    | ok st1 =>
      rw [ht] at h
      simp only at h
      obtain ⟨j1, hj1, e1, e2, e3⟩ := tick_only_job NCPU hN env st st1 j
        (hnone env (List.mem_cons_self _ _)) hj ht
      by_cases hex : loop_exit env st1 = true
      · rw [if_pos hex] at h
        simp only [Option.some.injEq, Prod.mk.injEq] at h
        obtain ⟨_, rfl⟩ := h
        have hq := loop_exit_empty env st1 hex
        obtain ⟨_, q2, _⟩ := (all_queues_empty_iff st1).mp hq
        obtain ⟨_, _, ⟨k1, _, _⟩ | ⟨_, k2, k3⟩⟩ := hj1
        · rw [q2] at k1
          simp at k1
        · exact ⟨j1, k2, k3, hq, e1, e2, e3⟩
      · rw [if_neg hex] at h
        cases hrec : main_loop NCPU rest st1 with
        | none => rw [hrec] at h; simp at h
        | some res =>
          obtain ⟨hist1, fin1⟩ := res
          rw [hrec] at h
          simp only [Option.some.injEq, Prod.mk.injEq] at h
          obtain ⟨_, rfl⟩ := h
          obtain ⟨j2, g1, g2, g3, f1, f2, f3⟩ := ih st1 hist1 j1
            (fun e he => hnone e (List.mem_cons_of_mem _ he)) hj1 hrec
          exact ⟨j2, g1, g2, g3, by rw [f1, e1], by rw [f2, e2], by rw [f3, e3]⟩

/-- The tick in which the one job of an idle scheduler arrives, alive: the intake creates
it and the dispatch of the same tick moves it to `running`. -/
theorem tick_arrival (NCPU : Int) (hN : 1 ≤ NCPU) (env : TickEnv) (sc : Bool) (tk : Int)
    (na : Nat) (p : Int) (hjob : intake_jobs env.reads na = [createNode na p])
    (hcont : ∃ rest, env.conts = ContOutcome.continued :: rest) :
    ∃ closed : Bool,
      tick NCPU env { ready := { nodes := [] }, running := { nodes := [] }
                      buffer := { nodes := [] }, complete := { nodes := [] }
                      shell_closed := sc, tick := tk, next_addr := na } =
        .ok { ready := { nodes := [] }, running := { nodes := [createNode na p] }
              buffer := { nodes := [] }, complete := { nodes := [] }
              shell_closed := closed, tick := tk + 1, next_addr := na + 1 } := by
  obtain ⟨rest, hc⟩ := hcont
  obtain ⟨closed, hin⟩ := intake_eq env.reads
    { ready := { nodes := [] }, running := { nodes := [] }
      buffer := { nodes := [] }, complete := { nodes := [] }
      shell_closed := sc, tick := tk + 1, next_addr := na }
  simp only [hjob, List.nil_append, List.length_cons, List.length_nil] at hin
  refine ⟨closed, ?_⟩
  rw [tick_idle, hin, hc]
  have hlt : (0 : Int) < (if ({ nodes := [createNode na p] } : Queue).count < NCPU
      then ({ nodes := [createNode na p] } : Queue).count else NCPU) := by
    unfold Queue.count
    simp only [List.length_singleton, Nat.cast_one]
    split <;> omega
  simp only [dispatch]
  simp only [dispatch_loop, if_pos hlt, popNode, pushNode]
  rw [dispatch_loop_empty _ _ _ _ rfl]
  simp

/-- C26: a scheduler with `NCPU ≥ 1` holds no job; one intake creates the single job, whose
process is alive at its first dispatch, in the same tick, so that its continue signal
succeeds; nothing else is ever submitted. Then, whatever the host answers later, after every
tick that ends the job is the only node of the queues and its `wait_slices` is 0; and when
the loop of `main` exits, the final report is exactly one `JobResult` of this job with
`run_slices ≥ 1` and `wait_slices = 0`, followed by the end marker. -/
theorem C26_single_job (NCPU : Int) (hN : 1 ≤ NCPU) (st0 : SchedState) (env0 : TickEnv)
    (envs : List TickEnv) (p : Int)
    (hidle : st0.ready.nodes = [] ∧ st0.running.nodes = [] ∧ st0.buffer.nodes = [] ∧
      st0.complete.nodes = [])
    (hjob : intake_jobs env0.reads st0.next_addr = [createNode st0.next_addr p])
    (hcont : ∃ rest, env0.conts = ContOutcome.continued :: rest)
    (hnone : ∀ env ∈ envs, intake_jobs env.reads 0 = []) :
    (∀ r : SchedState, run_ticks NCPU (env0 :: envs) st0 = .ok r →
      ∃ j : ProcessInfoNode, all_nodes r = [j] ∧ j.addr = st0.next_addr ∧ j.pid = p ∧
        j.wait_slices = 0) ∧
    (∀ (hist : List SchedState) (fin : SchedState),
      main_loop NCPU (env0 :: envs) st0 = some (hist, fin) →
      ∃ k : Int, 1 ≤ k ∧
        ∀ (dead node_ok : Nat → Nat → Nat → Bool) (write_ok : Nat → Bool),
          (∀ i, write_ok i = true) →
          report write_ok (final_sweep dead node_ok fin) =
            [{ pid := p, run_slices := k, wait_slices := 0, completion_slices := k },
             end_marker]) := by
  obtain ⟨⟨rd⟩, ⟨rn⟩, ⟨bf⟩, ⟨cn⟩, sc, tk, na⟩ := st0
  obtain ⟨h1, h2, h3, h4⟩ := hidle
  simp only at h1 h2 h3 h4 hjob
  subst h1 h2 h3 h4
  obtain ⟨closed, ht⟩ := tick_arrival NCPU hN env0 sc tk na p hjob hcont
  have hj : only_job { ready := { nodes := [] }, running := { nodes := [createNode na p] }
                       buffer := { nodes := [] }, complete := { nodes := [] }
                       shell_closed := closed, tick := tk + 1, next_addr := na + 1 }
      (createNode na p) := ⟨rfl, rfl, Or.inl ⟨rfl, rfl, le_refl _⟩⟩
  have hne : loop_exit env0
      { ready := { nodes := [] }, running := { nodes := [createNode na p] }
        buffer := { nodes := [] }, complete := { nodes := [] }
        shell_closed := closed, tick := tk + 1, next_addr := na + 1 } = false :=
    loop_exit_running env0 _ (by simp)
  constructor
  · intro r hr
    simp only [run_ticks, ht, hne, Bool.false_eq_true, if_false] at hr
    obtain ⟨j1, hj1, e1, e2, e3⟩ := run_ticks_only_job NCPU hN envs _ r _ hnone hj hr
    refine ⟨j1, ?_, e1, e2, e3⟩
    obtain ⟨q1, q2, ⟨q3, q4, _⟩ | ⟨q3, q4, _⟩⟩ := hj1
    · simp [all_nodes, q1, q2, q3, q4]
    · simp [all_nodes, q1, q2, q3, q4]
  · intro hist fin hrun
    simp only [main_loop, ht, hne, Bool.false_eq_true, if_false] at hrun
    cases hrec : main_loop NCPU envs
        { ready := { nodes := [] }, running := { nodes := [createNode na p] }
          buffer := { nodes := [] }, complete := { nodes := [] }
          shell_closed := closed, tick := tk + 1, next_addr := na + 1 } with
    | none => rw [hrec] at hrun; simp at hrun
    | some res =>
      obtain ⟨hist1, fin1⟩ := res
      rw [hrec] at hrun
      simp only [Option.some.injEq, Prod.mk.injEq] at hrun
      obtain ⟨_, rfl⟩ := hrun
      obtain ⟨j1, g1, g2, g3, e1, e2, e3⟩ := main_loop_only_job NCPU hN envs _ fin1 hist1 _
        hnone hj hrec
      refine ⟨j1.run_slices, g2, ?_⟩
      intro dead node_ok write_ok hw
      rw [final_sweep_of_empty dead node_ok fin1 g3, report_eq,
        write_frames_all_ok write_ok hw, g1]
      simp only [List.map_cons, List.map_nil, List.singleton_append, send_job_result]
      rw [e2, e3]
      simp [createNode]

/-! ## Claims on runs of the scheduler -/

/-- C23: in a run of the scheduler, when the tick loop exits the queues `ready`, `running`
and `buffer` are empty; the three final sweeps then scan nothing and add no record; and,
the writes succeeding, the frames written before the end marker are those of the nodes of
`complete`, which are in one-to-one correspondence with the jobs accepted by the intakes:
their addresses are the numbers below `next_addr`, each once, `next_addr` is the number of
jobs accepted, and the node at address `k` carries the pid accepted in position `k`. A job
that was never moved to `running`, as is a job whose process is gone at its first dispatch,
which moves it from `ready` to `complete`, is reported with `run_slices = 0`. -/
theorem C23_each_job_reported_once (NCPU : Int) (envs : List TickEnv)
    (hist : List SchedState) (fin : SchedState)
    (hrun : main_loop NCPU envs sched_start = some (hist, fin)) :
    (fin.ready.nodes = [] ∧ fin.running.nodes = [] ∧ fin.buffer.nodes = []) ∧
    (∀ dead node_ok : Nat → Nat → Nat → Bool, final_sweep dead node_ok fin = fin) ∧
    (∀ (dead node_ok : Nat → Nat → Nat → Bool) (write_ok : Nat → Bool),
      (∀ k, write_ok k = true) →
      scheduler_run NCPU envs dead node_ok write_ok =
        some (fin.complete.nodes.map send_job_result ++ [end_marker])) ∧
    (fin.complete.nodes.map (fun n => n.addr)).Perm (List.range fin.next_addr) ∧
    fin.next_addr = (accepted_pids (envs.take hist.length)).length ∧
    (∀ n ∈ fin.complete.nodes,
      (accepted_pids (envs.take hist.length))[n.addr]? = some (send_job_result n).pid) ∧
    (∀ n ∈ fin.complete.nodes, ticks_running n.addr hist = 0 →
      (send_job_result n).run_slices = 0) := by
  obtain ⟨_, a2, a3⟩ := main_loop_jobs_once NCPU envs sched_start fin hist
    jobs_once_sched_start hrun
  obtain ⟨q1, q2, q3⟩ := (all_queues_empty_iff fin).mp a3
  obtain ⟨p1, p2⟩ := main_loop_pids NCPU envs sched_start fin hist [] rfl
    (by intro n hn; simp [all_nodes, sched_start, initQueue] at hn) hrun
  simp only [List.nil_append] at p1 p2
  refine ⟨⟨q1, q2, q3⟩, fun dead node_ok => final_sweep_of_empty dead node_ok fin a3, ?_, ?_,
    p1.symm, ?_, ?_⟩
  · intro dead node_ok write_ok hw
    unfold scheduler_run
    rw [hrun]
    simp only
    rw [final_sweep_of_empty dead node_ok fin a3, report_eq, write_frames_all_ok write_ok hw]
  · have := a2
    unfold jobs_once at this
    simpa [all_nodes, q1, q2, q3] using this
  · intro n hn
    exact p2 n (by simp [all_nodes, hn])
  · intro n hn h0
    have := (main_loop_slices_start NCPU envs fin hist hrun n (by simp [all_nodes, hn])).1
    simp only [send_job_result]
    rw [this, h0]
    rfl

theorem C23_each_job_reported_once_witness :
    ∃ (hist : List SchedState) (fin : SchedState),
      main_loop 1 deadOnArrival sched_start = some (hist, fin) ∧
      fin.complete.nodes = [createNode 0 100] ∧
      scheduler_run 1 deadOnArrival (fun _ _ _ => false) (fun _ _ _ => true) (fun _ => true) =
        some [{ pid := 100, run_slices := 0, wait_slices := 0, completion_slices := 0 },
              end_marker] ∧
      (fin.complete.nodes.map (fun n => n.addr)).Perm (List.range fin.next_addr) := by
  have h := C23_each_job_reported_once 1 deadOnArrival [sched_start] _ rfl
  exact ⟨_, _, rfl, rfl, rfl, h.2.2.2.1⟩

theorem C25_round_robin_fairness_witness :
    ∃ (r : SchedState) (j1 j2 : ProcessInfoNode),
      run_ticks 1 twoAlive sched_start = .ok r ∧ r.tick = 4 ∧
      j1.pid = 100 ∧ j2.pid = 200 ∧
      |j1.run_slices - j2.run_slices| ≤ 1 ∧
      j2.run_slices - 1 ≤ j1.wait_slices ∧ j1.run_slices - 1 ≤ j2.wait_slices := by
  have halive : ∀ (reads : List ReadResult), all_alive (calmEnv reads [.continued]) :=
    fun reads => ⟨fun _ => ⟨by simp [calmEnv], by simp [calmEnv]⟩, fun _ => rfl, [], rfl⟩
  obtain ⟨r, j1, j2, h1, h2, _, _, _, _, h3, _, h4, h5, h6, h7⟩ :=
    C25_round_robin_fairness sched_start
      (calmEnv [.pid 100 true, .pid 200 true, .eagain] [.continued])
      [calmEnv [.eagain] [.continued], calmEnv [.eagain] [.continued],
       calmEnv [.eagain] [.continued]] 100 200 ⟨rfl, rfl, rfl⟩ rfl
      (by
        intro env he
        simp only [List.mem_cons, List.mem_singleton, List.not_mem_nil, or_false] at he
        rcases he with rfl | rfl | rfl | rfl <;> exact halive _)
      (by
        intro env he
        simp only [List.mem_cons, List.mem_singleton, List.not_mem_nil, or_false] at he
        rcases he with rfl | rfl | rfl <;> rfl)
  exact ⟨r, j1, j2, h1, h2, h3, h4, h5, h6, h7⟩

theorem C26_single_job_witness :
    ∃ (hist : List SchedState) (fin : SchedState) (k : Int),
      main_loop 1 oneJob sched_start = some (hist, fin) ∧ 1 ≤ k ∧
      report (fun _ => true) (final_sweep (fun _ _ _ => false) (fun _ _ _ => true) fin) =
        [{ pid := 100, run_slices := k, wait_slices := 0, completion_slices := k },
         end_marker] := by
  have h := (C26_single_job 1 (le_refl _) sched_start
    (calmEnv [.pid 100 true, .eof] [.continued])
    [calmEnv [.eof] [.continued], endingEnv [.eof] []] 100 ⟨rfl, rfl, rfl, rfl⟩ rfl ⟨[], rfl⟩
    (by
      intro env he
      simp only [List.mem_cons, List.mem_singleton, List.not_mem_nil, or_false] at he
      rcases he with rfl | rfl <;> rfl)).2
  have hrun : ∃ (hist : List SchedState) (fin : SchedState),
      main_loop 1 oneJob sched_start = some (hist, fin) := ⟨_, _, rfl⟩
  obtain ⟨hist, fin, hrun⟩ := hrun
  obtain ⟨k, hk, hrep⟩ := h hist fin hrun
  exact ⟨hist, fin, k, hrun, hk, hrep _ _ _ (fun _ => rfl)⟩

theorem strrchr_from_spec (c : Nat) (l : List Nat) (i : Nat) (last : Option Nat)
    (hz : ∀ x ∈ l, x ≠ 0) :
    (strrchr_from c l i last = last ∧ ∀ x ∈ l, x ≠ c) ∨
    (∃ k : Nat, k < l.length ∧ strrchr_from c l i last = some (i + k) ∧
      l.getD k 0 = c ∧ ∀ q : Nat, k < q → q < l.length → l.getD q 0 ≠ c) := by
  induction l generalizing i last with
  | nil => left; exact ⟨rfl, by simp⟩
  | cons x rest ih =>
    have hx : x ≠ 0 := hz x (List.mem_cons_self _ _)
    have hz2 : ∀ y ∈ rest, y ≠ 0 := fun y hy => hz y (List.mem_cons_of_mem _ hy)
    simp only [strrchr_from, if_neg hx]
    rcases ih (i + 1) (if x = c then some i else last) hz2 with ⟨h1, h2⟩ | ⟨k, hk, h1, h2, h3⟩
    · by_cases hxc : x = c
      · right
        refine ⟨0, by simp, ?_, by simpa using hxc, ?_⟩
        · rw [h1, if_pos hxc]; rfl
        · intro q hq hql
          obtain ⟨q1, rfl⟩ : ∃ q1, q = q1 + 1 := ⟨q - 1, by omega⟩
          simp only [List.getD_cons_succ]
          have hmem : rest.getD q1 0 ∈ rest := by
            rw [List.getD_eq_getElem _ _ (by simpa using hql)]
            exact List.getElem_mem _
          exact h2 _ hmem
      · left
        rw [h1, if_neg hxc]
        refine ⟨rfl, ?_⟩
        intro y hy
        rcases List.mem_cons.mp hy with rfl | hy
        · exact hxc
        · exact h2 y hy
    · right
      refine ⟨k + 1, by simpa using hk, ?_, by simpa using h2, ?_⟩
      · rw [h1]; congr 1; omega
      · intro q hq hql
        obtain ⟨q1, rfl⟩ : ∃ q1, q = q1 + 1 := ⟨q - 1, by omega⟩
        simp only [List.getD_cons_succ]
        exact h3 q1 (by omega) (by simpa using hql)

/-! ## Claims on the liveness probe -/

/-- C24, as the code has it: `is_process_dead` returns 1 if and only if either the
signal-existence probe fails with `ESRCH`, or the probe succeeds and the status file cannot
be opened, or no line can be read from it, or the line holds no `')'`, or the state
character is `'Z'` or `'X'`; the state character is the byte of the line buffer two
positions after the last `')'` of the line, which is a character of the line when the line
reaches that far. Otherwise it returns 0: so it does when the probe fails for another
reason, whatever the status file holds. -/
theorem C24_is_process_dead (host : Int → ProcessView) (pid : Int) :
    (is_process_dead host pid = 1 ↔
      (host pid).kill0 = ProbeResult.esrch ∨
      ((host pid).kill0 = ProbeResult.delivered ∧
        ((host pid).fopen_ok = false ∨ fgets_line 511 (host pid).stat = [] ∨
          strrchr (fgets_line 511 (host pid).stat) 41 = none ∨
          ∃ p : Nat, strrchr (fgets_line 511 (host pid).stat) 41 = some p ∧
            (buffer_byte (fgets_line 511 (host pid).stat) (host pid).stale (p + 2) = 90 ∨
              buffer_byte (fgets_line 511 (host pid).stat) (host pid).stale (p + 2) = 88)))) ∧
    (is_process_dead host pid = 1 ∨ is_process_dead host pid = 0) ∧
    ((host pid).kill0 = ProbeResult.other_error → is_process_dead host pid = 0) ∧
    (∀ (line : List Nat) (p : Nat), (∀ x ∈ line, x ≠ 0) → strrchr line 41 = some p →
      p < line.length ∧ line.getD p 0 = 41 ∧
      (∀ q : Nat, p < q → q < line.length → line.getD q 0 ≠ 41) ∧
      (p + 2 < line.length →
        ∀ stale : Nat → Nat, buffer_byte line stale (p + 2) = line.getD (p + 2) 0)) ∧
    (∀ line : List Nat, (∀ x ∈ line, x ≠ 0) →
      (strrchr line 41 = none ↔ ∀ x ∈ line, x ≠ 41)) := by
  refine ⟨?_, ?_, ?_, ?_, ?_⟩
  · unfold is_process_dead
    cases hk : (host pid).kill0 with
    | esrch => simp
    | other_error => simp
    | delivered =>
      simp only [false_or, true_and]
      by_cases hf : (host pid).fopen_ok = true
      · simp only [hf, not_true_eq_false, if_false, Bool.true_eq_false, false_or]
        by_cases hl : fgets_line 511 (host pid).stat = []
        · simp [hl]
        · simp only [hl, if_false, false_or]
          cases hs : strrchr (fgets_line 511 (host pid).stat) 41 with
          | none => simp
          | some p =>
            simp only [false_or, Option.some.injEq, exists_eq_left']
            split <;> simp_all
      · have hf2 : (host pid).fopen_ok = false := by
          cases h : (host pid).fopen_ok with
          | true => exact absurd h hf
          | false => rfl
        simp [hf2]
  · unfold is_process_dead
    cases (host pid).kill0 with
    | esrch => simp
    | other_error => simp
    | delivered =>
      simp only
      split
      · simp
      · split
        · simp
        · split
          · simp
          · split <;> simp
  · intro hk
    unfold is_process_dead
    rw [hk]
  · intro line p hz hs
    unfold strrchr at hs
    rcases strrchr_from_spec 41 line 0 none hz with ⟨h1, _⟩ | ⟨k, hk, h1, h2, h3⟩
    · rw [h1] at hs; simp at hs
    · rw [h1] at hs
      simp only [Nat.zero_add, Option.some.injEq] at hs
      subst hs
      refine ⟨hk, h2, h3, ?_⟩
      intro hlt stale
      simp [buffer_byte, hlt]
  · intro line hz
    unfold strrchr
    rcases strrchr_from_spec 41 line 0 none hz with ⟨h1, h2⟩ | ⟨k, hk, h1, h2, _⟩
    · rw [h1]
      simp only [true_iff]
      exact h2
    · rw [h1]
      constructor
      · intro h
        simp at h
      · intro h
        have hmem : line.getD k 0 ∈ line := by
          rw [List.getD_eq_getElem _ _ hk]
          exact List.getElem_mem _
        exact absurd h2 (h _ hmem)

/-- C24 fails in both directions. A process that the probe reaches and whose status file
cannot be opened is reported dead, though the probe did not fail and there is no status
line; and a zombie that the probe may not signal (`EPERM`) is reported alive, though its
status line has the state character `'Z'` two positions after its last `')'`. -/
theorem C24_counterexample :
    (is_process_dead hiddenProcess 7 = 1 ∧
      (hiddenProcess 7).kill0 ≠ ProbeResult.esrch ∧ (hiddenProcess 7).fopen_ok = false) ∧
    (is_process_dead foreignZombie 7 = 0 ∧
      strrchr (fgets_line 511 (foreignZombie 7).stat) 41 = some 4 ∧
      (fgets_line 511 (foreignZombie 7).stat).getD 6 0 = 90) := by
  refine ⟨⟨rfl, by decide, rfl⟩, rfl, by decide, by decide⟩

theorem C24_is_process_dead_witness :
    is_process_dead ownZombie 7 = 1 ∧
    strrchr (fgets_line 511 (ownZombie 7).stat) 41 = some 7 ∧
    buffer_byte (fgets_line 511 (ownZombie 7).stat) (ownZombie 7).stale 9 = 90 := by
  have h := (C24_is_process_dead ownZombie 7).1
  refine ⟨h.mpr (Or.inr ⟨rfl, Or.inr (Or.inr (Or.inr ⟨7, by decide, Or.inl (by decide)⟩))⟩),
    by decide, by decide⟩

end SimpleScheduler

namespace ThreadPool

/-! # Theorems on the job queue of the thread pool -/

theorem is_chain_frame (job job1 : Nat → Job) (h : Option Nat) (l : List Nat)
    (hc : is_chain job h l) (hsame : ∀ a ∈ l, (job1 a).next = (job a).next) :
    is_chain job1 h l := by
  induction l generalizing h with
  | nil => exact hc
  | cons a rest ih =>
    obtain ⟨h1, h2⟩ := hc
    refine ⟨h1, ?_⟩
    rw [hsame a (List.mem_cons_self _ _)]
    exact ih _ h2 (fun b hb => hsame b (List.mem_cons_of_mem _ hb))

/-- Linking a new job behind the last job of a chain gives the chain with the job at its
end. -/
theorem is_chain_append (job : Nat → Job) (h : Option Nat) (l : List Nat) (t j : Nat)
    (hc : is_chain job h l) (hne : l ≠ []) (hlast : l.getLast? = some t) (hnd : l.Nodup)
    (hj : j ∉ l) :
    is_chain (set_next (set_next job t (some j)) j none) h (l ++ [j]) := by
  induction l generalizing h with
  | nil => exact absurd rfl hne
  | cons a rest ih =>
    obtain ⟨h1, h2⟩ := hc
    have hja : j ≠ a := fun e => hj (e ▸ List.mem_cons_self _ _)
    cases rest with
    | nil =>
      simp only [List.getLast?_singleton, Option.some.injEq] at hlast
      subst hlast
      refine ⟨h1, ?_, ?_⟩
      · simp [set_next, Ne.symm hja]
      · show (set_next (set_next job a (some j)) j none j).next = none
        simp [set_next]
    | cons b rest2 =>
      have hta : t ≠ a := by
        intro e
        have hmem : t ∈ b :: rest2 := by
          have : (b :: rest2).getLast? = some t := by simpa using hlast
          exact List.mem_of_getLast?_eq_some this
        exact (List.nodup_cons.mp hnd).1 (e ▸ hmem)
      refine ⟨h1, ?_⟩
      have hnx : (set_next (set_next job t (some j)) j none a).next = (job a).next := by
        simp [set_next, Ne.symm hja, Ne.symm hta]
      rw [hnx]
      exact ih _ h2 (by simp) (by simpa using hlast) (List.nodup_cons.mp hnd).2
        (fun hm => hj (List.mem_cons_of_mem _ hm))

/-- One `_add_job_to_queue` of a job that is not in the queue, and whose `next` is `NULL`
as `_create_job` leaves it, below `2^31` jobs: the call returns 1, the job is at the end of
the queue, and the other jobs outside the queue are untouched. -/
theorem add_job_holds (st : PoolState) (l : List Nat) (j : Nat) (hl : holds_jobs st l)
    (hj : j ∉ l) (hnext : (st.job j).next = none) (hsize : l.length + 1 < 2147483648) :
    ∃ st1 : PoolState, _add_job_to_queue st (some j) = some (1, st1) ∧
      holds_jobs st1 (l ++ [j]) ∧
      ∀ a : Nat, a ∉ l → a ≠ j → st1.job a = st.job a := by
  obtain ⟨h1, h2, h3, h4⟩ := hl
  have hw : SmartLoader.wrap_int (st.queue.queue_size + 1) = ((l ++ [j]).length : Int) := by
    rw [h1, SmartLoader.wrap_int_of_range _ (by omega) (by omega)]
    simp
  have hnd : (l ++ [j]).Nodup := by
    rw [List.nodup_append]
    exact ⟨h4, List.nodup_singleton _, by
      intro a ha hb
      rw [List.mem_singleton] at hb
      exact hj (hb ▸ ha)⟩
  cases l with
  | nil =>
    have hq : st.queue.queue_size = 0 := by simpa using h1
    refine ⟨{ st with queue := { head := some j, tail := some j
                                 queue_size := SmartLoader.wrap_int (st.queue.queue_size + 1) } },
      by simp only [_add_job_to_queue, if_pos hq], ⟨hw, ?_, ?_, hnd⟩, ?_⟩
    · exact ⟨rfl, hnext⟩
    · intro _; rfl
    · intro a _ _; rfl
  | cons b rest =>
    have hq : ¬ st.queue.queue_size = 0 := by
      rw [h1]
      simp only [List.length_cons]
      omega
    have ht := h3 (by simp)
    obtain ⟨t, htl⟩ : ∃ t, (b :: rest).getLast? = some t := by
      cases hg : (b :: rest).getLast? with
      | none => simp at hg
      | some t => exact ⟨t, rfl⟩
    rw [htl] at ht
    refine ⟨{ job := set_next (set_next st.job t (some j)) j none
              queue := { head := st.queue.head, tail := some j
                         queue_size := SmartLoader.wrap_int (st.queue.queue_size + 1) } },
      by simp only [_add_job_to_queue, if_neg hq, ht], ⟨hw, ?_, ?_, hnd⟩, ?_⟩
    · exact is_chain_append st.job st.queue.head (b :: rest) t j h2 (by simp) htl h4 hj
    · intro _
      show some j = (b :: rest ++ [j]).getLast?
      rw [List.getLast?_append]
      rfl
    · intro a ha haj
      have hat : a ≠ t := fun e => ha (e ▸ List.mem_of_getLast?_eq_some htl)
      simp [set_next, haj, hat]

/-- One `_pop_job` on a queue that holds jobs: it returns the first and leaves the rest. -/
theorem pop_job_holds (st : PoolState) (a : Nat) (rest : List Nat)
    (hl : holds_jobs st (a :: rest)) (hsize : rest.length + 1 < 2147483648) :
    ∃ st1 : PoolState, _pop_job st = some (some a, st1) ∧ holds_jobs st1 rest ∧
      (st1.job a).next = none := by
  obtain ⟨h1, ⟨h2, h2b⟩, h3, h4⟩ := hl
  have hq : st.queue.queue_size ≠ 0 := by
    rw [h1]
    simp only [List.length_cons]
    omega
  have hw : SmartLoader.wrap_int (st.queue.queue_size - 1) = (rest.length : Int) := by
    rw [h1, SmartLoader.wrap_int_of_range _ (by simp only [List.length_cons]; omega)
      (by simp only [List.length_cons]; omega)]
    simp
  refine ⟨{ job := set_next st.job a none
            queue := { head := (st.job a).next
                       tail := if (st.job a).next = none then none else st.queue.tail
                       queue_size := SmartLoader.wrap_int (st.queue.queue_size - 1) } },
    by simp only [_pop_job, if_pos hq, h2], ⟨hw, ?_, ?_, (List.nodup_cons.mp h4).2⟩,
    by simp [set_next]⟩
  · apply is_chain_frame st.job _ _ rest h2b
    intro b hb
    have hba : b ≠ a := fun e => (List.nodup_cons.mp h4).1 (e ▸ hb)
    simp [set_next, hba]
  · intro hne
    have hhead : (st.job a).next ≠ none := by
      cases rest with
      | nil => exact absurd rfl hne
      | cons b r2 =>
        rw [h2b.1]
        simp
    simp only [if_neg hhead]
    rw [h3 (by simp)]
    cases rest with
    | nil => exact absurd rfl hne
    | cons b r2 => simp [List.getLast?_cons_cons]

/-- A `_pop_job` on a queue that holds no job returns `NULL` and changes nothing. -/
theorem pop_job_empty (st : PoolState) (hl : holds_jobs st []) :
    _pop_job st = some (none, st) := by
  obtain ⟨h1, _, _, _⟩ := hl
  have hq : st.queue.queue_size = 0 := by simpa using h1
  simp [_pop_job, hq]

theorem add_jobs_holds (jobs : List Nat) (st : PoolState) (l : List Nat)
    (hl : holds_jobs st l) (hnd : (l ++ jobs).Nodup)
    (hnext : ∀ j ∈ jobs, (st.job j).next = none)
    (hsize : l.length + jobs.length < 2147483648) :
    ∃ st1 : PoolState, add_jobs jobs st = some st1 ∧ holds_jobs st1 (l ++ jobs) := by
  induction jobs generalizing st l with
  | nil => exact ⟨st, rfl, by simpa using hl⟩
  | cons j rest ih =>
    have hj : j ∉ l := by
      intro hm
      exact (List.nodup_append.mp hnd).2.2 hm (List.mem_cons_self _ _)
    obtain ⟨st1, h1, h2, h3⟩ := add_job_holds st l j hl hj (hnext j (List.mem_cons_self _ _))
      (by simp only [List.length_cons] at hsize; omega)
    have hnd2 : ((l ++ [j]) ++ rest).Nodup := by simpa using hnd
    obtain ⟨st2, g1, g2⟩ := ih st1 (l ++ [j]) h2 hnd2
      (by
        intro k hk
        have hkl : k ∉ l := fun hm =>
          (List.nodup_append.mp hnd).2.2 hm (List.mem_cons_of_mem _ hk)
        have hkj : k ≠ j := by
          intro e
          have := (List.nodup_append.mp hnd).2.1
          exact (List.nodup_cons.mp this).1 (e ▸ hk)
        rw [h3 k hkl hkj]
        exact hnext k (List.mem_cons_of_mem _ hk))
      (by simp only [List.length_append, List.length_cons, List.length_nil] at hsize ⊢; omega)
    refine ⟨st2, ?_, by simpa using g2⟩
    simp only [add_jobs, h1, if_true]
    exact g1

theorem pop_jobs_holds (k : Nat) (st : PoolState) (l : List Nat) (hl : holds_jobs st l)
    (hk : k ≤ l.length) (hsize : l.length < 2147483648) :
    ∃ st1 : PoolState, pop_jobs k st = some ((l.take k).map some, st1) ∧
      holds_jobs st1 (l.drop k) := by
  induction k generalizing st l with
  | zero => exact ⟨st, rfl, by simpa using hl⟩
  | succ n ih =>
    cases l with
    | nil => simp at hk
    | cons a rest =>
      obtain ⟨st1, h1, h2, _⟩ := pop_job_holds st a rest hl
        (by simpa using hsize)
      obtain ⟨st2, g1, g2⟩ := ih st1 rest h2 (by simpa using hk)
        (by simp only [List.length_cons] at hsize; omega)
      refine ⟨st2, ?_, by simpa using g2⟩
      simp only [pop_jobs, h1, g1, List.take_succ_cons, List.map_cons]

theorem pop_jobs_empty (m : Nat) (st : PoolState) (hl : holds_jobs st []) :
    pop_jobs m st = some (List.replicate m none, st) := by
  induction m with
  | zero => rfl
  | succ n ih => simp only [pop_jobs, pop_job_empty st hl, ih, List.replicate_succ]

theorem holds_jobs_create (job : Nat → Job) :
    holds_jobs { job := job, queue := _create_queue } [] :=
  ⟨rfl, rfl, fun h => absurd rfl h, List.nodup_nil⟩

/-- C27: the job queue of the thread pool is FIFO. Distinct jobs, fewer than `2^31`, each
with `next = NULL` as `_create_job` leaves it, are added to the queue that `_create_queue`
made, one `_add_job_to_queue` call each. Every call returns 1, and after them the queue
holds the jobs in the order of the calls, with `queue_size` their number. Of the `_pop_job`
calls that follow, the `k`-th returns the `k`-th job added and leaves the jobs behind it,
`queue_size` being their number; once the queue is empty every further call returns `NULL`
and leaves the queue as it is. -/
theorem C27_job_queue_fifo (job : Nat → Job) (jobs : List Nat) (hnd : jobs.Nodup)
    (hfresh : ∀ j ∈ jobs, (job j).next = none) (hsize : jobs.length < 2147483648) :
    ∃ st1 : PoolState,
      add_jobs jobs { job := job, queue := _create_queue } = some st1 ∧
      holds_jobs st1 jobs ∧ st1.queue.queue_size = (jobs.length : Int) ∧
      (∀ k : Nat, k ≤ jobs.length →
        ∃ st2 : PoolState, pop_jobs k st1 = some ((jobs.take k).map some, st2) ∧
          holds_jobs st2 (jobs.drop k) ∧
          st2.queue.queue_size = ((jobs.drop k).length : Int)) ∧
      (∀ m : Nat, ∃ st2 : PoolState,
        pop_jobs (jobs.length + m) st1 =
          some (jobs.map some ++ List.replicate m none, st2) ∧
        holds_jobs st2 [] ∧ st2.queue.queue_size = 0 ∧
        _pop_job st2 = some (none, st2)) := by
  obtain ⟨st1, h1, h2⟩ := add_jobs_holds jobs { job := job, queue := _create_queue } []
    (holds_jobs_create job) (by simpa using hnd) hfresh (by simpa using hsize)
  simp only [List.nil_append] at h2
  refine ⟨st1, h1, h2, h2.1, ?_, ?_⟩
  · intro k hk
    obtain ⟨st2, g1, g2⟩ := pop_jobs_holds k st1 jobs h2 hk hsize
    exact ⟨st2, g1, g2, g2.1⟩
  · intro m
    obtain ⟨st2, g1, g2⟩ := pop_jobs_holds jobs.length st1 jobs h2 (le_refl _) hsize
    simp only [List.take_length, List.drop_length] at g1 g2
    refine ⟨st2, ?_, g2, by simpa using g2.1, pop_job_empty st2 g2⟩
    have key : ∀ (n : Nat) (s s2 : PoolState) (rs : List (Option Nat)),
        pop_jobs n s = some (rs, s2) → holds_jobs s2 [] →
        pop_jobs (n + m) s = some (rs ++ List.replicate m none, s2) := by
      intro n
      induction n with
      | zero =>
        intro s s2 rs hp hh
        simp only [pop_jobs, Option.some.injEq, Prod.mk.injEq] at hp
        obtain ⟨rfl, rfl⟩ := hp
        simpa using pop_jobs_empty m s hh
      | succ n ih =>
        intro s s2 rs hp hh
        simp only [pop_jobs] at hp
        cases hpop : _pop_job s with
        | none => rw [hpop] at hp; simp at hp
        | some r =>
          rw [hpop] at hp
          simp only at hp
          cases hrec : pop_jobs n r.2 with
          | none => rw [hrec] at hp; simp at hp
          | some rs1 =>
            rw [hrec] at hp
            simp only [Option.some.injEq, Prod.mk.injEq] at hp
            obtain ⟨rfl, rfl⟩ := hp
            have := ih r.2 rs1.2 rs1.1 hrec hh
            rw [Nat.add_right_comm]
            simp only [pop_jobs, hpop, this, List.cons_append]
    exact key _ _ _ _ g1 g2

theorem C27_job_queue_fifo_witness :
    ∃ st1 st2 : PoolState,
      add_jobs [10, 20, 30] { job := freshHeap, queue := _create_queue } = some st1 ∧
      st1.queue.queue_size = 3 ∧
      pop_jobs 4 st1 = some ([some 10, some 20, some 30, none], st2) ∧
      st2.queue.queue_size = 0 := by
  obtain ⟨st1, h1, _, h3, _, h5⟩ := C27_job_queue_fifo freshHeap [10, 20, 30] (by decide)
    (fun _ _ => rfl) (by decide)
  obtain ⟨st2, g1, _, g3, _⟩ := h5 1
  exact ⟨st1, st2, h1, h3, g1, g3⟩

end ThreadPool
